import Mathlib

/-!
# micrograd-cpp: a shallow embedding of the autodiff engine

The engine of `src/src/engine.cpp` builds a graph of `Value` objects that refer
to each other through `std::shared_ptr`. The embedding keeps every `Value`
object (stack variables, temporaries and `make_shared` allocations alike) in an
explicit store addressed by natural numbers; a `shared_ptr<Value>` is an
address (a `Nat`), a `weak_ptr<Value>` is an optional address that locks only while the
cell it names is occupied, and a `_backward` closure is a record of what the
lambda captured.

Scalars are an arbitrary linearly ordered field (the real-number reading of
`double`); `exp` and `log` are passed in where the source calls them, and the
exponent of `pow` ranges over the integers, where `std::pow` is the integer
power.
-/

namespace micrograd

/-! ## Eigen::MatrixXd -/

/-- A dense matrix with run-time dimensions, `Eigen::MatrixXd`. -/
structure MatrixXd (α : Type) where
  rows : Nat
  cols : Nat
  coeff : Nat → Nat → α

namespace MatrixXd

variable {α : Type} [LinearOrderedField α]

/-- The test `A.rows() == B.rows() && A.cols() == B.cols()`. -/
def sameShape (A B : MatrixXd α) : Prop := A.rows = B.rows ∧ A.cols = B.cols

instance (A B : MatrixXd α) : Decidable (sameShape A B) := by
  unfold sameShape; infer_instance

/-- The matrix `MatrixXd::Constant(r, c, x)`. -/
def Constant (r c : Nat) (x : α) : MatrixXd α := ⟨r, c, fun _ _ => x⟩

/-- The matrix `MatrixXd::Zero(r, c)`. -/
def Zero (r c : Nat) : MatrixXd α := Constant r c 0

/-- The matrix `MatrixXd::Ones(r, c)`. -/
def Ones (r c : Nat) : MatrixXd α := Constant r c 1

/-- Coefficient-wise image of a matrix, as `A.array().unaryExpr(f)`. -/
def map (f : α → α) (A : MatrixXd α) : MatrixXd α :=
  ⟨A.rows, A.cols, fun i j => f (A.coeff i j)⟩

/-- Coefficient-wise combination of two matrices; Eigen asserts equal sizes. -/
def zipWith (f : α → α → α) (A B : MatrixXd α) : Option (MatrixXd α) :=
  if sameShape A B then some ⟨A.rows, A.cols, fun i j => f (A.coeff i j) (B.coeff i j)⟩
  else none

/-- The sum `A + B`. -/
def add (A B : MatrixXd α) : Option (MatrixXd α) := zipWith (· + ·) A B

/-- The difference `A - B`. -/
def sub (A B : MatrixXd α) : Option (MatrixXd α) := zipWith (· - ·) A B

/-- The coefficient-wise product `A.array() * B.array()`. -/
def cwiseProduct (A B : MatrixXd α) : Option (MatrixXd α) := zipWith (· * ·) A B

/-- The scalar multiple `s * A`. -/
def scale (s : α) (A : MatrixXd α) : MatrixXd α := map (fun x => s * x) A

/-- The quotient `A / s` by a scalar. -/
def divScalar (A : MatrixXd α) (s : α) : MatrixXd α := map (fun x => x / s) A

/-- The matrix product `A * B`; Eigen asserts `A.cols() == B.rows()`. -/
def mul (A B : MatrixXd α) : Option (MatrixXd α) :=
  if A.cols = B.rows then
    some ⟨A.rows, B.cols, fun i j => ∑ k in Finset.range A.cols, A.coeff i k * B.coeff k j⟩
  else none

/-- The transposed matrix `A.transpose()`. -/
def transpose (A : MatrixXd α) : MatrixXd α := ⟨A.cols, A.rows, fun i j => A.coeff j i⟩

/-- The broadcast sum `A.rowwise() + B.row(0)`; Eigen asserts that the row
vector has as many entries as `A` has columns. -/
def rowwiseAdd (A B : MatrixXd α) : Option (MatrixXd α) :=
  if 0 < B.rows ∧ A.cols = B.cols then
    some ⟨A.rows, A.cols, fun i j => A.coeff i j + B.coeff 0 j⟩
  else none

/-- The row vector `A.colwise().sum()`. -/
def colwiseSum (A : MatrixXd α) : MatrixXd α :=
  ⟨1, A.cols, fun _ j => ∑ i in Finset.range A.rows, A.coeff i j⟩

/-- The column vector `A.rowwise().sum()`. -/
def rowwiseSum (A : MatrixXd α) : MatrixXd α :=
  ⟨A.rows, 1, fun i _ => ∑ j in Finset.range A.cols, A.coeff i j⟩

/-- The sum of all coefficients, `A.sum()`. -/
def sum (A : MatrixXd α) : α :=
  ∑ i in Finset.range A.rows, ∑ j in Finset.range A.cols, A.coeff i j

/-- The number of coefficients, `A.size()`. -/
def size (A : MatrixXd α) : Nat := A.rows * A.cols

/-- The mean of all coefficients, `A.mean()`; Eigen asserts that the matrix is
not empty. -/
def mean (A : MatrixXd α) : Option α :=
  if 0 < A.rows ∧ 0 < A.cols then some (A.sum / (A.size : α)) else none

/-- The coefficient-wise power `A.array().pow(e)`. -/
def cwisePow (A : MatrixXd α) (e : ℤ) : MatrixXd α := map (fun x => x ^ e) A

/-- The coefficient-wise maximum `A.array().max(s)`. -/
def cwiseMax (A : MatrixXd α) (s : α) : MatrixXd α := map (fun x => max x s) A

/-- The coefficient-wise minimum `A.array().min(s)`. -/
def cwiseMin (A : MatrixXd α) (s : α) : MatrixXd α := map (fun x => min x s) A

/-- The 0/1 mask `(A.array() > 0.0).cast<double>()`. -/
def positiveMask (A : MatrixXd α) : MatrixXd α := map (fun x => if 0 < x then 1 else 0) A

/-- The view `Eigen::Map<const MatrixXd>(A.data(), r, c)` of the column-major
buffer of `A`, copied into a matrix; reading past the buffer is an error. -/
def reshaped (A : MatrixXd α) (r c : Nat) : Option (MatrixXd α) :=
  if r * c ≤ A.rows * A.cols then
    some ⟨r, c, fun i j => A.coeff ((j * r + i) % A.rows) ((j * r + i) / A.rows)⟩
  else none

/-- The compound assignment `A += B`; Eigen asserts equal sizes and never
resizes the destination. -/
def addAssign (A B : MatrixXd α) : Option (MatrixXd α) := add A B

/-- The compound assignment `A -= B`. -/
def subAssign (A B : MatrixXd α) : Option (MatrixXd α) := sub A B

end MatrixXd

/-! ## Value objects and the store -/

/-- What a `_backward` lambda captured, one constructor per lambda of the
source. -/
inductive Closure (α : Type) where
  | noop
  | add (self_ptr other_ptr out_ptr : Nat)
  | mul (self_ptr other_ptr out_ptr : Nat)
  | matmul (self_ptr other_ptr out_ptr : Nat)
  | pow (self_ptr out_ptr : Nat) (exponent : ℤ)
  | relu (self_ptr out_ptr : Nat)
  | sigmoid (self_ptr out_ptr : Nat) (s : MatrixXd α)
  | transpose (self_ptr out_ptr : Nat)
  | flatten (self_ptr out_ptr : Nat) (orig_rows orig_cols : Nat)
  | celoss (y_pred_ptr out_ptr : Nat) (probs true_labels_oh : MatrixXd α) (n_samples : Nat)
  | mseloss (y_pred_ptr y_true_ptr out_ptr : Nat)

/-- The fields of `class Value`. -/
structure Value (α : Type) where
  data : MatrixXd α
  grad : MatrixXd α
  _prev : List Nat
  _backward : Closure α
  _op : String
  _self : Option Nat

/-- The memory: `cell p` is the object at address `p`, if one lives there;
addresses from `next` on have never been handed out. -/
structure Store (α : Type) where
  next : Nat
  cell : Nat → Option (Value α)
  fresh : ∀ p, next ≤ p → cell p = none

namespace Store

variable {α : Type}

/-- The memory with no object in it. -/
def empty : Store α := ⟨0, fun _ => none, fun _ _ => rfl⟩

/-- Construct an object at a new address and return the address. -/
def alloc (st : Store α) (v : Value α) : Store α × Nat :=
  (⟨st.next + 1, fun q => if q = st.next then some v else st.cell q,
    fun p (hp : st.next + 1 ≤ p) => by
      have h1 : p ≠ st.next := Nat.ne_of_gt (Nat.lt_of_succ_le hp)
      simp only [h1, if_false]
      exact st.fresh p (Nat.le_of_succ_le hp)⟩, st.next)

/-- Overwrite the object at `p`; there is nothing to overwrite at an address
without an object. -/
def write (st : Store α) (p : Nat) (v : Value α) : Store α :=
  ⟨st.next, fun q => if q = p then (st.cell p).map (fun _ => v) else st.cell q,
    fun q (hq : st.next ≤ q) => by
      by_cases h : q = p
      · subst h; simp [st.fresh q hq]
      · simp [h, st.fresh q hq]⟩

/-- Destroy the object at `p` (the last `shared_ptr` to it went away). -/
def release (st : Store α) (p : Nat) : Store α :=
  ⟨st.next, fun q => if q = p then none else st.cell q,
    fun q (hq : st.next ≤ q) => by
      by_cases h : q = p
      · simp [h]
      · simp [h, st.fresh q hq]⟩

/-- The call `w.lock()` on a `weak_ptr`: the address, while its object lives. -/
def lock (st : Store α) (w : Option Nat) : Option Nat :=
  match w with
  | none => none
  | some p => if (st.cell p).isSome then some p else none

/-- Construct the objects of `xs`, in order, at new addresses. -/
def extend (st : Store α) (xs : List (Value α)) : Store α :=
  xs.foldl (fun s v => (s.alloc v).1) st

/-- Apply `f` to the object at `p`; fails when there is no object. -/
def modify (st : Store α) (p : Nat) (f : Value α → Value α) : Option (Store α) :=
  (st.cell p).map (fun v => st.write p (f v))

end Store

/-! ## engine.cpp -/

namespace Value

variable {α : Type} [LinearOrderedField α]

/-- The constructor `Value::Value(const Eigen::MatrixXd& data)`. -/
def ofMatrix (data : MatrixXd α) : Value α :=
  { data := data
    grad := MatrixXd.Zero data.rows data.cols
    _prev := []
    _backward := Closure.noop
    _op := ""
    _self := none }

/-- The constructor `Value::Value(const double scalar)`. -/
def ofScalar (scalar : α) : Value α :=
  { data := MatrixXd.Constant 1 1 scalar
    grad := MatrixXd.Zero 1 1
    _prev := []
    _backward := Closure.noop
    _op := ""
    _self := none }

/-- The method `Value::set_self` called on the object at `this`. -/
def set_self (st : Store α) (this ptr : Nat) : Option (Store α) :=
  st.modify this (fun v => { v with _self := some ptr })

/-- The method `Value::get_self_ptr` called on the object at `this`: the locked
self-pointer, or else the address of a new copy of the object. -/
def get_self_ptr (st : Store α) (this : Nat) : Option (Store α × Nat) := do
  let v ← st.cell this
  match st.lock v._self with
  | some ptr => some (st, ptr)
  | none => some (st.alloc v)

/-- The static helper `Value::broadcast_backward`. -/
def broadcast_backward (grad : MatrixXd α) (target_rows target_cols : Nat) : MatrixXd α :=
  if grad.rows = target_rows ∧ grad.cols = target_cols then grad
  else
    let result := if target_rows = 1 ∧ 1 < grad.rows then grad.colwiseSum else grad
    if target_cols = 1 ∧ 1 < grad.cols then result.rowwiseSum else result

/-- The lines every operator ends with:
`auto out_ptr = std::make_shared<Value>(out); out_ptr->set_self(out_ptr);`
`out_ptr->_prev = prev; out_ptr->_backward = closure; return *out_ptr;`.
The node is built at a new address and the returned copy at the next one; the
result is the address of the returned copy. -/
def publish (st : Store α) (out : Value α) (prev : List Nat)
    (closure : Nat → Closure α) : Store α × Nat :=
  let node : Value α :=
    { out with _self := some st.next, _prev := prev, _backward := closure st.next }
  (st.alloc node).1.alloc node

/-- The forward value of `Value::operator+`: the `if` chain that fills `result`
from `data` (here `a`) and `other.data` (here `b`). -/
def addResult (a b : MatrixXd α) : Option (MatrixXd α) :=
  if a.rows = b.rows ∧ a.cols = b.cols then a.add b
  else if b.rows = 1 ∧ a.cols = b.cols then a.rowwiseAdd b
  else if a.rows = 1 ∧ a.cols = b.cols then b.rowwiseAdd a
  else a.add b

/-- The operator `Value::operator+(const Value& other)`. -/
def add (st : Store α) (this other : Nat) : Option (Store α × Nat) := do
  let a ← st.cell this
  let b ← st.cell other
  let result ← addResult a.data b.data
  let out : Value α := { ofMatrix result with _op := "+" }
  let (st1, self_ptr) ← get_self_ptr st this
  let (st2, other_ptr) ← get_self_ptr st1 other
  some (publish st2 out [self_ptr, other_ptr] (Closure.add self_ptr other_ptr))

/-- The operator `Value::operator+(const double scalar)`. -/
def addScalar (st : Store α) (this : Nat) (scalar : α) : Option (Store α × Nat) :=
  let (st1, tmp) := st.alloc (ofScalar scalar)
  add st1 this tmp

/-- The operator `Value::operator*(const Value& other)`. -/
def mul (st : Store α) (this other : Nat) : Option (Store α × Nat) := do
  let a ← st.cell this
  let b ← st.cell other
  let result ← a.data.cwiseProduct b.data
  let out : Value α := { ofMatrix result with _op := "*" }
  let (st1, self_ptr) ← get_self_ptr st this
  let (st2, other_ptr) ← get_self_ptr st1 other
  some (publish st2 out [self_ptr, other_ptr] (Closure.mul self_ptr other_ptr))

/-- The operator `Value::operator*(const double scalar)`. -/
def mulScalar (st : Store α) (this : Nat) (scalar : α) : Option (Store α × Nat) :=
  let (st1, tmp) := st.alloc (ofScalar scalar)
  mul st1 this tmp

/-- The method `Value::matmul`. -/
def matmul (st : Store α) (this other : Nat) : Option (Store α × Nat) := do
  let a ← st.cell this
  let b ← st.cell other
  let result ← a.data.mul b.data
  let out : Value α := { ofMatrix result with _op := "@" }
  let (st1, self_ptr) ← get_self_ptr st this
  let (st2, other_ptr) ← get_self_ptr st1 other
  some (publish st2 out [self_ptr, other_ptr] (Closure.matmul self_ptr other_ptr))

/-- The method `Value::pow`. -/
def pow (st : Store α) (this : Nat) (exponent : ℤ) : Option (Store α × Nat) := do
  let a ← st.cell this
  let out : Value α := { ofMatrix (a.data.cwisePow exponent) with _op := "pow" }
  let (st1, self_ptr) ← get_self_ptr st this
  some (publish st1 out [self_ptr] (fun out_ptr => Closure.pow self_ptr out_ptr exponent))

/-- The method `Value::relu`. -/
def relu (st : Store α) (this : Nat) : Option (Store α × Nat) := do
  let a ← st.cell this
  let out : Value α := { ofMatrix (a.data.cwiseMax 0) with _op := "relu" }
  let (st1, self_ptr) ← get_self_ptr st this
  some (publish st1 out [self_ptr] (Closure.relu self_ptr))

/-- The method `Value::sigmoid`; `exp` is the exponential of the scalars. -/
def sigmoid (exp : α → α) (st : Store α) (this : Nat) : Option (Store α × Nat) := do
  let a ← st.cell this
  let s : MatrixXd α := a.data.map (fun x => 1 / (1 + exp (-x)))
  let out : Value α := { ofMatrix s with _op := "sigmoid" }
  let (st1, self_ptr) ← get_self_ptr st this
  some (publish st1 out [self_ptr] (fun out_ptr => Closure.sigmoid self_ptr out_ptr s))

/-- The method `Value::transpose`. -/
def transpose (st : Store α) (this : Nat) : Option (Store α × Nat) := do
  let a ← st.cell this
  let out : Value α := { ofMatrix a.data.transpose with _op := "T" }
  let (st1, self_ptr) ← get_self_ptr st this
  some (publish st1 out [self_ptr] (Closure.transpose self_ptr))

/-- The method `Value::flatten`. -/
def flatten (st : Store α) (this : Nat) : Option (Store α × Nat) := do
  let a ← st.cell this
  let orig_rows := a.data.rows
  let orig_cols := a.data.cols
  if orig_cols ≤ 1 then
    some (st.alloc a)
  else
    let flattened_cols := orig_rows * orig_cols
    let flattened ← a.data.reshaped 1 flattened_cols
    let out : Value α := { ofMatrix flattened with _op := "flatten" }
    let (st1, self_ptr) ← get_self_ptr st this
    some (publish st1 out [self_ptr]
      (fun out_ptr => Closure.flatten self_ptr out_ptr orig_rows orig_cols))

/-- The operator `Value::operator-(const Value& other)`. -/
def sub (st : Store α) (this other : Nat) : Option (Store α × Nat) := do
  let (st1, negated) ← mulScalar st other (-1)
  add st1 this negated

/-- The operator `Value::operator-(const double scalar)`. -/
def subScalar (st : Store α) (this : Nat) (scalar : α) : Option (Store α × Nat) :=
  addScalar st this (-scalar)

/-- The operator `Value::operator/(const Value& other)`. -/
def div (st : Store α) (this other : Nat) : Option (Store α × Nat) := do
  let (st1, inverse) ← pow st other (-1)
  mul st1 this inverse

/-- The operator `Value::operator/(const double scalar)`. -/
def divScalar (st : Store α) (this : Nat) (scalar : α) : Option (Store α × Nat) :=
  mulScalar st this (1 / scalar)

/-- The statement `p->grad += m`. -/
def addGrad (st : Store α) (p : Nat) (m : MatrixXd α) : Option (Store α) := do
  let v ← st.cell p
  let g ← v.grad.addAssign m
  some (st.write p { v with grad := g })

end Value

/-- Run the body of a `_backward` lambda. -/
def Closure.run {α : Type} [LinearOrderedField α] (st : Store α) :
    Closure α → Option (Store α)
  | .noop => some st
  | .add self_ptr other_ptr out_ptr => do
    let o ← st.cell out_ptr
    let s ← st.cell self_ptr
    let st1 ← Value.addGrad st self_ptr
      (Value.broadcast_backward o.grad s.data.rows s.data.cols)
    let o1 ← st1.cell out_ptr
    let t ← st1.cell other_ptr
    Value.addGrad st1 other_ptr (Value.broadcast_backward o1.grad t.data.rows t.data.cols)
  | .mul self_ptr other_ptr out_ptr => do
    let o ← st.cell out_ptr
    let s ← st.cell self_ptr
    let t ← st.cell other_ptr
    let grad_self ← t.data.cwiseProduct o.grad
    let grad_other ← s.data.cwiseProduct o.grad
    let st1 ← Value.addGrad st self_ptr
      (Value.broadcast_backward grad_self s.data.rows s.data.cols)
    let t1 ← st1.cell other_ptr
    Value.addGrad st1 other_ptr
      (Value.broadcast_backward grad_other t1.data.rows t1.data.cols)
  | .matmul self_ptr other_ptr out_ptr => do
    let o ← st.cell out_ptr
    let t ← st.cell other_ptr
    let g ← o.grad.mul t.data.transpose
    let st1 ← Value.addGrad st self_ptr g
    let s1 ← st1.cell self_ptr
    let o1 ← st1.cell out_ptr
    let h ← s1.data.transpose.mul o1.grad
    Value.addGrad st1 other_ptr h
  | .pow self_ptr out_ptr exponent => do
    let o ← st.cell out_ptr
    let s ← st.cell self_ptr
    let g ← (MatrixXd.scale (exponent : α) (s.data.cwisePow (exponent - 1))).cwiseProduct o.grad
    Value.addGrad st self_ptr g
  | .relu self_ptr out_ptr => do
    let o ← st.cell out_ptr
    let g ← o.data.positiveMask.cwiseProduct o.grad
    Value.addGrad st self_ptr g
  | .sigmoid self_ptr out_ptr s => do
    let o ← st.cell out_ptr
    let d ← s.cwiseProduct (s.map (fun x => 1 - x))
    let g ← d.cwiseProduct o.grad
    Value.addGrad st self_ptr g
  | .transpose self_ptr out_ptr => do
    let o ← st.cell out_ptr
    Value.addGrad st self_ptr o.grad.transpose
  | .flatten self_ptr out_ptr orig_rows orig_cols => do
    let o ← st.cell out_ptr
    let reshaped ← o.grad.reshaped orig_rows orig_cols
    Value.addGrad st self_ptr reshaped
  | .celoss y_pred_ptr out_ptr probs true_labels_oh n_samples => do
    let o ← st.cell out_ptr
    let d ← probs.sub true_labels_oh
    let grad := d.divScalar (n_samples : α)
    Value.addGrad st y_pred_ptr (MatrixXd.scale (o.grad.coeff 0 0) grad)
  | .mseloss y_pred_ptr y_true_ptr out_ptr => do
    let p ← st.cell y_pred_ptr
    let t ← st.cell y_true_ptr
    let o ← st.cell out_ptr
    let size := p.data.size
    let d ← p.data.sub t.data
    let grad := (MatrixXd.scale 2 d).divScalar (size : α)
    Value.addGrad st y_pred_ptr (MatrixXd.scale (o.grad.coeff 0 0) grad)

namespace Value

variable {α : Type} [LinearOrderedField α]

/-- The recursion `Value::build_topo(v, visited, topo)`; the pair is
`(visited, topo)` and `fuel` bounds the depth of the recursion. -/
def build_topo (st : Store α) : Nat → Nat → List Nat × List Nat → Option (List Nat × List Nat)
  | 0, _, _ => none
  | fuel + 1, v, (visited, topo) =>
    if v ∈ visited then some (visited, topo)
    else do
      let node ← st.cell v
      let (visited1, topo1) ←
        node._prev.foldlM (fun acc child => build_topo st fuel child acc) (v :: visited, topo)
      some (visited1, topo1 ++ [v])

/-- The call `p->_backward()`. -/
def runClosure (st : Store α) (p : Nat) : Option (Store α) := do
  let node ← st.cell p
  node._backward.run st

/-- Call `_backward` on the nodes of `order`, from the first to the last. -/
def runAll (st : Store α) : List Nat → Option (Store α)
  | [] => some st
  | p :: rest => do
    let st1 ← runClosure st p
    runAll st1 rest

/-- The loop `for (auto it = topo.rbegin(); it != topo.rend(); ++it) (*it)->_backward();`. -/
def runClosures (st : Store α) (topo : List Nat) : Option (Store α) :=
  runAll st topo.reverse

/-- The method `Value::backward` called on the object at `this`. -/
def backward (st : Store α) (this : Nat) : Option (Store α) := do
  let (st1, self_ptr) ← get_self_ptr st this
  let (_, topo) ← build_topo st1 (st1.next + 1) self_ptr ([], [])
  let v ← st1.cell this
  let st2 ← st1.modify self_ptr
    (fun s => { s with grad := MatrixXd.Ones v.data.rows v.data.cols })
  let st3 ← runClosures st2 topo
  let w ← st3.cell this
  match st3.lock w._self with
  | some _ => some st3
  | none => do
    let s ← st3.cell self_ptr
    some (st3.write this s)

/-- The method `Value::zero_grad` called on the object at `this`. -/
def zero_grad (st : Store α) (this : Nat) : Option (Store α) :=
  st.modify this (fun v => { v with grad := MatrixXd.Zero v.data.rows v.data.cols })

/-- A leaf held by a shared handle that knows itself, as `Layer::Layer` makes
them: `p = std::make_shared<Value>(data); p->set_self(p);`. -/
def registered (st : Store α) (data : MatrixXd α) : Option (Store α × Nat) := do
  let (st1, p) := st.alloc (ofMatrix data)
  let st2 ← set_self st1 p p
  some (st2, p)

end Value

/-! ## loss.cpp -/

section loss

variable {α : Type} [LinearOrderedField α]

/-- The constant `EPS = 1e-12`. -/
def EPS : α := 1 / 10 ^ 12

/-- The call `A.row(i).maxCoeff()`; Eigen asserts a non-empty row. -/
def MatrixXd.rowMaxCoeff (A : MatrixXd α) (i : Nat) : Option α :=
  if 0 < A.cols then
    some ((List.range A.cols).foldl (fun m j => max m (A.coeff i j)) (A.coeff i 0))
  else none

/-- The function `softmax` of loss.cpp on the data of its argument; `exp` is the
exponential of the scalars. Row `i` is `exp_vals / sum` with
`exp_vals = (x.row(i) - max_val).exp()`. -/
def softmax (exp : α → α) (x : MatrixXd α) : Option (MatrixXd α) :=
  if x.rows = 0 ∨ 0 < x.cols then
    some ⟨x.rows, x.cols, fun i j =>
      let max_val := (x.rowMaxCoeff i).getD 0
      exp (x.coeff i j - max_val) / ∑ k in Finset.range x.cols, exp (x.coeff i k - max_val)⟩
  else none

/-- The assignment `A(i, j) = x`. -/
def MatrixXd.setCoeff (A : MatrixXd α) (i j : Nat) (x : α) : MatrixXd α :=
  ⟨A.rows, A.cols, fun a b => if a = i ∧ b = j then x else A.coeff a b⟩

/-- The loop `for (int i = 0; i < n_samples; ++i) true_labels_oh(i, y_true(i)) = 1.0;`
on `Zero(n_samples, n_classes)`; Eigen asserts that every index is in range. -/
def oneHot (n_samples n_classes : Nat) (y_true : List ℤ) : Option (MatrixXd α) :=
  (List.range n_samples).foldlM (fun (oh : MatrixXd α) i => do
    let l ← y_true[i]?
    if 0 ≤ l ∧ l < (n_classes : ℤ) then some (oh.setCoeff i l.toNat 1) else none)
    (MatrixXd.Zero n_samples n_classes)

/-- The method `CrossEntropyLoss::forward`; `exp` and `log` are the exponential
and the logarithm of the scalars. -/
def CrossEntropyLoss.forward (exp log : α → α) (st : Store α) (y_pred : Nat)
    (y_true : List ℤ) : Option (Store α × Nat) := do
  let p ← st.cell y_pred
  let probs0 ← softmax exp p.data
  let probs := (probs0.cwiseMax EPS).cwiseMin (1 - EPS)
  let n_samples := p.data.rows
  let n_classes := p.data.cols
  let true_labels_oh ← oneHot n_samples n_classes y_true
  let weighted ← true_labels_oh.cwiseProduct (probs.map log)
  let loss_val := -weighted.sum / (n_samples : α)
  let out : Value α := { Value.ofMatrix (MatrixXd.Constant 1 1 loss_val) with _op := "CELoss" }
  let (st1, y_pred_ptr) ← Value.get_self_ptr st y_pred
  some (Value.publish st1 out [y_pred_ptr]
    (fun out_ptr => Closure.celoss y_pred_ptr out_ptr probs true_labels_oh n_samples))

/-- The method `MSELoss::forward`. -/
def MSELoss.forward (st : Store α) (y_pred y_true : Nat) : Option (Store α × Nat) := do
  let p ← st.cell y_pred
  let t ← st.cell y_true
  let d ← p.data.sub t.data
  let loss_val ← (d.map (fun x => x * x)).mean
  let out : Value α := { Value.ofMatrix (MatrixXd.Constant 1 1 loss_val) with _op := "MSELoss" }
  let (st1, y_pred_ptr) ← Value.get_self_ptr st y_pred
  let (st2, y_true_ptr) ← Value.get_self_ptr st1 y_true
  some (Value.publish st2 out [y_pred_ptr] (Closure.mseloss y_pred_ptr y_true_ptr))

end loss

/-! ## optimizer.cpp and Module::zero_grad -/

section optimizer

variable {α : Type} [LinearOrderedField α]

/-- The method `Module::zero_grad`, on the list that `parameters()` returns. -/
def Module.zero_grad (st : Store α) (parameters : List Nat) : Option (Store α) :=
  parameters.foldlM (fun s p => Value.zero_grad s p) st

/-- The fields of `class SGD`. -/
structure SGD (α : Type) where
  parameters : List Nat
  lr : α

/-- The statement `p->data -= lr * p->grad`. -/
def SGD.update (lr : α) (st : Store α) (p : Nat) : Option (Store α) := do
  let v ← st.cell p
  let d ← v.data.subAssign (MatrixXd.scale lr v.grad)
  some (st.write p { v with data := d })

/-- The method `SGD::step`. -/
def SGD.step (o : SGD α) (st : Store α) : Option (Store α) :=
  o.parameters.foldlM (fun s p => SGD.update o.lr s p) st

/-- The method `SGD::zero_grad`. -/
def SGD.zero_grad (o : SGD α) (st : Store α) : Option (Store α) :=
  o.parameters.foldlM (fun s p => Value.zero_grad s p) st

/-- The fields of `class NesterovSGD`. -/
structure NesterovSGD (α : Type) where
  parameters : List Nat
  lr : α
  mu : α
  v : List (MatrixXd α)

/-- The constructor `NesterovSGD::NesterovSGD`. -/
def NesterovSGD.create (st : Store α) (params : List Nat) (learning_rate momentum : α) :
    Option (NesterovSGD α) := do
  let v ← params.mapM (fun p => do
    let w ← st.cell p
    some (MatrixXd.Zero w.data.rows w.data.cols : MatrixXd α))
  some { parameters := params, lr := learning_rate, mu := momentum, v := v }

/-- The body of the loop of `NesterovSGD::step` for index `i`. -/
def NesterovSGD.update (o : NesterovSGD α) (st : Store α) (i : Nat) :
    Option (NesterovSGD α × Store α) := do
  let p ← o.parameters[i]?
  let v_prev ← o.v[i]?
  let w ← st.cell p
  let v_new ← (MatrixXd.scale o.mu v_prev).sub (MatrixXd.scale o.lr w.grad)
  let delta ← (MatrixXd.scale (-o.mu) v_prev).add (MatrixXd.scale (1 + o.mu) v_new)
  let d ← w.data.addAssign delta
  some ({ o with v := o.v.set i v_new }, st.write p { w with data := d })

/-- The method `NesterovSGD::step`. -/
def NesterovSGD.step (o : NesterovSGD α) (st : Store α) : Option (NesterovSGD α × Store α) :=
  (List.range o.parameters.length).foldlM (fun (acc : NesterovSGD α × Store α) i =>
    NesterovSGD.update acc.1 acc.2 i) (o, st)

/-- The method `NesterovSGD::zero_grad`. -/
def NesterovSGD.zero_grad (o : NesterovSGD α) (st : Store α) : Option (Store α) :=
  o.parameters.foldlM (fun s p => Value.zero_grad s p) st

end optimizer

/-! ## The programs of the tests and of the testable properties -/

section programs

variable {α : Type} [LinearOrderedField α]

/-- Test 1 of tests/test_autograd.cpp with the scalars `x` and `y`:
`Value a(Constant(1, 1, x)); Value b(Constant(1, 1, y));`
`Value c = a * b + a.pow(2); c.backward();`.
The result is the final memory with the addresses of `a`, `b` and `c`. -/
def test_basic_operations (st : Store α) (x y : α) : Option (Store α × Nat × Nat × Nat) := do
  let (s0, a) := st.alloc (Value.ofMatrix (MatrixXd.Constant 1 1 x))
  let (s1, b) := s0.alloc (Value.ofMatrix (MatrixXd.Constant 1 1 y))
  let (s2, ab) ← Value.mul s1 a b
  let (s3, aa) ← Value.pow s2 a 2
  let (s4, c) ← Value.add s3 ab aa
  let s5 ← Value.backward s4 c
  some (s5, a, b, c)

/-- Fan-out: registered leaves `a`, `b`, `d`, then
`Value c = *a * *b + *a * *d; c.backward();`. -/
def fan_out (st : Store α) (A B D : MatrixXd α) :
    Option (Store α × Nat × Nat × Nat × Nat) := do
  let (s0, a) ← Value.registered st A
  let (s1, b) ← Value.registered s0 B
  let (s2, d) ← Value.registered s1 D
  let (s3, ab) ← Value.mul s2 a b
  let (s4, ad) ← Value.mul s3 a d
  let (s5, c) ← Value.add s4 ab ad
  let s6 ← Value.backward s5 c
  some (s6, a, b, d, c)

/-- Broadcast add: a leaf `X` (registered or a plain object, as `reg` says), a
registered bias `b`, then `Value y = X + *b; y.backward();`. -/
def bias_add (st : Store α) (reg : Bool) (X B : MatrixXd α) :
    Option (Store α × Nat × Nat × Nat) := do
  let (s0, x) ← if reg then Value.registered st X else some (st.alloc (Value.ofMatrix X))
  let (s1, b) ← Value.registered s0 B
  let (s2, y) ← Value.add s1 x b
  let s3 ← Value.backward s2 y
  some (s3, x, b, y)

/-- Matrix product: registered leaves `x` and `w`, then
`Value y = x->matmul(*w); y.backward();`. -/
def matmul_backward (st : Store α) (X W : MatrixXd α) :
    Option (Store α × Nat × Nat × Nat) := do
  let (s0, x) ← Value.registered st X
  let (s1, w) ← Value.registered s0 W
  let (s2, y) ← Value.matmul s1 x w
  let s3 ← Value.backward s2 y
  some (s3, x, w, y)

/-- Cross entropy: a registered leaf `logits`, then
`Value loss = criterion.forward(*logits, labels); loss.backward();`. -/
def cross_entropy_backward (exp log : α → α) (st : Store α) (logits : MatrixXd α)
    (labels : List ℤ) : Option (Store α × Nat × Nat) := do
  let (s0, l) ← Value.registered st logits
  let (s1, loss) ← CrossEntropyLoss.forward exp log s0 l labels
  let s2 ← Value.backward s1 loss
  some (s2, l, loss)

/-- The terminal is the value an operator returned:
`Value a(Constant(1, 1, x)); Value t = a.relu(); t.backward();`. -/
def relu_backward (st : Store α) (x : α) : Option (Store α × Nat × Nat) := do
  let (s0, a) := st.alloc (Value.ofMatrix (MatrixXd.Constant 1 1 x))
  let (s1, t) ← Value.relu s0 a
  let s2 ← Value.backward s1 t
  some (s2, a, t)

end programs

/-- A diamond: a leaf at address 0, two nodes at 1 and 2 that take it as input,
and a node at 3 that takes both as inputs. -/
def diamond : Store ℚ :=
  Store.empty.extend
    [Value.ofScalar 1,
     { Value.ofScalar 1 with _prev := [0] },
     { Value.ofScalar 1 with _prev := [0] },
     { Value.ofScalar 2 with _prev := [1, 2] }]

/-- The matrix `relu_data << -2, -1, 1, 2;` of the third test of
`test_autograd.cpp`. -/
def relu_data : MatrixXd ℚ :=
  ⟨1, 4, fun _ j => if j = 0 then -2 else if j = 1 then -1 else if j = 2 then 1 else 2⟩

/-! ## More programs -/

section morePrograms

variable {α : Type} [LinearOrderedField α]

/-- ReLU: a registered leaf `a`, then `Value y = a->relu(); y.backward();`. -/
def relu_registered_backward (st : Store α) (A : MatrixXd α) :
    Option (Store α × Nat × Nat) := do
  let (s0, a) ← Value.registered st A
  let (s1, y) ← Value.relu s0 a
  let s2 ← Value.backward s1 y
  some (s2, a, y)

/-- Mean squared error: a registered leaf `pred`, a leaf `target` (registered
or a plain object, as `reg` says) whose grad is then set to `G`, then
`Value loss = criterion.forward(*pred, target); loss.backward();`. -/
def mse_backward (st : Store α) (reg : Bool) (P T G : MatrixXd α) :
    Option (Store α × Nat × Nat × Nat) := do
  let (s0, p) ← Value.registered st P
  let (s1, t) ← if reg then Value.registered s0 T else some (s0.alloc (Value.ofMatrix T))
  let s2 ← s1.modify t (fun v => { v with grad := G })
  let (s3, loss) ← MSELoss.forward s2 p t
  let s4 ← Value.backward s3 loss
  some (s4, p, t, loss)

/-- Momentum under a zero gradient: a registered parameter holding `D`,
`NesterovSGD opt({p}, lr, mu); p->grad = G; opt.step(); opt.zero_grad();
opt.step();`. The result is the optimizer and the memory before the second
step, the memory after it, and the parameter. -/
def nesterov_two_steps (st : Store α) (lr mu : α) (D G : MatrixXd α) :
    Option (NesterovSGD α × Store α × Store α × Nat) := do
  let (s0, p) ← Value.registered st D
  let opt ← NesterovSGD.create s0 [p] lr mu
  let s1 ← s0.modify p (fun v => { v with grad := G })
  let (opt1, s2) ← NesterovSGD.step opt s1
  let s3 ← NesterovSGD.zero_grad opt1 s2
  let (_, s4) ← NesterovSGD.step opt1 s3
  some (opt1, s3, s4, p)

end morePrograms

/-! ## nn.cpp: weight files -/

/-- One item of a weight file: an `int` or a `double`. -/
inductive Item (α : Type) where
  | int (n : ℤ)
  | real (x : α)

/-- How `Module::load_weights` ends: the message it prints. -/
inductive LoadOutcome where
  | loaded
  | cannot_open
  | count_mismatch
  | shape_mismatch
  deriving DecidableEq

section weights

variable {α : Type} [LinearOrderedField α]

/-- The column-major buffer `A.data()` of a matrix, `A.rows() * A.cols()` long. -/
def MatrixXd.buffer (A : MatrixXd α) : List α :=
  (List.range (A.rows * A.cols)).map (fun k => A.coeff (k % A.rows) (k / A.rows))

/-- The three `file.write` calls of `Module::save_weights` for one parameter. -/
def Module.save_param (v : Value α) : List (Item α) :=
  Item.int v.data.rows :: Item.int v.data.cols :: v.data.buffer.map Item.real

/-- The loop `for (auto* p : params)` of `Module::save_weights`: the items it
writes. -/
def Module.save_params (st : Store α) : List Nat → Option (List (Item α))
  | [] => some []
  | p :: ps => do
    let v ← st.cell p
    let rest ← Module.save_params st ps
    some (Module.save_param v ++ rest)

/-- The method `Module::save_weights` on the list that `parameters()` returns:
the items written to the file, `num_params` first. -/
def Module.save_weights (st : Store α) (parameters : List Nat) : Option (List (Item α)) := do
  let body ← Module.save_params st parameters
  some (Item.int parameters.length :: body)

/-- The call `file.read(&n, sizeof(int))` where the file holds an `int`. -/
def readInt : List (Item α) → Option (ℤ × List (Item α))
  | Item.int n :: rest => some (n, rest)
  | _ => none

/-- The call `file.read(buf, n * sizeof(double))` where the file holds `n` doubles. -/
def readReals : Nat → List (Item α) → Option (List α × List (Item α))
  | 0, rest => some ([], rest)
  | n + 1, Item.real x :: rest => do
    let (xs, rest1) ← readReals n rest
    some (x :: xs, rest1)
  | _ + 1, _ => none

/-- The loop `for (auto* p : params)` of `Module::load_weights`. -/
def Module.load_params (st : Store α) : List Nat → List (Item α) →
    Option (Store α × LoadOutcome)
  | [], _ => some (st, LoadOutcome.loaded)
  | p :: ps, file => do
    let (rows, f1) ← readInt file
    let (cols, f2) ← readInt f1
    let v ← st.cell p
    if rows ≠ (v.data.rows : ℤ) ∨ cols ≠ (v.data.cols : ℤ) then
      some (st, LoadOutcome.shape_mismatch)
    else
      let (buf, f3) ← readReals (v.data.rows * v.data.cols) f2
      let loaded : MatrixXd α :=
        ⟨v.data.rows, v.data.cols, fun i j => buf.getD (j * v.data.rows + i) 0⟩
      Module.load_params (st.write p { v with data := loaded }) ps f3

/-- The method `Module::load_weights` on the list that `parameters()` returns;
`file` is `none` when the file cannot be opened. -/
def Module.load_weights (st : Store α) (parameters : List Nat)
    (file : Option (List (Item α))) : Option (Store α × LoadOutcome) :=
  match file with
  | none => some (st, LoadOutcome.cannot_open)
  | some items => do
    let (num_params, f1) ← readInt items
    if num_params ≠ (parameters.length : ℤ) then some (st, LoadOutcome.count_mismatch)
    else Module.load_params st parameters f1

end weights

/-! ## nn.cpp: layers and the multi-layer perceptron -/

/-- The fields of `class Layer`: the shared handles `w` and `b`, and `nonlin`. -/
structure Layer where
  w : Nat
  b : Nat
  nonlin : Bool

/-- The field of `class MLP`. -/
structure MLP where
  layers : List Layer

section nn

variable {α : Type} [LinearOrderedField α]

/-- The constructor `Layer::Layer(nin, nout, nonlin)`; `d i j` is the sample
that `d(gen)` returns for `w_data(i, j)`. -/
def Layer.create (st : Store α) (nin nout : Nat) (nonlin : Bool) (d : Nat → Nat → α) :
    Option (Store α × Layer) := do
  let (st1, w) ← Value.registered st ⟨nin, nout, d⟩
  let (st2, b) ← Value.registered st1 (MatrixXd.Zero 1 nout)
  some (st2, ⟨w, b, nonlin⟩)

/-- The method `Layer::forward`: `Value z = x.matmul(*w) + *b;` and then
`return nonlin ? z.relu() : z;`, where returning `z` copies it. -/
def Layer.forward (st : Store α) (l : Layer) (x : Nat) : Option (Store α × Nat) := do
  let (st1, t) ← Value.matmul st x l.w
  let (st2, z) ← Value.add st1 t l.b
  if l.nonlin then Value.relu st2 z
  else do
    let vz ← st2.cell z
    some (st2.alloc vz)

/-- The method `Layer::parameters`. -/
def Layer.parameters (l : Layer) : List Nat := [l.w, l.b]

/-- The constructor `MLP::MLP(nin, nouts)`; `d k` gives the samples for the
weights of layer `k`. -/
def MLP.create (st : Store α) (nin : Nat) (nouts : List Nat) (d : Nat → Nat → Nat → α) :
    Option (Store α × MLP) := do
  let sz := nin :: nouts
  let (st1, layers) ← (List.range nouts.length).foldlM
    (fun (acc : Store α × List Layer) i => do
      let is_last := decide (i = nouts.length - 1)
      let a ← sz[i]?
      let b ← sz[i + 1]?
      let (s, l) ← Layer.create acc.1 a b (!is_last) (d i)
      some (s, acc.2 ++ [l])) (st, [])
  some (st1, ⟨layers⟩)

/-- The method `MLP::forward`: `Value out = x;`, then `out = layer.forward(out);`
for every layer, then `return out;`. The result is the address of `out`. -/
def MLP.forward (st : Store α) (m : MLP) (x : Nat) : Option (Store α × Nat) := do
  let vx ← st.cell x
  let (st0, out) := st.alloc vx
  let st1 ← m.layers.foldlM (fun s layer => do
    let (s1, r) ← Layer.forward s layer out
    let vr ← s1.cell r
    some (s1.write out vr)) st0
  some (st1, out)

/-- The method `MLP::parameters`. -/
def MLP.parameters (m : MLP) : List Nat :=
  m.layers.foldl (fun params layer => params ++ layer.parameters) []

end nn

/-! ## engine.cpp: the wrapper `ValuePtr` -/

section valuePtr

variable {α : Type} [LinearOrderedField α]

/-- The constructor `ValuePtr::ValuePtr(const Eigen::MatrixXd& data)`:
`ptr(std::make_shared<Value>(data))`. The handle is the address. -/
def ValuePtr.ofMatrix (st : Store α) (data : MatrixXd α) : Store α × Nat :=
  st.alloc (Value.ofMatrix data)

/-- The operator `ValuePtr::operator*`:
`return {std::make_shared<Value>(*ptr * *other.ptr)};`. -/
def ValuePtr.mul (st : Store α) (this other : Nat) : Option (Store α × Nat) := do
  let (st1, tmp) ← Value.mul st this other
  let v ← st1.cell tmp
  some (st1.alloc v)

end valuePtr

/-! ## Programs for division, handles, repeated backward and training runs -/

section lastPrograms

variable {α : Type} [LinearOrderedField α]

/-- Division: registered leaves `a` and `b`, then `Value y = *a / *b; y.backward();`. -/
def div_backward (st : Store α) (A B : MatrixXd α) :
    Option (Store α × Nat × Nat × Nat) := do
  let (s0, a) ← Value.registered st A
  let (s1, b) ← Value.registered s0 B
  let (s2, y) ← Value.div s1 a b
  let s3 ← Value.backward s2 y
  some (s3, a, b, y)

/-- Handles: `ValuePtr a(A); ValuePtr c = a * a; c->backward();`. -/
def valueptr_square (st : Store α) (A : MatrixXd α) : Option (Store α × Nat × Nat) := do
  let (s0, a) := ValuePtr.ofMatrix st A
  let (s1, c) ← ValuePtr.mul s0 a a
  let s2 ← Value.backward s1 c
  some (s2, a, c)

/-- Repeated backward: registered leaves `a`, `b`, `d`, then
`Value c = (*a * *b) * *d; c.backward(); c.backward();`. The result holds the
memory after the first and after the second call. -/
def double_backward (st : Store α) (A B D : MatrixXd α) :
    Option (Store α × Store α × Nat × Nat × Nat × Nat) := do
  let (s0, a) ← Value.registered st A
  let (s1, b) ← Value.registered s0 B
  let (s2, d) ← Value.registered s1 D
  let (s3, t) ← Value.mul s2 a b
  let (s4, c) ← Value.mul s3 t d
  let s5 ← Value.backward s4 c
  let s6 ← Value.backward s5 c
  some (s5, s6, a, b, d, c)

/-- The nested product `(...((*h * *o_1) * *o_2) ...) * *o_k` of the object at
`h` with the objects of `os`, from the left; the result is the address of the
object that the last `operator*` returns. -/
def product_chain (st : Store α) (h : Nat) : List Nat → Option (Store α × Nat)
  | [] => some (st, h)
  | o :: os => do
    let (s1, t) ← Value.mul st h o
    product_chain s1 t os

/-- The gradients supplied before a step: `parameters[i]->grad = gs[i];` for
every parameter that has an entry in `gs`. -/
def supply_grads (st : Store α) (parameters : List Nat) (gs : List (MatrixXd α)) :
    Option (Store α) :=
  (parameters.zip gs).foldlM
    (fun s (pg : Nat × MatrixXd α) => s.modify pg.1 (fun v => { v with grad := pg.2 })) st

/-- A training run with `SGD`: for every entry of `gss`, supply the gradients
and call `step()`. -/
def SGD.run (o : SGD α) : Store α → List (List (MatrixXd α)) → Option (Store α)
  | st, [] => some st
  | st, gs :: rest => do
    let s1 ← supply_grads st o.parameters gs
    let s2 ← SGD.step o s1
    SGD.run o s2 rest

/-- A training run with `NesterovSGD`: for every entry of `gss`, supply the
gradients and call `step()`. -/
def NesterovSGD.run (o : NesterovSGD α) : Store α → List (List (MatrixXd α)) →
    Option (NesterovSGD α × Store α)
  | st, [] => some (o, st)
  | st, gs :: rest => do
    let s1 ← supply_grads st o.parameters gs
    let (o1, s2) ← NesterovSGD.step o s1
    NesterovSGD.run o1 s2 rest

end lastPrograms

/-! ## The plain softmax -/

section plainSoftmax

variable {α : Type} [LinearOrderedField α]

/-- The plain definition of softmax that the code is compared with:
entry (i, j) is `exp(x(i, j))` divided by the sum of `exp(x(i, k))` over the
columns `k` of row `i`. -/
def softmax_plain (exp : α → α) (x : MatrixXd α) : MatrixXd α :=
  ⟨x.rows, x.cols, fun i j =>
    exp (x.coeff i j) / ∑ k in Finset.range x.cols, exp (x.coeff i k)⟩

end plainSoftmax

/-! ## Graph notions and invariants used in the statements -/

section notions

variable {α : Type}

/-- `c` is an input of the node at `p`: it occurs in `p->_prev`. -/
def IsInput (st : Store α) (c p : Nat) : Prop :=
  ∃ v, st.cell p = some v ∧ c ∈ v._prev

/-- `x` can be reached from `t` by following `_prev` zero or more times. -/
def Reachable (st : Store α) (t x : Nat) : Prop :=
  Relation.ReflTransGen (fun p c => IsInput st c p) t x

/-- Every entry of a `_prev` list is the address of an object (a `shared_ptr`
keeps its object alive). -/
def InputsLive (st : Store α) : Prop :=
  ∀ p v, st.cell p = some v → ∀ c ∈ v._prev, (st.cell c).isSome

/-- The graph is acyclic: the nodes can be numbered so that every node has a
larger number than each of its inputs (a node is created after its inputs). -/
def Acyclic (st : Store α) : Prop :=
  ∃ rank : Nat → Nat, ∀ p v, st.cell p = some v → ∀ c ∈ v._prev, rank c < rank p

/-- In the list `l`, every input (that `l` has to contain) of every entry
stands before the entry. -/
def InputsFirst (st : Store α) (l : List Nat) : Prop :=
  ∀ l1 x l2, l = l1 ++ x :: l2 → ∀ c, IsInput st c x → c ∈ l1

/-- In the list `l`, every entry stands before each of its inputs: a consumer
comes before what it consumes. -/
def ConsumersFirst (st : Store α) (l : List Nat) : Prop :=
  ∀ l1 c l2, l = l1 ++ c :: l2 → ∀ x, x ∈ l → IsInput st c x → x ∈ l1

/-- Every object has a `grad` with the row and column counts of its `data`. -/
def GradShaped (st : Store α) : Prop :=
  ∀ p v, st.cell p = some v → v.grad.rows = v.data.rows ∧ v.grad.cols = v.data.cols

/-- A self-pointer names an address that was handed out, and an object and the
object its self-pointer names (it is the object itself or the node it was
copied from) have data of one shape. -/
def SelfShaped (st : Store α) : Prop :=
  ∀ p v h, st.cell p = some v → v._self = some h →
    h < st.next ∧ ∀ w, st.cell h = some w →
      w.data.rows = v.data.rows ∧ w.data.cols = v.data.cols

/-- The invariant of the memory: grads have the shape of their data, and
self-pointers link objects with data of one shape. -/
def WellShaped (st : Store α) : Prop := GradShaped st ∧ SelfShaped st

/-- From `st` to `st1` nothing but grads changed, and no grad changed its
shape. -/
def GradOnly (st st1 : Store α) : Prop :=
  st1.next = st.next ∧
    ∀ p, (st.cell p = none ∧ st1.cell p = none) ∨
      ∃ v g, st.cell p = some v ∧ st1.cell p = some { v with grad := g } ∧
        g.rows = v.grad.rows ∧ g.cols = v.grad.cols

/-- Every velocity buffer of the optimizer has the shape of the data of its
parameter, and there is one buffer per parameter. -/
def VelocityShaped (st : Store α) (o : NesterovSGD α) : Prop :=
  o.v.length = o.parameters.length ∧
    ∀ (i p : Nat) (vp : MatrixXd α) (w : Value α),
      o.parameters[i]? = some p → o.v[i]? = some vp → st.cell p = some w →
        vp.rows = w.data.rows ∧ vp.cols = w.data.cols

/-- The layers are live and chained: the weight of each layer has as many rows
as the layer before has columns (`nin` for the first), and its bias is one row
of as many columns as the weight. -/
def LayersShaped (st : Store α) : List Layer → Nat → List Nat → Prop
  | [], _, [] => True
  | l :: ls, nin, nout :: nouts =>
    (∃ vw vb, st.cell l.w = some vw ∧ st.cell l.b = some vb ∧
      vw.data.rows = nin ∧ vw.data.cols = nout ∧ vb.data.rows = 1 ∧ vb.data.cols = nout) ∧
    LayersShaped st ls nout nouts
  | _, _, _ => False

end notions

/-! ## Chains of products

A chain is a path of `operator*` nodes: the terminal `n_0 = e_1 * o_0`, below it
`e_1 = n_1 = e_2 * o_1`, and so on down to the leaf `x`. It is listed as the
pairs `(n_j, o_j)` from the terminal down. -/

section chains

variable {α : Type} [LinearOrderedField α]

/-- The top of a chain: its first node, or the leaf `x` when there is no node. -/
def chainEntry (x : Nat) : List (Nat × Nat) → Nat
  | [] => x
  | (n, _) :: _ => n

/-- The objects of a chain in the order in which `backward` calls their
`_backward`: each node, then its other operand, down to the leaf. -/
def chainOrder (x : Nat) : List (Nat × Nat) → List Nat
  | [] => [x]
  | (n, o) :: ps => n :: o :: chainOrder x ps

/-- The object at `a` is a leaf of shape `r x c`. -/
def IsLeafOf (st : Store α) (r c a : Nat) : Prop :=
  ∃ v, st.cell a = some v ∧ v._prev = [] ∧ v._backward = Closure.noop ∧
    v.data.rows = r ∧ v.data.cols = c ∧ v.grad.rows = r ∧ v.grad.cols = c

/-- The memory holds the chain `ps` over the leaf `x`: every node is the product
that `operator*` built from the object below it and a leaf of its own, all of
shape `r x c`, and no object occurs twice. -/
def MulChain (st : Store α) (r c x : Nat) : List (Nat × Nat) → Prop
  | [] => IsLeafOf st r c x
  | (n, o) :: ps =>
    (∃ v, st.cell n = some v ∧ v._prev = [chainEntry x ps, o] ∧
      v._backward = Closure.mul (chainEntry x ps) o n ∧
      v.data.rows = r ∧ v.data.cols = c ∧ v.grad.rows = r ∧ v.grad.cols = c) ∧
    IsLeafOf st r c o ∧ n ≠ o ∧ n ∉ chainOrder x ps ∧ o ∉ chainOrder x ps ∧
    MulChain st r c x ps

/-- Entry (i, j) of the grad of the object at `a` (0 where no object lives). -/
def gradAt (st : Store α) (a i j : Nat) : α :=
  match st.cell a with
  | some v => v.grad.coeff i j
  | none => 0

/-- Entry (i, j) of the data of the object at `a` (0 where no object lives). -/
def dataAt (st : Store α) (a i j : Nat) : α :=
  match st.cell a with
  | some v => v.data.coeff i j
  | none => 0

/-- What one pass over a chain adds: from the grads of `st` to those of `st1`,
the object below a node and the other operand of the node each gain the product
of the data of the other one with the final grad of the node. -/
def PassRel (st st1 : Store α) (x : Nat) : List (Nat × Nat) → Prop
  | [] => True
  | (n, o) :: ps =>
    (∀ i j, gradAt st1 (chainEntry x ps) i j
      = gradAt st (chainEntry x ps) i j + dataAt st o i j * gradAt st1 n i j) ∧
    (∀ i j, gradAt st1 o i j
      = gradAt st o i j + dataAt st (chainEntry x ps) i j * gradAt st1 n i j) ∧
    PassRel st st1 x ps

/-- The object at `a` is a leaf of shape `r x c` that is registered with itself
(`a->set_self(a)`) and has a zero grad. -/
def IsRegisteredLeaf (st : Store α) (r c a : Nat) : Prop :=
  ∃ v, st.cell a = some v ∧ v._prev = [] ∧ v._backward = Closure.noop ∧
    v._self = some a ∧ v.data.rows = r ∧ v.data.cols = c ∧ v.grad = MatrixXd.Zero r c

end chains

/-! ## Notions for repeated backward on any graph, and for the momentum step -/

section depthNotions
variable {α : Type}

/-- The objects to whose `grad` a `_backward` lambda adds. -/
def Closure.targets : Closure α → List Nat
  | .noop => []
  | .add self_ptr other_ptr _ => [self_ptr, other_ptr]
  | .mul self_ptr other_ptr _ => [self_ptr, other_ptr]
  | .matmul self_ptr other_ptr _ => [self_ptr, other_ptr]
  | .pow self_ptr _ _ => [self_ptr]
  | .relu self_ptr _ => [self_ptr]
  | .sigmoid self_ptr _ _ => [self_ptr]
  | .transpose self_ptr _ => [self_ptr]
  | .flatten self_ptr _ _ _ => [self_ptr]
  | .celoss y_pred_ptr _ _ _ _ => [y_pred_ptr]
  | .mseloss y_pred_ptr _ _ => [y_pred_ptr]

/-- The object whose `grad` a `_backward` lambda reads: its `out_ptr`. -/
def Closure.out : Closure α → Option Nat
  | .noop => none
  | .add _ _ out_ptr => some out_ptr
  | .mul _ _ out_ptr => some out_ptr
  | .matmul _ _ out_ptr => some out_ptr
  | .pow _ out_ptr _ => some out_ptr
  | .relu _ out_ptr => some out_ptr
  | .sigmoid _ out_ptr _ => some out_ptr
  | .transpose _ out_ptr => some out_ptr
  | .flatten _ out_ptr _ _ => some out_ptr
  | .celoss _ out_ptr _ _ _ => some out_ptr
  | .mseloss _ _ out_ptr => some out_ptr

/-- The node at `p` is wired as the operators wire their results: its
`_backward` reads the grad of the node itself (`out_ptr` is the node) and adds
to the grads of entries of its `_prev` only. -/
def Wired (st : Store α) (p : Nat) : Prop :=
  ∀ v, st.cell p = some v →
    (∀ o, v._backward.out = some o → o = p) ∧ ∀ q ∈ v._backward.targets, q ∈ v._prev

/-- `x` is joined to `t` by a path of `k` edges: it is reached from `t` by
following `_prev` exactly `k` times. -/
def JoinedBy (st : Store α) : Nat → Nat → Nat → Prop
  | 0, t, x => x = t
  | k + 1, t, x => ∃ c, IsInput st c t ∧ JoinedBy st k c x

/-- The matrix `B` has the shape of `A` and, when `P` holds, is `m` times `A`
entry by entry. -/
def Scales [Mul α] (P : Prop) (m : α) (A B : MatrixXd α) : Prop :=
  B.rows = A.rows ∧ B.cols = A.cols ∧ (P → ∀ i j, B.coeff i j = m * A.coeff i j)

end depthNotions

section depthPrograms
variable {α : Type} [LinearOrderedField α]

/-- A graph of other operators: registered leaves `a` and `d`, then
`Value y = a->relu() + *d;`. The result is the memory with the addresses of
`a`, `d` and `y`. -/
def relu_plus (st : Store α) (A D : MatrixXd α) : Option (Store α × Nat × Nat × Nat) := do
  let (s0, a) ← Value.registered st A
  let (s1, d) ← Value.registered s0 D
  let (s2, r) ← Value.relu s1 a
  let (s3, y) ← Value.add s2 r d
  some (s3, a, d, y)

end depthPrograms

/-- The memory that `relu_plus` builds from the empty memory on the 1 x 1
matrices `2` and `5`: the leaves at 0 and 1, the node of `relu` at 2, the node
of `+` at 4, and the copies that the operators return at 3 and 5. -/
def relu_plus_memory : Store ℚ :=
  Store.empty.extend
    [Value.mk ⟨1, 1, fun _ _ => 2⟩ (MatrixXd.Zero 1 1) [] Closure.noop "" (some 0),
      Value.mk ⟨1, 1, fun _ _ => 5⟩ (MatrixXd.Zero 1 1) [] Closure.noop "" (some 1),
      Value.mk ⟨1, 1, fun _ _ => 2⟩ (MatrixXd.Zero 1 1) [0] (Closure.relu 0 2) "relu" (some 2),
      Value.mk ⟨1, 1, fun _ _ => 2⟩ (MatrixXd.Zero 1 1) [0] (Closure.relu 0 2) "relu" (some 2),
      Value.mk ⟨1, 1, fun _ _ => 7⟩ (MatrixXd.Zero 1 1) [2, 1] (Closure.add 2 1 4) "+" (some 4),
      Value.mk ⟨1, 1, fun _ _ => 7⟩ (MatrixXd.Zero 1 1) [2, 1] (Closure.add 2 1 4) "+" (some 4)]

section builtNotion
variable {α : Type}

/-- The object `v` at `c` can stand in a graph: it has no lambda that reads a
grad, or it is the node its self-pointer names. -/
def NodeLike (c : Nat) (v : Value α) : Prop :=
  v._backward.out = none ∨ v._self = some c

/-- The invariant of the graphs that the operators build: every input of an
object was created before the object, is live and can stand in a graph; a
lambda reads the grad of the node that the self-pointer of its object names and
adds to grads of inputs of the object only; and a self-pointer names a live
object that can stand in a graph. -/
def Built (st : Store α) : Prop :=
  (∀ p v, st.cell p = some v → ∀ c ∈ v._prev, c < p ∧
    ∃ vc, st.cell c = some vc ∧ NodeLike c vc) ∧
  (∀ p v, st.cell p = some v →
    (∀ o, v._backward.out = some o → v._self = some o) ∧
    ∀ q ∈ v._backward.targets, q ∈ v._prev) ∧
  (∀ p v h, st.cell p = some v → v._self = some h →
    ∃ vh, st.cell h = some vh ∧ NodeLike h vh)

end builtNotion

section nesterovDefs
variable {α : Type} [LinearOrderedField α]

/-- What the rounds of the loop of `NesterovSGD::step` for the indices `idx` add
to entry (r, c) of the data of the object at `q`, whose grad is `g`: for every
index that names `q`, `-mu * v_prev + (1 + mu) * (mu * v_prev - lr * grad)` with
the velocity buffer `v_prev` of that index. -/
def NesterovSGD.increment (o : NesterovSGD α) (g : MatrixXd α) (q : Nat) :
    List Nat → Nat → Nat → α
  | [], _, _ => 0
  | i :: rest, r, c =>
    (if o.parameters[i]? = some q then
      match o.v[i]? with
      | some vp => -o.mu * vp.coeff r c + (1 + o.mu) * (o.mu * vp.coeff r c - o.lr * g.coeff r c)
      | none => 0
    else 0) + NesterovSGD.increment o g q rest r c

end nesterovDefs

/-! ## Lemmas about the store -/

namespace Store

variable {α : Type}

theorem ext_cells {s t : Store α} (h1 : s.next = t.next) (h2 : ∀ q, s.cell q = t.cell q) :
    s = t := by
  cases s; cases t
  simp only at h1 h2
  subst h1
  have h3 := funext h2
  subst h3
  rfl

theorem cell_alloc (st : Store α) (v : Value α) (q : Nat) :
    (st.alloc v).1.cell q = if q = st.next then some v else st.cell q := rfl

theorem next_alloc (st : Store α) (v : Value α) : (st.alloc v).1.next = st.next + 1 := rfl

theorem snd_alloc (st : Store α) (v : Value α) : (st.alloc v).2 = st.next := rfl

theorem cell_write (st : Store α) (p : Nat) (v : Value α) (q : Nat) :
    (st.write p v).cell q = if q = p then (st.cell p).map (fun _ => v) else st.cell q := rfl

theorem next_write (st : Store α) (p : Nat) (v : Value α) : (st.write p v).next = st.next := rfl

theorem lt_next_of_cell {st : Store α} {p : Nat} {v : Value α} (h : st.cell p = some v) :
    p < st.next := by
  by_contra hlt
  rw [st.fresh p (Nat.le_of_not_lt hlt)] at h
  exact Option.noConfusion h

theorem extend_cons (st : Store α) (v : Value α) (xs : List (Value α)) :
    st.extend (v :: xs) = (st.alloc v).1.extend xs := rfl

@[simp]
theorem next_extend (st : Store α) (xs : List (Value α)) :
    (st.extend xs).next = st.next + xs.length := by
  induction xs generalizing st with
  | nil => rfl
  | cons v xs ih =>
    rw [extend_cons, ih, next_alloc, List.length_cons]
    omega

theorem cell_extend (st : Store α) (xs : List (Value α)) (q : Nat) :
    (st.extend xs).cell q = if q < st.next then st.cell q else xs[q - st.next]? := by
  induction xs generalizing st with
  | nil =>
    by_cases h : q < st.next
    · simp [extend, h]
    · simp [extend, h, st.fresh q (Nat.le_of_not_lt h)]
  | cons v xs ih =>
    rw [extend_cons, ih, next_alloc, cell_alloc]
    by_cases h : q < st.next
    · have h1 : q < st.next + 1 := by omega
      have h2 : q ≠ st.next := by omega
      simp [h, h1, h2]
    · by_cases h2 : q = st.next
      · subst h2; simp
      · have h1 : ¬ q < st.next + 1 := by omega
        have h3 : q - st.next = (q - (st.next + 1)) + 1 := by omega
        simp only [h, h1, h2, if_false]
        rw [h3, List.getElem?_cons_succ]

@[simp]
theorem cell_extend_add (st : Store α) (xs : List (Value α)) (k : Nat) :
    (st.extend xs).cell (st.next + k) = xs[k]? := by
  simp [cell_extend]

@[simp]
theorem cell_extend_next (st : Store α) (xs : List (Value α)) :
    (st.extend xs).cell st.next = xs[0]? := by
  simp [cell_extend]

theorem alloc_eq (st : Store α) (v : Value α) : st.alloc v = (st.extend [v], st.next) := rfl

@[simp]
theorem extend_extend (st : Store α) (xs ys : List (Value α)) :
    (st.extend xs).extend ys = st.extend (xs ++ ys) := by
  unfold extend
  rw [List.foldl_append]

@[simp]
theorem alloc_extend (st : Store α) (xs : List (Value α)) (v : Value α) :
    (st.extend xs).alloc v = (st.extend (xs ++ [v]), st.next + xs.length) := by
  rw [alloc_eq, extend_extend, next_extend]

@[simp]
theorem write_extend (st : Store α) (xs : List (Value α)) (k : Nat) (v : Value α) :
    (st.extend xs).write (st.next + k) v = st.extend (xs.set k v) := by
  apply ext_cells
  · simp [next_write, next_extend]
  · intro q
    simp only [cell_write, cell_extend]
    by_cases h : q < st.next
    · have h1 : q ≠ st.next + k := by omega
      simp [h, h1]
    · by_cases h2 : q = st.next + k
      · subst h2
        by_cases h3 : k < xs.length
        · simp [List.getElem?_set, h3]
        · simp [List.getElem?_set, h3]
          omega
      · simp only [h, h2, if_false]
        rw [List.getElem?_set_ne]
        omega

@[simp]
theorem write_extend_next (st : Store α) (xs : List (Value α)) (v : Value α) :
    (st.extend xs).write st.next v = st.extend (xs.set 0 v) :=
  write_extend st xs 0 v

end Store

/-! ## Fuel of `build_topo` -/

section fuel

variable {α : Type}

theorem foldlM_build_topo_succ (st : Store α) (f : Nat)
    (ih : ∀ (v : Nat) (acc r : List Nat × List Nat),
      Value.build_topo st f v acc = some r → Value.build_topo st (f + 1) v acc = some r) :
    ∀ (l : List Nat) (a b : List Nat × List Nat),
      List.foldlM (fun acc child => Value.build_topo st f child acc) a l = some b →
      List.foldlM (fun acc child => Value.build_topo st (f + 1) child acc) a l = some b := by
  intro l
  induction l with
  | nil => intro a b h; simpa using h
  | cons c l ihl =>
    intro a b h
    simp only [List.foldlM_cons, Option.bind_eq_bind] at h ⊢
    cases h1 : Value.build_topo st f c a with
    | none => simp [h1] at h
    | some a1 =>
      rw [h1] at h
      rw [ih c a a1 h1]
      exact ihl a1 b h

/-- One more unit of fuel does not change a result of `build_topo`. -/
theorem build_topo_succ (st : Store α) (f : Nat) :
    ∀ (v : Nat) (acc r : List Nat × List Nat),
      Value.build_topo st f v acc = some r → Value.build_topo st (f + 1) v acc = some r := by
  induction f with
  | zero => intro v acc r h; simp [Value.build_topo] at h
  | succ f ih =>
    intro v acc r h
    obtain ⟨visited, topo⟩ := acc
    rw [Value.build_topo] at h
    rw [Value.build_topo]
    by_cases hv : v ∈ visited
    · simpa [hv] using h
    · simp only [hv, if_false] at h ⊢
      cases hc : st.cell v with
      | none => simp [hc] at h
      | some node =>
        simp only [hc, Option.bind_eq_bind, Option.some_bind] at h ⊢
        cases h2 : List.foldlM (fun acc child => Value.build_topo st f child acc)
            (v :: visited, topo) node._prev with
        | none => simp [h2] at h
        | some b =>
          rw [h2] at h
          rw [foldlM_build_topo_succ st f ih _ _ _ h2]
          exact h

/-- More fuel does not change a result of `build_topo`. -/
theorem build_topo_of_le (st : Store α) (g f : Nat) (v : Nat) (acc : List Nat × List Nat)
    (hle : g ≤ f) (hs : (Value.build_topo st g v acc).isSome) :
    Value.build_topo st f v acc = Value.build_topo st g v acc := by
  obtain ⟨r, hr⟩ := Option.isSome_iff_exists.mp hs
  rw [hr]
  obtain ⟨k, rfl⟩ := Nat.exists_eq_add_of_le hle
  induction k with
  | zero => exact hr
  | succ k ih => exact build_topo_succ st _ v acc r (ih (Nat.le_add_right _ _))

end fuel

/-! ## Running the closures on a store in normal form -/

section closures

variable {α : Type} [LinearOrderedField α]

@[simp]
theorem run_noop (st : Store α) : Closure.run st (.noop) = some st := rfl

@[simp]
theorem run_add (st : Store α) (self_ptr other_ptr out_ptr : Nat) :
    Closure.run st (.add self_ptr other_ptr out_ptr) =
      (st.cell out_ptr).bind fun o => (st.cell self_ptr).bind fun s =>
        (Value.addGrad st self_ptr
          (Value.broadcast_backward o.grad s.data.rows s.data.cols)).bind fun st1 =>
        (st1.cell out_ptr).bind fun o1 => (st1.cell other_ptr).bind fun t =>
          Value.addGrad st1 other_ptr
            (Value.broadcast_backward o1.grad t.data.rows t.data.cols) := rfl

@[simp]
theorem run_mul (st : Store α) (self_ptr other_ptr out_ptr : Nat) :
    Closure.run st (.mul self_ptr other_ptr out_ptr) =
      (st.cell out_ptr).bind fun o => (st.cell self_ptr).bind fun s =>
        (st.cell other_ptr).bind fun t =>
        (t.data.cwiseProduct o.grad).bind fun grad_self =>
        (s.data.cwiseProduct o.grad).bind fun grad_other =>
        (Value.addGrad st self_ptr
          (Value.broadcast_backward grad_self s.data.rows s.data.cols)).bind fun st1 =>
        (st1.cell other_ptr).bind fun t1 =>
          Value.addGrad st1 other_ptr
            (Value.broadcast_backward grad_other t1.data.rows t1.data.cols) := rfl

@[simp]
theorem run_matmul (st : Store α) (self_ptr other_ptr out_ptr : Nat) :
    Closure.run st (.matmul self_ptr other_ptr out_ptr) =
      (st.cell out_ptr).bind fun o => (st.cell other_ptr).bind fun t =>
        (o.grad.mul t.data.transpose).bind fun g =>
        (Value.addGrad st self_ptr g).bind fun st1 =>
        (st1.cell self_ptr).bind fun s1 => (st1.cell out_ptr).bind fun o1 =>
        (s1.data.transpose.mul o1.grad).bind fun h =>
          Value.addGrad st1 other_ptr h := rfl

@[simp]
theorem run_pow (st : Store α) (self_ptr out_ptr : Nat) (exponent : ℤ) :
    Closure.run st (.pow self_ptr out_ptr exponent) =
      (st.cell out_ptr).bind fun o => (st.cell self_ptr).bind fun s =>
        ((MatrixXd.scale (exponent : α) (s.data.cwisePow (exponent - 1))).cwiseProduct
          o.grad).bind fun g => Value.addGrad st self_ptr g := rfl

@[simp]
theorem run_relu (st : Store α) (self_ptr out_ptr : Nat) :
    Closure.run st (.relu self_ptr out_ptr) =
      (st.cell out_ptr).bind fun o =>
        (o.data.positiveMask.cwiseProduct o.grad).bind fun g =>
          Value.addGrad st self_ptr g := rfl

@[simp]
theorem run_celoss (st : Store α) (y_pred_ptr out_ptr : Nat)
    (probs true_labels_oh : MatrixXd α) (n_samples : Nat) :
    Closure.run st (.celoss y_pred_ptr out_ptr probs true_labels_oh n_samples) =
      (st.cell out_ptr).bind fun o => (probs.sub true_labels_oh).bind fun d =>
        Value.addGrad st y_pred_ptr
          (MatrixXd.scale (o.grad.coeff 0 0) (d.divScalar (n_samples : α))) := rfl

@[simp]
theorem addGrad_extend (st : Store α) (xs : List (Value α)) (k : Nat) (m : MatrixXd α) :
    Value.addGrad (st.extend xs) (st.next + k) m =
      (xs[k]?).bind fun v => (v.grad.addAssign m).bind fun g =>
        some (st.extend (xs.set k { v with grad := g })) := by
  simp [Value.addGrad, Store.cell_extend_add, Store.write_extend]

@[simp]
theorem addGrad_extend_next (st : Store α) (xs : List (Value α)) (m : MatrixXd α) :
    Value.addGrad (st.extend xs) st.next m =
      (xs[0]?).bind fun v => (v.grad.addAssign m).bind fun g =>
        some (st.extend (xs.set 0 { v with grad := g })) :=
  addGrad_extend st xs 0 m

@[simp]
theorem runClosure_extend (st : Store α) (xs : List (Value α)) (k : Nat) :
    Value.runClosure (st.extend xs) (st.next + k) =
      (xs[k]?).bind fun node => node._backward.run (st.extend xs) := by
  simp [Value.runClosure, Store.cell_extend_add]

@[simp]
theorem runClosure_extend_next (st : Store α) (xs : List (Value α)) :
    Value.runClosure (st.extend xs) st.next =
      (xs[0]?).bind fun node => node._backward.run (st.extend xs) :=
  runClosure_extend st xs 0

end closures

/-! ## C1: the first test -/

section c1

variable {α : Type} [LinearOrderedField α]

set_option maxHeartbeats 1000000 in
/-- Test 1 run from any memory, for all scalars: it succeeds, the objects `a`
and `b` keep a zero `grad`, and the contributions `y` and `2 * x` to the
derivative by `a` land in two separate copies of `a` that `get_self_ptr` made. -/
theorem test_basic_operations_run (st : Store α) (x y : α) :
    ∃ s va vb va1 va2, test_basic_operations st x y = some (s, st.next, st.next + 1, st.next + 10) ∧
      s.cell st.next = some va ∧ s.cell (st.next + 1) = some vb ∧
      s.cell (st.next + 2) = some va1 ∧ s.cell (st.next + 6) = some va2 ∧
      va.grad = MatrixXd.Zero 1 1 ∧ vb.grad = MatrixXd.Zero 1 1 ∧
      va1.grad.coeff 0 0 = y ∧ va2.grad.coeff 0 0 = 2 * x := by
  unfold test_basic_operations
  simp only [Store.alloc_eq, Store.alloc_extend, Store.extend_extend, List.append_eq,
    List.cons_append, List.nil_append, List.length_cons, List.length_nil, Nat.zero_add,
    Nat.add_zero, Nat.reduceAdd]
  simp [Value.mul, Value.get_self_ptr, Value.publish, Value.ofMatrix, Store.lock,
    MatrixXd.cwiseProduct, MatrixXd.zipWith, MatrixXd.sameShape, MatrixXd.Constant,
    Store.alloc_eq, Nat.add_assoc]
  simp [Value.pow, Value.get_self_ptr, Value.publish, Value.ofMatrix, Store.lock,
    MatrixXd.cwisePow, MatrixXd.map, Store.alloc_eq, Nat.add_assoc]
  simp [Value.add, Value.addResult, Value.get_self_ptr, Value.publish, Value.ofMatrix, Store.lock,
    MatrixXd.add, MatrixXd.zipWith, MatrixXd.sameShape, Store.alloc_eq, Nat.add_assoc]
  simp [Value.backward, Value.get_self_ptr, Store.lock, Nat.add_assoc]
  rw [build_topo_of_le _ 4 _ _ _ (by omega) (by simp [Value.build_topo])]
  simp [Value.build_topo]
  simp [Store.modify]
  simp [Value.runClosures, Value.runAll, Value.broadcast_backward,
    MatrixXd.addAssign, MatrixXd.add, MatrixXd.zipWith, MatrixXd.sameShape, MatrixXd.Zero,
    MatrixXd.Ones, MatrixXd.Constant, MatrixXd.cwiseProduct, MatrixXd.scale,
    MatrixXd.cwisePow, MatrixXd.map]

/-- C1, evaluated at the input of the test, `x = 2` and `y = 3`: after
`c.backward()` the objects `a` and `b` that the test reads hold `grad = 0`,
where the test expects 7 and 2. -/
theorem test_basic_operations_reads_zero :
    ∃ s a b c va vb, test_basic_operations (Store.empty : Store ℚ) 2 3 = some (s, a, b, c) ∧
      s.cell a = some va ∧ s.cell b = some vb ∧
      va.grad.coeff 0 0 = 0 ∧ vb.grad.coeff 0 0 = 0 := by
  obtain ⟨s, va, vb, va1, va2, h, ha, hb, _, _, hga, hgb, _, _⟩ :=
    test_basic_operations_run (Store.empty : Store ℚ) 2 3
  exact ⟨s, _, _, _, va, vb, h, ha, hb, by rw [hga]; rfl, by rw [hgb]; rfl⟩

end c1

/-! ## C2, C3, C4: gradients at registered leaves -/

section leaves

variable {α : Type} [LinearOrderedField α]

theorem registered_extend (st : Store α) (xs : List (Value α)) (data : MatrixXd α) :
    Value.registered (st.extend xs) data =
      some (st.extend (xs ++ [{ Value.ofMatrix data with _self := some (st.next + xs.length) }]),
        st.next + xs.length) := by
  simp [Value.registered, Value.set_self, Store.modify, Store.alloc_eq]

theorem registered_eq (st : Store α) (data : MatrixXd α) :
    Value.registered st data =
      some (st.extend [{ Value.ofMatrix data with _self := some st.next }], st.next) := by
  have h := registered_extend st [] data
  simpa [Store.extend] using h

set_option maxHeartbeats 1000000 in
/-- C2: for registered leaves `a`, `b`, `d` of one shape, after
`c = a * b + a * d` and `c.backward()` the grad of `a` is `b.data + d.data`
entry by entry (both branches add up), and the grads of `b` and `d` are
`a.data`. -/
theorem fan_out_accumulates (st : Store α) (r c : Nat) (fa fb fd : Nat → Nat → α) :
    ∃ s a b d y va vb vd,
      fan_out st ⟨r, c, fa⟩ ⟨r, c, fb⟩ ⟨r, c, fd⟩ = some (s, a, b, d, y) ∧
      s.cell a = some va ∧ s.cell b = some vb ∧ s.cell d = some vd ∧
      va.data = ⟨r, c, fa⟩ ∧ vb.data = ⟨r, c, fb⟩ ∧ vd.data = ⟨r, c, fd⟩ ∧
      va.grad = ⟨r, c, fun i j => fb i j + fd i j⟩ ∧
      vb.grad = ⟨r, c, fa⟩ ∧ vd.grad = ⟨r, c, fa⟩ := by
  unfold fan_out
  rw [registered_eq]
  simp only [Option.bind_eq_bind, Option.some_bind, registered_extend]
  simp [Value.mul, Value.get_self_ptr, Value.publish, Value.ofMatrix, Store.lock,
    MatrixXd.cwiseProduct, MatrixXd.zipWith, MatrixXd.sameShape, MatrixXd.Constant,
    Store.alloc_eq, Nat.add_assoc]
  simp [Value.add, Value.addResult, Value.get_self_ptr, Value.publish, Value.ofMatrix, Store.lock,
    MatrixXd.add, MatrixXd.zipWith, MatrixXd.sameShape, Store.alloc_eq, Nat.add_assoc]
  simp [Value.backward, Value.get_self_ptr, Store.lock, Nat.add_assoc]
  rw [build_topo_of_le _ 4 _ _ _ (by omega) (by simp [Value.build_topo])]
  simp [Value.build_topo]
  simp [Store.modify]
  simp [Value.runClosures, Value.runAll, Value.broadcast_backward,
    MatrixXd.addAssign, MatrixXd.add, MatrixXd.zipWith, MatrixXd.sameShape, MatrixXd.Zero,
    MatrixXd.Ones, MatrixXd.Constant, MatrixXd.cwiseProduct, MatrixXd.scale,
    MatrixXd.cwisePow, MatrixXd.map]
  refine ⟨_, _, _, _, ⟨rfl, rfl, rfl, rfl⟩, ?_⟩
  simp [add_comm]

set_option maxHeartbeats 1000000 in
/-- Broadcast add with a one-row `X`: the shapes agree and no broadcast happens. -/
theorem bias_add_one_row (st : Store α) (reg : Bool) (N : Nat) (fx fb : Nat → Nat → α) :
    ∃ s x b y vb vy,
      bias_add st reg ⟨1, N, fx⟩ ⟨1, N, fb⟩ = some (s, x, b, y) ∧
      s.cell b = some vb ∧ s.cell y = some vy ∧
      vy.data = ⟨1, N, fun i j => fx i j + fb i j⟩ ∧
      vb.grad = ⟨1, N, fun _ _ => 1⟩ := by
  unfold bias_add
  cases reg
  · simp only [Store.alloc_eq, Bool.false_eq_true, if_false, Option.bind_eq_bind, Option.some_bind, registered_extend]
    simp [Value.add, Value.addResult, Value.get_self_ptr, Value.publish, Value.ofMatrix, Store.lock,
      MatrixXd.add, MatrixXd.zipWith, MatrixXd.sameShape, Store.alloc_eq, Nat.add_assoc]
    simp [Value.backward, Value.get_self_ptr, Store.lock, Nat.add_assoc]
    rw [build_topo_of_le _ 4 _ _ _ (by omega) (by simp [Value.build_topo])]
    simp [Value.build_topo]
    simp [Store.modify]
    simp [Value.runClosures, Value.runAll, Value.broadcast_backward,
      MatrixXd.addAssign, MatrixXd.add, MatrixXd.zipWith, MatrixXd.sameShape, MatrixXd.Zero,
      MatrixXd.Ones, MatrixXd.Constant]
    refine ⟨_, _, _, _, ⟨rfl, rfl, rfl, rfl⟩, ?_⟩
    simp
  · rw [if_pos rfl, registered_eq]
    simp only [Option.bind_eq_bind, Option.some_bind, registered_extend]
    simp [Value.add, Value.addResult, Value.get_self_ptr, Value.publish, Value.ofMatrix, Store.lock,
      MatrixXd.add, MatrixXd.zipWith, MatrixXd.sameShape, Store.alloc_eq, Nat.add_assoc]
    simp [Value.backward, Value.get_self_ptr, Store.lock, Nat.add_assoc]
    rw [build_topo_of_le _ 4 _ _ _ (by omega) (by simp [Value.build_topo])]
    simp [Value.build_topo]
    simp [Store.modify]
    simp [Value.runClosures, Value.runAll, Value.broadcast_backward,
      MatrixXd.addAssign, MatrixXd.add, MatrixXd.zipWith, MatrixXd.sameShape, MatrixXd.Zero,
      MatrixXd.Ones, MatrixXd.Constant]
    refine ⟨_, _, _, _, ⟨rfl, rfl, rfl, rfl⟩, ?_⟩
    simp

set_option maxHeartbeats 1000000 in
/-- Broadcast add with at least two rows: the bias gradient is the column sum. -/
theorem bias_add_many_rows (st : Store α) (reg : Bool) (M N : Nat) (hM : 1 < M)
    (fx fb : Nat → Nat → α) :
    ∃ s x b y vb vy,
      bias_add st reg ⟨M, N, fx⟩ ⟨1, N, fb⟩ = some (s, x, b, y) ∧
      s.cell b = some vb ∧ s.cell y = some vy ∧
      vy.data = ⟨M, N, fun i j => fx i j + fb 0 j⟩ ∧
      vb.grad = ⟨1, N, fun _ _ => (M : α)⟩ := by
  have hM1 : M ≠ 1 := by omega
  have hM1' : ¬ (1 = M) := by omega
  have hN : ¬ (N = 1 ∧ 1 < N) := by omega
  unfold bias_add
  cases reg
  · simp only [Store.alloc_eq, Bool.false_eq_true, if_false, Option.bind_eq_bind, Option.some_bind, registered_extend]
    simp [Value.add, Value.addResult, Value.get_self_ptr, Value.publish, Value.ofMatrix, Store.lock,
      MatrixXd.add, MatrixXd.zipWith, MatrixXd.sameShape, MatrixXd.rowwiseAdd, Store.alloc_eq, Nat.add_assoc, hM1, hM]
    simp [Value.backward, Value.get_self_ptr, Store.lock, Nat.add_assoc]
    rw [build_topo_of_le _ 4 _ _ _ (by omega) (by simp [Value.build_topo])]
    simp [Value.build_topo]
    simp [Store.modify]
    simp [Value.runClosures, Value.runAll, Value.broadcast_backward,
      MatrixXd.addAssign, MatrixXd.add, MatrixXd.zipWith, MatrixXd.sameShape, MatrixXd.Zero,
      MatrixXd.Ones, MatrixXd.Constant, MatrixXd.colwiseSum, MatrixXd.rowwiseSum, hM1, hM, hM1', hN]
    refine ⟨_, _, _, _, ⟨rfl, rfl, rfl, rfl⟩, ?_⟩
    simp
  · rw [if_pos rfl, registered_eq]
    simp only [Option.bind_eq_bind, Option.some_bind, registered_extend]
    simp [Value.add, Value.addResult, Value.get_self_ptr, Value.publish, Value.ofMatrix, Store.lock,
      MatrixXd.add, MatrixXd.zipWith, MatrixXd.sameShape, MatrixXd.rowwiseAdd, Store.alloc_eq, Nat.add_assoc, hM1, hM]
    simp [Value.backward, Value.get_self_ptr, Store.lock, Nat.add_assoc]
    rw [build_topo_of_le _ 4 _ _ _ (by omega) (by simp [Value.build_topo])]
    simp [Value.build_topo]
    simp [Store.modify]
    simp [Value.runClosures, Value.runAll, Value.broadcast_backward,
      MatrixXd.addAssign, MatrixXd.add, MatrixXd.zipWith, MatrixXd.sameShape, MatrixXd.Zero,
      MatrixXd.Ones, MatrixXd.Constant, MatrixXd.colwiseSum, MatrixXd.rowwiseSum, hM1, hM, hM1', hN]
    refine ⟨_, _, _, _, ⟨rfl, rfl, rfl, rfl⟩, ?_⟩
    simp

/-- C3: for `M ≥ 1`, an `M × N` leaf `X` (registered or a plain object) and a
registered `1 × N` bias `b`, the node `y = X + b` is `M × N` with
`y(i, j) = X(i, j) + b(0, j)`, and after `y.backward()` the grad of `b` is
`1 × N` with every entry equal to `M`. -/
theorem bias_add_gradient (st : Store α) (reg : Bool) (M N : Nat) (hM : 1 ≤ M)
    (fx fb : Nat → Nat → α) :
    ∃ s x b y vb vy,
      bias_add st reg ⟨M, N, fx⟩ ⟨1, N, fb⟩ = some (s, x, b, y) ∧
      s.cell b = some vb ∧ s.cell y = some vy ∧
      vy.data.rows = M ∧ vy.data.cols = N ∧
      (∀ i j, i < M → j < N → vy.data.coeff i j = fx i j + fb 0 j) ∧
      vb.grad.rows = 1 ∧ vb.grad.cols = N ∧
      (∀ i j, i < 1 → j < N → vb.grad.coeff i j = (M : α)) := by
  rcases Nat.eq_or_lt_of_le hM with h1 | h1
  · subst h1
    obtain ⟨s, x, b, y, vb, vy, h, hb, hy, hd, hg⟩ := bias_add_one_row st reg N fx fb
    refine ⟨s, x, b, y, vb, vy, h, hb, hy, ?_⟩
    rw [hd, hg]
    refine ⟨rfl, rfl, ?_, rfl, rfl, ?_⟩
    · intro i j hi _
      have : i = 0 := by omega
      subst this
      rfl
    · intro i j _ _
      simp
  · obtain ⟨s, x, b, y, vb, vy, h, hb, hy, hd, hg⟩ := bias_add_many_rows st reg M N h1 fx fb
    refine ⟨s, x, b, y, vb, vy, h, hb, hy, ?_⟩
    rw [hd, hg]
    exact ⟨rfl, rfl, fun _ _ _ _ => rfl, rfl, rfl, fun _ _ _ _ => rfl⟩

/-- C3 at `M = 3`, `N = 2`, with `X(i, j) = i + j` and `b(0, j) = j`. -/
theorem bias_add_gradient_witness :
    1 ≤ 3 ∧ ∃ s x b y vb vy,
      bias_add (Store.empty : Store ℚ) true ⟨3, 2, fun i j => (i : ℚ) + j⟩
        ⟨1, 2, fun _ j => (j : ℚ)⟩ = some (s, x, b, y) ∧
      s.cell b = some vb ∧ s.cell y = some vy ∧
      vy.data.rows = 3 ∧ vy.data.cols = 2 ∧
      (∀ i j, i < 3 → j < 2 → vy.data.coeff i j = ((i : ℚ) + j) + (j : ℚ)) ∧
      vb.grad.rows = 1 ∧ vb.grad.cols = 2 ∧
      (∀ i j, i < 1 → j < 2 → vb.grad.coeff i j = ((3 : Nat) : ℚ)) :=
  ⟨by decide, bias_add_gradient (Store.empty : Store ℚ) true 3 2 (by decide)
    (fun i j => (i : ℚ) + j) (fun _ j => (j : ℚ))⟩

set_option maxHeartbeats 1000000 in
/-- C4: for registered leaves `x` (`M × K`) and `w` (`K × N`), `x.matmul(w)` is
the `M × N` matrix product, and after backward from it the grad of `x` is
`Ones(M, N) * w.data.transpose()` (`M × K`) and the grad of `w` is
`x.data.transpose() * Ones(M, N)` (`K × N`). -/
theorem matmul_backward_grads (st : Store α) (M K N : Nat) (fx fw : Nat → Nat → α) :
    ∃ s x w y vx vw vy,
      matmul_backward st ⟨M, K, fx⟩ ⟨K, N, fw⟩ = some (s, x, w, y) ∧
      s.cell x = some vx ∧ s.cell w = some vw ∧ s.cell y = some vy ∧
      vx.data = ⟨M, K, fx⟩ ∧ vw.data = ⟨K, N, fw⟩ ∧
      vy.data.rows = M ∧ vy.data.cols = N ∧
      MatrixXd.mul ⟨M, K, fx⟩ ⟨K, N, fw⟩ = some vy.data ∧
      vx.grad.rows = M ∧ vx.grad.cols = K ∧
      (MatrixXd.Ones M N).mul (MatrixXd.transpose ⟨K, N, fw⟩) = some vx.grad ∧
      vw.grad.rows = K ∧ vw.grad.cols = N ∧
      (MatrixXd.transpose ⟨M, K, fx⟩).mul (MatrixXd.Ones M N) = some vw.grad := by
  unfold matmul_backward
  rw [registered_eq]
  simp only [Option.bind_eq_bind, Option.some_bind, registered_extend]
  simp [Value.matmul, Value.get_self_ptr, Value.publish, Value.ofMatrix, Store.lock,
    MatrixXd.mul, Store.alloc_eq, Nat.add_assoc]
  simp [Value.backward, Value.get_self_ptr, Store.lock, Nat.add_assoc]
  rw [build_topo_of_le _ 4 _ _ _ (by omega) (by simp [Value.build_topo])]
  simp [Value.build_topo]
  simp [Store.modify]
  simp [Value.runClosures, Value.runAll,
    MatrixXd.addAssign, MatrixXd.add, MatrixXd.zipWith, MatrixXd.sameShape, MatrixXd.Zero,
    MatrixXd.Ones, MatrixXd.Constant, MatrixXd.mul, MatrixXd.transpose]
  refine ⟨_, _, _, _, ⟨rfl, rfl, rfl, rfl⟩, ?_⟩
  simp

end leaves

/-! ## C6: the gradient of the fused cross-entropy node -/

section crossEntropy

variable {α : Type} [LinearOrderedField α]


/-- The one-hot loop after `n` rounds. -/
theorem oneHot_loop (N K : Nat) (labels : List ℤ) (hlen : N ≤ labels.length)
    (hval : ∀ l ∈ labels, 0 ≤ l ∧ l < (K : ℤ)) (n : Nat) (hn : n ≤ N) :
    (List.range n).foldlM (fun (oh : MatrixXd α) i => do
      let l ← labels[i]?
      if 0 ≤ l ∧ l < (K : ℤ) then some (oh.setCoeff i l.toNat 1) else none)
      (MatrixXd.Zero N K) =
    some ⟨N, K, fun i j => if i < n ∧ (labels.getD i 0).toNat = j then 1 else 0⟩ := by
  induction n with
  | zero => simp [MatrixXd.Zero, MatrixXd.Constant]
  | succ n ih =>
    have hlt : n < labels.length := by omega
    have hmem : labels[n] ∈ labels := List.getElem_mem hlt
    rw [List.range_succ, List.foldlM_append, ih (by omega)]
    simp only [Option.bind_eq_bind, Option.some_bind, List.foldlM_cons, List.foldlM_nil,
      List.getElem?_eq_getElem hlt, hval _ hmem, and_self, if_true, Option.pure_def,
      Option.bind_some, MatrixXd.setCoeff]
    congr 1
    congr 1
    funext i j
    by_cases hi : i = n
    · subst hi
      simp [List.getElem?_eq_getElem hlt, eq_comm]
    · have h1 : (i < n + 1) = (i < n) := by
        apply propext; constructor <;> intro h <;> omega
      simp [hi, h1]

/-- The one-hot matrix of a valid label vector. -/
theorem oneHot_eq (N K : Nat) (labels : List ℤ) (hlen : labels.length = N)
    (hval : ∀ l ∈ labels, 0 ≤ l ∧ l < (K : ℤ)) :
    (oneHot N K labels : Option (MatrixXd α)) =
      some ⟨N, K, fun i j => if i < N ∧ (labels.getD i 0).toNat = j then 1 else 0⟩ :=
  oneHot_loop N K labels (by omega) hval N (Nat.le_refl N)



/-- With at least one column `softmax` returns a matrix of the shape of its argument. -/
theorem softmax_eq (exp : α → α) (N K : Nat) (hK : 0 < K) (f : Nat → Nat → α) :
    ∃ p : MatrixXd α, softmax exp ⟨N, K, f⟩ = some p ∧ p.rows = N ∧ p.cols = K := by
  simp [softmax, hK]

set_option maxHeartbeats 1000000 in
/-- The run of the cross-entropy program, with the grad of the logits in closed form. -/
theorem cross_entropy_backward_run (exp log : α → α) (st : Store α) (N K : Nat) (hK : 0 < K)
    (f : Nat → Nat → α) (labels : List ℤ) (hlen : labels.length = N)
    (hval : ∀ l ∈ labels, 0 ≤ l ∧ l < (K : ℤ)) :
    ∃ s l loss vl p,
      cross_entropy_backward exp log st ⟨N, K, f⟩ labels = some (s, l, loss) ∧
      s.cell l = some vl ∧ softmax exp ⟨N, K, f⟩ = some p ∧
      vl.grad = ⟨N, K, fun i j =>
        (min (max (p.coeff i j) EPS) (1 - EPS) -
          (if i < N ∧ (labels.getD i 0).toNat = j then 1 else 0)) / (N : α)⟩ := by
  obtain ⟨p, hp, hpr, hpc⟩ := softmax_eq exp N K hK f
  unfold cross_entropy_backward
  rw [registered_eq]
  simp only [Option.bind_eq_bind, Option.some_bind]
  simp [CrossEntropyLoss.forward, hp, hpr, hpc, oneHot_eq N K labels hlen hval,
    MatrixXd.cwiseProduct, MatrixXd.zipWith, MatrixXd.sameShape, MatrixXd.cwiseMax,
    MatrixXd.cwiseMin, MatrixXd.map,
    Value.get_self_ptr, Value.publish, Value.ofMatrix, Store.lock, Store.alloc_eq, Nat.add_assoc]
  simp [Value.backward, Value.get_self_ptr, Store.lock, Nat.add_assoc]
  rw [build_topo_of_le _ 4 _ _ _ (by omega) (by simp [Value.build_topo])]
  simp [Value.build_topo]
  simp [Store.modify]
  simp [Value.runClosures, Value.runAll, hpr, hpc,
    MatrixXd.addAssign, MatrixXd.add, MatrixXd.sub, MatrixXd.zipWith, MatrixXd.sameShape, MatrixXd.Zero,
    MatrixXd.Ones, MatrixXd.Constant, MatrixXd.scale, MatrixXd.divScalar, MatrixXd.map]
  refine ⟨_, _, ⟨rfl, rfl⟩, ?_⟩
  simp

theorem label_toNat_eq_iff (K : Nat) (labels : List ℤ)
    (hval : ∀ l ∈ labels, 0 ≤ l ∧ l < (K : ℤ)) (i j : Nat) (hi : i < labels.length) :
    (labels.getD i 0).toNat = j ↔ labels.getD i 0 = (j : ℤ) := by
  have hget : labels.getD i 0 = labels[i] := by
    simp [List.getD, List.getElem?_eq_getElem hi]
  have hnn : 0 ≤ labels[i] := (hval _ (List.getElem_mem hi)).1
  rw [hget]
  omega

/-- C6 as amended: for `K ≥ 1`, registered `N × K` logits and `N` labels in
`[0, K)`, after `CrossEntropyLoss::forward(logits, labels).backward()` the grad
of the logits is `N × K` with entries `(q(i, j) - y(i, j)) / N`, where `q` is
the row-wise softmax clamped to `[EPS, 1 - EPS]` and `y` the one-hot encoding;
at every entry where the softmax `p` itself lies in `[EPS, 1 - EPS]` this is
`(p(i, j) - y(i, j)) / N`. -/
theorem cross_entropy_gradient_clamped (exp log : α → α) (st : Store α) (N K : Nat)
    (hK : 0 < K) (f : Nat → Nat → α) (labels : List ℤ) (hlen : labels.length = N)
    (hval : ∀ l ∈ labels, 0 ≤ l ∧ l < (K : ℤ)) :
    ∃ s l loss vl p,
      cross_entropy_backward exp log st ⟨N, K, f⟩ labels = some (s, l, loss) ∧
      s.cell l = some vl ∧ softmax exp ⟨N, K, f⟩ = some p ∧
      vl.grad.rows = N ∧ vl.grad.cols = K ∧
      (∀ i j, i < N → j < K → vl.grad.coeff i j =
        (min (max (p.coeff i j) EPS) (1 - EPS) -
          (if labels.getD i 0 = (j : ℤ) then 1 else 0)) / (N : α)) ∧
      (∀ i j, i < N → j < K → EPS ≤ p.coeff i j → p.coeff i j ≤ 1 - EPS →
        vl.grad.coeff i j =
          (p.coeff i j - (if labels.getD i 0 = (j : ℤ) then 1 else 0)) / (N : α)) := by
  obtain ⟨s, l, loss, vl, p, h, hl, hp, hg⟩ :=
    cross_entropy_backward_run exp log st N K hK f labels hlen hval
  have key : ∀ i j, i < N → j < K → vl.grad.coeff i j =
      (min (max (p.coeff i j) EPS) (1 - EPS) -
        (if labels.getD i 0 = (j : ℤ) then 1 else 0)) / (N : α) := by
    intro i j hi hj
    rw [hg]
    have hiff := label_toNat_eq_iff K labels hval i j (by omega)
    simp only [hi, true_and, hiff]
  refine ⟨s, l, loss, vl, p, h, hl, hp, by rw [hg], by rw [hg], key, ?_⟩
  intro i j hi hj h1 h2
  rw [key i j hi hj, max_eq_left h1, min_eq_left h2]

/-- C6 as amended, at one sample and one class over the reals. -/
theorem cross_entropy_gradient_clamped_witness :
    0 < 1 ∧ [(0 : ℤ)].length = 1 ∧ (∀ l ∈ [(0 : ℤ)], 0 ≤ l ∧ l < ((1 : Nat) : ℤ)) ∧
    ∃ s l loss vl p,
      cross_entropy_backward Real.exp Real.log (Store.empty : Store ℝ) ⟨1, 1, fun _ _ => 0⟩
        [0] = some (s, l, loss) ∧
      s.cell l = some vl ∧ softmax Real.exp ⟨1, 1, fun _ _ => (0 : ℝ)⟩ = some p ∧
      vl.grad.rows = 1 ∧ vl.grad.cols = 1 ∧
      (∀ i j, i < 1 → j < 1 → vl.grad.coeff i j =
        (min (max (p.coeff i j) EPS) (1 - EPS) -
          (if [(0 : ℤ)].getD i 0 = (j : ℤ) then 1 else 0)) / ((1 : Nat) : ℝ)) ∧
      (∀ i j, i < 1 → j < 1 → EPS ≤ p.coeff i j → p.coeff i j ≤ 1 - EPS →
        vl.grad.coeff i j =
          (p.coeff i j - (if [(0 : ℤ)].getD i 0 = (j : ℤ) then 1 else 0)) / ((1 : Nat) : ℝ)) :=
  ⟨by decide, rfl, by simp,
    cross_entropy_gradient_clamped Real.exp Real.log (Store.empty : Store ℝ) 1 1 (by decide)
      (fun _ _ => 0) [0] rfl (by simp)⟩

/-- C6 as stated fails at one sample and one class: the softmax is `p = 1` and
the label is `0`, so `(p - y) / N = 0`, but the grad the code leaves is
`(1 - EPS) - 1`, which is not zero. -/
theorem cross_entropy_gradient_counterexample :
    ∃ s l loss vl p,
      cross_entropy_backward Real.exp Real.log (Store.empty : Store ℝ) ⟨1, 1, fun _ _ => 0⟩
        [0] = some (s, l, loss) ∧
      s.cell l = some vl ∧ softmax Real.exp ⟨1, 1, fun _ _ => (0 : ℝ)⟩ = some p ∧
      vl.grad.coeff 0 0 ≠ (p.coeff 0 0 - 1) / ((1 : Nat) : ℝ) := by
  obtain ⟨s, l, loss, vl, p, h, hl, hp, hg⟩ :=
    cross_entropy_backward_run Real.exp Real.log (Store.empty : Store ℝ) 1 1 (by decide)
      (fun _ _ => 0) [0] rfl (by simp)
  refine ⟨s, l, loss, vl, p, h, hl, hp, ?_⟩
  have hp1 : p.coeff 0 0 = 1 := by
    simp [softmax, MatrixXd.rowMaxCoeff] at hp
    rw [← hp]
  rw [hg]
  simp only [hp1]
  have hE : (EPS : ℝ) = 1 / 10 ^ 12 := rfl
  rw [hE]
  norm_num

end crossEntropy

/-! ## C7: the self handle -/

section selfHandle

variable {α : Type}

theorem lock_eq_some_of_live (st : Store α) (h : Nat) (hl : (st.cell h).isSome) :
    st.lock (some h) = some h := by
  simp [Store.lock, hl]

theorem get_self_ptr_locked (st : Store α) (this h : Nat) (v : Value α)
    (hv : st.cell this = some v) (hs : v._self = some h) (hl : (st.cell h).isSome) :
    Value.get_self_ptr st this = some (st, h) := by
  simp [Value.get_self_ptr, hv, hs, lock_eq_some_of_live st h hl]

theorem get_self_ptr_copy (st : Store α) (this : Nat) (v : Value α)
    (hv : st.cell this = some v) (hs : st.lock v._self = none) :
    Value.get_self_ptr st this = some (st.alloc v) := by
  simp [Value.get_self_ptr, hv, hs]

/-- C7: for an object `this`, (1) after `set_self(h)` with a live `h` every call
of `get_self_ptr` returns `h` and leaves the memory as it is, so a second call
returns `h` again; (2) the same holds whenever the stored self-pointer names a
live object; (3) when there is no live self-pointer, each call returns a new
address that held no object before, different from `this` and from the address
the previous call returned, and the object there is a copy of `this` (all
fields equal, in particular `data` and `grad`); here an expired self-pointer
is one that names an address handed out earlier whose object is gone. -/
theorem get_self_ptr_idempotent (st : Store α) (this : Nat) (v : Value α)
    (hv : st.cell this = some v) :
    (∀ h, (st.cell h).isSome →
      ∃ st1, Value.set_self st this h = some st1 ∧
        Value.get_self_ptr st1 this = some (st1, h) ∧
        (Value.get_self_ptr st1 this).bind (fun r => Value.get_self_ptr r.1 this) = some (st1, h)) ∧
    (∀ h, v._self = some h → (st.cell h).isSome →
      Value.get_self_ptr st this = some (st, h)) ∧
    (st.lock v._self = none → (∀ h, v._self = some h → h < st.next) →
      ∃ st1 st2 p1 p2, Value.get_self_ptr st this = some (st1, p1) ∧
        Value.get_self_ptr st1 this = some (st2, p2) ∧
        p1 ≠ this ∧ p2 ≠ this ∧ p1 ≠ p2 ∧
        st.cell p1 = none ∧ st1.cell p2 = none ∧
        st1.cell p1 = some v ∧ st2.cell p1 = some v ∧ st2.cell p2 = some v ∧
        st2.cell this = some v) := by
  have hlt : this < st.next := Store.lt_next_of_cell hv
  refine ⟨?_, ?_, ?_⟩
  · intro h hl
    have hw : (st.write this { v with _self := some h }).cell this
        = some { v with _self := some h } := by
      simp [Store.cell_write, hv]
    have hl1 : ((st.write this { v with _self := some h }).cell h).isSome := by
      by_cases hh : h = this
      · subst hh; simp [hw]
      · simpa [Store.cell_write, hh] using hl
    have hg := get_self_ptr_locked _ this h _ hw rfl hl1
    refine ⟨st.write this { v with _self := some h }, ?_, hg, ?_⟩
    · simp [Value.set_self, Store.modify, hv]
    · rw [hg]
      exact hg
  · intro h hs hl
    exact get_self_ptr_locked st this h v hv hs hl
  · intro hs hold
    have h1 := get_self_ptr_copy st this v hv hs
    have hne : this ≠ st.next := by omega
    have hv1 : (st.alloc v).1.cell this = some v := by
      simp [Store.cell_alloc, hne, hv]
    have hs1 : (st.alloc v).1.lock v._self = none := by
      cases hself : v._self with
      | none => rfl
      | some h =>
        rw [hself] at hs
        have hnone : st.cell h = none := by
          cases hc : st.cell h with
          | none => rfl
          | some w => simp [Store.lock, hc] at hs
        have hh : h ≠ st.next := Nat.ne_of_lt (hold h hself)
        simp [Store.lock, Store.cell_alloc, hh, hnone]
    have h2 := get_self_ptr_copy (st.alloc v).1 this v hv1 hs1
    refine ⟨(st.alloc v).1, ((st.alloc v).1.alloc v).1, st.next, st.next + 1, h1, h2, ?_⟩
    have hne2 : this ≠ st.next + 1 := by omega
    simp [Store.cell_alloc, Store.next_alloc, Store.snd_alloc, hv, hne, hne2, Ne.symm hne,
      Ne.symm hne2]
    exact ⟨st.fresh _ (Nat.le_refl _), st.fresh _ (Nat.le_succ _)⟩

/-- C7 at a plain object in an otherwise empty memory. -/
theorem get_self_ptr_idempotent_witness :
    ((Store.empty : Store ℚ).alloc (Value.ofScalar 5)).1.cell 0 = some (Value.ofScalar 5) ∧
    (∀ h, (Value.ofScalar (5 : ℚ))._self = some h →
      h < ((Store.empty : Store ℚ).alloc (Value.ofScalar 5)).1.next) ∧
    ∃ st1 st2 p1 p2,
      Value.get_self_ptr ((Store.empty : Store ℚ).alloc (Value.ofScalar 5)).1 0 = some (st1, p1) ∧
      Value.get_self_ptr st1 0 = some (st2, p2) ∧
      p1 ≠ 0 ∧ p2 ≠ 0 ∧ p1 ≠ p2 ∧
      ((Store.empty : Store ℚ).alloc (Value.ofScalar 5)).1.cell p1 = none ∧ st1.cell p2 = none ∧
      st1.cell p1 = some (Value.ofScalar 5) ∧ st2.cell p1 = some (Value.ofScalar 5) ∧
      st2.cell p2 = some (Value.ofScalar 5) ∧ st2.cell 0 = some (Value.ofScalar 5) :=
  ⟨rfl, fun _ hh => Option.noConfusion hh,
    (get_self_ptr_idempotent ((Store.empty : Store ℚ).alloc (Value.ofScalar 5)).1 0
      (Value.ofScalar 5) rfl).2.2 rfl (fun _ hh => Option.noConfusion hh)⟩

end selfHandle

/-! ## C9: the frame of zero_grad -/

section zeroGrad

variable {α : Type} [LinearOrderedField α]

theorem zero_grad_cell (st : Store α) (this : Nat) (v : Value α) (hv : st.cell this = some v) :
    ∃ st1, Value.zero_grad st this = some st1 ∧ st1.next = st.next ∧
      ∀ q, st1.cell q = if q = this then
          some { v with grad := MatrixXd.Zero v.data.rows v.data.cols }
        else st.cell q := by
  refine ⟨st.write this { v with grad := MatrixXd.Zero v.data.rows v.data.cols },
    by simp [Value.zero_grad, Store.modify, hv], rfl, ?_⟩
  intro q
  simp [Store.cell_write, hv]

theorem zero_grad_all (params : List Nat) :
    ∀ (st : Store α), (∀ p ∈ params, (st.cell p).isSome) →
      ∃ st1, params.foldlM (fun s p => Value.zero_grad s p) st = some st1 ∧
        st1.next = st.next ∧
        ∀ q, st1.cell q = if q ∈ params then
            (st.cell q).map
              (fun v => { v with grad := MatrixXd.Zero v.data.rows v.data.cols })
          else st.cell q := by
  induction params with
  | nil => intro st _; exact ⟨st, rfl, rfl, fun q => by simp⟩
  | cons p ps ih =>
    intro st hlive
    obtain ⟨v, hv⟩ := Option.isSome_iff_exists.mp (hlive p (List.mem_cons_self _ _))
    obtain ⟨st1, h1, hn1, hc1⟩ := zero_grad_cell st p v hv
    have hlive1 : ∀ q ∈ ps, (st1.cell q).isSome := by
      intro q hq
      rw [hc1 q]
      by_cases hqp : q = p
      · simp [hqp]
      · simpa [hqp] using hlive q (List.mem_cons_of_mem _ hq)
    obtain ⟨st2, h2, hn2, hc2⟩ := ih st1 hlive1
    refine ⟨st2, ?_, by rw [hn2, hn1], ?_⟩
    · simp only [List.foldlM_cons, Option.bind_eq_bind, h1, Option.some_bind]
      exact h2
    · intro q
      rw [hc2 q, hc1 q]
      by_cases hqp : q = p
      · subst hqp
        by_cases hq : q ∈ ps <;> simp [hq, hv]
      · by_cases hq : q ∈ ps <;> simp [hq, hqp]

/-- C9: `zero_grad` on an object sets its `grad` to `Zero(data.rows(), data.cols())`
and leaves its `data`, `_prev` and `_backward` (and every other object) as they
were; `Module::zero_grad`, `SGD::zero_grad` and `NesterovSGD::zero_grad` do so
for every parameter of their list, change the data of no parameter and leave
every object outside the list as it was. -/
theorem zero_grad_frame (st : Store α) :
    (∀ this v, st.cell this = some v →
      ∃ st1, Value.zero_grad st this = some st1 ∧ st1.next = st.next ∧
        st1.cell this = some { v with grad := MatrixXd.Zero v.data.rows v.data.cols } ∧
        (∀ w, st1.cell this = some w → w.grad = MatrixXd.Zero v.data.rows v.data.cols ∧
          w.data = v.data ∧ w._prev = v._prev ∧ w._backward = v._backward) ∧
        ∀ q, q ≠ this → st1.cell q = st.cell q) ∧
    (∀ (params : List Nat) (lr mu : α) (vel : List (MatrixXd α)),
      (∀ p ∈ params, (st.cell p).isSome) →
      ∃ st1, Module.zero_grad st params = some st1 ∧
        SGD.zero_grad ⟨params, lr⟩ st = some st1 ∧
        NesterovSGD.zero_grad ⟨params, lr, mu, vel⟩ st = some st1 ∧
        (∀ p v, p ∈ params → st.cell p = some v →
          st1.cell p = some { v with grad := MatrixXd.Zero v.data.rows v.data.cols }) ∧
        (∀ p v w, p ∈ params → st.cell p = some v → st1.cell p = some w →
          w.grad = MatrixXd.Zero v.data.rows v.data.cols ∧
          w.data = v.data ∧ w._prev = v._prev ∧ w._backward = v._backward) ∧
        (∀ q, q ∉ params → st1.cell q = st.cell q)) := by
  constructor
  · intro this v hv
    obtain ⟨st1, h1, hn1, hc1⟩ := zero_grad_cell st this v hv
    have hc : st1.cell this = some { v with grad := MatrixXd.Zero v.data.rows v.data.cols } := by
      simp [hc1]
    refine ⟨st1, h1, hn1, hc, ?_, ?_⟩
    · intro w hw
      rw [hc] at hw
      cases hw
      exact ⟨rfl, rfl, rfl, rfl⟩
    · intro q hq
      simp [hc1, hq]
  · intro params lr mu vel hlive
    obtain ⟨st1, h1, _, hc1⟩ := zero_grad_all params st hlive
    have hc : ∀ p v, p ∈ params → st.cell p = some v →
        st1.cell p = some { v with grad := MatrixXd.Zero v.data.rows v.data.cols } := by
      intro p v hp hv
      simp [hc1, hp, hv]
    refine ⟨st1, h1, h1, h1, hc, ?_, ?_⟩
    · intro p v w hp hv hw
      rw [hc p v hp hv] at hw
      cases hw
      exact ⟨rfl, rfl, rfl, rfl⟩
    · intro q hq
      simp [hc1, hq]

/-- C9 at a scalar leaf in an otherwise empty memory. -/
theorem zero_grad_frame_witness :
    ((Store.empty : Store ℚ).alloc (Value.ofScalar 5)).1.cell 0 = some (Value.ofScalar 5) ∧
    ∃ st1, Value.zero_grad ((Store.empty : Store ℚ).alloc (Value.ofScalar 5)).1 0 = some st1 ∧
      st1.next = ((Store.empty : Store ℚ).alloc (Value.ofScalar 5)).1.next ∧
      st1.cell 0 = some { Value.ofScalar (5 : ℚ) with
        grad := MatrixXd.Zero (Value.ofScalar (5 : ℚ)).data.rows
          (Value.ofScalar (5 : ℚ)).data.cols } ∧
      (∀ w, st1.cell 0 = some w →
        w.grad = MatrixXd.Zero (Value.ofScalar (5 : ℚ)).data.rows
          (Value.ofScalar (5 : ℚ)).data.cols ∧
        w.data = (Value.ofScalar (5 : ℚ)).data ∧ w._prev = (Value.ofScalar (5 : ℚ))._prev ∧
        w._backward = (Value.ofScalar (5 : ℚ))._backward) ∧
      ∀ q, q ≠ 0 → st1.cell q = ((Store.empty : Store ℚ).alloc (Value.ofScalar 5)).1.cell q :=
  ⟨rfl, (zero_grad_frame ((Store.empty : Store ℚ).alloc (Value.ofScalar 5)).1).1 0
    (Value.ofScalar 5) rfl⟩
end zeroGrad

/-! ## C10: seeding the terminal -/

section seeding

variable {α : Type} [LinearOrderedField α]

set_option maxHeartbeats 1000000 in
/-- The program `Value a(x); Value t = a.relu(); t.backward();` from any memory:
the node that `relu` built (at the third new address) is seeded with ones, but
the object `t` that the caller holds is a copy of that node and keeps the zero
`grad` it was returned with. -/
theorem relu_backward_run (st : Store α) (x : α) :
    ∃ s vt vn, relu_backward st x = some (s, st.next, st.next + 3) ∧
      s.cell (st.next + 3) = some vt ∧ s.cell (st.next + 2) = some vn ∧
      vt._self = some (st.next + 2) ∧
      vt.data = ⟨1, 1, fun _ _ => max x 0⟩ ∧
      vt.grad = MatrixXd.Zero 1 1 ∧ vn.grad = MatrixXd.Ones 1 1 := by
  unfold relu_backward
  simp only [Store.alloc_eq, Store.alloc_extend, Store.extend_extend, List.append_eq,
    List.cons_append, List.nil_append, List.length_cons, List.length_nil, Nat.zero_add,
    Nat.add_zero, Nat.reduceAdd]
  simp [Value.relu, Value.get_self_ptr, Value.publish, Value.ofMatrix, Store.lock,
    MatrixXd.cwiseMax, MatrixXd.map, MatrixXd.Constant, Store.alloc_eq, Nat.add_assoc]
  simp [Value.backward, Value.get_self_ptr, Store.lock, Nat.add_assoc]
  rw [build_topo_of_le _ 4 _ _ _ (by omega) (by simp [Value.build_topo])]
  simp [Value.build_topo]
  simp [Store.modify]
  simp [Value.runClosures, Value.runAll, MatrixXd.addAssign, MatrixXd.add, MatrixXd.zipWith,
    MatrixXd.sameShape, MatrixXd.Zero, MatrixXd.Ones, MatrixXd.Constant,
    MatrixXd.cwiseProduct, MatrixXd.positiveMask, MatrixXd.map]

/-- C10, evaluated at `x = 2`: after `t.backward()` on the value `t = a.relu()`
the entry of `t.grad` is 0, not 1, while `t.data` is `relu(2) = 2`. -/
theorem relu_backward_terminal_grad_zero :
    ∃ s a t vt, relu_backward (Store.empty : Store ℚ) 2 = some (s, a, t) ∧
      s.cell t = some vt ∧ vt.data.rows = 1 ∧ vt.data.cols = 1 ∧
      vt.data.coeff 0 0 = 2 ∧ vt.grad.coeff 0 0 = 0 ∧
      vt.grad ≠ MatrixXd.Ones vt.data.rows vt.data.cols := by
  obtain ⟨s, vt, vn, h, ht, _, _, hd, hg, _⟩ := relu_backward_run (Store.empty : Store ℚ) 2
  refine ⟨s, _, _, vt, h, ht, by rw [hd], by rw [hd], by rw [hd]; norm_num, by rw [hg]; rfl, ?_⟩
  rw [hg, hd]
  intro hne
  have h0 := congrArg (fun m => m.coeff 0 0) hne
  simp [MatrixXd.Zero, MatrixXd.Ones, MatrixXd.Constant] at h0
end seeding

/-! ## C5: the order that build_topo produces -/

section topo

variable {α : Type}

theorem reachable_refl (st : Store α) (v : Nat) : Reachable st v v :=
  Relation.ReflTransGen.refl

theorem reachable_of_input {st : Store α} {v c x : Nat} (hc : IsInput st c v)
    (hx : Reachable st c x) : Reachable st v x :=
  Relation.ReflTransGen.head hc hx

theorem reachable_cases {st : Store α} {v x : Nat} (h : Reachable st v x) :
    x = v ∨ ∃ c, IsInput st c v ∧ Reachable st c x := by
  rcases Relation.ReflTransGen.cases_head h with h1 | ⟨c, hc, hx⟩
  · exact Or.inl h1.symm
  · exact Or.inr ⟨c, hc, hx⟩

theorem rank_le_of_reachable {st : Store α} (rank : Nat → Nat)
    (hrank : ∀ p v, st.cell p = some v → ∀ c ∈ v._prev, rank c < rank p)
    {v x : Nat} (h : Reachable st v x) : rank x ≤ rank v := by
  induction h with
  | refl => exact Nat.le_refl _
  | tail _ hbc ih =>
    obtain ⟨w, hw, hmem⟩ := hbc
    exact Nat.le_trans (Nat.le_of_lt (hrank _ w hw _ hmem)) ih

/-- A list with its inputs first contains everything reachable from its entries. -/
theorem mem_of_reachable_of_inputsFirst {st : Store α} {l : List Nat}
    (hl : InputsFirst st l) {x y : Nat} (hx : x ∈ l) (h : Reachable st x y) : y ∈ l := by
  induction h with
  | refl => exact hx
  | tail _ hbc ih =>
    obtain ⟨l1, l2, hsplit⟩ := List.append_of_mem ih
    have hc := hl l1 _ l2 hsplit _ hbc
    rw [hsplit]
    exact List.mem_append_left _ hc

theorem split_concat {l1 l2 t : List Nat} {x v : Nat} (h : l1 ++ x :: l2 = t ++ [v]) :
    (l2 = [] ∧ l1 = t ∧ x = v) ∨ ∃ m, l2 = m ++ [v] ∧ t = l1 ++ x :: m := by
  rcases List.eq_nil_or_concat l2 with h2 | ⟨m, b, h2⟩
  · subst h2
    have h3 : l1 ++ [x] = t ++ [v] := h
    have h4 := List.append_inj' h3 rfl
    exact Or.inl ⟨rfl, h4.1, by simpa using h4.2⟩
  · subst h2
    have h3 : (l1 ++ x :: m) ++ [b] = t ++ [v] := by
      simpa [List.concat_eq_append, List.append_assoc] using h
    have h4 := List.append_inj' h3 rfl
    have hb : b = v := by simpa using h4.2
    subst hb
    exact Or.inr ⟨m, by simp [List.concat_eq_append], h4.1.symm⟩

theorem inputsFirst_concat {st : Store α} {t : List Nat} {v : Nat}
    (ht : InputsFirst st t) (hv : ∀ c, IsInput st c v → c ∈ t) :
    InputsFirst st (t ++ [v]) := by
  intro l1 x l2 hsplit c hc
  rcases split_concat hsplit.symm with ⟨_, h1, hx⟩ | ⟨m, _, hm⟩
  · subst hx
    rw [h1]
    exact hv c hc
  · exact ht l1 x m hm c hc

/-- The loop over the inputs of `v` inside `build_topo`, given what the
recursive calls do (`ih`). -/
theorem build_topo_inputs (st : Store α) (rank : Nat → Nat)
    (hlive : InputsLive st)
    (hrank : ∀ p v, st.cell p = some v → ∀ c ∈ v._prev, rank c < rank p)
    (fuel v : Nat) (hfuel : rank v < fuel + 1)
    (ih : ∀ (c : Nat) (vis topo : List Nat), rank c < fuel → (st.cell c).isSome →
      topo.Nodup → (∀ x ∈ topo, x ∈ vis) → InputsFirst st topo →
      (∀ g, Reachable st c g → g ∈ vis → g ∈ topo) →
      ∃ vis1 topo1, Value.build_topo st fuel c (vis, topo) = some (vis1, topo1) ∧
        topo1.Nodup ∧ (∀ x ∈ topo1, x ∈ vis1) ∧ InputsFirst st topo1 ∧
        (∀ x, x ∈ topo1 ↔ x ∈ topo ∨ Reachable st c x) ∧
        (∀ x, x ∈ vis1 ↔ x ∈ vis ∨ Reachable st c x)) :
    ∀ (cs vis topo : List Nat), (∀ c ∈ cs, IsInput st c v) →
      topo.Nodup → (∀ x ∈ topo, x ∈ vis) → InputsFirst st topo →
      v ∉ topo → (∀ g, Reachable st v g → g ∈ vis → g ∈ topo ∨ g = v) →
      ∃ vis1 topo1,
        List.foldlM (fun acc child => Value.build_topo st fuel child acc) (vis, topo) cs
          = some (vis1, topo1) ∧
        topo1.Nodup ∧ (∀ x ∈ topo1, x ∈ vis1) ∧ InputsFirst st topo1 ∧ v ∉ topo1 ∧
        (∀ x, x ∈ topo1 ↔ x ∈ topo ∨ ∃ c ∈ cs, Reachable st c x) ∧
        (∀ x, x ∈ vis1 ↔ x ∈ vis ∨ ∃ c ∈ cs, Reachable st c x) := by
  intro cs
  induction cs with
  | nil =>
    intro vis topo _ hnd hsub hif hv _
    exact ⟨vis, topo, rfl, hnd, hsub, hif, hv, by simp, by simp⟩
  | cons c cs ihl =>
    intro vis topo hcs hnd hsub hif hv hgray
    have hcin : IsInput st c v := hcs c (List.mem_cons_self _ _)
    obtain ⟨node, hnode, hcmem⟩ := hcin
    have hrc : rank c < rank v := hrank v node hnode c hcmem
    have hnot : ∀ x, Reachable st c x → x ≠ v := by
      intro x hx hxv
      subst hxv
      have := rank_le_of_reachable rank hrank hx
      omega
    obtain ⟨vis1, topo1, h1, hnd1, hsub1, hif1, hmem1, hvis1⟩ :=
      ih c vis topo (by omega) (hlive v node hnode c hcmem) hnd hsub hif (by
        intro g hg hgv
        rcases hgray g (reachable_of_input ⟨node, hnode, hcmem⟩ hg) hgv with h | h
        · exact h
        · exact absurd h (hnot g hg))
    have hv1 : v ∉ topo1 := by
      intro hin
      rcases (hmem1 v).mp hin with h | h
      · exact hv h
      · exact hnot v h rfl
    obtain ⟨vis2, topo2, h2, hnd2, hsub2, hif2, hv2, hmem2, hvis2⟩ :=
      ihl vis1 topo1 (fun c' hc' => hcs c' (List.mem_cons_of_mem _ hc')) hnd1 hsub1 hif1 hv1 (by
        intro g hg hgv
        rcases (hvis1 g).mp hgv with h | h
        · rcases hgray g hg h with h' | h'
          · exact Or.inl ((hmem1 g).mpr (Or.inl h'))
          · exact Or.inr h'
        · exact Or.inl ((hmem1 g).mpr (Or.inr h)))
    refine ⟨vis2, topo2, ?_, hnd2, hsub2, hif2, hv2, ?_, ?_⟩
    · simp only [List.foldlM_cons, Option.bind_eq_bind, h1, Option.some_bind]
      exact h2
    · intro x
      rw [hmem2 x, hmem1 x]
      simp only [List.mem_cons, exists_eq_or_imp]
      generalize (∃ a ∈ cs, Reachable st a x) = P
      tauto
    · intro x
      rw [hvis2 x, hvis1 x]
      simp only [List.mem_cons, exists_eq_or_imp]
      generalize (∃ a ∈ cs, Reachable st a x) = P
      tauto

/-- The specification of one call of `build_topo` on an acyclic graph. -/
theorem build_topo_spec (st : Store α) (rank : Nat → Nat)
    (hlive : InputsLive st)
    (hrank : ∀ p v, st.cell p = some v → ∀ c ∈ v._prev, rank c < rank p) :
    ∀ (fuel v : Nat) (vis topo : List Nat), rank v < fuel → (st.cell v).isSome →
      topo.Nodup → (∀ x ∈ topo, x ∈ vis) → InputsFirst st topo →
      (∀ g, Reachable st v g → g ∈ vis → g ∈ topo) →
      ∃ vis1 topo1, Value.build_topo st fuel v (vis, topo) = some (vis1, topo1) ∧
        topo1.Nodup ∧ (∀ x ∈ topo1, x ∈ vis1) ∧ InputsFirst st topo1 ∧
        (∀ x, x ∈ topo1 ↔ x ∈ topo ∨ Reachable st v x) ∧
        (∀ x, x ∈ vis1 ↔ x ∈ vis ∨ Reachable st v x) := by
  intro fuel
  induction fuel with
  | zero => intro v vis topo h; omega
  | succ fuel ih =>
    intro v vis topo hfuel hv hnd hsub hif hgray
    rw [Value.build_topo]
    by_cases hvis : v ∈ vis
    · have hvt : v ∈ topo := hgray v (reachable_refl st v) hvis
      refine ⟨vis, topo, by simp [hvis], hnd, hsub, hif, ?_, ?_⟩
      · intro x
        constructor
        · exact Or.inl
        · rintro (h | h)
          · exact h
          · exact mem_of_reachable_of_inputsFirst hif hvt h
      · intro x
        constructor
        · exact Or.inl
        · rintro (h | h)
          · exact h
          · exact hsub x (mem_of_reachable_of_inputsFirst hif hvt h)
    · obtain ⟨node, hnode⟩ := Option.isSome_iff_exists.mp hv
      have hvt : v ∉ topo := fun h => hvis (hsub v h)
      obtain ⟨vis1, topo1, h1, hnd1, hsub1, hif1, hv1, hmem1, hvis1⟩ :=
        build_topo_inputs st rank hlive hrank fuel v hfuel ih node._prev (v :: vis) topo
          (fun c hc => ⟨node, hnode, hc⟩) hnd
          (fun x hx => List.mem_cons_of_mem _ (hsub x hx)) hif hvt (by
            intro g hg hgv
            rcases List.mem_cons.mp hgv with h | h
            · exact Or.inr h
            · exact Or.inl (hgray g hg h))
      have hreach : ∀ x, Reachable st v x ↔ x = v ∨ ∃ c ∈ node._prev, Reachable st c x := by
        intro x
        constructor
        · intro h
          rcases reachable_cases h with h | ⟨c, ⟨w, hw, hc⟩, hx⟩
          · exact Or.inl h
          · rw [hnode] at hw
            cases hw
            exact Or.inr ⟨c, hc, hx⟩
        · rintro (h | ⟨c, hc, hx⟩)
          · rw [h]; exact reachable_refl st v
          · exact reachable_of_input ⟨node, hnode, hc⟩ hx
      refine ⟨vis1, topo1 ++ [v], ?_, ?_, ?_, ?_, ?_, ?_⟩
      · simp only [hvis, if_false, hnode, Option.bind_eq_bind, Option.some_bind, h1]
      · rw [List.nodup_append]
        refine ⟨hnd1, List.nodup_singleton v, ?_⟩
        intro a ha hb
        rw [List.mem_singleton] at hb
        subst hb
        exact hv1 ha
      · intro x hx
        rcases List.mem_append.mp hx with h | h
        · exact hsub1 x h
        · rw [List.mem_singleton] at h
          subst h
          exact (hvis1 x).mpr (Or.inl (List.mem_cons_self _ _))
      · apply inputsFirst_concat hif1
        rintro c ⟨w, hw, hc⟩
        rw [hnode] at hw
        cases hw
        exact (hmem1 c).mpr (Or.inr ⟨c, hc, reachable_refl st c⟩)
      · intro x
        rw [List.mem_append, List.mem_singleton, hmem1 x, hreach x]
        generalize (∃ c ∈ node._prev, Reachable st c x) = P
        tauto
      · intro x
        rw [hvis1 x, hreach x, List.mem_cons]
        generalize (∃ c ∈ node._prev, Reachable st c x) = P
        tauto

/-- A numbering of an acyclic graph can be chosen below the number of addresses
handed out: count the addresses with a smaller number. -/
theorem rank_compress (st : Store α) (hlive : InputsLive st) (rank : Nat → Nat)
    (hrank : ∀ p v, st.cell p = some v → ∀ c ∈ v._prev, rank c < rank p) :
    ∃ rank1 : Nat → Nat, (∀ p, rank1 p ≤ st.next) ∧
      ∀ p v, st.cell p = some v → ∀ c ∈ v._prev, rank1 c < rank1 p := by
  refine ⟨fun p => ((Finset.range st.next).filter (fun q => rank q < rank p)).card, ?_, ?_⟩
  · intro p
    calc ((Finset.range st.next).filter (fun q => rank q < rank p)).card
        ≤ (Finset.range st.next).card := Finset.card_filter_le _ _
      _ = st.next := Finset.card_range _
  · intro p v hp c hc
    have hrc : rank c < rank p := hrank p v hp c hc
    obtain ⟨w, hw⟩ := Option.isSome_iff_exists.mp (hlive p v hp c hc)
    have hclt : c < st.next := Store.lt_next_of_cell hw
    apply Finset.card_lt_card
    rw [Finset.ssubset_iff_of_subset]
    · refine ⟨c, ?_, ?_⟩
      · simp [hclt, hrc]
      · simp
    · intro q hq
      simp only [Finset.mem_filter, Finset.mem_range] at hq ⊢
      exact ⟨hq.1, Nat.lt_trans hq.2 hrc⟩

theorem consumersFirst_reverse {st : Store α} (rank : Nat → Nat)
    (hrank : ∀ p v, st.cell p = some v → ∀ c ∈ v._prev, rank c < rank p)
    {topo : List Nat} (hnd : topo.Nodup) (hif : InputsFirst st topo) :
    ConsumersFirst st topo.reverse := by
  intro l1 c l2 hsplit x hx hin
  have htopo : topo = l2.reverse ++ c :: l1.reverse := by
    have := congrArg List.reverse hsplit
    simpa using this
  have hx1 : x ∈ topo := List.mem_reverse.mp hx
  rw [htopo] at hx1
  rcases List.mem_append.mp hx1 with h | h
  · exfalso
    obtain ⟨m1, m2, hm⟩ := List.append_of_mem h
    have hc : c ∈ m1 := hif m1 x (m2 ++ c :: l1.reverse) (by
      rw [htopo, hm]; simp) c hin
    rw [htopo, hm] at hnd
    have hdis := (List.nodup_append.mp hnd).2.2
    exact hdis (by simp [hc]) (List.mem_cons_self _ _) 
  · rcases List.mem_cons.mp h with h | h
    · exfalso
      subst h
      obtain ⟨w, hw, hmem⟩ := hin
      exact Nat.lt_irrefl _ (hrank _ w hw _ hmem)
    · exact List.mem_reverse.mp h

end topo

section topoMain
variable {α : Type} [LinearOrderedField α]

/-- C5: on an acyclic graph whose `_prev` entries are live, `build_topo` from a
node `t` returns (with any fuel above the number of addresses handed out, as
`backward` supplies) a list that contains exactly the nodes reachable from `t`
through `_prev`, each once, with every node after all of its inputs; so the
reverse of the list, which is the order in which `backward` runs the closures,
has every consumer of a node before the node. -/
theorem build_topo_topological (st : Store α) (hlive : InputsLive st) (hacyclic : Acyclic st)
    (t : Nat) (ht : (st.cell t).isSome) (fuel : Nat) (hfuel : st.next < fuel) :
    ∃ visited topo, Value.build_topo st fuel t ([], []) = some (visited, topo) ∧
      topo.Nodup ∧ (∀ x, x ∈ topo ↔ Reachable st t x) ∧
      InputsFirst st topo ∧ ConsumersFirst st topo.reverse ∧
      ∀ s : Store α, Value.runClosures s topo = Value.runAll s topo.reverse := by
  obtain ⟨rank, hrank⟩ := hacyclic
  obtain ⟨rank1, hle, hrank1⟩ := rank_compress st hlive rank hrank
  obtain ⟨vis, topo, h, hnd, _, hif, hmem, _⟩ :=
    build_topo_spec st rank1 hlive hrank1 fuel t [] [] (Nat.lt_of_le_of_lt (hle t) hfuel) ht
      List.nodup_nil (fun x hx => hx) (by intro l1 x l2 h; simp at h)
      (by intro g _ hg; exact absurd hg (List.not_mem_nil g))
  refine ⟨vis, topo, h, hnd, ?_, hif, consumersFirst_reverse rank1 hrank1 hnd hif,
    fun s => rfl⟩
  intro x
  rw [hmem x]
  simp

theorem diamond_cell (p : Nat) :
    diamond.cell p =
      [Value.ofScalar (1 : ℚ),
       { Value.ofScalar 1 with _prev := [0] },
       { Value.ofScalar 1 with _prev := [0] },
       { Value.ofScalar 2 with _prev := [1, 2] }][p]? := by
  simp [diamond, Store.cell_extend, Store.empty]

theorem diamond_inputs (p : Nat) (v : Value ℚ) (h : diamond.cell p = some v) :
    ∀ c ∈ v._prev, c < p ∧ (diamond.cell c).isSome := by
  rw [diamond_cell] at h
  rcases p with _ | _ | _ | _ | p
  · simp at h; subst h; simp [Value.ofScalar]
  · simp at h; subst h; simp [diamond_cell]
  · simp at h; subst h; simp [diamond_cell]
  · simp at h; subst h; simp [diamond_cell]
  · simp at h

/-- On the diamond the shared leaf is listed once. -/
theorem diamond_run :
    Value.build_topo diamond 5 3 ([], []) = some ([2, 0, 1, 3], [0, 1, 2, 3]) := by
  simp [Value.build_topo, diamond_cell, Value.ofScalar]

/-- C5 on the diamond, from the node 3. -/
theorem build_topo_topological_witness :
    InputsLive diamond ∧ Acyclic diamond ∧ (diamond.cell 3).isSome ∧ diamond.next < 5 ∧
    ∃ visited topo, Value.build_topo diamond 5 3 ([], []) = some (visited, topo) ∧
      topo.Nodup ∧ (∀ x, x ∈ topo ↔ Reachable diamond 3 x) ∧
      InputsFirst diamond topo ∧ ConsumersFirst diamond topo.reverse ∧
      ∀ s : Store ℚ, Value.runClosures s topo = Value.runAll s topo.reverse :=
  have hlive : InputsLive diamond := fun p v h c hc => (diamond_inputs p v h c hc).2
  have hacyclic : Acyclic diamond := ⟨id, fun p v h c hc => (diamond_inputs p v h c hc).1⟩
  have h3 : (diamond.cell 3).isSome := by simp [diamond_cell]
  have hnext : diamond.next < 5 := by simp [diamond, Store.next_extend, Store.empty]
  ⟨hlive, hacyclic, h3, hnext, build_topo_topological diamond hlive hacyclic 3 h3 5 hnext⟩

end topoMain

/-! ## C8: the shape of grad -/

section shapes
variable {α : Type}

theorem wellShaped_alloc (st : Store α) (v : Value α) (hst : WellShaped st)
    (hg : v.grad.rows = v.data.rows ∧ v.grad.cols = v.data.cols)
    (hs : ∀ h, v._self = some h → h ≤ st.next ∧
      ∀ w, st.cell h = some w → w.data.rows = v.data.rows ∧ w.data.cols = v.data.cols) :
    WellShaped (st.alloc v).1 := by
  obtain ⟨hgs, hss⟩ := hst
  constructor
  · intro p u hu
    rw [Store.cell_alloc] at hu
    by_cases hp : p = st.next
    · simp only [hp, if_true, Option.some.injEq] at hu
      subst hu
      exact hg
    · simp only [hp, if_false] at hu
      exact hgs p u hu
  · intro p u h hu hself
    rw [Store.cell_alloc] at hu
    rw [Store.next_alloc]
    by_cases hp : p = st.next
    · simp only [hp, if_true, Option.some.injEq] at hu
      subst hu
      obtain ⟨h1, h2⟩ := hs h hself
      refine ⟨by omega, ?_⟩
      intro w hw
      rw [Store.cell_alloc] at hw
      by_cases hh : h = st.next
      · simp only [hh, if_true, Option.some.injEq] at hw
        subst hw
        exact ⟨rfl, rfl⟩
      · simp only [hh, if_false] at hw
        exact h2 w hw
    · simp only [hp, if_false] at hu
      obtain ⟨h1, h2⟩ := hss p u h hu hself
      refine ⟨by omega, ?_⟩
      intro w hw
      rw [Store.cell_alloc] at hw
      have hh : h ≠ st.next := by omega
      simp only [hh, if_false] at hw
      exact h2 w hw

theorem wellShaped_write (st : Store α) (p : Nat) (v v1 : Value α) (hst : WellShaped st)
    (hv : st.cell p = some v)
    (hd : v1.data.rows = v.data.rows ∧ v1.data.cols = v.data.cols)
    (hg : v1.grad.rows = v1.data.rows ∧ v1.grad.cols = v1.data.cols)
    (hs : ∀ h, v1._self = some h → h < st.next ∧
      ∀ w, st.cell h = some w → w.data.rows = v1.data.rows ∧ w.data.cols = v1.data.cols) :
    WellShaped (st.write p v1) := by
  obtain ⟨hgs, hss⟩ := hst
  have hcell : ∀ q, (st.write p v1).cell q = if q = p then some v1 else st.cell q := by
    intro q
    rw [Store.cell_write, hv]
    rfl
  constructor
  · intro q u hu
    rw [hcell] at hu
    by_cases hq : q = p
    · simp only [hq, if_true, Option.some.injEq] at hu
      subst hu
      exact hg
    · simp only [hq, if_false] at hu
      exact hgs q u hu
  · intro q u h hu hself
    rw [hcell] at hu
    rw [Store.next_write]
    have key : ∀ (u : Value α), (h < st.next ∧
        ∀ w, st.cell h = some w → w.data.rows = u.data.rows ∧ w.data.cols = u.data.cols) →
        (h = p → v.data.rows = u.data.rows ∧ v.data.cols = u.data.cols →
          v1.data.rows = u.data.rows ∧ v1.data.cols = u.data.cols) →
        h < st.next ∧ ∀ w, (st.write p v1).cell h = some w →
          w.data.rows = u.data.rows ∧ w.data.cols = u.data.cols := by
      intro u hlink hp
      refine ⟨hlink.1, ?_⟩
      intro w hw
      rw [hcell] at hw
      by_cases hh : h = p
      · simp only [hh, if_true, Option.some.injEq] at hw
        subst hw
        exact hp hh (hlink.2 v (by rw [hh]; exact hv))
      · simp only [hh, if_false] at hw
        exact hlink.2 w hw
    by_cases hq : q = p
    · simp only [hq, if_true, Option.some.injEq] at hu
      subst hu
      exact key _ (hs h hself) (fun _ _ => ⟨rfl, rfl⟩)
    · simp only [hq, if_false] at hu
      exact key u (hss q u h hu hself) (fun _ hvu => ⟨hd.1.trans hvu.1, hd.2.trans hvu.2⟩)

theorem lock_eq_some_iff (st : Store α) (w : Option Nat) (q : Nat) :
    st.lock w = some q ↔ w = some q ∧ (st.cell q).isSome := by
  cases w with
  | none => simp [Store.lock]
  | some p =>
    by_cases hp : (st.cell p).isSome
    · simp only [Store.lock, hp, if_true, Option.some.injEq]
      constructor
      · intro h; subst h; exact ⟨rfl, hp⟩
      · intro h; exact h.1
    · simp only [Store.lock, hp, Option.some.injEq]
      constructor
      · intro h; simp at h
      · intro h
        obtain ⟨h1, h2⟩ := h
        subst h1
        exact absurd h2 hp

theorem get_self_ptr_wellShaped (st st1 : Store α) (this q : Nat)
    (h : Value.get_self_ptr st this = some (st1, q)) (hst : WellShaped st) :
    WellShaped st1 ∧ ∃ v vq, st.cell this = some v ∧ st1.cell this = some v ∧
      st1.cell q = some vq ∧ vq.data.rows = v.data.rows ∧ vq.data.cols = v.data.cols ∧
      (st.lock v._self = none → q = st.next ∧ st1 = (st.alloc v).1) ∧
      (∀ p, st.lock v._self = some p → q = p ∧ st1 = st) := by
  unfold Value.get_self_ptr at h
  obtain ⟨v, hv⟩ : ∃ v, st.cell this = some v := by
    cases hc : st.cell this with
    | none => simp [hc] at h
    | some v => exact ⟨v, rfl⟩
  simp only [hv, Option.bind_eq_bind, Option.some_bind] at h
  rcases hl : st.lock v._self with _ | p
  · rw [hl] at h
    simp only [Option.some.injEq] at h
    have h1 : st1 = (st.alloc v).1 := by rw [h]
    have h2 : q = st.next := by
      have := congrArg Prod.snd h
      exact this.symm
    subst h1 h2
    have hlt : this < st.next := Store.lt_next_of_cell hv
    have hne : this ≠ st.next := by omega
    refine ⟨wellShaped_alloc st v hst (hst.1 this v hv) ?_, v, v, hv, ?_, ?_, rfl, rfl,
      fun _ => ⟨rfl, rfl⟩, fun p hp => by rw [hl] at hp; exact Option.noConfusion hp⟩
    · intro h hself
      obtain ⟨h1, h2⟩ := hst.2 this v h hv hself
      exact ⟨by omega, h2⟩
    · simp [Store.cell_alloc, hne, hv]
    · simp [Store.cell_alloc]
  · rw [hl] at h
    simp only [Option.some.injEq, Prod.mk.injEq] at h
    obtain ⟨h1, h2⟩ := h
    subst h1 h2
    obtain ⟨hself, hlive⟩ := (lock_eq_some_iff st v._self p).mp hl
    obtain ⟨vq, hvq⟩ := Option.isSome_iff_exists.mp hlive
    have hlink := (hst.2 this v p hv hself).2 vq hvq
    refine ⟨hst, v, vq, hv, hv, hvq, hlink.1, hlink.2,
      fun hn => by rw [hl] at hn; exact Option.noConfusion hn, ?_⟩
    intro p1 hp1
    rw [hl] at hp1
    simp only [Option.some.injEq] at hp1
    exact ⟨hp1, rfl⟩

theorem publish_wellShaped (st : Store α) (out : Value α) (prev : List Nat)
    (closure : Nat → Closure α) (hst : WellShaped st)
    (hg : out.grad.rows = out.data.rows ∧ out.grad.cols = out.data.cols) :
    WellShaped (Value.publish st out prev closure).1 ∧
      ∃ v, (Value.publish st out prev closure).1.cell (Value.publish st out prev closure).2
        = some v ∧ v.data = out.data ∧ v.grad = out.grad := by
  have e : Value.publish st out prev closure =
      (st.alloc (Value.mk out.data out.grad prev (closure st.next) out._op
        (some st.next))).1.alloc (Value.mk out.data out.grad prev (closure st.next) out._op
        (some st.next)) := rfl
  rw [e]
  generalize hnode : Value.mk out.data out.grad prev (closure st.next) out._op
    (some st.next) = node
  have hnself : node._self = some st.next := by rw [← hnode]
  have hnd : node.data = out.data := by rw [← hnode]
  have hng : node.grad = out.grad := by rw [← hnode]
  have hg1 : node.grad.rows = node.data.rows ∧ node.grad.cols = node.data.cols := by
    rw [hnd, hng]; exact hg
  have w1 : WellShaped (st.alloc node).1 := by
    apply wellShaped_alloc st node hst hg1
    intro h hself
    rw [hnself] at hself
    simp only [Option.some.injEq] at hself
    subst hself
    refine ⟨Nat.le_refl _, ?_⟩
    intro w hw
    rw [st.fresh _ (Nat.le_refl _)] at hw
    exact Option.noConfusion hw
  constructor
  · apply wellShaped_alloc (st.alloc node).1 node w1 hg1
    intro h hself
    rw [hnself] at hself
    simp only [Option.some.injEq] at hself
    subst hself
    refine ⟨by rw [Store.next_alloc]; omega, ?_⟩
    intro w hw
    rw [Store.cell_alloc] at hw
    simp only [if_true, Option.some.injEq] at hw
    subst hw
    exact ⟨rfl, rfl⟩
  · refine ⟨node, ?_, hnd, hng⟩
    simp [Store.cell_alloc, Store.snd_alloc, Store.next_alloc]

theorem get_self_ptr_keeps (st : Store α) (this : Nat) (a : Store α × Nat)
    (h : Value.get_self_ptr st this = some a) (hst : WellShaped st) : WellShaped a.1 :=
  (get_self_ptr_wellShaped st a.1 this a.2 h hst).1

theorem wellShaped_empty : WellShaped (Store.empty : Store α) :=
  ⟨fun _ _ h => Option.noConfusion h, fun _ _ _ h _ => Option.noConfusion h⟩

theorem wellShaped_alloc_leaf (st : Store α) (v : Value α) (hst : WellShaped st)
    (hg : v.grad.rows = v.data.rows ∧ v.grad.cols = v.data.cols) (hs : v._self = none) :
    WellShaped (st.alloc v).1 :=
  wellShaped_alloc st v hst hg (fun h hh => by rw [hs] at hh; exact Option.noConfusion hh)

theorem result_shaped {st : Store α} {r : Nat} (h : WellShaped st ∧ (st.cell r).isSome) :
    WellShaped st ∧ ∃ v, st.cell r = some v ∧
      v.grad.rows = v.data.rows ∧ v.grad.cols = v.data.cols := by
  obtain ⟨v, hv⟩ := Option.isSome_iff_exists.mp h.2
  exact ⟨h.1, v, hv, h.1.1 r v hv⟩

end shapes

section operators
variable {α : Type} [LinearOrderedField α]

theorem ofMatrix_gradShape (m : MatrixXd α) (s : String) :
    ({ Value.ofMatrix m with _op := s } : Value α).grad.rows
        = ({ Value.ofMatrix m with _op := s } : Value α).data.rows ∧
      ({ Value.ofMatrix m with _op := s } : Value α).grad.cols
        = ({ Value.ofMatrix m with _op := s } : Value α).data.cols :=
  ⟨rfl, rfl⟩

theorem publish_result (st st1 : Store α) (r : Nat) (m : MatrixXd α) (s : String)
    (prev : List Nat) (closure : Nat → Closure α)
    (h : some (Value.publish st { Value.ofMatrix m with _op := s } prev closure) = some (st1, r))
    (hst : WellShaped st) :
    WellShaped st1 ∧ (st1.cell r).isSome := by
  obtain ⟨w, v, hv, _, _⟩ := publish_wellShaped st _ prev closure hst (ofMatrix_gradShape m s)
  have h1 := Option.some.inj h
  rw [h1] at w hv
  have hv1 : st1.cell r = some v := hv
  exact ⟨w, by rw [hv1]; rfl⟩

theorem add_wellShaped (st st1 : Store α) (this other r : Nat)
    (h : Value.add st this other = some (st1, r)) (hst : WellShaped st) :
    WellShaped st1 ∧ (st1.cell r).isSome := by
  unfold Value.add at h
  simp only [Option.bind_eq_bind, Option.bind_eq_some] at h
  obtain ⟨a, _, b, _, result, _, p1, h1, p2, h2, h3⟩ := h
  exact publish_result _ _ _ _ _ _ _ h3
    (get_self_ptr_keeps _ _ _ h2 (get_self_ptr_keeps _ _ _ h1 hst))

theorem mul_wellShaped (st st1 : Store α) (this other r : Nat)
    (h : Value.mul st this other = some (st1, r)) (hst : WellShaped st) :
    WellShaped st1 ∧ (st1.cell r).isSome := by
  unfold Value.mul at h
  simp only [Option.bind_eq_bind, Option.bind_eq_some] at h
  obtain ⟨a, _, b, _, result, _, p1, h1, p2, h2, h3⟩ := h
  exact publish_result _ _ _ _ _ _ _ h3
    (get_self_ptr_keeps _ _ _ h2 (get_self_ptr_keeps _ _ _ h1 hst))

theorem matmul_wellShaped (st st1 : Store α) (this other r : Nat)
    (h : Value.matmul st this other = some (st1, r)) (hst : WellShaped st) :
    WellShaped st1 ∧ (st1.cell r).isSome := by
  unfold Value.matmul at h
  simp only [Option.bind_eq_bind, Option.bind_eq_some] at h
  obtain ⟨a, _, b, _, result, _, p1, h1, p2, h2, h3⟩ := h
  exact publish_result _ _ _ _ _ _ _ h3
    (get_self_ptr_keeps _ _ _ h2 (get_self_ptr_keeps _ _ _ h1 hst))

theorem pow_wellShaped (st st1 : Store α) (this r : Nat) (exponent : ℤ)
    (h : Value.pow st this exponent = some (st1, r)) (hst : WellShaped st) :
    WellShaped st1 ∧ (st1.cell r).isSome := by
  unfold Value.pow at h
  simp only [Option.bind_eq_bind, Option.bind_eq_some] at h
  obtain ⟨a, _, p1, h1, h3⟩ := h
  exact publish_result _ _ _ _ _ _ _ h3 (get_self_ptr_keeps _ _ _ h1 hst)

theorem relu_wellShaped (st st1 : Store α) (this r : Nat)
    (h : Value.relu st this = some (st1, r)) (hst : WellShaped st) :
    WellShaped st1 ∧ (st1.cell r).isSome := by
  unfold Value.relu at h
  simp only [Option.bind_eq_bind, Option.bind_eq_some] at h
  obtain ⟨a, _, p1, h1, h3⟩ := h
  exact publish_result _ _ _ _ _ _ _ h3 (get_self_ptr_keeps _ _ _ h1 hst)

theorem sigmoid_wellShaped (exp : α → α) (st st1 : Store α) (this r : Nat)
    (h : Value.sigmoid exp st this = some (st1, r)) (hst : WellShaped st) :
    WellShaped st1 ∧ (st1.cell r).isSome := by
  unfold Value.sigmoid at h
  simp only [Option.bind_eq_bind, Option.bind_eq_some] at h
  obtain ⟨a, _, p1, h1, h3⟩ := h
  exact publish_result _ _ _ _ _ _ _ h3 (get_self_ptr_keeps _ _ _ h1 hst)

theorem transpose_wellShaped (st st1 : Store α) (this r : Nat)
    (h : Value.transpose st this = some (st1, r)) (hst : WellShaped st) :
    WellShaped st1 ∧ (st1.cell r).isSome := by
  unfold Value.transpose at h
  simp only [Option.bind_eq_bind, Option.bind_eq_some] at h
  obtain ⟨a, _, p1, h1, h3⟩ := h
  exact publish_result _ _ _ _ _ _ _ h3 (get_self_ptr_keeps _ _ _ h1 hst)

theorem flatten_wellShaped (st st1 : Store α) (this r : Nat)
    (h : Value.flatten st this = some (st1, r)) (hst : WellShaped st) :
    WellShaped st1 ∧ (st1.cell r).isSome := by
  unfold Value.flatten at h
  simp only [Option.bind_eq_bind, Option.bind_eq_some] at h
  obtain ⟨a, ha, h1⟩ := h
  by_cases hc : a.data.cols ≤ 1
  · simp only [hc, if_true, Option.some.injEq] at h1
    have e1 : st1 = (st.alloc a).1 := by rw [h1]
    have e2 : r = st.next := (congrArg Prod.snd h1).symm
    subst e1 e2
    refine ⟨wellShaped_alloc st a hst (hst.1 this a ha) ?_, by simp [Store.cell_alloc]⟩
    intro h hself
    obtain ⟨h2, h3⟩ := hst.2 this a h ha hself
    exact ⟨by omega, h3⟩
  · simp only [hc, if_false, Option.bind_eq_bind, Option.bind_eq_some] at h1
    obtain ⟨flattened, _, p1, h2, h3⟩ := h1
    exact publish_result _ _ _ _ _ _ _ h3 (get_self_ptr_keeps _ _ _ h2 hst)

theorem celoss_wellShaped (exp log : α → α) (st st1 : Store α) (y_pred r : Nat)
    (y_true : List ℤ)
    (h : CrossEntropyLoss.forward exp log st y_pred y_true = some (st1, r))
    (hst : WellShaped st) :
    WellShaped st1 ∧ (st1.cell r).isSome := by
  unfold CrossEntropyLoss.forward at h
  simp only [Option.bind_eq_bind, Option.bind_eq_some] at h
  obtain ⟨a, _, probs, _, oh, _, weighted, _, p1, h1, h3⟩ := h
  exact publish_result _ _ _ _ _ _ _ h3 (get_self_ptr_keeps _ _ _ h1 hst)

theorem mseloss_wellShaped (st st1 : Store α) (y_pred y_true r : Nat)
    (h : MSELoss.forward st y_pred y_true = some (st1, r)) (hst : WellShaped st) :
    WellShaped st1 ∧ (st1.cell r).isSome := by
  unfold MSELoss.forward at h
  simp only [Option.bind_eq_bind, Option.bind_eq_some] at h
  obtain ⟨a, _, b, _, d, _, m, _, p1, h1, p2, h2, h3⟩ := h
  exact publish_result _ _ _ _ _ _ _ h3
    (get_self_ptr_keeps _ _ _ h2 (get_self_ptr_keeps _ _ _ h1 hst))

end operators
section gradOnly
variable {α : Type}

theorem gradOnly_refl (st : Store α) : GradOnly st st := by
  refine ⟨rfl, fun p => ?_⟩
  cases h : st.cell p with
  | none => exact Or.inl ⟨rfl, rfl⟩
  | some v => exact Or.inr ⟨v, v.grad, rfl, rfl, rfl, rfl⟩

theorem gradOnly_trans {s1 s2 s3 : Store α} (h12 : GradOnly s1 s2) (h23 : GradOnly s2 s3) :
    GradOnly s1 s3 := by
  refine ⟨h23.1.trans h12.1, fun p => ?_⟩
  rcases h12.2 p with ⟨h1, h2⟩ | ⟨v, g, h1, h2, hr, hc⟩
  · rcases h23.2 p with ⟨_, h4⟩ | ⟨v, g, h3, _⟩
    · exact Or.inl ⟨h1, h4⟩
    · rw [h2] at h3; exact Option.noConfusion h3
  · rcases h23.2 p with ⟨h3, _⟩ | ⟨v1, g1, h3, h4, hr1, hc1⟩
    · rw [h2] at h3; exact Option.noConfusion h3
    · rw [h2] at h3
      simp only [Option.some.injEq] at h3
      subst h3
      exact Or.inr ⟨v, g1, h1, h4, hr1.trans hr, hc1.trans hc⟩

theorem gradOnly_cell {st st1 : Store α} (h : GradOnly st st1) {p : Nat} {w : Value α}
    (hw : st1.cell p = some w) :
    ∃ v, st.cell p = some v ∧ w.data = v.data ∧ w._self = v._self ∧
      w.grad.rows = v.grad.rows ∧ w.grad.cols = v.grad.cols := by
  rcases h.2 p with ⟨_, h2⟩ | ⟨v, g, h1, h2, hr, hc⟩
  · rw [h2] at hw; exact Option.noConfusion hw
  · rw [h2] at hw
    simp only [Option.some.injEq] at hw
    subst hw
    exact ⟨v, h1, rfl, rfl, hr, hc⟩

theorem gradOnly_cell_forward {st st1 : Store α} (h : GradOnly st st1) {p : Nat} {v : Value α}
    (hv : st.cell p = some v) :
    ∃ w, st1.cell p = some w ∧ w.data = v.data ∧ w._self = v._self := by
  rcases h.2 p with ⟨h1, _⟩ | ⟨v1, g, h1, h2, _, _⟩
  · rw [h1] at hv; exact Option.noConfusion hv
  · rw [h1] at hv
    simp only [Option.some.injEq] at hv
    subst hv
    exact ⟨_, h2, rfl, rfl⟩

theorem wellShaped_of_gradOnly {st st1 : Store α} (hst : WellShaped st)
    (h : GradOnly st st1) : WellShaped st1 := by
  constructor
  · intro p w hw
    obtain ⟨v, hv, hd, _, hr, hc⟩ := gradOnly_cell h hw
    obtain ⟨h1, h2⟩ := hst.1 p v hv
    rw [hd]
    exact ⟨hr.trans h1, hc.trans h2⟩
  · intro p w q hw hself
    obtain ⟨v, hv, hd, hs, _, _⟩ := gradOnly_cell h hw
    rw [hs] at hself
    obtain ⟨h1, h2⟩ := hst.2 p v q hv hself
    rw [h.1]
    refine ⟨h1, ?_⟩
    intro u hu
    obtain ⟨u0, hu0, hud, _, _, _⟩ := gradOnly_cell h hu
    rw [hud, hd]
    exact h2 u0 hu0

theorem zipWith_shape {f : α → α → α} {A B C : MatrixXd α}
    (h : MatrixXd.zipWith f A B = some C) : C.rows = A.rows ∧ C.cols = A.cols := by
  unfold MatrixXd.zipWith at h
  by_cases hs : MatrixXd.sameShape A B
  · simp only [hs, if_true, Option.some.injEq] at h
    subst h
    exact ⟨rfl, rfl⟩
  · simp only [hs, if_false] at h
    exact Option.noConfusion h

end gradOnly

section closureShapes
variable {α : Type} [LinearOrderedField α]

theorem addGrad_gradOnly {st st1 : Store α} {p : Nat} {m : MatrixXd α}
    (h : Value.addGrad st p m = some st1) : GradOnly st st1 := by
  unfold Value.addGrad at h
  simp only [Option.bind_eq_bind, Option.bind_eq_some, Option.some.injEq] at h
  obtain ⟨v, hv, g, hg, h1⟩ := h
  subst h1
  obtain ⟨hr, hc⟩ := zipWith_shape hg
  refine ⟨rfl, fun q => ?_⟩
  by_cases hq : q = p
  · subst hq
    exact Or.inr ⟨v, g, hv, by simp [Store.cell_write, hv], hr, hc⟩
  · cases hc1 : st.cell q with
    | none => exact Or.inl ⟨rfl, by simp [Store.cell_write, hq, hc1]⟩
    | some u => exact Or.inr ⟨u, u.grad, rfl, by simp [Store.cell_write, hq, hc1], rfl, rfl⟩

theorem closure_gradOnly {st st1 : Store α} (c : Closure α)
    (h : Closure.run st c = some st1) : GradOnly st st1 := by
  cases c with
  | noop =>
    have e : st = st1 := Option.some.inj h
    subst e
    exact gradOnly_refl st
  | add s o out =>
    simp only [Closure.run, Option.bind_eq_bind, Option.bind_eq_some] at h
    obtain ⟨_, _, _, _, s1, h1, _, _, _, _, h2⟩ := h
    exact gradOnly_trans (addGrad_gradOnly h1) (addGrad_gradOnly h2)
  | mul s o out =>
    simp only [Closure.run, Option.bind_eq_bind, Option.bind_eq_some] at h
    obtain ⟨_, _, _, _, _, _, _, _, _, _, s1, h1, _, _, h2⟩ := h
    exact gradOnly_trans (addGrad_gradOnly h1) (addGrad_gradOnly h2)
  | matmul s o out =>
    simp only [Closure.run, Option.bind_eq_bind, Option.bind_eq_some] at h
    obtain ⟨_, _, _, _, _, _, s1, h1, _, _, _, _, _, _, h2⟩ := h
    exact gradOnly_trans (addGrad_gradOnly h1) (addGrad_gradOnly h2)
  | pow s out e =>
    simp only [Closure.run, Option.bind_eq_bind, Option.bind_eq_some] at h
    obtain ⟨_, _, _, _, _, _, h1⟩ := h
    exact addGrad_gradOnly h1
  | relu s out =>
    simp only [Closure.run, Option.bind_eq_bind, Option.bind_eq_some] at h
    obtain ⟨_, _, _, _, h1⟩ := h
    exact addGrad_gradOnly h1
  | sigmoid s out m =>
    simp only [Closure.run, Option.bind_eq_bind, Option.bind_eq_some] at h
    obtain ⟨_, _, _, _, _, _, h1⟩ := h
    exact addGrad_gradOnly h1
  | transpose s out =>
    simp only [Closure.run, Option.bind_eq_bind, Option.bind_eq_some] at h
    obtain ⟨_, _, h1⟩ := h
    exact addGrad_gradOnly h1
  | flatten s out r c =>
    simp only [Closure.run, Option.bind_eq_bind, Option.bind_eq_some] at h
    obtain ⟨_, _, _, _, h1⟩ := h
    exact addGrad_gradOnly h1
  | celoss y out probs oh n =>
    simp only [Closure.run, Option.bind_eq_bind, Option.bind_eq_some] at h
    obtain ⟨_, _, _, _, h1⟩ := h
    exact addGrad_gradOnly h1
  | mseloss y t out =>
    simp only [Closure.run, Option.bind_eq_bind, Option.bind_eq_some] at h
    obtain ⟨_, _, _, _, _, _, _, _, h1⟩ := h
    exact addGrad_gradOnly h1

theorem runAll_gradOnly (order : List Nat) :
    ∀ {st st1 : Store α}, Value.runAll st order = some st1 → GradOnly st st1 := by
  induction order with
  | nil =>
    intro st st1 h
    have e : st = st1 := Option.some.inj h
    subst e
    exact gradOnly_refl st
  | cons p rest ih =>
    intro st st1 h
    simp only [Value.runAll, Value.runClosure, Option.bind_eq_bind, Option.bind_eq_some] at h
    obtain ⟨s1, ⟨node, _, h1⟩, h2⟩ := h
    exact gradOnly_trans (closure_gradOnly _ h1) (ih h2)

end closureShapes
section drivers
variable {α : Type} [LinearOrderedField α]

theorem backward_wellShaped (st st1 : Store α) (this : Nat)
    (h : Value.backward st this = some st1) (hst : WellShaped st) : WellShaped st1 := by
  unfold Value.backward at h
  simp only [Option.bind_eq_bind, Option.bind_eq_some] at h
  obtain ⟨a, h1, topo, _, v, hv, s2, h2, s3, h3, w, hw, h4⟩ := h
  obtain ⟨w1, v0, vq, _, hv0, hvq, hr, hc, _, _⟩ :=
    get_self_ptr_wellShaped st a.1 this a.2 h1 hst
  have ev : v0 = v := by
    rw [hv0] at hv
    exact Option.some.inj hv
  subst ev
  -- seeding
  have e2 : s2 = a.1.write a.2 { vq with grad := MatrixXd.Ones v0.data.rows v0.data.cols } := by
    simp only [Store.modify, hvq, Option.map_some', Option.some.injEq] at h2
    exact h2.symm
  have w2 : WellShaped s2 := by
    rw [e2]
    refine wellShaped_write a.1 a.2 vq _ w1 hvq ?_ ?_ ?_
    · exact ⟨rfl, rfl⟩
    · exact ⟨hr.symm, hc.symm⟩
    · intro q hq
      exact w1.2 a.2 vq q hvq hq
  -- the closures
  have g3 : GradOnly s2 s3 := runAll_gradOnly _ h3
  have w3 : WellShaped s3 := wellShaped_of_gradOnly w2 g3
  cases hl : s3.lock w._self with
  | some q =>
    rw [hl] at h4
    have e4 : s3 = st1 := Option.some.inj h4
    rw [← e4]
    exact w3
  | none =>
    rw [hl] at h4
    simp only [Option.bind_eq_bind, Option.bind_eq_some, Option.some.injEq] at h4
    obtain ⟨s, hs, e4⟩ := h4
    rw [← e4]
    obtain ⟨s0, hs0, hsd, _, _, _⟩ := gradOnly_cell g3 hs
    obtain ⟨t0, ht0, htd, _, _, _⟩ := gradOnly_cell g3 hw
    have hs0d : s0.data.rows = v0.data.rows ∧ s0.data.cols = v0.data.cols := by
      rw [e2, Store.cell_write, hvq] at hs0
      simp only [if_true, Option.map_some', Option.some.injEq] at hs0
      rw [← hs0]
      exact ⟨hr, hc⟩
    have ht0d : t0.data.rows = v0.data.rows ∧ t0.data.cols = v0.data.cols := by
      rw [e2, Store.cell_write, hvq] at ht0
      by_cases hta : this = a.2
      · simp only [hta, if_true, Option.map_some', Option.some.injEq] at ht0
        rw [← ht0]
        exact ⟨hr, hc⟩
      · simp only [hta, if_false] at ht0
        rw [hv0] at ht0
        have := Option.some.inj ht0
        rw [← this]
        exact ⟨rfl, rfl⟩
    apply wellShaped_write s3 this w s w3 hw
    · rw [hsd, htd]
      exact ⟨hs0d.1.trans ht0d.1.symm, hs0d.2.trans ht0d.2.symm⟩
    · exact w3.1 a.2 s hs
    · intro q hq
      exact w3.2 a.2 s q hs hq

theorem zero_grad_wellShaped (st st1 : Store α) (this : Nat)
    (h : Value.zero_grad st this = some st1) (hst : WellShaped st) : WellShaped st1 := by
  unfold Value.zero_grad Store.modify at h
  cases hv : st.cell this with
  | none => rw [hv] at h; exact Option.noConfusion h
  | some v =>
    rw [hv] at h
    simp only [Option.map_some', Option.some.injEq] at h
    rw [← h]
    refine wellShaped_write st this v _ hst hv ?_ ?_ ?_
    · exact ⟨rfl, rfl⟩
    · exact ⟨rfl, rfl⟩
    · intro q hq
      exact hst.2 this v q hv hq

theorem zero_grad_list_wellShaped (params : List Nat) :
    ∀ (st st1 : Store α), params.foldlM (fun s p => Value.zero_grad s p) st = some st1 →
      WellShaped st → WellShaped st1 := by
  induction params with
  | nil =>
    intro st st1 h hst
    have e : st = st1 := Option.some.inj h
    rw [← e]; exact hst
  | cons p ps ih =>
    intro st st1 h hst
    simp only [List.foldlM_cons, Option.bind_eq_bind, Option.bind_eq_some] at h
    obtain ⟨s1, h1, h2⟩ := h
    exact ih s1 st1 h2 (zero_grad_wellShaped st s1 p h1 hst)

theorem sgd_update_wellShaped (lr : α) (st st1 : Store α) (p : Nat)
    (h : SGD.update lr st p = some st1) (hst : WellShaped st) : WellShaped st1 := by
  unfold SGD.update at h
  simp only [Option.bind_eq_bind, Option.bind_eq_some, Option.some.injEq] at h
  obtain ⟨v, hv, d, hd, e⟩ := h
  rw [← e]
  obtain ⟨hr, hc⟩ := zipWith_shape hd
  obtain ⟨gr, gc⟩ := hst.1 p v hv
  refine wellShaped_write st p v _ hst hv ?_ ?_ ?_
  · exact ⟨hr, hc⟩
  · exact ⟨gr.trans hr.symm, gc.trans hc.symm⟩
  intro q hq
  obtain ⟨h1, h2⟩ := hst.2 p v q hv hq
  refine ⟨h1, fun u hu => ?_⟩
  obtain ⟨h3, h4⟩ := h2 u hu
  exact ⟨h3.trans hr.symm, h4.trans hc.symm⟩

theorem sgd_loop_wellShaped (lr : α) (params : List Nat) :
    ∀ (st st1 : Store α), params.foldlM (fun s p => SGD.update lr s p) st = some st1 →
      WellShaped st → WellShaped st1 := by
  induction params with
  | nil =>
    intro st st1 h hst
    have e : st = st1 := Option.some.inj h
    rw [← e]; exact hst
  | cons p ps ih =>
    intro st st1 h hst
    simp only [List.foldlM_cons, Option.bind_eq_bind, Option.bind_eq_some] at h
    obtain ⟨s1, h1, h2⟩ := h
    exact ih s1 st1 h2 (sgd_update_wellShaped lr st s1 p h1 hst)

theorem sgd_step_wellShaped (o : SGD α) (st st1 : Store α)
    (h : SGD.step o st = some st1) (hst : WellShaped st) : WellShaped st1 :=
  sgd_loop_wellShaped o.lr o.parameters st st1 h hst

theorem nesterov_update_wellShaped (o o1 : NesterovSGD α) (st st1 : Store α) (i : Nat)
    (h : NesterovSGD.update o st i = some (o1, st1)) (hst : WellShaped st) :
    WellShaped st1 := by
  unfold NesterovSGD.update at h
  simp only [Option.bind_eq_bind, Option.bind_eq_some, Option.some.injEq, Prod.mk.injEq] at h
  obtain ⟨p, _, v_prev, _, w, hw, v_new, _, delta, _, d, hd, _, e⟩ := h
  rw [← e]
  obtain ⟨hr, hc⟩ := zipWith_shape hd
  obtain ⟨gr, gc⟩ := hst.1 p w hw
  refine wellShaped_write st p w _ hst hw ?_ ?_ ?_
  · exact ⟨hr, hc⟩
  · exact ⟨gr.trans hr.symm, gc.trans hc.symm⟩
  intro q hq
  obtain ⟨h1, h2⟩ := hst.2 p w q hw hq
  refine ⟨h1, fun u hu => ?_⟩
  obtain ⟨h3, h4⟩ := h2 u hu
  exact ⟨h3.trans hr.symm, h4.trans hc.symm⟩

theorem nesterov_loop_wellShaped (idx : List Nat) :
    ∀ (acc acc1 : NesterovSGD α × Store α),
      idx.foldlM (fun (a : NesterovSGD α × Store α) i => NesterovSGD.update a.1 a.2 i) acc
        = some acc1 → WellShaped acc.2 → WellShaped acc1.2 := by
  induction idx with
  | nil =>
    intro acc acc1 h hst
    have e : acc = acc1 := Option.some.inj h
    rw [← e]; exact hst
  | cons i rest ih =>
    intro acc acc1 h hst
    simp only [List.foldlM_cons, Option.bind_eq_bind, Option.bind_eq_some] at h
    obtain ⟨a1, h1, h2⟩ := h
    exact ih a1 acc1 h2 (nesterov_update_wellShaped acc.1 a1.1 acc.2 a1.2 i h1 hst)

theorem nesterov_step_wellShaped (o o1 : NesterovSGD α) (st st1 : Store α)
    (h : NesterovSGD.step o st = some (o1, st1)) (hst : WellShaped st) : WellShaped st1 :=
  nesterov_loop_wellShaped _ (o, st) (o1, st1) h hst

end drivers
section invariant
variable {α : Type} [LinearOrderedField α]

/-- A leaf that `registered` builds has a zero `grad` of the shape of its data and
knows itself, and the memory keeps the invariant. -/
theorem registered_wellShaped (st st1 : Store α) (data : MatrixXd α) (p : Nat)
    (h : Value.registered st data = some (st1, p)) (hst : WellShaped st) :
    WellShaped st1 ∧ ∃ v, st1.cell p = some v ∧ v.data = data ∧
      v.grad = MatrixXd.Zero data.rows data.cols ∧ v._self = some p := by
  have hc : (st.alloc (Value.ofMatrix data)).1.cell st.next = some (Value.ofMatrix data) := by
    simp [Store.cell_alloc]
  have e : Value.registered st data =
      some ((st.alloc (Value.ofMatrix data)).1.write st.next
        { Value.ofMatrix data with _self := some st.next }, st.next) := by
    simp [Value.registered, Value.set_self, Store.modify, Store.cell_alloc, Store.snd_alloc]
  rw [e] at h
  have h1 := Option.some.inj h
  have e1 : st1 = (st.alloc (Value.ofMatrix data)).1.write st.next
      { Value.ofMatrix data with _self := some st.next } := (congrArg Prod.fst h1).symm
  have e2 : p = st.next := (congrArg Prod.snd h1).symm
  subst e1 e2
  constructor
  · refine wellShaped_write _ st.next (Value.ofMatrix data) _
      (wellShaped_alloc_leaf st _ hst ⟨rfl, rfl⟩ rfl) hc ⟨rfl, rfl⟩ ⟨rfl, rfl⟩ ?_
    intro q hq
    simp only [Option.some.injEq] at hq
    subst hq
    refine ⟨by rw [Store.next_alloc]; omega, ?_⟩
    intro w hw
    rw [hc] at hw
    have := Option.some.inj hw
    rw [← this]
    exact ⟨rfl, rfl⟩
  · refine ⟨{ Value.ofMatrix data with _self := some st.next }, ?_, rfl, rfl, rfl⟩
    simp [Store.cell_write, Store.cell_alloc]
/-- C8: that every object has a `grad` of the shape of its `data` (`GradShaped`,
kept together with the matching shapes along self-pointers as `WellShaped`)
holds in the empty memory, holds for what both constructors build (a zero
`grad` of the shape of `data`), also when the leaf is registered with
`set_self`, and is kept by every operator (add, multiply,
matmul, pow, relu, sigmoid, transpose, flatten and both fused losses), whose
returned object and node are among the objects of the new memory, and by
`backward`, `zero_grad`, `SGD::step` and `NesterovSGD::step`. -/
theorem grad_shape_invariant (st : Store α) (hst : WellShaped st) :
    GradShaped st ∧ WellShaped (Store.empty : Store α) ∧
    (∀ data : MatrixXd α,
      (Value.ofMatrix data).grad = MatrixXd.Zero data.rows data.cols ∧
      (Value.ofMatrix data).data = data ∧ WellShaped (st.alloc (Value.ofMatrix data)).1) ∧
    (∀ x : α,
      (Value.ofScalar x).grad = MatrixXd.Zero 1 1 ∧
      (Value.ofScalar x).data = MatrixXd.Constant 1 1 x ∧
      WellShaped (st.alloc (Value.ofScalar x)).1) ∧
    (∀ data st1 p, Value.registered st data = some (st1, p) →
      WellShaped st1 ∧ ∃ v, st1.cell p = some v ∧ v.data = data ∧
        v.grad = MatrixXd.Zero data.rows data.cols ∧ v._self = some p) ∧
    (∀ this other st1 r, Value.add st this other = some (st1, r) →
      WellShaped st1 ∧ ∃ v, st1.cell r = some v ∧
        v.grad.rows = v.data.rows ∧ v.grad.cols = v.data.cols) ∧
    (∀ this other st1 r, Value.mul st this other = some (st1, r) →
      WellShaped st1 ∧ ∃ v, st1.cell r = some v ∧
        v.grad.rows = v.data.rows ∧ v.grad.cols = v.data.cols) ∧
    (∀ this other st1 r, Value.matmul st this other = some (st1, r) →
      WellShaped st1 ∧ ∃ v, st1.cell r = some v ∧
        v.grad.rows = v.data.rows ∧ v.grad.cols = v.data.cols) ∧
    (∀ this exponent st1 r, Value.pow st this exponent = some (st1, r) →
      WellShaped st1 ∧ ∃ v, st1.cell r = some v ∧
        v.grad.rows = v.data.rows ∧ v.grad.cols = v.data.cols) ∧
    (∀ this st1 r, Value.relu st this = some (st1, r) →
      WellShaped st1 ∧ ∃ v, st1.cell r = some v ∧
        v.grad.rows = v.data.rows ∧ v.grad.cols = v.data.cols) ∧
    (∀ exp this st1 r, Value.sigmoid exp st this = some (st1, r) →
      WellShaped st1 ∧ ∃ v, st1.cell r = some v ∧
        v.grad.rows = v.data.rows ∧ v.grad.cols = v.data.cols) ∧
    (∀ this st1 r, Value.transpose st this = some (st1, r) →
      WellShaped st1 ∧ ∃ v, st1.cell r = some v ∧
        v.grad.rows = v.data.rows ∧ v.grad.cols = v.data.cols) ∧
    (∀ this st1 r, Value.flatten st this = some (st1, r) →
      WellShaped st1 ∧ ∃ v, st1.cell r = some v ∧
        v.grad.rows = v.data.rows ∧ v.grad.cols = v.data.cols) ∧
    (∀ exp log y_pred y_true st1 r,
      CrossEntropyLoss.forward exp log st y_pred y_true = some (st1, r) →
      WellShaped st1 ∧ ∃ v, st1.cell r = some v ∧
        v.grad.rows = v.data.rows ∧ v.grad.cols = v.data.cols) ∧
    (∀ y_pred y_true st1 r, MSELoss.forward st y_pred y_true = some (st1, r) →
      WellShaped st1 ∧ ∃ v, st1.cell r = some v ∧
        v.grad.rows = v.data.rows ∧ v.grad.cols = v.data.cols) ∧
    (∀ this st1, Value.backward st this = some st1 → WellShaped st1) ∧
    (∀ this st1, Value.zero_grad st this = some st1 → WellShaped st1) ∧
    (∀ (o : SGD α) st1, SGD.step o st = some st1 → WellShaped st1) ∧
    (∀ (o o1 : NesterovSGD α) st1, NesterovSGD.step o st = some (o1, st1) →
      WellShaped st1) := by
  refine ⟨hst.1, wellShaped_empty, ?_, ?_, ?_, ?_, ?_, ?_, ?_, ?_, ?_, ?_, ?_, ?_, ?_, ?_, ?_,
    ?_, ?_⟩
  · intro data
    exact ⟨rfl, rfl, wellShaped_alloc_leaf st _ hst ⟨rfl, rfl⟩ rfl⟩
  · intro x
    exact ⟨rfl, rfl, wellShaped_alloc_leaf st _ hst ⟨rfl, rfl⟩ rfl⟩
  · intro data st1 p h
    exact registered_wellShaped st st1 data p h hst
  · intro this other st1 r h
    exact result_shaped (add_wellShaped st st1 this other r h hst)
  · intro this other st1 r h
    exact result_shaped (mul_wellShaped st st1 this other r h hst)
  · intro this other st1 r h
    exact result_shaped (matmul_wellShaped st st1 this other r h hst)
  · intro this exponent st1 r h
    exact result_shaped (pow_wellShaped st st1 this r exponent h hst)
  · intro this st1 r h
    exact result_shaped (relu_wellShaped st st1 this r h hst)
  · intro exp this st1 r h
    exact result_shaped (sigmoid_wellShaped exp st st1 this r h hst)
  · intro this st1 r h
    exact result_shaped (transpose_wellShaped st st1 this r h hst)
  · intro this st1 r h
    exact result_shaped (flatten_wellShaped st st1 this r h hst)
  · intro exp log y_pred y_true st1 r h
    exact result_shaped (celoss_wellShaped exp log st st1 y_pred r y_true h hst)
  · intro y_pred y_true st1 r h
    exact result_shaped (mseloss_wellShaped st st1 y_pred y_true r h hst)
  · intro this st1 h
    exact backward_wellShaped st st1 this h hst
  · intro this st1 h
    exact zero_grad_wellShaped st st1 this h hst
  · intro o st1 h
    exact sgd_step_wellShaped o st st1 h hst
  · intro o o1 st1 h
    exact nesterov_step_wellShaped o o1 st st1 h hst

/-- C8 at the memory that holds one scalar leaf: the invariant holds there and
`backward` from the leaf keeps it. -/
theorem grad_shape_invariant_witness :
    WellShaped ((Store.empty : Store ℚ).alloc (Value.ofScalar 5)).1 ∧
    ∀ this st1, Value.backward ((Store.empty : Store ℚ).alloc (Value.ofScalar 5)).1 this
      = some st1 → WellShaped st1 :=
  have h0 : WellShaped ((Store.empty : Store ℚ).alloc (Value.ofScalar 5)).1 :=
    wellShaped_alloc_leaf _ _ wellShaped_empty ⟨rfl, rfl⟩ rfl
  ⟨h0, (grad_shape_invariant _ h0).2.2.2.2.2.2.2.2.2.2.2.2.2.2.2.1⟩

end invariant

/-! ## C16: incompatible shapes -/

section failFast
variable {α : Type} [LinearOrderedField α]

omit [LinearOrderedField α] in
/-- On a live object `get_self_ptr` always returns. -/
theorem get_self_ptr_total (st : Store α) (this : Nat) (v : Value α)
    (hv : st.cell this = some v) :
    ∃ st1 p, Value.get_self_ptr st this = some (st1, p) ∧
      (∀ q w, st.cell q = some w → st1.cell q = some w) := by
  cases hl : st.lock v._self with
  | some p =>
    refine ⟨st, p, ?_, fun _ _ h => h⟩
    simp [Value.get_self_ptr, hv, hl]
  | none =>
    refine ⟨(st.alloc v).1, st.next, ?_, ?_⟩
    · simp [Value.get_self_ptr, hv, hl]
      rfl
    · intro q w hq
      have hne : q ≠ st.next := Nat.ne_of_lt (Store.lt_next_of_cell hq)
      simp [Store.cell_alloc, hne, hq]

omit [LinearOrderedField α] in
/-- The object that an operator returns carries the data it was built with. -/
theorem publish_cell (st : Store α) (out : Value α) (prev : List Nat)
    (closure : Nat → Closure α) :
    ∃ v, (Value.publish st out prev closure).1.cell (Value.publish st out prev closure).2
      = some v ∧ v.data = out.data ∧ v.grad = out.grad ∧ v._prev = prev := by
  refine ⟨Value.mk out.data out.grad prev (closure st.next) out._op (some st.next), ?_,
    rfl, rfl, rfl⟩
  simp [Value.publish, Store.cell_alloc, Store.snd_alloc, Store.next_alloc]

theorem add_eq_none_of_addResult (st : Store α) (this other : Nat) (a b : Value α)
    (ha : st.cell this = some a) (hb : st.cell other = some b)
    (h : Value.addResult a.data b.data = none) : Value.add st this other = none := by
  simp [Value.add, ha, hb, h]

theorem mul_eq_none_of_product (st : Store α) (this other : Nat) (a b : Value α)
    (ha : st.cell this = some a) (hb : st.cell other = some b)
    (h : a.data.cwiseProduct b.data = none) : Value.mul st this other = none := by
  simp [Value.mul, ha, hb, h]

theorem matmul_eq_none_of_product (st : Store α) (this other : Nat) (a b : Value α)
    (ha : st.cell this = some a) (hb : st.cell other = some b)
    (h : a.data.mul b.data = none) : Value.matmul st this other = none := by
  simp [Value.matmul, ha, hb, h]

omit [LinearOrderedField α] in
theorem zipWith_eq_some_iff (f : α → α → α) (A B : MatrixXd α) :
    (MatrixXd.zipWith f A B).isSome ↔ (A.rows = B.rows ∧ A.cols = B.cols) := by
  unfold MatrixXd.zipWith MatrixXd.sameShape
  by_cases h : A.rows = B.rows ∧ A.cols = B.cols
  · simp [h]
  · simp only [h, if_false, iff_false]
    simp

theorem rowwiseAdd_shape {A B C : MatrixXd α} (h : A.rowwiseAdd B = some C) :
    C.rows = A.rows ∧ C.cols = A.cols := by
  unfold MatrixXd.rowwiseAdd at h
  by_cases hc : 0 < B.rows ∧ A.cols = B.cols
  · rw [if_pos hc] at h
    have := Option.some.inj h
    subst this
    exact ⟨rfl, rfl⟩
  · rw [if_neg hc] at h
    exact Option.noConfusion h

/-- The result of the `if` chain of `operator+`, when there is one, has the
larger row count and the common column count. -/
theorem addResult_shape (a b m : MatrixXd α) (h : Value.addResult a b = some m) :
    a.cols = b.cols ∧ m.cols = a.cols ∧
      ((a.rows = b.rows ∧ m.rows = a.rows) ∨ (b.rows = 1 ∧ m.rows = a.rows) ∨
        (a.rows = 1 ∧ m.rows = b.rows)) := by
  unfold Value.addResult at h
  by_cases h1 : a.rows = b.rows ∧ a.cols = b.cols
  · rw [if_pos h1] at h
    obtain ⟨hr, hc⟩ := zipWith_shape h
    exact ⟨h1.2, hc, Or.inl ⟨h1.1, hr⟩⟩
  · rw [if_neg h1] at h
    by_cases h2 : b.rows = 1 ∧ a.cols = b.cols
    · rw [if_pos h2] at h
      obtain ⟨hr, hc⟩ := rowwiseAdd_shape h
      exact ⟨h2.2, hc, Or.inr (Or.inl ⟨h2.1, hr⟩)⟩
    · rw [if_neg h2] at h
      by_cases h3 : a.rows = 1 ∧ a.cols = b.cols
      · rw [if_pos h3] at h
        obtain ⟨hr, hc⟩ := rowwiseAdd_shape h
        exact ⟨h3.2, hc.trans h3.2.symm, Or.inr (Or.inr ⟨h3.1, hr⟩)⟩
      · rw [if_neg h3] at h
        have := (zipWith_eq_some_iff (· + ·) a b).mp (by
          have e : MatrixXd.zipWith (· + ·) a b = some m := h
          rw [e]; rfl)
        exact absurd this h1

/-- The `if` chain of `operator+` has no result on incompatible shapes. -/
theorem addResult_eq_none (a b : MatrixXd α)
    (hdiff : a.rows ≠ b.rows ∨ a.cols ≠ b.cols)
    (h2 : ¬(b.rows = 1 ∧ a.cols = b.cols)) (h3 : ¬(a.rows = 1 ∧ a.cols = b.cols)) :
    Value.addResult a b = none := by
  have h1 : ¬(a.rows = b.rows ∧ a.cols = b.cols) := by
    intro h
    rcases hdiff with h0 | h0
    · exact h0 h.1
    · exact h0 h.2
  unfold Value.addResult
  rw [if_neg h1, if_neg h2, if_neg h3]
  unfold MatrixXd.add MatrixXd.zipWith MatrixXd.sameShape
  rw [if_neg h1]

/-- C16: on operands of incompatible shapes `operator+`, `operator*` and
`matmul` return no object (Eigen's size assertion stops them); and whenever
they do return, the returned object has the full shape: for `+` the common
column count and the larger row count, for `*` the shape of both operands,
for `matmul` the rows of the left and the columns of the right operand. -/
theorem shape_mismatch_fails (st : Store α) (this other : Nat) (a b : Value α)
    (ha : st.cell this = some a) (hb : st.cell other = some b) :
    ((a.data.rows ≠ b.data.rows ∨ a.data.cols ≠ b.data.cols) →
      ¬(b.data.rows = 1 ∧ a.data.cols = b.data.cols) →
      ¬(a.data.rows = 1 ∧ a.data.cols = b.data.cols) →
      Value.add st this other = none) ∧
    ((a.data.rows ≠ b.data.rows ∨ a.data.cols ≠ b.data.cols) →
      Value.mul st this other = none) ∧
    (a.data.cols ≠ b.data.rows → Value.matmul st this other = none) ∧
    (∀ st1 r, Value.add st this other = some (st1, r) →
      ∃ v, st1.cell r = some v ∧ a.data.cols = b.data.cols ∧ v.data.cols = a.data.cols ∧
        ((a.data.rows = b.data.rows ∧ v.data.rows = a.data.rows) ∨
          (b.data.rows = 1 ∧ v.data.rows = a.data.rows) ∨
          (a.data.rows = 1 ∧ v.data.rows = b.data.rows))) ∧
    (∀ st1 r, Value.mul st this other = some (st1, r) →
      ∃ v, st1.cell r = some v ∧ a.data.rows = b.data.rows ∧ a.data.cols = b.data.cols ∧
        v.data.rows = a.data.rows ∧ v.data.cols = a.data.cols) ∧
    (∀ st1 r, Value.matmul st this other = some (st1, r) →
      ∃ v, st1.cell r = some v ∧ a.data.cols = b.data.rows ∧
        v.data.rows = a.data.rows ∧ v.data.cols = b.data.cols) := by
  refine ⟨?_, ?_, ?_, ?_, ?_, ?_⟩
  · intro hdiff h2 h3
    exact add_eq_none_of_addResult st this other a b ha hb
      (addResult_eq_none a.data b.data hdiff h2 h3)
  · intro hdiff
    apply mul_eq_none_of_product st this other a b ha hb
    cases hp : a.data.cwiseProduct b.data with
    | none => rfl
    | some m =>
      have := (zipWith_eq_some_iff (· * ·) a.data b.data).mp (by
        have e : MatrixXd.zipWith (· * ·) a.data b.data = some m := hp
        rw [e]; rfl)
      rcases hdiff with h0 | h0
      · exact absurd this.1 h0
      · exact absurd this.2 h0
  · intro hdiff
    apply matmul_eq_none_of_product st this other a b ha hb
    unfold MatrixXd.mul
    rw [if_neg hdiff]
  · intro st1 r h
    unfold Value.add at h
    simp only [ha, hb, Option.bind_eq_bind, Option.some_bind, Option.bind_eq_some] at h
    obtain ⟨m, hm, p1, _, p2, _, h3⟩ := h
    obtain ⟨v, hv, hd, _, _⟩ := publish_cell p2.1 { Value.ofMatrix m with _op := "+" }
      [p1.2, p2.2] (Closure.add p1.2 p2.2)
    rw [Option.some.inj h3] at hv
    obtain ⟨hc, hmc, hrows⟩ := addResult_shape a.data b.data m hm
    refine ⟨v, hv, hc, ?_, ?_⟩
    · rw [hd]; exact hmc
    · rw [hd]; exact hrows
  · intro st1 r h
    unfold Value.mul at h
    simp only [ha, hb, Option.bind_eq_bind, Option.some_bind, Option.bind_eq_some] at h
    obtain ⟨m, hm, p1, _, p2, _, h3⟩ := h
    obtain ⟨v, hv, hd, _, _⟩ := publish_cell p2.1 { Value.ofMatrix m with _op := "*" }
      [p1.2, p2.2] (Closure.mul p1.2 p2.2)
    rw [Option.some.inj h3] at hv
    have hsame := (zipWith_eq_some_iff (· * ·) a.data b.data).mp (by
      have e : MatrixXd.zipWith (· * ·) a.data b.data = some m := hm
      rw [e]; rfl)
    obtain ⟨hr, hc⟩ := zipWith_shape hm
    refine ⟨v, hv, hsame.1, hsame.2, ?_, ?_⟩
    · rw [hd]; exact hr
    · rw [hd]; exact hc
  · intro st1 r h
    unfold Value.matmul at h
    simp only [ha, hb, Option.bind_eq_bind, Option.some_bind, Option.bind_eq_some] at h
    obtain ⟨m, hm, p1, _, p2, _, h3⟩ := h
    obtain ⟨v, hv, hd, _, _⟩ := publish_cell p2.1 { Value.ofMatrix m with _op := "@" }
      [p1.2, p2.2] (Closure.matmul p1.2 p2.2)
    rw [Option.some.inj h3] at hv
    unfold MatrixXd.mul at hm
    by_cases hk : a.data.cols = b.data.rows
    · rw [if_pos hk] at hm
      have := Option.some.inj hm
      subst this
      refine ⟨v, hv, hk, ?_, ?_⟩
      · rw [hd]; rfl
      · rw [hd]; rfl
    · rw [if_neg hk] at hm
      exact Option.noConfusion hm

end failFast

/-- C16 with a 2 x 2 and a 3 x 3 leaf. -/
theorem shape_mismatch_fails_witness :
    ((Store.empty : Store ℚ).extend
        [Value.ofMatrix (MatrixXd.Constant 2 2 1), Value.ofMatrix (MatrixXd.Constant 3 3 1)]).cell 0
      = some (Value.ofMatrix (MatrixXd.Constant 2 2 1)) ∧
    ((Store.empty : Store ℚ).extend
        [Value.ofMatrix (MatrixXd.Constant 2 2 1), Value.ofMatrix (MatrixXd.Constant 3 3 1)]).cell 1
      = some (Value.ofMatrix (MatrixXd.Constant 3 3 1)) ∧
    Value.add ((Store.empty : Store ℚ).extend
        [Value.ofMatrix (MatrixXd.Constant 2 2 1), Value.ofMatrix (MatrixXd.Constant 3 3 1)]) 0 1
      = none ∧
    Value.mul ((Store.empty : Store ℚ).extend
        [Value.ofMatrix (MatrixXd.Constant 2 2 1), Value.ofMatrix (MatrixXd.Constant 3 3 1)]) 0 1
      = none ∧
    Value.matmul ((Store.empty : Store ℚ).extend
        [Value.ofMatrix (MatrixXd.Constant 2 2 1), Value.ofMatrix (MatrixXd.Constant 3 3 1)]) 0 1
      = none :=
  have h := shape_mismatch_fails ((Store.empty : Store ℚ).extend
    [Value.ofMatrix (MatrixXd.Constant 2 2 1), Value.ofMatrix (MatrixXd.Constant 3 3 1)]) 0 1
    (Value.ofMatrix (MatrixXd.Constant 2 2 1)) (Value.ofMatrix (MatrixXd.Constant 3 3 1)) rfl rfl
  ⟨rfl, rfl, h.1 (Or.inl (by decide)) (by decide) (by decide), h.2.1 (Or.inl (by decide)),
    h.2.2.1 (by decide)⟩

/-! ## C17, C18: subtraction and scalar operands -/

section scalarOps
variable {α : Type} [LinearOrderedField α]

/-- `operator*(double)` wraps the scalar in a 1 x 1 `Value` and calls the
elementwise `operator*`, which has no result unless `this` is 1 x 1 too. -/
theorem mulScalar_eq_none (st : Store α) (this : Nat) (a : Value α) (s : α)
    (ha : st.cell this = some a) (h : ¬(a.data.rows = 1 ∧ a.data.cols = 1)) :
    Value.mulScalar st this s = none := by
  have hne : this ≠ st.next := Nat.ne_of_lt (Store.lt_next_of_cell ha)
  have h1 : (st.alloc (Value.ofScalar s)).1.cell this = some a := by
    simp [Store.cell_alloc, hne, ha]
  have h2 : (st.alloc (Value.ofScalar s)).1.cell st.next = some (Value.ofScalar s) := by
    simp [Store.cell_alloc]
  have e : Value.mulScalar st this s = Value.mul (st.alloc (Value.ofScalar s)).1 this st.next :=
    rfl
  rw [e]
  apply mul_eq_none_of_product _ this st.next a (Value.ofScalar s) h1 h2
  unfold MatrixXd.cwiseProduct MatrixXd.zipWith MatrixXd.sameShape
  exact if_neg h

/-- `operator+(double)` wraps the scalar in a 1 x 1 `Value`; `operator+` then
has no result unless `this` has exactly one column. -/
theorem addScalar_eq_none (st : Store α) (this : Nat) (a : Value α) (s : α)
    (ha : st.cell this = some a) (h : a.data.cols ≠ 1) :
    Value.addScalar st this s = none := by
  have hne : this ≠ st.next := Nat.ne_of_lt (Store.lt_next_of_cell ha)
  have h1 : (st.alloc (Value.ofScalar s)).1.cell this = some a := by
    simp [Store.cell_alloc, hne, ha]
  have h2 : (st.alloc (Value.ofScalar s)).1.cell st.next = some (Value.ofScalar s) := by
    simp [Store.cell_alloc]
  have e : Value.addScalar st this s = Value.add (st.alloc (Value.ofScalar s)).1 this st.next :=
    rfl
  rw [e]
  apply add_eq_none_of_addResult _ this st.next a (Value.ofScalar s) h1 h2
  apply addResult_eq_none
  · exact Or.inr h
  · exact fun hc => h hc.2
  · exact fun hc => h hc.2

/-- `operator-` first computes `other * -1.0`, so it has no result unless
`other` is 1 x 1. -/
theorem sub_eq_none (st : Store α) (this other : Nat) (b : Value α)
    (hb : st.cell other = some b) (h : ¬(b.data.rows = 1 ∧ b.data.cols = 1)) :
    Value.sub st this other = none := by
  simp [Value.sub, mulScalar_eq_none st other b (-1) hb h]

theorem divScalar_eq_none (st : Store α) (this : Nat) (a : Value α) (s : α)
    (ha : st.cell this = some a) (h : ¬(a.data.rows = 1 ∧ a.data.cols = 1)) :
    Value.divScalar st this s = none :=
  mulScalar_eq_none st this a (1 / s) ha h

end scalarOps

/-- C17, evaluated on two 2 x 2 leaves `a` and `b`: `a - b` has no result. -/
theorem sub_same_shape_fails :
    Value.sub ((Store.empty : Store ℚ).extend
      [Value.ofMatrix (MatrixXd.Constant 2 2 5), Value.ofMatrix (MatrixXd.Constant 2 2 3)]) 0 1
      = none ∧
    Value.sub ((Store.empty : Store ℚ).extend
      [Value.ofMatrix (MatrixXd.Constant 2 2 5), Value.ofMatrix (MatrixXd.Constant 1 2 3)]) 0 1
      = none :=
  ⟨sub_eq_none _ 0 1 (Value.ofMatrix (MatrixXd.Constant 2 2 3)) rfl (by decide),
   sub_eq_none _ 0 1 (Value.ofMatrix (MatrixXd.Constant 1 2 3)) rfl (by decide)⟩

/-- C18, evaluated on a 2 x 2 leaf `a` and the scalar 3: none of `a + 3`,
`a * 3` and `a / 3` has a result. -/
theorem scalar_operands_fail :
    Value.addScalar ((Store.empty : Store ℚ).extend
      [Value.ofMatrix (MatrixXd.Constant 2 2 5)]) 0 3 = none ∧
    Value.mulScalar ((Store.empty : Store ℚ).extend
      [Value.ofMatrix (MatrixXd.Constant 2 2 5)]) 0 3 = none ∧
    Value.divScalar ((Store.empty : Store ℚ).extend
      [Value.ofMatrix (MatrixXd.Constant 2 2 5)]) 0 3 = none :=
  ⟨addScalar_eq_none _ 0 (Value.ofMatrix (MatrixXd.Constant 2 2 5)) 3 rfl (by decide),
   mulScalar_eq_none _ 0 (Value.ofMatrix (MatrixXd.Constant 2 2 5)) 3 rfl (by decide),
   divScalar_eq_none _ 0 (Value.ofMatrix (MatrixXd.Constant 2 2 5)) 3 rfl (by decide)⟩

/-! ## C19: the shape flatten returns -/

section flattenShape
variable {α : Type} [LinearOrderedField α]

/-- On a node with at most one column `flatten()` takes the early return
`if (orig_cols <= 1) return *this;`: the result is a copy of the node. -/
theorem flatten_narrow (st : Store α) (this : Nat) (a : Value α)
    (ha : st.cell this = some a) (hc : a.data.cols ≤ 1) :
    ∃ st1 r, Value.flatten st this = some (st1, r) ∧ st1.cell r = some a := by
  refine ⟨(st.alloc a).1, st.next, ?_, by simp [Store.cell_alloc]⟩
  simp [Value.flatten, ha, hc]
  rfl

/-- On a node with at least two columns `flatten()` builds a node of one row. -/
theorem flatten_wide (st : Store α) (this : Nat) (a : Value α)
    (ha : st.cell this = some a) (hc : 1 < a.data.cols) :
    ∃ st1 r v, Value.flatten st this = some (st1, r) ∧
      st1.cell r = some v ∧ v.data.rows = 1 ∧ v.data.cols = a.data.rows * a.data.cols := by
  have hnc : ¬ a.data.cols ≤ 1 := Nat.not_le.mpr hc
  obtain ⟨s1, p, hg, _⟩ := get_self_ptr_total st this a ha
  obtain ⟨v, hv, hd, _, _⟩ := publish_cell s1
    { Value.ofMatrix (⟨1, a.data.rows * a.data.cols, fun i j =>
        a.data.coeff ((j * 1 + i) % a.data.rows) ((j * 1 + i) / a.data.rows)⟩ : MatrixXd α)
      with _op := "flatten" } [p]
    (fun out_ptr => Closure.flatten p out_ptr a.data.rows a.data.cols)
  refine ⟨_, _, v, ?_, hv, by rw [hd]; rfl, by rw [hd]; rfl⟩
  simp [Value.flatten, ha, hnc, MatrixXd.reshaped, hg]

/-- C19 as amended: on a node with at least two columns `flatten()` returns an
object whose data has 1 row and `rows * cols` columns; on a node with at most
one column it returns a copy of the node, whose data keeps its shape. -/
theorem flatten_shape (st : Store α) (this : Nat) (a : Value α)
    (ha : st.cell this = some a) :
    (1 < a.data.cols → ∃ st1 r v, Value.flatten st this = some (st1, r) ∧
      st1.cell r = some v ∧ v.data.rows = 1 ∧ v.data.cols = a.data.rows * a.data.cols) ∧
    (a.data.cols ≤ 1 → ∃ st1 r, Value.flatten st this = some (st1, r) ∧
      st1.cell r = some a) :=
  ⟨flatten_wide st this a ha, flatten_narrow st this a ha⟩

/-- C19 as amended, on a 2 x 3 leaf. -/
theorem flatten_shape_witness :
    ((Store.empty : Store ℚ).extend [Value.ofMatrix (MatrixXd.Constant 2 3 1)]).cell 0
      = some (Value.ofMatrix (MatrixXd.Constant 2 3 1)) ∧
    1 < (Value.ofMatrix (MatrixXd.Constant 2 3 (1 : ℚ))).data.cols ∧
    ∃ st1 r v, Value.flatten
        ((Store.empty : Store ℚ).extend [Value.ofMatrix (MatrixXd.Constant 2 3 1)]) 0
        = some (st1, r) ∧
      st1.cell r = some v ∧ v.data.rows = 1 ∧
      v.data.cols = (Value.ofMatrix (MatrixXd.Constant 2 3 (1 : ℚ))).data.rows *
        (Value.ofMatrix (MatrixXd.Constant 2 3 (1 : ℚ))).data.cols :=
  ⟨rfl, by decide,
    (flatten_shape ((Store.empty : Store ℚ).extend [Value.ofMatrix (MatrixXd.Constant 2 3 1)]) 0
      (Value.ofMatrix (MatrixXd.Constant 2 3 1)) rfl).1 (by decide)⟩

/-- C19 as stated fails on a 2 x 1 leaf: `flatten()` returns an object whose
data is still 2 x 1, not 1 x 2. -/
theorem flatten_shape_counterexample :
    ∃ st1 r v, Value.flatten
        ((Store.empty : Store ℚ).extend [Value.ofMatrix (MatrixXd.Constant 2 1 1)]) 0
        = some (st1, r) ∧
      st1.cell r = some v ∧ v.data.rows = 2 ∧ v.data.cols = 1 ∧
      ¬(v.data.rows = 1 ∧ v.data.cols = 2 * 1) := by
  obtain ⟨st1, r, h, hv⟩ :=
    flatten_narrow ((Store.empty : Store ℚ).extend [Value.ofMatrix (MatrixXd.Constant 2 1 1)]) 0
      (Value.ofMatrix (MatrixXd.Constant 2 1 1)) rfl (by decide)
  exact ⟨st1, r, _, h, hv, rfl, rfl, by decide⟩

end flattenShape

/-! ## C20: ReLU -/

section reluNode
variable {α : Type} [LinearOrderedField α]

/-- The forward pass of `relu` on any live object: it returns, and the returned
object holds `a.data.cwiseMax(0.0)` with a zero grad. -/
theorem relu_forward (st : Store α) (this : Nat) (a : Value α) (ha : st.cell this = some a) :
    ∃ s y vy, Value.relu st this = some (s, y) ∧ s.cell y = some vy ∧
      vy.data = a.data.cwiseMax 0 ∧
      vy.grad = MatrixXd.Zero a.data.rows a.data.cols := by
  obtain ⟨st1, p, hp, _⟩ := get_self_ptr_total st this a ha
  obtain ⟨v, hv, hd, hg, _⟩ := publish_cell st1
    ({ Value.ofMatrix (a.data.cwiseMax 0) with _op := "relu" }) [p] (Closure.relu p)
  refine ⟨_, _, v, ?_, hv, hd, hg⟩
  simp [Value.relu, ha, hp]

set_option maxHeartbeats 1000000 in
/-- The program `a = make_shared<Value>(A); a->set_self(a); Value y = a->relu();
y.backward();` from any memory: the grad of `a` is the mask of the positive
entries of `A`. -/
theorem relu_registered_backward_run (st : Store α) (r c : Nat) (f : Nat → Nat → α) :
    ∃ s va, relu_registered_backward st ⟨r, c, f⟩ = some (s, st.next, st.next + 2) ∧
      s.cell st.next = some va ∧ va.data = ⟨r, c, f⟩ ∧
      va.grad = ⟨r, c, fun i j => if 0 < f i j then 1 else 0⟩ := by
  unfold relu_registered_backward
  rw [registered_eq]
  simp only [Option.bind_eq_bind, Option.some_bind, registered_extend]
  simp [Value.relu, Value.get_self_ptr, Value.publish, Value.ofMatrix, Store.lock,
    MatrixXd.cwiseMax, MatrixXd.map, MatrixXd.Constant, Store.alloc_eq, Nat.add_assoc]
  simp [Value.backward, Value.get_self_ptr, Store.lock, Nat.add_assoc]
  rw [build_topo_of_le _ 4 _ _ _ (by omega) (by simp [Value.build_topo])]
  simp [Value.build_topo]
  simp [Store.modify]
  simp [Value.runClosures, Value.runAll, MatrixXd.addAssign, MatrixXd.add, MatrixXd.zipWith,
    MatrixXd.sameShape, MatrixXd.Zero, MatrixXd.Ones, MatrixXd.Constant,
    MatrixXd.cwiseProduct, MatrixXd.positiveMask, MatrixXd.map]

/-- C20: for every live object `a`, `a.relu()` returns an object of the shape of
`a` whose entry (i, j) is `max(a(i, j), 0)`, hence not negative; and for a
registered leaf `a` holding any `r x c` matrix `f` with a zero grad, after
`y = a->relu(); y.backward()` the grad of `a` is `r x c` with entry 1 where
`f i j > 0` and entry 0 elsewhere, also where `f i j = 0`. -/
theorem relu_max_and_mask (st : Store α) (this : Nat) (a : Value α)
    (ha : st.cell this = some a) (r c : Nat) (f : Nat → Nat → α) :
    (∃ s y vy, Value.relu st this = some (s, y) ∧ s.cell y = some vy ∧
      vy.data.rows = a.data.rows ∧ vy.data.cols = a.data.cols ∧
      ∀ i j, vy.data.coeff i j = max (a.data.coeff i j) 0 ∧ 0 ≤ vy.data.coeff i j) ∧
    (∃ s pa y va, relu_registered_backward st ⟨r, c, f⟩ = some (s, pa, y) ∧
      s.cell pa = some va ∧ va.data = ⟨r, c, f⟩ ∧
      va.grad.rows = r ∧ va.grad.cols = c ∧
      (∀ i j, 0 < f i j → va.grad.coeff i j = 1) ∧
      (∀ i j, f i j ≤ 0 → va.grad.coeff i j = 0) ∧
      (∀ i j, f i j = 0 → va.grad.coeff i j = 0)) := by
  constructor
  · obtain ⟨s, y, vy, h, hy, hd, _⟩ := relu_forward st this a ha
    refine ⟨s, y, vy, h, hy, by rw [hd]; rfl, by rw [hd]; rfl, fun i j => ?_⟩
    rw [hd]
    exact ⟨rfl, le_max_right _ _⟩
  · obtain ⟨s, va, h, hc, hd, hg⟩ := relu_registered_backward_run st r c f
    refine ⟨s, _, _, va, h, hc, hd, by rw [hg], by rw [hg], ?_, ?_, ?_⟩
    · intro i j hpos
      rw [hg]
      exact if_pos hpos
    · intro i j hle
      rw [hg]
      exact if_neg (not_lt.mpr hle)
    · intro i j h0
      rw [hg]
      exact if_neg (not_lt.mpr (le_of_eq h0))

end reluNode

/-- C20 on the third test, `relu_input.relu()` with `relu_input` holding
`[-2, -1, 1, 2]`: the output is `[0, 0, 1, 2]`. -/
theorem relu_max_and_mask_witness :
    ((Store.empty : Store ℚ).extend [Value.ofMatrix relu_data]).cell 0
      = some (Value.ofMatrix relu_data) ∧
    ∃ s y vy, Value.relu ((Store.empty : Store ℚ).extend [Value.ofMatrix relu_data]) 0
        = some (s, y) ∧ s.cell y = some vy ∧ vy.data.rows = 1 ∧ vy.data.cols = 4 ∧
      vy.data.coeff 0 0 = 0 ∧ vy.data.coeff 0 1 = 0 ∧ vy.data.coeff 0 2 = 1 ∧
      vy.data.coeff 0 3 = 2 := by
  refine ⟨rfl, ?_⟩
  obtain ⟨s, y, vy, h, hy, hr, hc, he⟩ :=
    (relu_max_and_mask ((Store.empty : Store ℚ).extend [Value.ofMatrix relu_data]) 0
      (Value.ofMatrix relu_data) rfl 1 4 relu_data.coeff).1
  refine ⟨s, y, vy, h, hy, hr, hc, ?_, ?_, ?_, ?_⟩
  · rw [(he 0 0).1]; simp [Value.ofMatrix, relu_data]
  · rw [(he 0 1).1]; simp [Value.ofMatrix, relu_data]
  · rw [(he 0 2).1]; simp [Value.ofMatrix, relu_data]
  · rw [(he 0 3).1]; simp [Value.ofMatrix, relu_data]

/-! ## C11: mean squared error -/

section mseNode
variable {α : Type} [LinearOrderedField α]

@[simp]
theorem run_mseloss (st : Store α) (y_pred_ptr y_true_ptr out_ptr : Nat) :
    Closure.run st (.mseloss y_pred_ptr y_true_ptr out_ptr) =
      (st.cell y_pred_ptr).bind fun p => (st.cell y_true_ptr).bind fun t =>
        (st.cell out_ptr).bind fun o => (p.data.sub t.data).bind fun d =>
          Value.addGrad st y_pred_ptr
            (MatrixXd.scale (o.grad.coeff 0 0)
              ((MatrixXd.scale 2 d).divScalar ((p.data.size : Nat) : α))) := rfl

set_option maxHeartbeats 2000000 in
/-- The program `mse_backward` from any memory, for a prediction and a target of
one shape: where the objects are and what they hold afterwards. -/
theorem mse_backward_run (st : Store α) (reg : Bool) (R C : Nat) (hR : 0 < R) (hC : 0 < C)
    (fp ft : Nat → Nat → α) (G : MatrixXd α) :
    ∃ s loss vp vt vl,
      mse_backward st reg ⟨R, C, fp⟩ ⟨R, C, ft⟩ G = some (s, st.next, st.next + 1, loss) ∧
      s.cell st.next = some vp ∧ s.cell (st.next + 1) = some vt ∧ s.cell loss = some vl ∧
      vl.data = ⟨1, 1, fun _ _ =>
        (∑ i in Finset.range R, ∑ j in Finset.range C, (fp i j - ft i j) * (fp i j - ft i j))
          / ((R : α) * (C : α))⟩ ∧
      vl._prev = [st.next] ∧
      vp.data = ⟨R, C, fp⟩ ∧ vt.data = ⟨R, C, ft⟩ ∧
      vp.grad = ⟨R, C, fun i j => 2 * (fp i j - ft i j) / ((R : α) * (C : α))⟩ ∧
      vt.grad = G := by
  unfold mse_backward
  cases reg
  · rw [registered_eq]
    simp only [Store.alloc_eq, Store.alloc_extend, Bool.false_eq_true, if_false,
      Option.bind_eq_bind, Option.some_bind, registered_extend]
    simp [Store.modify]
    simp [MSELoss.forward, Value.get_self_ptr, Value.publish, Value.ofMatrix, Store.lock,
      MatrixXd.sub, MatrixXd.zipWith, MatrixXd.sameShape, MatrixXd.mean, MatrixXd.sum,
      MatrixXd.size, MatrixXd.map, MatrixXd.Constant, Store.alloc_eq, Nat.add_assoc, hR, hC]
    simp [Value.backward, Value.get_self_ptr, Store.lock, Nat.add_assoc]
    rw [build_topo_of_le _ 4 _ _ _ (by omega) (by simp [Value.build_topo])]
    simp [Value.build_topo]
    simp [Store.modify]
    simp [Value.runClosures, Value.runAll, MatrixXd.addAssign, MatrixXd.add, MatrixXd.sub,
      MatrixXd.zipWith, MatrixXd.sameShape, MatrixXd.Zero, MatrixXd.Ones, MatrixXd.Constant,
      MatrixXd.scale, MatrixXd.divScalar, MatrixXd.size, MatrixXd.map]
    refine ⟨_, _, ⟨rfl, rfl⟩, ?_⟩
    simp
  · rw [registered_eq]
    simp only [eq_self_iff_true, if_true, Option.bind_eq_bind, Option.some_bind, registered_extend]
    simp [Store.modify]
    simp [MSELoss.forward, Value.get_self_ptr, Value.publish, Value.ofMatrix, Store.lock,
      MatrixXd.sub, MatrixXd.zipWith, MatrixXd.sameShape, MatrixXd.mean, MatrixXd.sum,
      MatrixXd.size, MatrixXd.map, MatrixXd.Constant, Store.alloc_eq, Nat.add_assoc, hR, hC]
    simp [Value.backward, Value.get_self_ptr, Store.lock, Nat.add_assoc]
    rw [build_topo_of_le _ 4 _ _ _ (by omega) (by simp [Value.build_topo])]
    simp [Value.build_topo]
    simp [Store.modify]
    simp [Value.runClosures, Value.runAll, MatrixXd.addAssign, MatrixXd.add, MatrixXd.sub,
      MatrixXd.zipWith, MatrixXd.sameShape, MatrixXd.Zero, MatrixXd.Ones, MatrixXd.Constant,
      MatrixXd.scale, MatrixXd.divScalar, MatrixXd.size, MatrixXd.map]
    refine ⟨_, _, ⟨rfl, rfl⟩, ?_⟩
    simp

end mseNode

section mseClaim
variable {α : Type} [LinearOrderedField α]

/-- C11: for a registered prediction leaf holding any `R x C` matrix `fp` (zero
grad) and a target leaf of the same shape holding `ft` (registered or a plain
object, with any grad `G`), `MSELoss::forward` returns a 1 x 1 object whose
value is the sum over all entries of `(fp i j - ft i j)^2` divided by `R * C`
and whose only predecessor is the prediction; after `backward` from it the grad
of the prediction is `2 * (fp i j - ft i j) / (R * C)` entry by entry and the
grad of the target is still `G`. -/
theorem mse_forward_backward (st : Store α) (reg : Bool) (R C : Nat) (hR : 0 < R) (hC : 0 < C)
    (fp ft : Nat → Nat → α) (G : MatrixXd α) :
    ∃ s p t loss vp vt vl,
      mse_backward st reg ⟨R, C, fp⟩ ⟨R, C, ft⟩ G = some (s, p, t, loss) ∧
      s.cell p = some vp ∧ s.cell t = some vt ∧ s.cell loss = some vl ∧
      vl.data.rows = 1 ∧ vl.data.cols = 1 ∧
      vl.data.coeff 0 0 =
        (∑ i in Finset.range R, ∑ j in Finset.range C, (fp i j - ft i j) ^ 2)
          / ((R : α) * (C : α)) ∧
      vl._prev = [p] ∧
      vp.data = ⟨R, C, fp⟩ ∧ vt.data = ⟨R, C, ft⟩ ∧
      vp.grad = ⟨R, C, fun i j => 2 * (fp i j - ft i j) / ((R : α) * (C : α))⟩ ∧
      vt.grad = G := by
  obtain ⟨s, loss, vp, vt, vl, h, hp, ht, hl, hd, hprev, hpd, htd, hpg, htg⟩ :=
    mse_backward_run st reg R C hR hC fp ft G
  refine ⟨s, _, _, loss, vp, vt, vl, h, hp, ht, hl, by rw [hd], by rw [hd], ?_, hprev, hpd, htd,
    hpg, htg⟩
  rw [hd]
  simp only [pow_two]

end mseClaim

/-- C11 on a 1 x 2 prediction `[1, 3]` and an unregistered target `[0, 1]`: the
loss is `(1 + 4) / 2` and the grad of the prediction is `[1, 2]`. -/
theorem mse_forward_backward_witness :
    (0 < 1 ∧ 0 < 2) ∧
    ∃ s p t loss vp vl,
      mse_backward (Store.empty : Store ℚ) false ⟨1, 2, fun _ j => 2 * (j : ℚ) + 1⟩
        ⟨1, 2, fun _ j => (j : ℚ)⟩ (MatrixXd.Zero 1 2) = some (s, p, t, loss) ∧
      s.cell p = some vp ∧ s.cell loss = some vl ∧
      vl.data.coeff 0 0 = 5 / 2 ∧ vp.grad.coeff 0 0 = 1 ∧ vp.grad.coeff 0 1 = 2 := by
  refine ⟨⟨by decide, by decide⟩, ?_⟩
  obtain ⟨s, p, t, loss, vp, vt, vl, h, hp, _, hl, _, _, hv, _, _, _, hg, _⟩ :=
    mse_forward_backward (Store.empty : Store ℚ) false 1 2 (by decide) (by decide)
      (fun _ j => 2 * (j : ℚ) + 1) (fun _ j => (j : ℚ)) (MatrixXd.Zero 1 2)
  refine ⟨s, p, t, loss, vp, vl, h, hp, hl, ?_, ?_, ?_⟩
  · rw [hv]
    simp [Finset.sum_range_succ]
    norm_num
  · rw [hg]
    norm_num
  · rw [hg]
    norm_num

/-! ## C12: the step of SGD -/

section sgdStep
variable {α : Type} [LinearOrderedField α]

/-- One execution of `p->data -= lr * p->grad` on a live parameter whose grad
has the shape of its data. -/
theorem sgd_update_eq (lr : α) (st : Store α) (p : Nat) (v : Value α)
    (hv : st.cell p = some v) (hr : v.grad.rows = v.data.rows) (hc : v.grad.cols = v.data.cols) :
    SGD.update lr st p = some (st.write p { v with data :=
      ⟨v.data.rows, v.data.cols, fun i j => v.data.coeff i j - lr * v.grad.coeff i j⟩ }) := by
  simp [SGD.update, hv, MatrixXd.subAssign, MatrixXd.sub, MatrixXd.zipWith,
    MatrixXd.sameShape, MatrixXd.scale, MatrixXd.map, hr, hc]

/-- The loop of `SGD::step` over any list: every object is overwritten once
for each entry of the list that names it, nothing else is touched. -/
theorem sgd_loop_count (lr : α) (params : List Nat) :
    ∀ (st : Store α),
      (∀ p ∈ params, ∃ v, st.cell p = some v ∧ v.grad.rows = v.data.rows ∧
        v.grad.cols = v.data.cols) →
      ∃ st1, params.foldlM (fun s p => SGD.update lr s p) st = some st1 ∧
        (∀ q, q ∉ params → st1.cell q = st.cell q) ∧
        (∀ p ∈ params, ∀ v, st.cell p = some v → st1.cell p = some { v with data :=
          ⟨v.data.rows, v.data.cols, fun i j =>
            v.data.coeff i j - (params.count p : α) * (lr * v.grad.coeff i j)⟩ }) := by
  induction params with
  | nil =>
    intro st _
    exact ⟨st, rfl, fun _ _ => rfl, fun p hp => absurd hp (List.not_mem_nil p)⟩
  | cons p ps ih =>
    intro st hlive
    obtain ⟨v, hv, hr, hc⟩ := hlive p (List.mem_cons_self p ps)
    have hother : ∀ q, q ≠ p → (st.write p { v with data :=
        ⟨v.data.rows, v.data.cols, fun i j => v.data.coeff i j - lr * v.grad.coeff i j⟩ }).cell q
        = st.cell q := by
      intro q hq
      simp [Store.cell_write, hq]
    have hself : (st.write p { v with data :=
        ⟨v.data.rows, v.data.cols, fun i j => v.data.coeff i j - lr * v.grad.coeff i j⟩ }).cell p
        = some { v with data :=
        ⟨v.data.rows, v.data.cols, fun i j => v.data.coeff i j - lr * v.grad.coeff i j⟩ } := by
      simp [Store.cell_write, hv]
    have hlive1 : ∀ q ∈ ps, ∃ w, (st.write p { v with data :=
        ⟨v.data.rows, v.data.cols, fun i j => v.data.coeff i j - lr * v.grad.coeff i j⟩ }).cell q
        = some w ∧ w.grad.rows = w.data.rows ∧ w.grad.cols = w.data.cols := by
      intro q hq
      by_cases hqp : q = p
      · subst hqp
        exact ⟨_, hself, hr, hc⟩
      · rw [hother q hqp]
        exact hlive q (List.mem_cons_of_mem p hq)
    obtain ⟨st1, h1, hout, hin⟩ := ih _ hlive1
    refine ⟨st1, ?_, ?_, ?_⟩
    · simp only [List.foldlM_cons, Option.bind_eq_bind]
      rw [sgd_update_eq lr st p v hv hr hc]
      exact h1
    · intro q hq
      have hne : q ≠ p := fun e => hq (e ▸ List.mem_cons_self p ps)
      have hnps : q ∉ ps := fun e => hq (List.mem_cons_of_mem p e)
      rw [hout q hnps, hother q hne]
    · intro q hq w hw
      by_cases hqp : q = p
      · subst hqp
        have e2 : v = w := Option.some.inj (hv.symm.trans hw)
        subst e2
        by_cases hmem : q ∈ ps
        · rw [hin q hmem _ hself]
          simp only [List.count_cons_self, Nat.cast_add, Nat.cast_one, Option.some.injEq]
          congr 2
          funext i j
          ring
        · rw [hout q hmem, hself]
          simp [List.count_cons_self, List.count_eq_zero_of_not_mem hmem]
      · have hqs : q ∈ ps := by
          rcases List.mem_cons.mp hq with e | e
          · exact absurd e hqp
          · exact e
        rw [hin q hqs w ((hother q hqp).trans hw), List.count_cons_of_ne hqp]

/-- C12: for every parameter list whose parameters are live and have a grad of
the shape of their data, and every learning rate, `SGD::step` returns; it runs
`data -= lr * grad` once per entry of the list, so a parameter that the list
names `k` times ends with `data - k * lr * grad` entry by entry, and a
parameter that the list names once (every parameter of the list that
`parameters()` of a model returns) with `data - lr * grad`; the shape of the
data and every grad is as before, and no other object changes; in every list, a
parameter whose grad is zero keeps its data. -/
theorem sgd_step_spec (o : SGD α) (st : Store α)
    (hlive : ∀ p ∈ o.parameters, ∃ v, st.cell p = some v ∧ v.grad.rows = v.data.rows ∧
      v.grad.cols = v.data.cols) :
    ∃ st1, SGD.step o st = some st1 ∧
      (∀ p ∈ o.parameters, ∀ v, st.cell p = some v → ∃ v1, st1.cell p = some v1 ∧
        v1.data.rows = v.data.rows ∧ v1.data.cols = v.data.cols ∧
        (∀ i j, v1.data.coeff i j
          = v.data.coeff i j - (o.parameters.count p : α) * (o.lr * v.grad.coeff i j)) ∧
        (o.parameters.count p = 1 →
          ∀ i j, v1.data.coeff i j = v.data.coeff i j - o.lr * v.grad.coeff i j) ∧
        v1.grad = v.grad ∧
        ((∀ i j, i < v.grad.rows → j < v.grad.cols → v.grad.coeff i j = 0) →
          ∀ i j, i < v.data.rows → j < v.data.cols → v1.data.coeff i j = v.data.coeff i j)) ∧
      (∀ q, q ∉ o.parameters → st1.cell q = st.cell q) := by
  obtain ⟨st1, h1, hout, hin⟩ := sgd_loop_count o.lr o.parameters st hlive
  refine ⟨st1, h1, ?_, hout⟩
  intro p hp v hv
  obtain ⟨w, hw, hr, hc⟩ := hlive p hp
  have e : w = v := Option.some.inj (hw.symm.trans hv)
  subst e
  refine ⟨_, hin p hp w hv, rfl, rfl, fun _ _ => rfl, ?_, rfl, ?_⟩
  · intro h1 i j
    show w.data.coeff i j - (o.parameters.count p : α) * (o.lr * w.grad.coeff i j) = _
    rw [h1]
    simp
  · intro hz i j hi hj
    show w.data.coeff i j - (o.parameters.count p : α) * (o.lr * w.grad.coeff i j)
      = w.data.coeff i j
    rw [hz i j (hr ▸ hi) (hc ▸ hj)]
    simp

end sgdStep

/-- C12 on one 1 x 1 parameter with data 5 and grad 2, learning rate 1/2: the
data becomes 4 and the grad stays 2. -/
theorem sgd_step_spec_witness :
    ∃ st1 v1, SGD.step ⟨[0], 1 / 2⟩ ((Store.empty : Store ℚ).extend
        [{ Value.ofMatrix (MatrixXd.Constant 1 1 5) with grad := MatrixXd.Constant 1 1 2 }])
        = some st1 ∧
      st1.cell 0 = some v1 ∧ v1.data.coeff 0 0 = 4 ∧ v1.grad.coeff 0 0 = 2 := by
  obtain ⟨st1, h, hin, _⟩ := sgd_step_spec (⟨[0], 1 / 2⟩ : SGD ℚ) ((Store.empty : Store ℚ).extend
    [{ Value.ofMatrix (MatrixXd.Constant 1 1 5) with grad := MatrixXd.Constant 1 1 2 }])
    (fun p hp => ⟨{ Value.ofMatrix (MatrixXd.Constant 1 1 5) with grad := MatrixXd.Constant 1 1 2 },
      by rw [List.mem_singleton.mp hp]; rfl, rfl, rfl⟩)
  obtain ⟨v1, hv1, _, _, _, hd, hg, _⟩ := hin 0 (List.mem_singleton_self 0) _ rfl
  refine ⟨st1, v1, h, hv1, ?_, ?_⟩
  · rw [hd (by simp) 0 0]
    simp [Value.ofMatrix, MatrixXd.Constant]
    norm_num
  · rw [hg]
    rfl

/-- A list that names one parameter twice updates it twice: with data 0, grad 1
and learning rate 1 the step leaves data `-2`, that is `0 - 2 * (1 * 1)`. -/
theorem sgd_step_repeated_entry :
    ∃ st1 v1, SGD.step ⟨[0, 0], 1⟩ ((Store.empty : Store ℚ).extend
        [{ Value.ofMatrix (MatrixXd.Constant 1 1 0) with grad := MatrixXd.Constant 1 1 1 }])
        = some st1 ∧
      st1.cell 0 = some v1 ∧ v1.grad.coeff 0 0 = 1 ∧ v1.data.coeff 0 0 = -2 := by
  simp [SGD.step, SGD.update, Store.cell_extend, Store.cell_write, Store.empty, Value.ofMatrix,
    MatrixXd.subAssign, MatrixXd.sub, MatrixXd.zipWith, MatrixXd.sameShape, MatrixXd.scale,
    MatrixXd.map, MatrixXd.Constant]
  norm_num

/-! ## C13: the momentum step under a zero gradient -/

section nesterovStep
variable {α : Type} [LinearOrderedField α]

/-- One round of the loop of `NesterovSGD::step` on a live parameter whose grad
and velocity buffer have the shape of its data. -/
theorem nesterov_update_eq (o : NesterovSGD α) (st : Store α) (i p : Nat) (vp : MatrixXd α)
    (w : Value α) (hp : o.parameters[i]? = some p) (hv : o.v[i]? = some vp)
    (hw : st.cell p = some w)
    (hgr : w.grad.rows = w.data.rows) (hgc : w.grad.cols = w.data.cols)
    (hvr : vp.rows = w.data.rows) (hvc : vp.cols = w.data.cols) :
    NesterovSGD.update o st i = some
      (NesterovSGD.mk o.parameters o.lr o.mu (o.v.set i
          ⟨w.data.rows, w.data.cols, fun r c => o.mu * vp.coeff r c - o.lr * w.grad.coeff r c⟩),
        st.write p { w with data := ⟨w.data.rows, w.data.cols, fun r c => w.data.coeff r c +
          (-o.mu * vp.coeff r c +
            (1 + o.mu) * (o.mu * vp.coeff r c - o.lr * w.grad.coeff r c))⟩ }) := by
  simp [NesterovSGD.update, hp, hv, hw, MatrixXd.addAssign, MatrixXd.add, MatrixXd.sub,
    MatrixXd.zipWith, MatrixXd.sameShape, MatrixXd.scale, MatrixXd.map, hgr, hgc, hvr, hvc]

theorem increment_congr (o o1 : NesterovSGD α) (g : MatrixXd α) (q : Nat)
    (hp : o1.parameters = o.parameters) (hlr : o1.lr = o.lr) (hmu : o1.mu = o.mu) :
    ∀ (idx : List Nat), (∀ i ∈ idx, o1.v[i]? = o.v[i]?) → ∀ r c,
      NesterovSGD.increment o1 g q idx r c = NesterovSGD.increment o g q idx r c := by
  intro idx
  induction idx with
  | nil => intro _ r c; rfl
  | cons i rest ih =>
    intro h r c
    simp only [NesterovSGD.increment]
    rw [ih (fun j hj => h j (List.mem_cons_of_mem i hj)) r c, hp, hlr, hmu,
      h i (List.mem_cons_self i rest)]

theorem increment_not_named (o : NesterovSGD α) (g : MatrixXd α) (q : Nat) :
    ∀ (idx : List Nat), (∀ i ∈ idx, o.parameters[i]? ≠ some q) → ∀ r c,
      NesterovSGD.increment o g q idx r c = 0 := by
  intro idx
  induction idx with
  | nil => intro _ r c; rfl
  | cons i rest ih =>
    intro h r c
    simp only [NesterovSGD.increment]
    rw [ih (fun j hj => h j (List.mem_cons_of_mem i hj)) r c,
      if_neg (h i (List.mem_cons_self i rest))]
    simp

/-- The loop of `NesterovSGD::step` over distinct indices of any parameter
list: the velocity buffer of every index is overwritten once, and every object
gains one increment for each index that names it, computed from the velocity
buffers and the grad it had before the loop. -/
theorem nesterov_loop_sum (idx : List Nat) :
    ∀ (o : NesterovSGD α) (st : Store α), idx.Nodup →
      (∀ i ∈ idx, ∃ p vp w, o.parameters[i]? = some p ∧ o.v[i]? = some vp ∧
        st.cell p = some w ∧ w.grad.rows = w.data.rows ∧ w.grad.cols = w.data.cols ∧
        vp.rows = w.data.rows ∧ vp.cols = w.data.cols) →
      ∃ o1 st1,
        idx.foldlM (fun (a : NesterovSGD α × Store α) i => NesterovSGD.update a.1 a.2 i) (o, st)
          = some (o1, st1) ∧
        o1.parameters = o.parameters ∧ o1.lr = o.lr ∧ o1.mu = o.mu ∧
        (∀ i, i ∉ idx → o1.v[i]? = o.v[i]?) ∧
        (∀ i ∈ idx, ∀ p vp w, o.parameters[i]? = some p → o.v[i]? = some vp →
          st.cell p = some w →
          o1.v[i]? = some ⟨w.data.rows, w.data.cols, fun r c =>
            o.mu * vp.coeff r c - o.lr * w.grad.coeff r c⟩) ∧
        (∀ q, st.cell q = none → st1.cell q = none) ∧
        (∀ q w, st.cell q = some w → st1.cell q = some { w with data :=
          ⟨w.data.rows, w.data.cols, fun r c =>
            w.data.coeff r c + NesterovSGD.increment o w.grad q idx r c⟩ }) := by
  induction idx with
  | nil =>
    intro o st _ _
    refine ⟨o, st, rfl, rfl, rfl, rfl, fun _ _ => rfl, fun i hi => absurd hi (List.not_mem_nil i),
      fun _ h => h, ?_⟩
    intro q w hw
    rw [hw]
    simp [NesterovSGD.increment]
  | cons i rest ih =>
    intro o st hidx hlive
    obtain ⟨hi, hrest⟩ := List.nodup_cons.mp hidx
    obtain ⟨p, vp, w, hp, hv, hw, hgr, hgc, hvr, hvc⟩ := hlive i (List.mem_cons_self i rest)
    have hupd := nesterov_update_eq o st i p vp w hp hv hw hgr hgc hvr hvc
    have hother : ∀ q, q ≠ p → (st.write p { w with data := ⟨w.data.rows, w.data.cols,
        fun r c => w.data.coeff r c + (-o.mu * vp.coeff r c +
          (1 + o.mu) * (o.mu * vp.coeff r c - o.lr * w.grad.coeff r c))⟩ }).cell q
        = st.cell q := by
      intro q hq
      simp [Store.cell_write, hq]
    have hself : (st.write p { w with data := ⟨w.data.rows, w.data.cols,
        fun r c => w.data.coeff r c + (-o.mu * vp.coeff r c +
          (1 + o.mu) * (o.mu * vp.coeff r c - o.lr * w.grad.coeff r c))⟩ }).cell p
        = some { w with data := ⟨w.data.rows, w.data.cols,
        fun r c => w.data.coeff r c + (-o.mu * vp.coeff r c +
          (1 + o.mu) * (o.mu * vp.coeff r c - o.lr * w.grad.coeff r c))⟩ } := by
      simp [Store.cell_write, hw]
    have hvset : ∀ j, j ≠ i → (o.v.set i ⟨w.data.rows, w.data.cols, fun r c =>
        o.mu * vp.coeff r c - o.lr * w.grad.coeff r c⟩)[j]? = o.v[j]? := by
      intro j hj
      rw [List.getElem?_set_ne (Ne.symm hj)]
    have hlive1 : ∀ j ∈ rest, ∃ q vq u,
        (NesterovSGD.mk o.parameters o.lr o.mu (o.v.set i ⟨w.data.rows, w.data.cols, fun r c =>
          o.mu * vp.coeff r c - o.lr * w.grad.coeff r c⟩)).parameters[j]? = some q ∧
        (NesterovSGD.mk o.parameters o.lr o.mu (o.v.set i ⟨w.data.rows, w.data.cols, fun r c =>
          o.mu * vp.coeff r c - o.lr * w.grad.coeff r c⟩)).v[j]? = some vq ∧
        (st.write p { w with data := ⟨w.data.rows, w.data.cols,
          fun r c => w.data.coeff r c + (-o.mu * vp.coeff r c +
            (1 + o.mu) * (o.mu * vp.coeff r c - o.lr * w.grad.coeff r c))⟩ }).cell q = some u ∧
        u.grad.rows = u.data.rows ∧ u.grad.cols = u.data.cols ∧
        vq.rows = u.data.rows ∧ vq.cols = u.data.cols := by
      intro j hj
      have hji : j ≠ i := fun e => hi (e ▸ hj)
      obtain ⟨q, vq, u, h1, h2, h3, h4, h5, h6, h7⟩ := hlive j (List.mem_cons_of_mem i hj)
      by_cases hqp : q = p
      · subst hqp
        have e : u = w := Option.some.inj (h3.symm.trans hw)
        subst e
        exact ⟨q, vq, _, h1, (hvset j hji).trans h2, hself, h4, h5, h6, h7⟩
      · exact ⟨q, vq, u, h1, (hvset j hji).trans h2, (hother q hqp).trans h3, h4, h5, h6, h7⟩
    obtain ⟨o1, st1, hfold, hpar, hlr, hmu, hvout, hvin, hnone, hin⟩ := ih
      (NesterovSGD.mk o.parameters o.lr o.mu (o.v.set i ⟨w.data.rows, w.data.cols, fun r c =>
        o.mu * vp.coeff r c - o.lr * w.grad.coeff r c⟩)) _ hrest hlive1
    have hinc : ∀ (g : MatrixXd α) (q r c : Nat),
        NesterovSGD.increment (NesterovSGD.mk o.parameters o.lr o.mu (o.v.set i
          ⟨w.data.rows, w.data.cols, fun r c =>
            o.mu * vp.coeff r c - o.lr * w.grad.coeff r c⟩)) g q rest r c
        = NesterovSGD.increment o g q rest r c := by
      intro g q r c
      exact increment_congr o (NesterovSGD.mk o.parameters o.lr o.mu (o.v.set i
          ⟨w.data.rows, w.data.cols, fun r c =>
            o.mu * vp.coeff r c - o.lr * w.grad.coeff r c⟩)) g q rfl rfl rfl rest
        (fun j hj => hvset j (fun e => hi (e ▸ hj))) r c
    refine ⟨o1, st1, ?_, hpar, hlr, hmu, ?_, ?_, ?_, ?_⟩
    · simp only [List.foldlM_cons, Option.bind_eq_bind]
      rw [hupd]
      exact hfold
    · intro j hj
      have hji : j ≠ i := fun e => hj (e ▸ List.mem_cons_self i rest)
      rw [hvout j (fun e => hj (List.mem_cons_of_mem i e))]
      exact hvset j hji
    · intro j hj q vq u h1 h2 h3
      rcases List.mem_cons.mp hj with e | hjr
      · subst e
        have e1 : p = q := Option.some.inj (hp.symm.trans h1)
        subst e1
        have e2 : vp = vq := Option.some.inj (hv.symm.trans h2)
        subst e2
        have e3 : w = u := Option.some.inj (hw.symm.trans h3)
        subst e3
        rw [hvout j hi]
        show (o.v.set j _)[j]? = _
        have hjlt : j < o.v.length := by
          by_contra hge
          rw [List.getElem?_eq_none (Nat.le_of_not_lt hge)] at hv
          exact Option.noConfusion hv
        simp [List.getElem?_set, hjlt]
      · have hji : j ≠ i := fun e => hi (e ▸ hjr)
        by_cases hqp : q = p
        · subst hqp
          have e3 : w = u := Option.some.inj (hw.symm.trans h3)
          subst e3
          have h4 := hvin j hjr q vq _ h1 ((hvset j hji).trans h2) hself
          exact h4
        · exact hvin j hjr q vq u h1 ((hvset j hji).trans h2) ((hother q hqp).trans h3)
    · intro q hq
      have hqp : q ≠ p := fun e => by rw [e, hw] at hq; exact Option.noConfusion hq
      exact hnone q ((hother q hqp).trans hq)
    · intro q u hu
      by_cases hqp : q = p
      · subst hqp
        have e3 : w = u := Option.some.inj (hw.symm.trans hu)
        subst e3
        rw [hin q _ hself]
        simp only [NesterovSGD.increment, hp, hv, if_true, Option.some.injEq]
        congr 2
        funext r c
        rw [hinc w.grad q r c]
        ring
      · rw [hin q u ((hother q hqp).trans hu)]
        have hne : o.parameters[i]? ≠ some q := by
          rw [hp]
          intro e
          exact hqp (Option.some.inj e).symm
        simp only [NesterovSGD.increment, if_neg hne, zero_add, Option.some.injEq]
        congr 2
        funext r c
        rw [hinc u.grad q r c]

end nesterovStep

section nesterovClaim
variable {α : Type} [LinearOrderedField α]

theorem increment_eq_zero (o : NesterovSGD α) (g : MatrixXd α) (q r c : Nat) :
    ∀ (idx : List Nat),
      (∀ i ∈ idx, ∀ vp, o.parameters[i]? = some q → o.v[i]? = some vp →
        -o.mu * vp.coeff r c + (1 + o.mu) * (o.mu * vp.coeff r c - o.lr * g.coeff r c) = 0) →
      NesterovSGD.increment o g q idx r c = 0 := by
  intro idx
  induction idx with
  | nil => intro _; rfl
  | cons i rest ih =>
    intro h
    simp only [NesterovSGD.increment]
    rw [ih (fun j hj => h j (List.mem_cons_of_mem i hj)), add_zero]
    by_cases hq : o.parameters[i]? = some q
    · rw [if_pos hq]
      cases hv : o.v[i]? with
      | none => rfl
      | some vp => exact h i (List.mem_cons_self i rest) vp hq hv
    · rw [if_neg hq]

theorem increment_single (o : NesterovSGD α) (g : MatrixXd α) (q r c i : Nat)
    (vp : MatrixXd α) (hq : o.parameters[i]? = some q) (hv : o.v[i]? = some vp) :
    ∀ (idx : List Nat), idx.Nodup → i ∈ idx →
      (∀ j ∈ idx, j ≠ i → o.parameters[j]? ≠ some q) →
      NesterovSGD.increment o g q idx r c
        = -o.mu * vp.coeff r c + (1 + o.mu) * (o.mu * vp.coeff r c - o.lr * g.coeff r c) := by
  intro idx
  induction idx with
  | nil => intro _ hi; exact absurd hi (List.not_mem_nil i)
  | cons k rest ih =>
    intro hnd hi hothers
    obtain ⟨hk, hrest⟩ := List.nodup_cons.mp hnd
    simp only [NesterovSGD.increment]
    rcases List.mem_cons.mp hi with e | hir
    · subst e
      rw [if_pos hq, hv, increment_not_named o g q rest
        (fun j hj => hothers j (List.mem_cons_of_mem i hj) (fun e => hk (e ▸ hj))) r c]
      simp
    · have hki : k ≠ i := fun e => hk (e ▸ hir)
      rw [if_neg (hothers k (List.mem_cons_self k rest) hki), zero_add]
      exact ih hrest hir (fun j hj => hothers j (List.mem_cons_of_mem k hj))

omit [LinearOrderedField α] in
/-- An entry that a list holds once stands at one index only. -/
theorem index_unique_of_count (p : Nat) :
    ∀ (l : List Nat) (i j : Nat), l.count p = 1 → l[i]? = some p → l[j]? = some p → i = j := by
  have key : ∀ (l : List Nat) (i j : Nat), i < j → l[i]? = some p → l[j]? = some p →
      2 ≤ l.count p := by
    intro l
    induction l with
    | nil => intro i j _ h; simp at h
    | cons a l ih =>
      intro i j hij hi hj
      rcases j with _ | j
      · omega
      · rw [List.getElem?_cons_succ] at hj
        rcases i with _ | i
        · rw [List.getElem?_cons_zero] at hi
          have e : a = p := Option.some.inj hi
          subst e
          rw [List.count_cons_self]
          have hmem : a ∈ l := List.getElem?_mem hj
          have := List.count_pos_iff.mpr hmem
          omega
        · rw [List.getElem?_cons_succ] at hi
          have h2 := ih i j (by omega) hi hj
          exact Nat.le_trans h2 (List.count_le_count_cons p a l)
  intro l i j hc hi hj
  rcases Nat.lt_trichotomy i j with h | h | h
  · have := key l i j h hi hj
    omega
  · exact h
  · have := key l j i h hj hi
    omega

/-- C13, amended: for a parameter list whose parameters are live, with grads
and velocity buffers of the shape of the data and every grad entry zero,
`NesterovSGD::step` returns; it replaces every velocity buffer `v` by `mu * v`,
leaves shapes and grads as they are, and adds to the data of a parameter one
increment `-mu * v + (1 + mu) * (mu * v - lr * grad)` for every entry of the
list that names it (`NesterovSGD.increment`); for a parameter that the list
names once this is `-mu * v + (1 + mu) * (mu * v)`, that is `mu^2 * v`; the data
of a parameter is unchanged if every velocity buffer kept for it was all zero,
and also whenever `mu = 0`. No converse is stated: for `mu = 0` the data is
unchanged whatever `v` was. -/
theorem nesterov_zero_grad_step (o : NesterovSGD α) (st : Store α)
    (hlive : ∀ i, i < o.parameters.length → ∃ p vp w, o.parameters[i]? = some p ∧
      o.v[i]? = some vp ∧ st.cell p = some w ∧
      w.grad.rows = w.data.rows ∧ w.grad.cols = w.data.cols ∧
      vp.rows = w.data.rows ∧ vp.cols = w.data.cols ∧
      ∀ r c, r < w.grad.rows → c < w.grad.cols → w.grad.coeff r c = 0) :
    ∃ o1 st1, NesterovSGD.step o st = some (o1, st1) ∧
      ∀ (i p : Nat) (vp : MatrixXd α) (w : Value α),
        o.parameters[i]? = some p → o.v[i]? = some vp → st.cell p = some w →
        (∃ v1, o1.v[i]? = some v1 ∧ v1.rows = vp.rows ∧ v1.cols = vp.cols ∧
          ∀ r c, r < vp.rows → c < vp.cols → v1.coeff r c = o.mu * vp.coeff r c) ∧
        ∃ w1, st1.cell p = some w1 ∧
          w1.data.rows = w.data.rows ∧ w1.data.cols = w.data.cols ∧ w1.grad = w.grad ∧
          (∀ r c, w1.data.coeff r c = w.data.coeff r c +
            NesterovSGD.increment o w.grad p (List.range o.parameters.length) r c) ∧
          (o.parameters.count p = 1 → ∀ r c, r < w.data.rows → c < w.data.cols →
            w1.data.coeff r c
              = w.data.coeff r c + (-o.mu * vp.coeff r c + (1 + o.mu) * (o.mu * vp.coeff r c)) ∧
            w1.data.coeff r c = w.data.coeff r c + o.mu ^ 2 * vp.coeff r c) ∧
          ((∀ (k : Nat) (vk : MatrixXd α), o.parameters[k]? = some p → o.v[k]? = some vk →
              ∀ r c, r < vk.rows → c < vk.cols → vk.coeff r c = 0) →
            ∀ r c, r < w.data.rows → c < w.data.cols →
              w1.data.coeff r c = w.data.coeff r c) ∧
          (o.mu = 0 → ∀ r c, r < w.data.rows → c < w.data.cols →
            w1.data.coeff r c = w.data.coeff r c) := by
  have hlive1 : ∀ i ∈ List.range o.parameters.length, ∃ p vp w, o.parameters[i]? = some p ∧
      o.v[i]? = some vp ∧ st.cell p = some w ∧
      w.grad.rows = w.data.rows ∧ w.grad.cols = w.data.cols ∧
      vp.rows = w.data.rows ∧ vp.cols = w.data.cols := by
    intro i hi
    obtain ⟨p, vp, w, h1, h2, h3, h4, h5, h6, h7, _⟩ := hlive i (List.mem_range.mp hi)
    exact ⟨p, vp, w, h1, h2, h3, h4, h5, h6, h7⟩
  obtain ⟨o1, st1, hfold, _, _, _, _, hvin, _, hin⟩ :=
    nesterov_loop_sum (List.range o.parameters.length) o st (List.nodup_range _) hlive1
  refine ⟨o1, st1, hfold, ?_⟩
  intro i p vp w hp hv hw
  have hlt : ∀ k q, o.parameters[k]? = some q → k < o.parameters.length := by
    intro k q hk
    by_contra hge
    rw [List.getElem?_eq_none (Nat.le_of_not_lt hge)] at hk
    exact Option.noConfusion hk
  have hilt := hlt i p hp
  obtain ⟨p1, vp1, w2, h1, h2, h3, hgr, hgc, hvr, hvc, hz⟩ := hlive i hilt
  have e1 : p1 = p := Option.some.inj (h1.symm.trans hp)
  subst e1
  have e2 : vp1 = vp := Option.some.inj (h2.symm.trans hv)
  subst e2
  have e3 : w2 = w := Option.some.inj (h3.symm.trans hw)
  subst e3
  have hterm : ∀ (vk : MatrixXd α) (r c : Nat), r < w2.data.rows → c < w2.data.cols →
      -o.mu * vk.coeff r c + (1 + o.mu) * (o.mu * vk.coeff r c - o.lr * w2.grad.coeff r c)
      = o.mu ^ 2 * vk.coeff r c := by
    intro vk r c hr hc
    rw [hz r c (hgr ▸ hr) (hgc ▸ hc)]
    ring
  refine ⟨⟨_, hvin i (List.mem_range.mpr hilt) p1 vp1 w2 hp hv hw, hvr.symm, hvc.symm, ?_⟩,
    _, hin p1 w2 hw, rfl, rfl, rfl, fun _ _ => rfl, ?_, ?_, ?_⟩
  · intro r c hr hc
    show o.mu * vp1.coeff r c - o.lr * w2.grad.coeff r c = o.mu * vp1.coeff r c
    rw [hz r c (hgr ▸ hvr ▸ hr) (hgc ▸ hvc ▸ hc)]
    simp
  · intro hcount r c hr hc
    have hsingle := increment_single o w2.grad p1 r c i vp1 hp hv
      (List.range o.parameters.length) (List.nodup_range _) (List.mem_range.mpr hilt)
      (fun j _ hji e => hji (index_unique_of_count p1 o.parameters j i hcount e hp))
    constructor
    · show w2.data.coeff r c + NesterovSGD.increment o w2.grad p1
        (List.range o.parameters.length) r c = _
      rw [hsingle, hterm vp1 r c hr hc]
      ring
    · show w2.data.coeff r c + NesterovSGD.increment o w2.grad p1
        (List.range o.parameters.length) r c = _
      rw [hsingle, hterm vp1 r c hr hc]
  · intro hzero r c hr hc
    show w2.data.coeff r c + NesterovSGD.increment o w2.grad p1
      (List.range o.parameters.length) r c = _
    rw [increment_eq_zero o w2.grad p1 r c _ (by
      intro k _ vk hk hvk
      obtain ⟨q, vq, u, k1, k2, k3, _, _, kvr, kvc, _⟩ := hlive k (hlt k p1 hk)
      have e1 : q = p1 := Option.some.inj (k1.symm.trans hk)
      subst e1
      have e2 : vq = vk := Option.some.inj (k2.symm.trans hvk)
      subst e2
      have e3 : u = w2 := Option.some.inj (k3.symm.trans hw)
      subst e3
      rw [hterm vq r c hr hc, hzero k vq hk hvk r c (kvr ▸ hr) (kvc ▸ hc)]
      simp)]
    simp
  · intro hmu r c hr hc
    show w2.data.coeff r c + NesterovSGD.increment o w2.grad p1
      (List.range o.parameters.length) r c = _
    rw [increment_eq_zero o w2.grad p1 r c _ (by
      intro k _ vk _ _
      rw [hterm vk r c hr hc, hmu]
      simp)]
    simp

end nesterovClaim

/-- C13 on one 1 x 1 parameter with data 5, zero grad and velocity 3, with
`mu = 1/2`: the data becomes `5 + 3/4` and the velocity `3/2`. -/
theorem nesterov_zero_grad_step_witness :
    ∃ o1 st1 w1 v1, NesterovSGD.step ⟨[0], 1, 1 / 2, [MatrixXd.Constant 1 1 3]⟩
        ((Store.empty : Store ℚ).extend [Value.ofMatrix (MatrixXd.Constant 1 1 5)])
        = some (o1, st1) ∧
      st1.cell 0 = some w1 ∧ w1.data.coeff 0 0 = 23 / 4 ∧
      o1.v[0]? = some v1 ∧ v1.coeff 0 0 = 3 / 2 := by
  obtain ⟨o1, st1, h, hin⟩ := nesterov_zero_grad_step
    (⟨[0], 1, 1 / 2, [MatrixXd.Constant 1 1 3]⟩ : NesterovSGD ℚ)
    ((Store.empty : Store ℚ).extend [Value.ofMatrix (MatrixXd.Constant 1 1 5)])
    (fun i hi => ⟨0, MatrixXd.Constant 1 1 3, Value.ofMatrix (MatrixXd.Constant 1 1 5),
      by
        have e : i = 0 := Nat.lt_one_iff.mp hi
        rw [e]; rfl,
      by
        have e : i = 0 := Nat.lt_one_iff.mp hi
        rw [e]; rfl,
      rfl, rfl, rfl, rfl, rfl, fun _ _ _ _ => rfl⟩)
  obtain ⟨⟨v1, hv1, _, _, hv⟩, w1, hw1, _, _, _, _, hd, _⟩ := hin 0 0 (MatrixXd.Constant 1 1 3)
    (Value.ofMatrix (MatrixXd.Constant 1 1 5)) rfl rfl rfl
  refine ⟨o1, st1, w1, v1, h, hw1, ?_, hv1, ?_⟩
  · rw [(hd (by simp) 0 0 (by decide) (by decide)).2]
    simp [Value.ofMatrix, MatrixXd.Constant]
    norm_num
  · rw [hv 0 0 (by decide) (by decide)]
    simp [MatrixXd.Constant]
    norm_num

/-- The constructor of `NesterovSGD` on a list of one parameter. -/
theorem create_singleton (st : Store ℚ) (p : Nat) (lr mu : ℚ) :
    NesterovSGD.create st [p] lr mu = (st.cell p).bind fun w =>
      some ⟨[p], lr, mu, [MatrixXd.Zero w.data.rows w.data.cols]⟩ := by
  cases h : st.cell p <;> simp [NesterovSGD.create, List.mapM, List.mapM.loop, h]

set_option maxHeartbeats 1000000 in
/-- C13 as first stated fails for `mu = 0`: after a first step with grad 1 the
velocity is `-1`, and the next step, taken with a zero grad, leaves the data of
the parameter as it was (4) although the velocity was not zero. -/
theorem nesterov_zero_grad_counterexample :
    ∃ (o1 : NesterovSGD ℚ) (s3 s4 : Store ℚ) (p : Nat) (vp : MatrixXd ℚ) (w3 w4 : Value ℚ),
      nesterov_two_steps (Store.empty : Store ℚ) 1 0 (MatrixXd.Constant 1 1 5)
        (MatrixXd.Constant 1 1 1) = some (o1, s3, s4, p) ∧
      o1.mu = 0 ∧ o1.v[0]? = some vp ∧ vp.coeff 0 0 = -1 ∧
      s3.cell p = some w3 ∧ s4.cell p = some w4 ∧
      w3.grad.coeff 0 0 = 0 ∧ w3.data.coeff 0 0 = 4 ∧ w4.data.coeff 0 0 = 4 := by
  unfold nesterov_two_steps
  rw [registered_eq]
  simp only [Option.bind_eq_bind, Option.some_bind, create_singleton]
  simp [Store.modify, Store.cell_extend, Store.empty, Value.ofMatrix, MatrixXd.Constant,
    MatrixXd.Zero]
  simp [NesterovSGD.step, NesterovSGD.update, NesterovSGD.zero_grad,
    Value.zero_grad, Store.modify, Store.cell_extend, Store.cell_write,
    MatrixXd.addAssign, MatrixXd.add, MatrixXd.sub, MatrixXd.zipWith,
    MatrixXd.sameShape, MatrixXd.scale, MatrixXd.map, MatrixXd.Constant, MatrixXd.Zero,
    List.range_succ]
  norm_num
  refine ⟨_, _, _, _, ⟨rfl, rfl, rfl, rfl⟩, ?_⟩
  simp [Store.cell_write, Store.cell_extend]

/-! ## C14: a rejected weight file -/

section loadMismatch
variable {α : Type} [LinearOrderedField α]

/-- A file whose parameter count differs from the model's is rejected before
anything is written. -/
theorem load_weights_count_mismatch (st : Store α) (parameters : List Nat) (n : ℤ)
    (rest : List (Item α)) (h : n ≠ (parameters.length : ℤ)) :
    Module.load_weights st parameters (some (Item.int n :: rest))
      = some (st, LoadOutcome.count_mismatch) := by
  simp [Module.load_weights, readInt, h]

/-- A shape mismatch at the first parameter is detected before anything is
written. -/
theorem load_weights_first_mismatch (st : Store α) (p : Nat) (ps : List Nat) (v : Value α)
    (rows cols : ℤ) (rest : List (Item α)) (hv : st.cell p = some v)
    (h : rows ≠ (v.data.rows : ℤ) ∨ cols ≠ (v.data.cols : ℤ)) :
    Module.load_weights st (p :: ps)
        (some (Item.int ((p :: ps).length : Nat) :: Item.int rows :: Item.int cols :: rest))
      = some (st, LoadOutcome.shape_mismatch) := by
  simp only [Module.load_weights, readInt, Option.bind_eq_bind, Option.some_bind, ne_eq,
    not_true_eq_false, if_false, Module.load_params, hv]
  rw [if_pos h]

end loadMismatch

/-- C14 fails when the mismatch is not at the first parameter. The model has a
1 x 1 parameter holding 1 and a 2 x 2 parameter; the file announces two
parameters, a 1 x 1 block holding 9 and then a 5 x 5 block. `load_weights`
reports the shape mismatch, but the first parameter now holds 9. -/
theorem load_weights_partial_write :
    ∃ st1 v0,
      ((Store.empty : Store ℚ).extend [Value.ofMatrix (MatrixXd.Constant 1 1 1),
        Value.ofMatrix (MatrixXd.Constant 2 2 1)]).cell 0
        = some (Value.ofMatrix (MatrixXd.Constant 1 1 1)) ∧
      Module.load_weights ((Store.empty : Store ℚ).extend
          [Value.ofMatrix (MatrixXd.Constant 1 1 1), Value.ofMatrix (MatrixXd.Constant 2 2 1)])
          [0, 1]
          (some [Item.int 2, Item.int 1, Item.int 1, Item.real 9, Item.int 5, Item.int 5])
        = some (st1, LoadOutcome.shape_mismatch) ∧
      st1.cell 0 = some v0 ∧ v0.data.coeff 0 0 = 9 ∧
      (Value.ofMatrix (MatrixXd.Constant 1 1 (1 : ℚ))).data.coeff 0 0 = 1 := by
  simp [Module.load_weights, Module.load_params, readInt, readReals, Store.cell_extend,
    Store.cell_write, Store.empty, Value.ofMatrix, MatrixXd.Constant]

/-! ## C15: the weight round trip -/

section roundTrip
variable {α : Type} [LinearOrderedField α]

omit [LinearOrderedField α] in
theorem readReals_map (buf : List α) (rest : List (Item α)) :
    readReals buf.length (buf.map Item.real ++ rest) = some (buf, rest) := by
  induction buf with
  | nil => rfl
  | cons x xs ih =>
    show (readReals xs.length (xs.map Item.real ++ rest)).bind
      (fun r => some (x :: r.1, r.2)) = some (x :: xs, rest)
    rw [ih]
    rfl

omit [LinearOrderedField α] in
theorem buffer_length (A : MatrixXd α) : A.buffer.length = A.rows * A.cols := by
  simp [MatrixXd.buffer]

/-- Entry `(r, c)` of a matrix sits at index `c * rows + r` of its buffer. -/
theorem buffer_getD (A : MatrixXd α) (r c : Nat) (hr : r < A.rows) (hc : c < A.cols) :
    A.buffer.getD (c * A.rows + r) 0 = A.coeff r c := by
  have hlt : c * A.rows + r < A.rows * A.cols := by
    calc c * A.rows + r < c * A.rows + A.rows := Nat.add_lt_add_left hr _
      _ = (c + 1) * A.rows := by ring
      _ ≤ A.cols * A.rows := Nat.mul_le_mul_right _ hc
      _ = A.rows * A.cols := Nat.mul_comm _ _
  have hmod : (c * A.rows + r) % A.rows = r := by
    rw [Nat.add_comm, Nat.add_mul_mod_self_right, Nat.mod_eq_of_lt hr]
  have hdiv : (c * A.rows + r) / A.rows = c := by
    rw [Nat.add_comm, Nat.add_mul_div_right _ _ (Nat.lt_of_le_of_lt (Nat.zero_le r) hr),
      Nat.div_eq_of_lt hr, Nat.zero_add]
  simp [MatrixXd.buffer, List.getD_eq_getElem?_getD, List.getElem?_map, List.getElem?_range hlt,
    hmod, hdiv]

/-- Saving the parameters `pa` of one memory and loading the items into the
parameters `pb` of another, position by position of equal shape. -/
theorem load_params_save_params (st0 : Store α) (pa : List Nat) :
    ∀ (pb : List Nat) (st : Store α) (tail : List (Item α)), pa.length = pb.length → pb.Nodup →
      (∀ p q, (p, q) ∈ pa.zip pb → ∃ va vb, st0.cell p = some va ∧ st.cell q = some vb ∧
        va.data.rows = vb.data.rows ∧ va.data.cols = vb.data.cols) →
      ∃ file st1, Module.save_params st0 pa = some file ∧
        Module.load_params st pb (file ++ tail) = some (st1, LoadOutcome.loaded) ∧
        (∀ x, x ∉ pb → st1.cell x = st.cell x) ∧
        (∀ p q, (p, q) ∈ pa.zip pb → ∀ va vb, st0.cell p = some va → st.cell q = some vb →
          ∃ vb1, st1.cell q = some vb1 ∧
            vb1.data.rows = va.data.rows ∧ vb1.data.cols = va.data.cols ∧
            (∀ r c, r < va.data.rows → c < va.data.cols →
              vb1.data.coeff r c = va.data.coeff r c) ∧
            vb1.grad = vb.grad) := by
  induction pa with
  | nil =>
    intro pb st tail hlen _ _
    have e : pb = [] := List.length_eq_zero.mp hlen.symm
    subst e
    refine ⟨[], st, rfl, rfl, fun _ _ => rfl, ?_⟩
    intro p q hpq
    simp at hpq
  | cons p pa ih =>
    intro pb st tail hlen hnd hshape
    cases pb with
    | nil => simp at hlen
    | cons q pb =>
      obtain ⟨hq, hnd1⟩ := List.nodup_cons.mp hnd
      obtain ⟨va, vb, hva, hvb, hr, hc⟩ := hshape p q (by simp)
      have hother : ∀ x, x ≠ q → (st.write q { vb with data := ⟨vb.data.rows, vb.data.cols,
          fun i j => va.data.buffer.getD (j * vb.data.rows + i) 0⟩ }).cell x = st.cell x := by
        intro x hx
        simp [Store.cell_write, hx]
      have hshape1 : ∀ p1 q1, (p1, q1) ∈ pa.zip pb → ∃ wa wb, st0.cell p1 = some wa ∧
          (st.write q { vb with data := ⟨vb.data.rows, vb.data.cols,
            fun i j => va.data.buffer.getD (j * vb.data.rows + i) 0⟩ }).cell q1 = some wb ∧
          wa.data.rows = wb.data.rows ∧ wa.data.cols = wb.data.cols := by
        intro p1 q1 h1
        have hq1 : q1 ≠ q := fun e => hq (e ▸ (List.of_mem_zip h1).2)
        rw [hother q1 hq1]
        exact hshape p1 q1 (by simp [h1])
      obtain ⟨file, st1, hsave, hload, hout, hin⟩ :=
        ih pb _ tail (Nat.succ.inj hlen) hnd1 hshape1
      refine ⟨Module.save_param va ++ file, st1, ?_, ?_, ?_, ?_⟩
      · simp [Module.save_params, hva, hsave]
      · have hlen2 : va.data.buffer.length = vb.data.rows * vb.data.cols := by
          rw [buffer_length, hr, hc]
        have hread := readReals_map va.data.buffer (file ++ tail)
        rw [hlen2] at hread
        simp only [Module.save_param, List.cons_append, List.append_assoc, Module.load_params,
          readInt, Option.bind_eq_bind, Option.some_bind, hvb, hr, hc, ne_eq,
          not_true_eq_false, or_self, if_false, hread]
        exact hload
      · intro x hx
        have hxq : x ≠ q := fun e => hx (e ▸ List.mem_cons_self q pb)
        rw [hout x (fun e => hx (List.mem_cons_of_mem q e)), hother x hxq]
      · intro p1 q1 h1 wa wb hwa hwb
        simp only [List.zip_cons_cons, List.mem_cons, Prod.mk.injEq] at h1
        rcases h1 with ⟨e1, e2⟩ | h1
        · subst e1; subst e2
          have e3 : va = wa := Option.some.inj (hva.symm.trans hwa)
          subst e3
          have e4 : vb = wb := Option.some.inj (hvb.symm.trans hwb)
          subst e4
          rw [hout q1 hq]
          refine ⟨Value.mk ⟨vb.data.rows, vb.data.cols,
              fun i j => va.data.buffer.getD (j * vb.data.rows + i) 0⟩
            vb.grad vb._prev vb._backward vb._op vb._self,
            by simp [Store.cell_write, hvb], hr.symm, hc.symm, ?_, rfl⟩
          intro r c hr1 hc1
          show va.data.buffer.getD (c * vb.data.rows + r) 0 = va.data.coeff r c
          rw [← hr]
          exact buffer_getD va.data r c hr1 hc1
        · have hq1 : q1 ≠ q := fun e => hq (e ▸ (List.of_mem_zip h1).2)
          exact hin p1 q1 h1 wa wb hwa ((hother q1 hq1).trans hwb)

/-- C15: for parameter lists `pa` (model A) and `pb` (model B, without repeated
entries) of one length whose parameters are live and have the same shape at
each position, `A.save_weights` writes a file with which `B.load_weights`
ends as loaded; afterwards each parameter of B has the shape and, entry for
entry, the data that the parameter of A at the same position had, its grad is
as before, and no object outside the parameters of B has changed (so A is
unchanged when A is another model than B). -/
theorem save_load_round_trip (st : Store α) (pa pb : List Nat) (hlen : pa.length = pb.length)
    (hnd : pb.Nodup)
    (hshape : ∀ p q, (p, q) ∈ pa.zip pb → ∃ va vb, st.cell p = some va ∧ st.cell q = some vb ∧
      va.data.rows = vb.data.rows ∧ va.data.cols = vb.data.cols) :
    ∃ file st1, Module.save_weights st pa = some file ∧
      Module.load_weights st pb (some file) = some (st1, LoadOutcome.loaded) ∧
      (∀ p q, (p, q) ∈ pa.zip pb → ∀ va vb, st.cell p = some va → st.cell q = some vb →
        ∃ vb1, st1.cell q = some vb1 ∧
          vb1.data.rows = va.data.rows ∧ vb1.data.cols = va.data.cols ∧
          (∀ r c, r < va.data.rows → c < va.data.cols →
            vb1.data.coeff r c = va.data.coeff r c) ∧
          vb1.grad = vb.grad) ∧
      (∀ x, x ∉ pb → st1.cell x = st.cell x) := by
  obtain ⟨file, st1, hsave, hload, hout, hin⟩ :=
    load_params_save_params st pa pb st [] hlen hnd hshape
  refine ⟨Item.int pa.length :: file, st1, ?_, ?_, hin, hout⟩
  · simp [Module.save_weights, hsave]
  · rw [List.append_nil] at hload
    simp [Module.load_weights, readInt, hlen, hload]

end roundTrip

/-- C15 with model A holding the 2 x 2 matrix `[[0, 1], [2, 3]]` and model B
holding a 2 x 2 matrix of zeros: after the round trip B holds 1 at (0, 1) and 2
at (1, 0), and A still holds its matrix. -/
theorem save_load_round_trip_witness :
    ∃ file st1 vb1,
      Module.save_weights ((Store.empty : Store ℚ).extend
        [Value.ofMatrix ⟨2, 2, fun i j => 2 * (i : ℚ) + (j : ℚ)⟩,
          Value.ofMatrix (MatrixXd.Zero 2 2)]) [0] = some file ∧
      Module.load_weights ((Store.empty : Store ℚ).extend
        [Value.ofMatrix ⟨2, 2, fun i j => 2 * (i : ℚ) + (j : ℚ)⟩,
          Value.ofMatrix (MatrixXd.Zero 2 2)]) [1] (some file)
        = some (st1, LoadOutcome.loaded) ∧
      st1.cell 1 = some vb1 ∧ vb1.data.coeff 0 1 = 1 ∧ vb1.data.coeff 1 0 = 2 ∧
      st1.cell 0 = some (Value.ofMatrix ⟨2, 2, fun i j => 2 * (i : ℚ) + (j : ℚ)⟩) := by
  obtain ⟨file, st1, hs, hl, hin, hout⟩ := save_load_round_trip
    ((Store.empty : Store ℚ).extend
      [Value.ofMatrix ⟨2, 2, fun i j => 2 * (i : ℚ) + (j : ℚ)⟩,
        Value.ofMatrix (MatrixXd.Zero 2 2)]) [0] [1] rfl (List.nodup_singleton 1)
    (by
      intro p q h
      simp only [List.zip_cons_cons, List.zip_nil_right, List.mem_singleton,
        Prod.mk.injEq] at h
      obtain ⟨e1, e2⟩ := h
      subst e1; subst e2
      exact ⟨_, _, rfl, rfl, rfl, rfl⟩)
  obtain ⟨vb1, hvb1, _, _, hd, _⟩ := hin 0 1 (by simp)
    (Value.ofMatrix ⟨2, 2, fun i j => 2 * (i : ℚ) + (j : ℚ)⟩)
    (Value.ofMatrix (MatrixXd.Zero 2 2)) rfl rfl
  refine ⟨file, st1, vb1, hs, hl, hvb1, ?_, ?_, ?_⟩
  · rw [hd 0 1 (by decide) (by decide)]
    simp [Value.ofMatrix]
  · rw [hd 1 0 (by decide) (by decide)]
    simp [Value.ofMatrix]
  · rw [hout 0 (by simp)]
    rfl

/-! ## C23: the gradient of a quotient -/

section division
variable {α : Type} [LinearOrderedField α]

set_option maxHeartbeats 2000000 in
/-- The program `div_backward` from any memory: where the objects are and what
they hold afterwards. -/
theorem div_backward_run (st : Store α) (r c : Nat) (fa fb : Nat → Nat → α) :
    ∃ s va vb vy,
      div_backward st ⟨r, c, fa⟩ ⟨r, c, fb⟩ = some (s, st.next, st.next + 1, st.next + 5) ∧
      s.cell st.next = some va ∧ s.cell (st.next + 1) = some vb ∧
      s.cell (st.next + 5) = some vy ∧
      va.data = ⟨r, c, fa⟩ ∧ vb.data = ⟨r, c, fb⟩ ∧
      vy.data = ⟨r, c, fun i j => fa i j * (fb i j) ^ (-1 : ℤ)⟩ ∧
      va.grad = ⟨r, c, fun i j => (fb i j) ^ (-1 : ℤ)⟩ ∧
      vb.grad = ⟨r, c, fun i j => ((-1 : ℤ) : α) * (fb i j) ^ (-1 - 1 : ℤ) * fa i j⟩ := by
  unfold div_backward
  rw [registered_eq]
  simp only [Option.bind_eq_bind, Option.some_bind, registered_extend]
  simp [Value.div, Value.pow, Value.get_self_ptr, Value.publish, Value.ofMatrix, Store.lock,
    MatrixXd.cwisePow, MatrixXd.map, Store.alloc_eq, Nat.add_assoc]
  simp [Value.mul, Value.get_self_ptr, Value.publish, Value.ofMatrix, Store.lock,
    MatrixXd.cwiseProduct, MatrixXd.zipWith, MatrixXd.sameShape, Store.alloc_eq, Nat.add_assoc]
  simp [Value.backward, Value.get_self_ptr, Store.lock, Nat.add_assoc]
  rw [build_topo_of_le _ 5 _ _ _ (by omega) (by simp [Value.build_topo])]
  simp [Value.build_topo]
  simp [Store.modify]
  simp [Value.runClosures, Value.runAll, Value.broadcast_backward,
    MatrixXd.addAssign, MatrixXd.add, MatrixXd.zipWith, MatrixXd.sameShape, MatrixXd.Zero,
    MatrixXd.Ones, MatrixXd.Constant, MatrixXd.cwiseProduct, MatrixXd.scale,
    MatrixXd.cwisePow, MatrixXd.map]

end division

section divisionClaim
variable {α : Type} [LinearOrderedField α]

/-- C23: for registered leaves `a` and `b` of one shape `r x c` holding `fa` and
`fb`, with no entry of `b` zero and zero grads, `y = a / b` has the entries
`fa i j / fb i j`, and after `y.backward()` the grad of `a` has the entries
`1 / fb i j` and the grad of `b` the entries `-(fa i j) / (fb i j)^2`. -/
theorem div_gradient (st : Store α) (r c : Nat) (fa fb : Nat → Nat → α)
    (hb : ∀ i j, i < r → j < c → fb i j ≠ 0) :
    ∃ s a b y va vb vy,
      div_backward st ⟨r, c, fa⟩ ⟨r, c, fb⟩ = some (s, a, b, y) ∧
      s.cell a = some va ∧ s.cell b = some vb ∧ s.cell y = some vy ∧
      va.data = ⟨r, c, fa⟩ ∧ vb.data = ⟨r, c, fb⟩ ∧
      vy.data.rows = r ∧ vy.data.cols = c ∧
      va.grad.rows = r ∧ va.grad.cols = c ∧ vb.grad.rows = r ∧ vb.grad.cols = c ∧
      ∀ i j, i < r → j < c →
        vy.data.coeff i j = fa i j / fb i j ∧
        va.grad.coeff i j = 1 / fb i j ∧
        vb.grad.coeff i j = -(fa i j) / (fb i j) ^ 2 := by
  obtain ⟨s, va, vb, vy, h, ha, hbc, hy, had, hbd, hyd, hag, hbg⟩ := div_backward_run st r c fa fb
  refine ⟨s, _, _, _, va, vb, vy, h, ha, hbc, hy, had, hbd, by rw [hyd], by rw [hyd],
    by rw [hag], by rw [hag], by rw [hbg], by rw [hbg], ?_⟩
  intro i j hi hj
  have hne := hb i j hi hj
  refine ⟨?_, ?_, ?_⟩
  · rw [hyd]
    show fa i j * (fb i j) ^ (-1 : ℤ) = fa i j / fb i j
    rw [zpow_neg_one, div_eq_mul_inv]
  · rw [hag]
    show (fb i j) ^ (-1 : ℤ) = 1 / fb i j
    rw [zpow_neg_one, one_div]
  · rw [hbg]
    show ((-1 : ℤ) : α) * (fb i j) ^ (-1 - 1 : ℤ) * fa i j = -(fa i j) / (fb i j) ^ 2
    have e : (fb i j) ^ (-1 - 1 : ℤ) = ((fb i j) ^ 2)⁻¹ := by
      have : (-1 - 1 : ℤ) = -((2 : ℕ) : ℤ) := by norm_num
      rw [this, zpow_neg, zpow_natCast]
    rw [e]
    field_simp

end divisionClaim

/-- C23 on the 1 x 1 leaves `a = 6` and `b = 2`: the quotient is 3, the grad of
`a` is 1/2 and the grad of `b` is -3/2. -/
theorem div_gradient_witness :
    ∃ s a b y va vb vy,
      div_backward (Store.empty : Store ℚ) ⟨1, 1, fun _ _ => 6⟩ ⟨1, 1, fun _ _ => 2⟩
        = some (s, a, b, y) ∧
      s.cell a = some va ∧ s.cell b = some vb ∧ s.cell y = some vy ∧
      vy.data.coeff 0 0 = 3 ∧ va.grad.coeff 0 0 = 1 / 2 ∧ vb.grad.coeff 0 0 = -3 / 2 := by
  obtain ⟨s, a, b, y, va, vb, vy, h, ha, hb, hy, _, _, _, _, _, _, _, _, he⟩ :=
    div_gradient (Store.empty : Store ℚ) 1 1 (fun _ _ => 6) (fun _ _ => 2)
      (fun _ _ _ _ => by norm_num)
  obtain ⟨h1, h2, h3⟩ := he 0 0 (by decide) (by decide)
  refine ⟨s, a, b, y, va, vb, vy, h, ha, hb, hy, ?_, ?_, ?_⟩
  · rw [h1]; norm_num
  · rw [h2]
  · rw [h3]; norm_num

/-! ## C24: the order of the flattened entries -/

section flattenOrder
variable {α : Type} [LinearOrderedField α]

/-- On a node with at least two columns `flatten()` returns the view
`Eigen::Map<const MatrixXd>(data.data(), 1, rows * cols)` of the column-major
buffer. -/
theorem flatten_data (st : Store α) (this : Nat) (a : Value α)
    (ha : st.cell this = some a) (hc : 1 < a.data.cols) :
    ∃ st1 r v, Value.flatten st this = some (st1, r) ∧ st1.cell r = some v ∧
      v.data = ⟨1, a.data.rows * a.data.cols, fun i j =>
        a.data.coeff ((j * 1 + i) % a.data.rows) ((j * 1 + i) / a.data.rows)⟩ := by
  have hnc : ¬ a.data.cols ≤ 1 := Nat.not_le.mpr hc
  obtain ⟨s1, p, hg, _⟩ := get_self_ptr_total st this a ha
  obtain ⟨v, hv, hd, _, _⟩ := publish_cell s1
    { Value.ofMatrix (⟨1, a.data.rows * a.data.cols, fun i j =>
        a.data.coeff ((j * 1 + i) % a.data.rows) ((j * 1 + i) / a.data.rows)⟩ : MatrixXd α)
      with _op := "flatten" } [p]
    (fun out_ptr => Closure.flatten p out_ptr a.data.rows a.data.cols)
  refine ⟨_, _, v, ?_, hv, hd⟩
  simp [Value.flatten, ha, hnc, MatrixXd.reshaped, hg]

/-- C24 as amended: for every live node `a` with `R` rows and `C > 1` columns,
`flatten()` returns an object with 1 row and `R * C` columns that lists the
entries of `a` in column-major order: entry `(0, j * R + i)` is `a(i, j)` for
`i < R` and `j < C`, that is, entry `(0, k)` is `a(k % R, k / R)`. -/
theorem flatten_column_major (st : Store α) (this : Nat) (a : Value α)
    (ha : st.cell this = some a) (hc : 1 < a.data.cols) :
    ∃ st1 r v, Value.flatten st this = some (st1, r) ∧ st1.cell r = some v ∧
      v.data.rows = 1 ∧ v.data.cols = a.data.rows * a.data.cols ∧
      (∀ k, v.data.coeff 0 k = a.data.coeff (k % a.data.rows) (k / a.data.rows)) ∧
      (∀ i j, i < a.data.rows → j < a.data.cols →
        v.data.coeff 0 (j * a.data.rows + i) = a.data.coeff i j) := by
  obtain ⟨st1, r, v, h, hv, hd⟩ := flatten_data st this a ha hc
  refine ⟨st1, r, v, h, hv, by rw [hd], by rw [hd], ?_, ?_⟩
  · intro k
    rw [hd]
    show a.data.coeff ((k * 1 + 0) % a.data.rows) ((k * 1 + 0) / a.data.rows) = _
    rw [Nat.mul_one, Nat.add_zero]
  · intro i j hi hj
    rw [hd]
    show a.data.coeff (((j * a.data.rows + i) * 1 + 0) % a.data.rows)
      (((j * a.data.rows + i) * 1 + 0) / a.data.rows) = _
    have hmod : (j * a.data.rows + i) % a.data.rows = i := by
      rw [Nat.add_comm, Nat.add_mul_mod_self_right, Nat.mod_eq_of_lt hi]
    have hdiv : (j * a.data.rows + i) / a.data.rows = j := by
      rw [Nat.add_comm, Nat.add_mul_div_right _ _ (Nat.lt_of_le_of_lt (Nat.zero_le i) hi),
        Nat.div_eq_of_lt hi, Nat.zero_add]
    rw [Nat.mul_one, Nat.add_zero, hmod, hdiv]

end flattenOrder

/-- C24 as amended, on the 2 x 3 leaf `[[0, 1, 2], [10, 11, 12]]`: the
flattened row is `[0, 10, 1, 11, 2, 12]`. -/
theorem flatten_column_major_witness :
    ∃ st1 r v, Value.flatten ((Store.empty : Store ℚ).extend
        [Value.ofMatrix ⟨2, 3, fun i j => 10 * (i : ℚ) + (j : ℚ)⟩]) 0 = some (st1, r) ∧
      st1.cell r = some v ∧ v.data.rows = 1 ∧ v.data.cols = 6 ∧
      v.data.coeff 0 0 = 0 ∧ v.data.coeff 0 1 = 10 ∧ v.data.coeff 0 2 = 1 ∧
      v.data.coeff 0 3 = 11 ∧ v.data.coeff 0 4 = 2 ∧ v.data.coeff 0 5 = 12 := by
  obtain ⟨st1, r, v, h, hv, hr, hc, hk, _⟩ := flatten_column_major
    ((Store.empty : Store ℚ).extend [Value.ofMatrix ⟨2, 3, fun i j => 10 * (i : ℚ) + (j : ℚ)⟩]) 0
    (Value.ofMatrix ⟨2, 3, fun i j => 10 * (i : ℚ) + (j : ℚ)⟩) rfl (by decide)
  refine ⟨st1, r, v, h, hv, hr, hc, ?_, ?_, ?_, ?_, ?_, ?_⟩
  · rw [hk 0]; simp [Value.ofMatrix]
  · rw [hk 1]; simp [Value.ofMatrix]
  · rw [hk 2]; simp [Value.ofMatrix]
  · rw [hk 3]; simp [Value.ofMatrix]; norm_num
  · rw [hk 4]; simp [Value.ofMatrix]
  · rw [hk 5]; simp [Value.ofMatrix]; norm_num

/-- C24 as first stated fails on the 2 x 2 leaf `a = [[1, 2], [3, 4]]`: entry
`(0, 0 * 2 + 1)` of `a.flatten()` is `a(1, 0) = 3`, not `a(0, 1) = 2`. -/
theorem flatten_row_major_counterexample :
    ∃ st1 r v, Value.flatten ((Store.empty : Store ℚ).extend
        [Value.ofMatrix ⟨2, 2, fun i j => 2 * (i : ℚ) + (j : ℚ) + 1⟩]) 0 = some (st1, r) ∧
      st1.cell r = some v ∧
      (Value.ofMatrix (⟨2, 2, fun i j => 2 * (i : ℚ) + (j : ℚ) + 1⟩ : MatrixXd ℚ)).data.coeff 0 1
        = 2 ∧
      v.data.coeff 0 (0 * 2 + 1) = 3 := by
  obtain ⟨st1, r, v, h, hv, hd⟩ := flatten_data
    ((Store.empty : Store ℚ).extend
      [Value.ofMatrix ⟨2, 2, fun i j => 2 * (i : ℚ) + (j : ℚ) + 1⟩]) 0
    (Value.ofMatrix ⟨2, 2, fun i j => 2 * (i : ℚ) + (j : ℚ) + 1⟩) rfl (by decide)
  refine ⟨st1, r, v, h, hv, ?_, ?_⟩
  · simp [Value.ofMatrix]
    norm_num
  · rw [hd]
    simp [Value.ofMatrix]
    norm_num

/-! ## C26: handles made by ValuePtr -/

section handles
variable {α : Type} [LinearOrderedField α]

set_option maxHeartbeats 2000000 in
/-- The program `ValuePtr a(A); ValuePtr c = a * a; c->backward();` from any
memory: `operator*` clones `*a.ptr` twice (the object has no self-pointer), the
two clones receive the gradient `A` each, and the object that the handle `a`
names keeps its zero grad. -/
theorem valueptr_square_run (st : Store α) (r c : Nat) (f : Nat → Nat → α) :
    ∃ s va v1 v2 vc,
      valueptr_square st ⟨r, c, f⟩ = some (s, st.next, st.next + 5) ∧
      s.cell st.next = some va ∧ s.cell (st.next + 1) = some v1 ∧
      s.cell (st.next + 2) = some v2 ∧ s.cell (st.next + 5) = some vc ∧
      vc._prev = [st.next + 1, st.next + 2] ∧
      va.data = ⟨r, c, f⟩ ∧ va.grad = MatrixXd.Zero r c ∧
      v1.grad = ⟨r, c, f⟩ ∧ v2.grad = ⟨r, c, f⟩ := by
  unfold valueptr_square ValuePtr.ofMatrix ValuePtr.mul
  simp only [Store.alloc_eq, Option.bind_eq_bind, Option.some_bind]
  simp [Value.mul, Value.get_self_ptr, Value.publish, Value.ofMatrix, Store.lock,
    MatrixXd.cwiseProduct, MatrixXd.zipWith, MatrixXd.sameShape, Store.alloc_eq, Nat.add_assoc]
  simp [Value.backward, Value.get_self_ptr, Store.lock, Nat.add_assoc]
  rw [build_topo_of_le _ 4 _ _ _ (by omega) (by simp [Value.build_topo])]
  simp [Value.build_topo]
  simp [Store.modify]
  simp [Value.runClosures, Value.runAll, Value.broadcast_backward,
    MatrixXd.addAssign, MatrixXd.add, MatrixXd.zipWith, MatrixXd.sameShape, MatrixXd.Zero,
    MatrixXd.Ones, MatrixXd.Constant, MatrixXd.cwiseProduct]

end handles

/-- C26, evaluated on `ValuePtr a(Constant(1, 1, 3.0))`: after `c = a * a` and
`c->backward()` the entry of `a->grad` is 0, not `2 * 3`, and the two
predecessors of `c` are two other objects than `a`. -/
theorem valueptr_square_grad_zero :
    ∃ s a c va vc, valueptr_square (Store.empty : Store ℚ) (MatrixXd.Constant 1 1 3)
        = some (s, a, c) ∧
      s.cell a = some va ∧ s.cell c = some vc ∧
      va.data.coeff 0 0 = 3 ∧ va.grad.coeff 0 0 = 0 ∧ va.grad.coeff 0 0 ≠ 2 * va.data.coeff 0 0 ∧
      a ∉ vc._prev := by
  obtain ⟨s, va, v1, v2, vc, h, ha, _, _, hc, hp, hd, hg, _, _⟩ :=
    valueptr_square_run (Store.empty : Store ℚ) 1 1 (fun _ _ => 3)
  refine ⟨s, _, _, va, vc, h, ha, hc, by rw [hd], by rw [hg]; rfl, ?_, ?_⟩
  · rw [hg, hd]
    simp [MatrixXd.Zero, MatrixXd.Constant]
  · rw [hp]
    simp [Store.empty]

/-! ## C25: the stabilised softmax -/

/-- Subtracting any number `m` from a row before `exp` does not change the
quotient by the row sum. -/
theorem exp_shift_quotient (K : Nat) (g : Nat → ℝ) (m x : ℝ) :
    Real.exp (x - m) / ∑ k in Finset.range K, Real.exp (g k - m)
      = Real.exp x / ∑ k in Finset.range K, Real.exp (g k) := by
  have hm : Real.exp m ≠ 0 := (Real.exp_pos m).ne'
  have hsum : ∑ k in Finset.range K, Real.exp (g k - m)
      = (∑ k in Finset.range K, Real.exp (g k)) / Real.exp m := by
    rw [Finset.sum_div]
    exact Finset.sum_congr rfl (fun k _ => Real.exp_sub (g k) m)
  rw [hsum, Real.exp_sub, div_div_div_cancel_right₀ hm]

/-- C25: for every `N x K` matrix of reals with `K >= 1`, the stabilised
`softmax` of loss.cpp returns the plain softmax: entry (i, j) is `exp(x(i, j))`
divided by the sum of `exp(x(i, k))` over the row; the result has the shape of
`x`, every entry is in (0, 1] and every row sums to 1. -/
theorem softmax_eq_plain (N K : Nat) (hK : 0 < K) (f : Nat → Nat → ℝ) :
    softmax Real.exp ⟨N, K, f⟩ = some (softmax_plain Real.exp ⟨N, K, f⟩) ∧
    (softmax_plain Real.exp ⟨N, K, f⟩).rows = N ∧
    (softmax_plain Real.exp ⟨N, K, f⟩).cols = K ∧
    (∀ i j, (softmax_plain Real.exp ⟨N, K, f⟩).coeff i j
      = Real.exp (f i j) / ∑ k in Finset.range K, Real.exp (f i k)) ∧
    (∀ i j, i < N → j < K → 0 < (softmax_plain Real.exp ⟨N, K, f⟩).coeff i j ∧
      (softmax_plain Real.exp ⟨N, K, f⟩).coeff i j ≤ 1) ∧
    (∀ i, i < N → ∑ j in Finset.range K, (softmax_plain Real.exp ⟨N, K, f⟩).coeff i j = 1) := by
  have hpos : ∀ i, 0 < ∑ k in Finset.range K, Real.exp (f i k) := by
    intro i
    apply Finset.sum_pos
    · intro k _
      exact Real.exp_pos _
    · exact ⟨0, Finset.mem_range.mpr hK⟩
  refine ⟨?_, rfl, rfl, fun _ _ => rfl, ?_, ?_⟩
  · unfold softmax softmax_plain
    rw [if_pos (Or.inr hK)]
    congr 1
    show (⟨N, K, _⟩ : MatrixXd ℝ) = ⟨N, K, _⟩
    congr 1
    funext i j
    exact exp_shift_quotient K (f i) _ (f i j)
  · intro i j _ hj
    constructor
    · exact div_pos (Real.exp_pos _) (hpos i)
    · show Real.exp (f i j) / ∑ k in Finset.range K, Real.exp (f i k) ≤ 1
      rw [div_le_one (hpos i)]
      exact Finset.single_le_sum (f := fun k => Real.exp (f i k))
        (fun k _ => (Real.exp_pos _).le) (Finset.mem_range.mpr hj)
  · intro i _
    show ∑ j in Finset.range K, Real.exp (f i j) / ∑ k in Finset.range K, Real.exp (f i k) = 1
    rw [← Finset.sum_div]
    exact div_self (hpos i).ne'

/-- C25 on the 1 x 2 matrix of zeros: both entries of the softmax are 1/2. -/
theorem softmax_eq_plain_witness :
    0 < 2 ∧ ∃ p : MatrixXd ℝ, softmax Real.exp ⟨1, 2, fun _ _ => 0⟩ = some p ∧
      p.coeff 0 0 = 1 / 2 ∧ p.coeff 0 1 = 1 / 2 := by
  obtain ⟨h, _, _, he, _, _⟩ := softmax_eq_plain 1 2 (by decide) (fun _ _ => 0)
  refine ⟨by decide, _, h, ?_, ?_⟩
  · rw [he 0 0]
    simp [Finset.sum_range_succ]
  · rw [he 0 1]
    simp [Finset.sum_range_succ]

/-! ## C27: momentum 0 is plain gradient descent -/

section zeroMomentum
variable {α : Type} [LinearOrderedField α]

/-- With momentum 0 one round of the loop of `NesterovSGD::step` writes what
`p->data -= lr * p->grad` writes, and fails when it fails. -/
theorem nesterov_update_zero_mu (o : NesterovSGD α) (st : Store α) (i p : Nat)
    (hmu : o.mu = 0) (hvs : VelocityShaped st o) (hp : o.parameters[i]? = some p) :
    (NesterovSGD.update o st i).map Prod.snd = SGD.update o.lr st p ∧
    ∀ o1 st1, NesterovSGD.update o st i = some (o1, st1) →
      o1.mu = 0 ∧ o1.lr = o.lr ∧ o1.parameters = o.parameters ∧ VelocityShaped st1 o1 := by
  have hilt : i < o.parameters.length := by
    by_contra hge
    rw [List.getElem?_eq_none (Nat.le_of_not_lt hge)] at hp
    exact Option.noConfusion hp
  have hilt2 : i < o.v.length := hvs.1 ▸ hilt
  obtain ⟨vp, hv⟩ : ∃ vp, o.v[i]? = some vp := ⟨o.v[i], List.getElem?_eq_getElem hilt2⟩
  cases hw : st.cell p with
  | none =>
    constructor
    · simp [NesterovSGD.update, SGD.update, hp, hv, hw]
    · intro o1 st1 h
      simp [NesterovSGD.update, hp, hv, hw] at h
  | some w =>
    obtain ⟨hvr, hvc⟩ := hvs.2 i p vp w hp hv hw
    by_cases hg : w.grad.rows = w.data.rows ∧ w.grad.cols = w.data.cols
    · obtain ⟨hgr, hgc⟩ := hg
      have hupd := nesterov_update_eq o st i p vp w hp hv hw hgr hgc hvr hvc
      constructor
      · rw [hupd, sgd_update_eq o.lr st p w hw hgr hgc, hmu]
        simp [sub_eq_add_neg]
      · intro o1 st1 h
        rw [hupd] at h
        simp only [Option.some.injEq, Prod.mk.injEq] at h
        obtain ⟨e1, e2⟩ := h
        subst e1; subst e2
        refine ⟨hmu, rfl, rfl, ?_, ?_⟩
        · show (o.v.set i _).length = o.parameters.length
          rw [List.length_set]
          exact hvs.1
        · intro j q vq u hq hvq hu
          have hu' : ∃ u0, st.cell q = some u0 ∧ u.data.rows = u0.data.rows ∧
              u.data.cols = u0.data.cols := by
            by_cases hqp : q = p
            · subst hqp
              refine ⟨w, hw, ?_, ?_⟩
              · simp [Store.cell_write, hw] at hu
                rw [← hu]
              · simp [Store.cell_write, hw] at hu
                rw [← hu]
            · simp [Store.cell_write, hqp] at hu
              exact ⟨u, hu, rfl, rfl⟩
          obtain ⟨u0, hu0, er, ec⟩ := hu'
          by_cases hji : j = i
          · subst hji
            have hq' : q = p := Option.some.inj (hq.symm.trans hp)
            subst hq'
            have e0 : u0 = w := Option.some.inj (hu0.symm.trans hw)
            subst e0
            have hvq' : (o.v.set j
                ⟨u0.data.rows, u0.data.cols, fun r c =>
                  o.mu * vp.coeff r c - o.lr * u0.grad.coeff r c⟩)[j]? = some vq := hvq
            rw [List.getElem?_set_self hilt2] at hvq'
            have e3 := Option.some.inj hvq'
            rw [← e3]
            exact ⟨er.symm, ec.symm⟩
          · have hvq' : (o.v.set i
                ⟨w.data.rows, w.data.cols, fun r c =>
                  o.mu * vp.coeff r c - o.lr * w.grad.coeff r c⟩)[j]? = some vq := hvq
            rw [List.getElem?_set_ne (Ne.symm hji)] at hvq'
            obtain ⟨h1, h2⟩ := hvs.2 j q vq u0 hq hvq' hu0
            exact ⟨h1.trans er.symm, h2.trans ec.symm⟩
    · constructor
      · have hs : ¬ (vp.rows = w.grad.rows ∧ vp.cols = w.grad.cols) := by
          intro h
          exact hg ⟨h.1.symm.trans hvr, h.2.symm.trans hvc⟩
        have hs2 : ¬ (w.data.rows = w.grad.rows ∧ w.data.cols = w.grad.cols) := by
          intro h
          exact hg ⟨h.1.symm, h.2.symm⟩
        simp [NesterovSGD.update, SGD.update, hp, hv, hw, MatrixXd.sub, MatrixXd.subAssign,
          MatrixXd.zipWith, MatrixXd.sameShape, MatrixXd.scale, MatrixXd.map, hs, hs2]
      · intro o1 st1 h
        have hs : ¬ (vp.rows = w.grad.rows ∧ vp.cols = w.grad.cols) := by
          intro h
          exact hg ⟨h.1.symm.trans hvr, h.2.symm.trans hvc⟩
        simp [NesterovSGD.update, hp, hv, hw, MatrixXd.sub,
          MatrixXd.zipWith, MatrixXd.sameShape, MatrixXd.scale, MatrixXd.map, hs] at h

end zeroMomentum
section zeroMomentumRun
variable {α : Type} [LinearOrderedField α]

/-- The loop of `NesterovSGD::step` from index `pre.length` on, with momentum 0,
against the loop of `SGD::step` over the remaining parameters. -/
theorem nesterov_loop_zero_mu (suf : List Nat) :
    ∀ (pre : List Nat) (o : NesterovSGD α) (st : Store α), o.parameters = pre ++ suf →
      o.mu = 0 → VelocityShaped st o →
      ((List.range' pre.length suf.length).foldlM
          (fun (a : NesterovSGD α × Store α) i => NesterovSGD.update a.1 a.2 i) (o, st)).map
          Prod.snd
        = suf.foldlM (fun s p => SGD.update o.lr s p) st ∧
      ∀ o1 st1, (List.range' pre.length suf.length).foldlM
          (fun (a : NesterovSGD α × Store α) i => NesterovSGD.update a.1 a.2 i) (o, st)
          = some (o1, st1) →
        o1.mu = 0 ∧ o1.lr = o.lr ∧ o1.parameters = o.parameters ∧ VelocityShaped st1 o1 := by
  induction suf with
  | nil =>
    intro pre o st _ hmu hvs
    refine ⟨rfl, ?_⟩
    intro o1 st1 h
    have e : (o, st) = (o1, st1) := Option.some.inj h
    obtain ⟨e1, e2⟩ := Prod.mk.inj e
    subst e1; subst e2
    exact ⟨hmu, rfl, rfl, hvs⟩
  | cons p rest ih =>
    intro pre o st hpar hmu hvs
    have hp : o.parameters[pre.length]? = some p := by
      rw [hpar, List.getElem?_append_right (Nat.le_refl _), Nat.sub_self]
      exact List.getElem?_cons_zero
    obtain ⟨heq, hkeep⟩ := nesterov_update_zero_mu o st pre.length p hmu hvs hp
    have hrange : List.range' pre.length (p :: rest).length
        = pre.length :: List.range' (pre ++ [p]).length rest.length := by
      simp [List.range'_succ]
    rw [hrange]
    simp only [List.foldlM_cons, Option.bind_eq_bind]
    cases hu : NesterovSGD.update o st pre.length with
    | none =>
      rw [hu] at heq
      constructor
      · rw [← heq]
        rfl
      · intro o1 st1 h
        simp at h
    | some r =>
      obtain ⟨o1, s1⟩ := r
      rw [hu] at heq
      obtain ⟨hmu1, hlr1, hpar1, hvs1⟩ := hkeep o1 s1 hu
      have hpar2 : o1.parameters = (pre ++ [p]) ++ rest := by
        rw [hpar1, hpar]
        simp
      obtain ⟨ih1, ih2⟩ := ih (pre ++ [p]) o1 s1 hpar2 hmu1 hvs1
      constructor
      · rw [← heq]
        simp only [Option.some_bind, Option.map_some']
        rw [← hlr1]
        exact ih1
      · intro o2 st2 h
        simp only [Option.some_bind] at h
        obtain ⟨h1, h2, h3, h4⟩ := ih2 o2 st2 h
        exact ⟨h1, h2.trans hlr1, h3.trans hpar1, h4⟩

/-- With momentum 0 `NesterovSGD::step` leaves the memory that `SGD::step`
leaves, and keeps its velocity buffers shaped. -/
theorem nesterov_step_zero_mu (o : NesterovSGD α) (st : Store α) (hmu : o.mu = 0)
    (hvs : VelocityShaped st o) :
    (NesterovSGD.step o st).map Prod.snd = SGD.step ⟨o.parameters, o.lr⟩ st ∧
    ∀ o1 st1, NesterovSGD.step o st = some (o1, st1) →
      o1.mu = 0 ∧ o1.lr = o.lr ∧ o1.parameters = o.parameters ∧ VelocityShaped st1 o1 := by
  have h := nesterov_loop_zero_mu o.parameters [] o st rfl hmu hvs
  simp only [List.length_nil] at h
  rw [← List.range_eq_range'] at h
  exact h

omit [LinearOrderedField α] in
/-- Supplying gradients changes no data and creates or destroys no object. -/
theorem supply_grads_data (ps : List (Nat × MatrixXd α)) :
    ∀ (st s1 : Store α),
      ps.foldlM (fun s (pg : Nat × MatrixXd α) =>
        s.modify pg.1 (fun v => { v with grad := pg.2 })) st = some s1 →
      ∀ q u, s1.cell q = some u → ∃ u0, st.cell q = some u0 ∧ u.data = u0.data := by
  induction ps with
  | nil =>
    intro st s1 h q u hu
    have e : st = s1 := Option.some.inj h
    subst e
    exact ⟨u, hu, rfl⟩
  | cons pg rest ih =>
    intro st s1 h q u hu
    simp only [List.foldlM_cons, Option.bind_eq_bind, Option.bind_eq_some] at h
    obtain ⟨s0, h0, h1⟩ := h
    obtain ⟨u1, hu1, e1⟩ := ih s0 s1 h1 q u hu
    simp only [Store.modify, Option.map_eq_some'] at h0
    obtain ⟨w, hw, e0⟩ := h0
    subst e0
    by_cases hq : q = pg.1
    · subst hq
      simp [Store.cell_write, hw] at hu1
      refine ⟨w, hw, ?_⟩
      rw [e1, ← hu1]
    · simp [Store.cell_write, hq] at hu1
      exact ⟨u1, hu1, e1⟩

omit [LinearOrderedField α] in
theorem supply_grads_velocityShaped (o : NesterovSGD α) (st s1 : Store α)
    (gs : List (MatrixXd α)) (h : supply_grads st o.parameters gs = some s1)
    (hvs : VelocityShaped st o) : VelocityShaped s1 o := by
  refine ⟨hvs.1, ?_⟩
  intro i p vp w hp hv hw
  obtain ⟨w0, hw0, e⟩ := supply_grads_data _ st s1 h p w hw
  rw [e]
  exact hvs.2 i p vp w0 hp hv hw0

/-- A training run with momentum 0 leaves, after every step, the memory that
the run of `SGD` leaves. -/
theorem nesterov_run_zero_mu (gss : List (List (MatrixXd α))) :
    ∀ (o : NesterovSGD α) (st : Store α), o.mu = 0 → VelocityShaped st o →
      (NesterovSGD.run o st gss).map Prod.snd = SGD.run ⟨o.parameters, o.lr⟩ st gss := by
  induction gss with
  | nil =>
    intro o st _ _
    rfl
  | cons gs rest ih =>
    intro o st hmu hvs
    simp only [NesterovSGD.run, SGD.run, Option.bind_eq_bind]
    cases hs : supply_grads st o.parameters gs with
    | none => rfl
    | some s1 =>
      have hvs1 := supply_grads_velocityShaped o st s1 gs hs hvs
      obtain ⟨heq, hkeep⟩ := nesterov_step_zero_mu o s1 hmu hvs1
      simp only [Option.some_bind]
      cases hstep : NesterovSGD.step o s1 with
      | none =>
        rw [hstep] at heq
        rw [← heq]
        rfl
      | some r =>
        obtain ⟨o1, s2⟩ := r
        rw [hstep] at heq
        obtain ⟨hmu1, hlr1, hpar1, hvs2⟩ := hkeep o1 s2 hstep
        rw [← heq]
        simp only [Option.some_bind, Option.map_some']
        rw [ih o1 s2 hmu1 hvs2, hlr1, hpar1]

/-- The constructor of `NesterovSGD` makes one zero buffer per parameter, of the
shape of its data. -/
theorem create_loop_spec (st : Store α) :
    ∀ (params : List Nat) (vs : List (MatrixXd α)),
      params.mapM (fun p => do
        let w ← st.cell p
        some (MatrixXd.Zero w.data.rows w.data.cols : MatrixXd α)) = some vs →
      vs.length = params.length ∧
      ∀ (i p : Nat) (vp : MatrixXd α) (w : Value α), params[i]? = some p → vs[i]? = some vp →
        st.cell p = some w → vp.rows = w.data.rows ∧ vp.cols = w.data.cols := by
  intro params
  induction params with
  | nil =>
    intro vs h
    have e : [] = vs := Option.some.inj h
    subst e
    refine ⟨rfl, ?_⟩
    intro i p vp w hp
    simp at hp
  | cons q rest ih =>
    intro vs h
    rw [List.mapM_cons] at h
    simp only [bind_pure_comp, Option.bind_eq_bind, Option.bind_eq_some, Option.map_eq_map,
      Option.map_eq_some', Option.some.injEq] at h
    obtain ⟨z, ⟨wq, hwq, ez⟩, vs1, hvs1, e⟩ := h
    subst e; subst ez
    obtain ⟨hl, hsh⟩ := ih vs1 hvs1
    refine ⟨by simp [hl], ?_⟩
    intro i p vp w hp hv hw
    cases i with
    | zero =>
      simp only [List.getElem?_cons_zero, Option.some.injEq] at hp hv
      subst hp; subst hv
      have e : wq = w := Option.some.inj (hwq.symm.trans hw)
      subst e
      exact ⟨rfl, rfl⟩
    | succ k =>
      simp only [List.getElem?_cons_succ] at hp hv
      exact hsh k p vp w hp hv hw

theorem create_velocityShaped (st : Store α) (params : List Nat) (lr mu : α)
    (o : NesterovSGD α) (h : NesterovSGD.create st params lr mu = some o) :
    o.parameters = params ∧ o.lr = lr ∧ o.mu = mu ∧ VelocityShaped st o := by
  unfold NesterovSGD.create at h
  simp only [Option.bind_eq_bind, Option.bind_eq_some, Option.some.injEq] at h
  obtain ⟨vs, hvs, e⟩ := h
  subst e
  exact ⟨rfl, rfl, rfl, create_loop_spec st params vs hvs⟩

/-- C27: for every parameter list, learning rate and sequence of supplied
gradients, a `NesterovSGD` constructed with momentum 0 leaves after every step
the memory that `SGD` with the same learning rate leaves from the same start
(and the one run stops on a size assertion exactly when the other does); so
whenever the run returns, every parameter has the data that `SGD` gives it. -/
theorem nesterov_zero_momentum_is_sgd (st : Store α) (params : List Nat) (lr : α)
    (o : NesterovSGD α) (hcreate : NesterovSGD.create st params lr 0 = some o)
    (gss : List (List (MatrixXd α))) :
    (NesterovSGD.run o st gss).map Prod.snd = SGD.run ⟨params, lr⟩ st gss ∧
    ∀ o1 st1, NesterovSGD.run o st gss = some (o1, st1) →
      ∃ st2, SGD.run ⟨params, lr⟩ st gss = some st2 ∧
        ∀ p, (st1.cell p).map (fun v => v.data) = (st2.cell p).map (fun v => v.data) := by
  obtain ⟨hp, hlr, hmu, hvs⟩ := create_velocityShaped st params lr 0 o hcreate
  have h := nesterov_run_zero_mu gss o st hmu hvs
  rw [hp, hlr] at h
  refine ⟨h, ?_⟩
  intro o1 st1 hrun
  rw [hrun] at h
  exact ⟨st1, h.symm, fun _ => rfl⟩

end zeroMomentumRun

/-- C27 on one 1 x 1 parameter holding 5, learning rate 1/2 and the gradients 2
and then 4: after the two steps both optimizers leave 2. -/
theorem nesterov_zero_momentum_is_sgd_witness :
    ∃ o o1 st1 v,
      NesterovSGD.create ((Store.empty : Store ℚ).extend
        [Value.ofMatrix (MatrixXd.Constant 1 1 5)]) [0] (1 / 2) 0 = some o ∧
      NesterovSGD.run o ((Store.empty : Store ℚ).extend
        [Value.ofMatrix (MatrixXd.Constant 1 1 5)])
        [[MatrixXd.Constant 1 1 2], [MatrixXd.Constant 1 1 4]] = some (o1, st1) ∧
      SGD.run ⟨[0], 1 / 2⟩ ((Store.empty : Store ℚ).extend
        [Value.ofMatrix (MatrixXd.Constant 1 1 5)])
        [[MatrixXd.Constant 1 1 2], [MatrixXd.Constant 1 1 4]] = some st1 ∧
      st1.cell 0 = some v ∧ v.data.coeff 0 0 = 2 := by
  have hc : NesterovSGD.create ((Store.empty : Store ℚ).extend
      [Value.ofMatrix (MatrixXd.Constant 1 1 5)]) [0] (1 / 2) 0
      = some ⟨[0], 1 / 2, 0, [MatrixXd.Zero 1 1]⟩ := by
    rw [create_singleton]
    rfl
  obtain ⟨heq, _⟩ := nesterov_zero_momentum_is_sgd _ [0] (1 / 2) _ hc
    [[MatrixXd.Constant 1 1 2], [MatrixXd.Constant 1 1 4]]
  have hs : ∃ st1 v, SGD.run ⟨[0], 1 / 2⟩ ((Store.empty : Store ℚ).extend
      [Value.ofMatrix (MatrixXd.Constant 1 1 5)])
      [[MatrixXd.Constant 1 1 2], [MatrixXd.Constant 1 1 4]] = some st1 ∧
      st1.cell 0 = some v ∧ v.data.coeff 0 0 = 2 := by
    simp [SGD.run, supply_grads, SGD.step, SGD.update, Store.modify, Store.cell_extend,
      Store.cell_write, Store.empty, Value.ofMatrix, MatrixXd.subAssign, MatrixXd.sub,
      MatrixXd.zipWith, MatrixXd.sameShape, MatrixXd.scale, MatrixXd.map, MatrixXd.Constant,
      MatrixXd.Zero]
    norm_num
  obtain ⟨st1, v, h1, h2, h3⟩ := hs
  rw [h1] at heq
  obtain ⟨r, hr, e⟩ := Option.map_eq_some'.mp heq
  obtain ⟨o1, s⟩ := r
  simp only at e
  subst e
  exact ⟨_, o1, s, v, hc, hr, h1, h2, h3⟩

/-! ## C22: the parameters of a multi-layer perceptron -/

section mlpCreate
variable {α : Type} [LinearOrderedField α]

/-- The constructor of `Layer` allocates the weight and then the bias, both
registered with themselves. -/
theorem layer_create_eq (st : Store α) (nin nout : Nat) (nonlin : Bool) (d : Nat → Nat → α) :
    Layer.create st nin nout nonlin d = some
      (st.extend [{ Value.ofMatrix ⟨nin, nout, d⟩ with _self := some st.next },
          { Value.ofMatrix (MatrixXd.Zero 1 nout) with _self := some (st.next + 1) }],
        ⟨st.next, st.next + 1, nonlin⟩) := by
  unfold Layer.create
  rw [registered_eq]
  simp only [Option.bind_eq_bind, Option.some_bind, registered_extend]
  rfl

omit [LinearOrderedField α] in
theorem cell_extend_of_live (st : Store α) (xs : List (Value α)) (q : Nat) (u : Value α)
    (h : st.cell q = some u) : (st.extend xs).cell q = some u := by
  rw [Store.cell_extend, if_pos (Store.lt_next_of_cell h)]
  exact h

/-- The loop of `MLP::MLP` after `k` rounds: `k` layers, two new objects per
layer, at consecutive addresses. -/
theorem mlp_create_loop (st : Store α) (nin : Nat) (nouts : List Nat)
    (d : Nat → Nat → Nat → α) :
    ∀ k, k ≤ nouts.length →
      ∃ st1 layers,
        (List.range k).foldlM (fun (acc : Store α × List Layer) i => do
          let is_last := decide (i = nouts.length - 1)
          let a ← (nin :: nouts)[i]?
          let b ← (nin :: nouts)[i + 1]?
          let (s, l) ← Layer.create acc.1 a b (!is_last) (d i)
          some (s, acc.2 ++ [l])) (st, []) = some (st1, layers) ∧
        layers.length = k ∧ st1.next = st.next + 2 * k ∧
        (∀ q u, st.cell q = some u → st1.cell q = some u) ∧
        ∀ i, i < k → ∃ vw vb,
          layers[i]? = some ⟨st.next + 2 * i, st.next + 2 * i + 1,
            !decide (i = nouts.length - 1)⟩ ∧
          st1.cell (st.next + 2 * i) = some vw ∧ st1.cell (st.next + 2 * i + 1) = some vb ∧
          vw.data = ⟨(nin :: nouts).getD i 0, (nin :: nouts).getD (i + 1) 0, d i⟩ ∧
          vb.data = MatrixXd.Zero 1 ((nin :: nouts).getD (i + 1) 0) ∧
          vw.grad = MatrixXd.Zero ((nin :: nouts).getD i 0) ((nin :: nouts).getD (i + 1) 0) ∧
          vb.grad = MatrixXd.Zero 1 ((nin :: nouts).getD (i + 1) 0) ∧
          vw._self = some (st.next + 2 * i) ∧ vb._self = some (st.next + 2 * i + 1) := by
  intro k
  induction k with
  | zero =>
    intro _
    exact ⟨st, [], rfl, rfl, rfl, fun _ _ h => h, fun i hi => absurd hi (Nat.not_lt_zero i)⟩
  | succ k ih =>
    intro hk
    obtain ⟨st1, layers, hfold, hlen, hnext, hframe, hlayers⟩ := ih (Nat.le_of_succ_le hk)
    have h1 : (nin :: nouts)[k]? = some ((nin :: nouts).getD k 0) := by
      have hlt : k < (nin :: nouts).length := by
        simp only [List.length_cons]; omega
      rw [List.getD_eq_getElem?_getD, List.getElem?_eq_getElem hlt]
      rfl
    have h2 : (nin :: nouts)[k + 1]? = some ((nin :: nouts).getD (k + 1) 0) := by
      have hlt : k + 1 < (nin :: nouts).length := by
        simp only [List.length_cons]; omega
      rw [List.getD_eq_getElem?_getD, List.getElem?_eq_getElem hlt]
      rfl
    refine ⟨st1.extend
        [{ Value.ofMatrix ⟨(nin :: nouts).getD k 0, (nin :: nouts).getD (k + 1) 0, d k⟩ with _self := some st1.next },
          { Value.ofMatrix (MatrixXd.Zero 1 ((nin :: nouts).getD (k + 1) 0)) with _self := some (st1.next + 1) }],
      layers ++ [⟨st1.next, st1.next + 1, !decide (k = nouts.length - 1)⟩], ?_, ?_, ?_, ?_, ?_⟩
    · rw [List.range_succ, List.foldlM_append, hfold]
      simp only [Option.bind_eq_bind, Option.some_bind, List.foldlM_cons, List.foldlM_nil, h1, h2,
        layer_create_eq]
      rfl
    · simp [hlen]
    · simp only [Store.next_extend, hnext, List.length_cons, List.length_nil]
      omega
    · intro q u hq
      exact cell_extend_of_live st1 _ q u (hframe q u hq)
    · intro i hi
      rcases Nat.lt_succ_iff_lt_or_eq.mp hi with hlt | heq
      · obtain ⟨vw, vb, hl, hw, hb, rest⟩ := hlayers i hlt
        refine ⟨vw, vb, ?_, cell_extend_of_live st1 _ _ vw hw,
          cell_extend_of_live st1 _ _ vb hb, rest⟩
        rw [List.getElem?_append_left (by omega)]
        exact hl
      · subst heq
        refine ⟨{ Value.ofMatrix ⟨(nin :: nouts).getD i 0, (nin :: nouts).getD (i + 1) 0, d i⟩ with _self := some st1.next },
          { Value.ofMatrix (MatrixXd.Zero 1 ((nin :: nouts).getD (i + 1) 0)) with _self := some (st1.next + 1) },
          ?_, ?_, ?_, rfl, rfl, rfl, rfl, ?_, ?_⟩
        · rw [List.getElem?_append_right (by omega), hlen, Nat.sub_self, hnext]
          rfl
        · rw [← hnext]
          simp [Store.cell_extend]
        · rw [Nat.add_assoc, ← Nat.add_assoc st.next, ← hnext]
          simp [Store.cell_extend]
        · show some st1.next = _
          rw [hnext]
        · show some (st1.next + 1) = _
          rw [hnext]

omit [LinearOrderedField α] in
theorem foldl_parameters (ls : List Layer) :
    ∀ acc : List Nat, ls.foldl (fun params layer => params ++ layer.parameters) acc
      = acc ++ (ls.map Layer.parameters).flatten := by
  induction ls with
  | nil => intro acc; simp
  | cons l ls ih =>
    intro acc
    simp [ih, List.append_assoc]

omit [LinearOrderedField α] in
theorem parameters_index (ls : List Layer) :
    ∀ (i : Nat) (l : Layer), ls[i]? = some l →
      ((ls.map Layer.parameters).flatten)[2 * i]? = some l.w ∧
      ((ls.map Layer.parameters).flatten)[2 * i + 1]? = some l.b := by
  induction ls with
  | nil => intro i l h; simp at h
  | cons l0 ls ih =>
    intro i l h
    cases i with
    | zero =>
      simp only [List.getElem?_cons_zero, Option.some.injEq] at h
      subst h
      simp [Layer.parameters]
    | succ k =>
      simp only [List.getElem?_cons_succ] at h
      obtain ⟨h1, h2⟩ := ih k l h
      have e1 : 2 * (k + 1) = 2 * k + 1 + 1 := by omega
      have e2 : 2 * (k + 1) + 1 = 2 * k + 1 + 1 + 1 := by omega
      simp only [List.map_cons, List.flatten_cons, Layer.parameters, List.cons_append,
        List.nil_append]
      constructor
      · rw [e1, List.getElem?_cons_succ, List.getElem?_cons_succ]
        exact h1
      · rw [e2, List.getElem?_cons_succ, List.getElem?_cons_succ]
        exact h2

omit [LinearOrderedField α] in
theorem parameters_length (ls : List Layer) :
    ((ls.map Layer.parameters).flatten).length = 2 * ls.length := by
  induction ls with
  | nil => rfl
  | cons l ls ih =>
    simp only [List.map_cons, List.flatten_cons, List.length_append, ih, Layer.parameters,
      List.length_cons, List.length_nil]
    omega

/-- The constructor `MLP::MLP` returns: what its layers are and what they
hold. -/
theorem mlp_create_layers (st : Store α) (nin : Nat) (nouts : List Nat)
    (d : Nat → Nat → Nat → α) :
    ∃ st1 layers, MLP.create st nin nouts d = some (st1, ⟨layers⟩) ∧
      layers.length = nouts.length ∧ st1.next = st.next + 2 * nouts.length ∧
      (∀ q u, st.cell q = some u → st1.cell q = some u) ∧
      ∀ i, i < nouts.length → ∃ vw vb,
        layers[i]? = some ⟨st.next + 2 * i, st.next + 2 * i + 1,
          !decide (i = nouts.length - 1)⟩ ∧
        st1.cell (st.next + 2 * i) = some vw ∧ st1.cell (st.next + 2 * i + 1) = some vb ∧
        vw.data = ⟨(nin :: nouts).getD i 0, (nin :: nouts).getD (i + 1) 0, d i⟩ ∧
        vb.data = MatrixXd.Zero 1 ((nin :: nouts).getD (i + 1) 0) ∧
        vw.grad = MatrixXd.Zero ((nin :: nouts).getD i 0) ((nin :: nouts).getD (i + 1) 0) ∧
        vb.grad = MatrixXd.Zero 1 ((nin :: nouts).getD (i + 1) 0) ∧
        vw._self = some (st.next + 2 * i) ∧ vb._self = some (st.next + 2 * i + 1) := by
  obtain ⟨st1, layers, hfold, hlen, hnext, hframe, hlayers⟩ :=
    mlp_create_loop st nin nouts d nouts.length (Nat.le_refl _)
  refine ⟨st1, layers, ?_, hlen, hnext, hframe, hlayers⟩
  unfold MLP.create
  have hfold2 := hfold
  simp only [Option.bind_eq_bind] at hfold2 ⊢
  rw [hfold2]
  rfl

/-- C22: `MLP(nin, nouts)` is constructed from any memory and any weight
samples; `parameters()` is a list of `2 * L` addresses in the order `w_0, b_0,
w_1, b_1, ...`, all different; with `sz = [nin] ++ nouts` the weight `w_i` holds
an `sz[i] x sz[i+1]` matrix (the samples) and the bias `b_i` the zero matrix of
shape `1 x sz[i+1]`; the list is a function of the layers alone, so every call
returns the same addresses in the same order. -/
theorem mlp_parameters_spec (st : Store α) (nin : Nat) (nouts : List Nat)
    (d : Nat → Nat → Nat → α) :
    ∃ st1 m, MLP.create st nin nouts d = some (st1, m) ∧
      (MLP.parameters m).length = 2 * nouts.length ∧
      (MLP.parameters m).Nodup ∧
      (∀ i, i < nouts.length → ∃ w b vw vb,
        (MLP.parameters m)[2 * i]? = some w ∧ (MLP.parameters m)[2 * i + 1]? = some b ∧
        st1.cell w = some vw ∧ st1.cell b = some vb ∧
        vw.data.rows = (nin :: nouts).getD i 0 ∧ vw.data.cols = (nin :: nouts).getD (i + 1) 0 ∧
        vw.data.coeff = d i ∧
        vb.data.rows = 1 ∧ vb.data.cols = (nin :: nouts).getD (i + 1) 0 ∧
        (∀ r c, vb.data.coeff r c = 0)) ∧
      (∀ q u, st.cell q = some u → st1.cell q = some u) := by
  obtain ⟨st1, layers, hcreate, hlen, _, hframe, hlayers⟩ := mlp_create_layers st nin nouts d
  have hidx : ∀ j, j < 2 * nouts.length →
      ((layers.map Layer.parameters).flatten)[j]? = some (st.next + j) := by
    intro j hj
    obtain ⟨vw, vb, hl, _⟩ := hlayers (j / 2) (by omega)
    obtain ⟨h1, h2⟩ := parameters_index layers (j / 2) _ hl
    rcases Nat.mod_two_eq_zero_or_one j with h | h
    · have e : j = 2 * (j / 2) := by omega
      refine (congrArg (fun n => ((layers.map Layer.parameters).flatten)[n]?) e).trans ?_
      refine h1.trans ?_
      show some (st.next + 2 * (j / 2)) = some (st.next + j)
      rw [← e]
    · have e : j = 2 * (j / 2) + 1 := by omega
      refine (congrArg (fun n => ((layers.map Layer.parameters).flatten)[n]?) e).trans ?_
      refine h2.trans ?_
      show some (st.next + 2 * (j / 2) + 1) = some (st.next + j)
      rw [Nat.add_assoc, ← e]
  refine ⟨st1, ⟨layers⟩, hcreate, ?_, ?_, ?_, hframe⟩
  · show (layers.foldl (fun params layer => params ++ layer.parameters) []).length = _
    rw [foldl_parameters, List.nil_append, parameters_length, hlen]
  · show (layers.foldl (fun params layer => params ++ layer.parameters) []).Nodup
    rw [foldl_parameters, List.nil_append]
    rw [List.nodup_iff_getElem?_ne_getElem?]
    intro i j hij hj
    rw [parameters_length, hlen] at hj
    rw [hidx i (by omega), hidx j hj]
    intro e
    have := Option.some.inj e
    omega
  · intro i hi
    obtain ⟨vw, vb, hl, hw, hb, hwd, hbd, _⟩ := hlayers i hi
    obtain ⟨h1, h2⟩ := parameters_index layers i _ hl
    refine ⟨_, _, vw, vb, ?_, ?_, hw, hb, by rw [hwd], by rw [hwd], by rw [hwd],
      by rw [hbd]; rfl, by rw [hbd]; rfl, ?_⟩
    · show (layers.foldl (fun params layer => params ++ layer.parameters) [])[2 * i]? = _
      rw [foldl_parameters, List.nil_append]
      exact h1
    · show (layers.foldl (fun params layer => params ++ layer.parameters) [])[2 * i + 1]? = _
      rw [foldl_parameters, List.nil_append]
      exact h2
    · intro r c
      rw [hbd]
      rfl

end mlpCreate

/-! ## C21: the shape of the output of a multi-layer perceptron -/

section mlpForward
variable {α : Type} [LinearOrderedField α]

omit [LinearOrderedField α] in
/-- The two allocations that end every operator keep the objects that live. -/
theorem publish_frame (st : Store α) (out : Value α) (prev : List Nat)
    (closure : Nat → Closure α) (q : Nat) (u : Value α) (h : st.cell q = some u) :
    (Value.publish st out prev closure).1.cell q = some u := by
  have h1 : q ≠ st.next := Nat.ne_of_lt (Store.lt_next_of_cell h)
  have h2 : q ≠ st.next + 1 := Nat.ne_of_lt (Nat.lt_succ_of_lt (Store.lt_next_of_cell h))
  simp [Value.publish, Store.cell_alloc, Store.next_alloc, h1, h2, h]

/-- On conformable operands `matmul` returns an object of the shape of the
product and keeps the objects that live. -/
theorem matmul_ok (st : Store α) (this other : Nat) (a b : Value α)
    (ha : st.cell this = some a) (hb : st.cell other = some b)
    (hab : a.data.cols = b.data.rows) :
    ∃ st1 r v, Value.matmul st this other = some (st1, r) ∧ st1.cell r = some v ∧
      v.data.rows = a.data.rows ∧ v.data.cols = b.data.cols ∧
      ∀ q u, st.cell q = some u → st1.cell q = some u := by
  obtain ⟨s1, p1, hg1, hf1⟩ := get_self_ptr_total st this a ha
  obtain ⟨s2, p2, hg2, hf2⟩ := get_self_ptr_total s1 other b (hf1 _ _ hb)
  obtain ⟨v, hv, hd, _, _⟩ := publish_cell s2
    ({ Value.ofMatrix (⟨a.data.rows, b.data.cols, fun i j =>
        ∑ k in Finset.range a.data.cols, a.data.coeff i k * b.data.coeff k j⟩ : MatrixXd α)
      with _op := "@" }) [p1, p2] (Closure.matmul p1 p2)
  refine ⟨_, _, v, ?_, hv, by rw [hd]; rfl, by rw [hd]; rfl, ?_⟩
  · simp [Value.matmul, ha, hb, MatrixXd.mul, hab, hg1, hg2]
  · intro q u hq
    exact publish_frame s2 _ _ _ q u (hf2 q u (hf1 q u hq))

/-- Adding a one-row bias of the same column count returns an object of the
shape of the left operand and keeps the objects that live. -/
theorem add_bias_ok (st : Store α) (this other : Nat) (a b : Value α)
    (ha : st.cell this = some a) (hb : st.cell other = some b)
    (hrow : b.data.rows = 1) (hcol : a.data.cols = b.data.cols) :
    ∃ st1 r v, Value.add st this other = some (st1, r) ∧ st1.cell r = some v ∧
      v.data.rows = a.data.rows ∧ v.data.cols = a.data.cols ∧
      ∀ q u, st.cell q = some u → st1.cell q = some u := by
  obtain ⟨m, hm, hmr, hmc⟩ : ∃ m, Value.addResult a.data b.data = some m ∧
      m.rows = a.data.rows ∧ m.cols = a.data.cols := by
    unfold Value.addResult
    by_cases h1 : a.data.rows = b.data.rows ∧ a.data.cols = b.data.cols
    · rw [if_pos h1]
      refine ⟨⟨a.data.rows, a.data.cols, fun i j => a.data.coeff i j + b.data.coeff i j⟩, ?_,
        rfl, rfl⟩
      unfold MatrixXd.add MatrixXd.zipWith MatrixXd.sameShape
      rw [if_pos h1]
    · rw [if_neg h1, if_pos ⟨hrow, hcol⟩]
      have h0 : 0 < b.data.rows ∧ a.data.cols = b.data.cols := ⟨by omega, hcol⟩
      refine ⟨⟨a.data.rows, a.data.cols, fun i j => a.data.coeff i j + b.data.coeff 0 j⟩, ?_,
        rfl, rfl⟩
      unfold MatrixXd.rowwiseAdd
      rw [if_pos h0]
  obtain ⟨s1, p1, hg1, hf1⟩ := get_self_ptr_total st this a ha
  obtain ⟨s2, p2, hg2, hf2⟩ := get_self_ptr_total s1 other b (hf1 _ _ hb)
  obtain ⟨v, hv, hd, _, _⟩ := publish_cell s2
    ({ Value.ofMatrix m with _op := "+" }) [p1, p2] (Closure.add p1 p2)
  refine ⟨_, _, v, ?_, hv, by rw [hd]; exact hmr, by rw [hd]; exact hmc, ?_⟩
  · simp [Value.add, ha, hb, hm, hg1, hg2]
  · intro q u hq
    exact publish_frame s2 _ _ _ q u (hf2 q u (hf1 q u hq))

/-- The method `relu` returns an object of the shape of its operand and keeps
the objects that live. -/
theorem relu_ok (st : Store α) (this : Nat) (a : Value α) (ha : st.cell this = some a) :
    ∃ st1 r v, Value.relu st this = some (st1, r) ∧ st1.cell r = some v ∧
      v.data.rows = a.data.rows ∧ v.data.cols = a.data.cols ∧
      ∀ q u, st.cell q = some u → st1.cell q = some u := by
  obtain ⟨s1, p1, hg1, hf1⟩ := get_self_ptr_total st this a ha
  obtain ⟨v, hv, hd, _, _⟩ := publish_cell s1
    ({ Value.ofMatrix (a.data.cwiseMax 0) with _op := "relu" }) [p1] (Closure.relu p1)
  refine ⟨_, _, v, ?_, hv, by rw [hd]; rfl, by rw [hd]; rfl, ?_⟩
  · simp [Value.relu, ha, hg1]
  · intro q u hq
    exact publish_frame s1 _ _ _ q u (hf1 q u hq)

/-- The method `Layer::forward` on an input of `N` rows and as many columns
as the weight has rows: the result has `N` rows and the columns of the weight. -/
theorem layer_forward_ok (st : Store α) (l : Layer) (x : Nat) (vx vw vb : Value α)
    (hx : st.cell x = some vx) (hw : st.cell l.w = some vw) (hb : st.cell l.b = some vb)
    (hxw : vx.data.cols = vw.data.rows) (hb1 : vb.data.rows = 1)
    (hbw : vb.data.cols = vw.data.cols) :
    ∃ st1 r v, Layer.forward st l x = some (st1, r) ∧ st1.cell r = some v ∧
      v.data.rows = vx.data.rows ∧ v.data.cols = vw.data.cols ∧
      ∀ q u, st.cell q = some u → st1.cell q = some u := by
  obtain ⟨s1, t, vt, h1, ht, htr, htc, hf1⟩ := matmul_ok st x l.w vx vw hx hw hxw
  obtain ⟨s2, z, vz, h2, hz, hzr, hzc, hf2⟩ := add_bias_ok s1 t l.b vt vb ht (hf1 _ _ hb) hb1
    (htc.trans hbw.symm)
  cases hn : l.nonlin with
  | true =>
    obtain ⟨s3, r, vr, h3, hr, hrr, hrc, hf3⟩ := relu_ok s2 z vz hz
    refine ⟨s3, r, vr, ?_, hr, hrr.trans (hzr.trans htr), hrc.trans (hzc.trans htc), ?_⟩
    · simp [Layer.forward, h1, h2, hn, h3]
    · intro q u hq
      exact hf3 q u (hf2 q u (hf1 q u hq))
  | false =>
    refine ⟨(s2.alloc vz).1, s2.next, vz, ?_, by simp [Store.cell_alloc],
      hzr.trans htr, hzc.trans htc, ?_⟩
    · simp [Layer.forward, h1, h2, hn, hz]
      rfl
    · intro q u hq
      have hq2 := hf2 q u (hf1 q u hq)
      have hne : q ≠ s2.next := Nat.ne_of_lt (Store.lt_next_of_cell hq2)
      simp [Store.cell_alloc, hne, hq2]

/-- The loop of `MLP::forward`: `out` ends with the rows it had and the columns
of the last layer. -/
theorem mlp_forward_loop (st0 : Store α) (out N : Nat) (hout : st0.cell out = none) :
    ∀ (layers : List Layer) (nin : Nat) (nouts : List Nat) (s : Store α),
      LayersShaped st0 layers nin nouts →
      (∀ q u, st0.cell q = some u → s.cell q = some u) →
      (∃ vo, s.cell out = some vo ∧ vo.data.rows = N ∧ vo.data.cols = nin) →
      ∃ s1 vo, layers.foldlM (fun s layer => do
          let (s1, r) ← Layer.forward s layer out
          let vr ← s1.cell r
          some (s1.write out vr)) s = some s1 ∧
        s1.cell out = some vo ∧ vo.data.rows = N ∧
        vo.data.cols = (nin :: nouts).getLast (List.cons_ne_nil nin nouts) := by
  intro layers
  induction layers with
  | nil =>
    intro nin nouts s hsh _ hvo
    cases nouts with
    | nil =>
      obtain ⟨vo, h1, h2, h3⟩ := hvo
      exact ⟨s, vo, rfl, h1, h2, h3⟩
    | cons n ns => exact absurd hsh (by simp [LayersShaped])
  | cons l ls ih =>
    intro nin nouts s hsh hframe hvo
    cases nouts with
    | nil => exact absurd hsh (by simp [LayersShaped])
    | cons n ns =>
      obtain ⟨⟨vw, vb, hw, hb, hwr, hwc, hbr, hbc⟩, hrest⟩ := hsh
      obtain ⟨vo, ho, hor, hoc⟩ := hvo
      obtain ⟨s1, r, vr, hfw, hr, hrr, hrc, hf1⟩ := layer_forward_ok s l out vo vw vb ho
        (hframe _ _ hw) (hframe _ _ hb) (hoc.trans hwr.symm) hbr (hbc.trans hwc.symm)
      have hframe2 : ∀ q u, st0.cell q = some u → (s1.write out vr).cell q = some u := by
        intro q u hq
        have hne : q ≠ out := by
          intro e
          rw [e, hout] at hq
          exact Option.noConfusion hq
        simp [Store.cell_write, hne, hf1 q u (hframe q u hq)]
      have hvo2 : ∃ vo2, (s1.write out vr).cell out = some vo2 ∧ vo2.data.rows = N ∧
          vo2.data.cols = n := by
        refine ⟨vr, ?_, hrr.trans hor, hrc.trans hwc⟩
        simp [Store.cell_write, hf1 out vo ho]
      obtain ⟨s2, vo2, hfold, h1, h2, h3⟩ := ih n ns (s1.write out vr) hrest hframe2 hvo2
      refine ⟨s2, vo2, ?_, h1, h2, ?_⟩
      · simp only [List.foldlM_cons, Option.bind_eq_bind, hfw, Option.some_bind, hr]
        exact hfold
      · rw [h3]
        simp [List.getLast_cons]

omit [LinearOrderedField α] in
/-- Layers that sit at the positions of a list and have the listed sizes are
chained. -/
theorem layersShaped_of_index (st : Store α) :
    ∀ (layers : List Layer) (nin : Nat) (nouts : List Nat), layers.length = nouts.length →
      (∀ i, i < nouts.length → ∃ l vw vb, layers[i]? = some l ∧
        st.cell l.w = some vw ∧ st.cell l.b = some vb ∧
        vw.data.rows = (nin :: nouts).getD i 0 ∧ vw.data.cols = (nin :: nouts).getD (i + 1) 0 ∧
        vb.data.rows = 1 ∧ vb.data.cols = (nin :: nouts).getD (i + 1) 0) →
      LayersShaped st layers nin nouts := by
  intro layers
  induction layers with
  | nil =>
    intro nin nouts hlen _
    have e : nouts = [] := List.length_eq_zero.mp hlen.symm
    subst e
    simp [LayersShaped]
  | cons l ls ih =>
    intro nin nouts hlen h
    cases nouts with
    | nil => simp at hlen
    | cons n ns =>
      refine ⟨?_, ?_⟩
      · obtain ⟨l0, vw, vb, hl, hw, hb, h1, h2, h3, h4⟩ := h 0 (by simp)
        simp only [List.getElem?_cons_zero, Option.some.injEq] at hl
        subst hl
        exact ⟨vw, vb, hw, hb, h1, h2, h3, h4⟩
      · apply ih n ns (Nat.succ.inj hlen)
        intro i hi
        obtain ⟨l0, vw, vb, hl, hw, hb, h1, h2, h3, h4⟩ := h (i + 1) (by simpa using hi)
        simp only [List.getElem?_cons_succ] at hl
        exact ⟨l0, vw, vb, hl, hw, hb, h1, h2, h3, h4⟩

omit [LinearOrderedField α] in
/-- Chained layers stay chained while their objects live with their shapes. -/
theorem layersShaped_mono (st st1 : Store α)
    (hkeep : ∀ q u, st.cell q = some u → ∃ u1, st1.cell q = some u1 ∧
      u1.data.rows = u.data.rows ∧ u1.data.cols = u.data.cols) :
    ∀ (layers : List Layer) (nin : Nat) (nouts : List Nat),
      LayersShaped st layers nin nouts → LayersShaped st1 layers nin nouts := by
  intro layers
  induction layers with
  | nil =>
    intro nin nouts h
    cases nouts with
    | nil => simp [LayersShaped]
    | cons n ns => exact absurd h (by simp [LayersShaped])
  | cons l ls ih =>
    intro nin nouts h
    cases nouts with
    | nil => exact absurd h (by simp [LayersShaped])
    | cons n ns =>
      obtain ⟨⟨vw, vb, hw, hb, h1, h2, h3, h4⟩, hrest⟩ := h
      obtain ⟨vw1, hw1, e1, e2⟩ := hkeep _ _ hw
      obtain ⟨vb1, hb1, e3, e4⟩ := hkeep _ _ hb
      exact ⟨⟨vw1, vb1, hw1, hb1, e1.trans h1, e2.trans h2, e3.trans h3, e4.trans h4⟩,
        ih n ns hrest⟩

/-- The constructor `MLP::MLP` leaves chained layers. -/
theorem mlp_create_shaped (st st1 : Store α) (nin : Nat) (nouts : List Nat)
    (d : Nat → Nat → Nat → α) (m : MLP) (h : MLP.create st nin nouts d = some (st1, m)) :
    LayersShaped st1 m.layers nin nouts := by
  obtain ⟨s, layers, hc, hlen, _, _, hl⟩ := mlp_create_layers st nin nouts d
  rw [hc] at h
  simp only [Option.some.injEq, Prod.mk.injEq] at h
  obtain ⟨e1, e2⟩ := h
  subst e1; subst e2
  apply layersShaped_of_index s layers nin nouts hlen
  intro i hi
  obtain ⟨vw, vb, h1, h2, h3, h4, h5, _⟩ := hl i hi
  exact ⟨_, vw, vb, h1, h2, h3, by rw [h4], by rw [h4], by rw [h5]; rfl, by rw [h5]; rfl⟩

/-- The method `MLP::forward` on chained layers. -/
theorem mlp_forward_ok (st : Store α) (m : MLP) (nin : Nat) (nouts : List Nat) (x : Nat)
    (vx : Value α) (hm : LayersShaped st m.layers nin nouts) (hx : st.cell x = some vx)
    (hcols : vx.data.cols = nin) :
    ∃ st1 r v, MLP.forward st m x = some (st1, r) ∧ st1.cell r = some v ∧
      v.data.rows = vx.data.rows ∧
      v.data.cols = (nin :: nouts).getLast (List.cons_ne_nil nin nouts) := by
  have hfresh : st.cell st.next = none := st.fresh st.next (Nat.le_refl _)
  have hframe : ∀ q u, st.cell q = some u → (st.alloc vx).1.cell q = some u := by
    intro q u hq
    have hne : q ≠ st.next := Nat.ne_of_lt (Store.lt_next_of_cell hq)
    simp [Store.cell_alloc, hne, hq]
  obtain ⟨s1, vo, hfold, h1, h2, h3⟩ := mlp_forward_loop st st.next vx.data.rows hfresh
    m.layers nin nouts (st.alloc vx).1 hm hframe
    ⟨vx, by simp [Store.cell_alloc], rfl, hcols⟩
  refine ⟨s1, st.next, vo, ?_, h1, h2, h3⟩
  unfold MLP.forward
  simp only [Option.bind_eq_bind, hx, Option.some_bind, Store.snd_alloc]
  have hfold2 := hfold
  simp only [Option.bind_eq_bind] at hfold2
  rw [hfold2]
  rfl

end mlpForward

section mlpClaim
variable {α : Type} [LinearOrderedField α]

/-- C21: let `m` be the `MLP(nin, nouts)` that the constructor built, with any
weight samples and `nouts` not empty, and let the memory since then have kept
the objects of the model alive with their shapes. For every live input `x` with
`N` rows and `nin` columns `m.forward(x)` returns an object with `N` rows and
`last(nouts)` columns. -/
theorem mlp_forward_shape (st0 st1 st : Store α) (nin : Nat) (nouts : List Nat)
    (hne : nouts ≠ []) (d : Nat → Nat → Nat → α) (m : MLP)
    (hcreate : MLP.create st0 nin nouts d = some (st1, m))
    (hkeep : ∀ q u, st1.cell q = some u → ∃ u1, st.cell q = some u1 ∧
      u1.data.rows = u.data.rows ∧ u1.data.cols = u.data.cols)
    (x N : Nat) (vx : Value α) (hx : st.cell x = some vx)
    (hN : vx.data.rows = N) (hnin : vx.data.cols = nin) :
    ∃ s r v, MLP.forward st m x = some (s, r) ∧ s.cell r = some v ∧
      v.data.rows = N ∧ v.data.cols = nouts.getLast hne := by
  have hsh := layersShaped_mono st1 st hkeep m.layers nin nouts
    (mlp_create_shaped st0 st1 nin nouts d m hcreate)
  obtain ⟨s, r, v, h, hv, hr, hc⟩ := mlp_forward_ok st m nin nouts x vx hsh hx hnin
  refine ⟨s, r, v, h, hv, hr.trans hN, ?_⟩
  rw [hc, List.getLast_cons hne]

end mlpClaim

/-- C21 on the fourth test: `MLP(4, {8, 2})` on a 3 x 4 input gives a 3 x 2
output. -/
theorem mlp_forward_shape_witness :
    ∃ st1 m s r v,
      MLP.create (Store.empty : Store ℚ) 4 [8, 2] (fun _ _ _ => 1) = some (st1, m) ∧
      MLP.forward (st1.alloc (Value.ofMatrix (MatrixXd.Constant 3 4 1))).1 m st1.next
        = some (s, r) ∧
      s.cell r = some v ∧ v.data.rows = 3 ∧ v.data.cols = 2 := by
  obtain ⟨st1, layers, hc, _⟩ :=
    mlp_create_layers (Store.empty : Store ℚ) 4 [8, 2] (fun _ _ _ => 1)
  obtain ⟨s, r, v, h, hv, hr, hcol⟩ := mlp_forward_shape (Store.empty : Store ℚ) st1
    (st1.alloc (Value.ofMatrix (MatrixXd.Constant 3 4 1))).1 4 [8, 2] (by simp)
    (fun _ _ _ => 1) ⟨layers⟩ hc
    (fun q u hq => ⟨u, by
      have hne : q ≠ st1.next := Nat.ne_of_lt (Store.lt_next_of_cell hq)
      simp [Store.cell_alloc, hne, hq], rfl, rfl⟩)
    st1.next 3 (Value.ofMatrix (MatrixXd.Constant 3 4 1)) (by simp [Store.cell_alloc]) rfl rfl
  exact ⟨st1, ⟨layers⟩, s, r, v, hc, h, hv, hr, hcol⟩

/-! ## C28: calling backward twice -/

section repeated
variable {α : Type} [LinearOrderedField α]

set_option maxHeartbeats 4000000 in
/-- The program `double_backward` from any memory: the grads of the three
leaves after the first and after the second call of `c.backward()`. -/
theorem double_backward_run (st : Store α) (r c : Nat) (fa fb fd : Nat → Nat → α) :
    ∃ s5 s6 va1 vb1 vd1 va2 vb2 vd2 vt1 vt2 vc1 vc2,
      double_backward st ⟨r, c, fa⟩ ⟨r, c, fb⟩ ⟨r, c, fd⟩
        = some (s5, s6, st.next, st.next + 1, st.next + 2, st.next + 6) ∧
      s5.cell (st.next + 3) = some vt1 ∧ s6.cell (st.next + 3) = some vt2 ∧
      s5.cell (st.next + 5) = some vc1 ∧ s6.cell (st.next + 5) = some vc2 ∧
      vc1._prev = [st.next + 3, st.next + 2] ∧ vt1._prev = [st.next, st.next + 1] ∧
      vc1.grad = MatrixXd.Ones r c ∧ vc2.grad = MatrixXd.Ones r c ∧
      vt1.grad = ⟨r, c, fd⟩ ∧ vt2.grad = ⟨r, c, fun i j => 2 * fd i j⟩ ∧
      s5.cell st.next = some va1 ∧ s5.cell (st.next + 1) = some vb1 ∧
      s5.cell (st.next + 2) = some vd1 ∧
      s6.cell st.next = some va2 ∧ s6.cell (st.next + 1) = some vb2 ∧
      s6.cell (st.next + 2) = some vd2 ∧
      va1.grad = ⟨r, c, fun i j => fb i j * fd i j⟩ ∧
      vb1.grad = ⟨r, c, fun i j => fa i j * fd i j⟩ ∧
      vd1.grad = ⟨r, c, fun i j => fa i j * fb i j⟩ ∧
      va2.grad = ⟨r, c, fun i j => 3 * (fb i j * fd i j)⟩ ∧
      vb2.grad = ⟨r, c, fun i j => 3 * (fa i j * fd i j)⟩ ∧
      vd2.grad = ⟨r, c, fun i j => 2 * (fa i j * fb i j)⟩ := by
  unfold double_backward
  rw [registered_eq]
  simp only [Option.bind_eq_bind, Option.some_bind, registered_extend]
  simp [Value.mul, Value.get_self_ptr, Value.publish, Value.ofMatrix, Store.lock,
    MatrixXd.cwiseProduct, MatrixXd.zipWith, MatrixXd.sameShape, MatrixXd.Constant,
    Store.alloc_eq, Nat.add_assoc]
  rw [Value.backward]
  simp [Value.get_self_ptr, Store.lock, Nat.add_assoc]
  rw [build_topo_of_le _ 5 _ _ _ (by omega) (by simp [Value.build_topo])]
  simp [Value.build_topo]
  simp [Store.modify]
  simp [Value.runClosures, Value.runAll, Value.broadcast_backward,
    MatrixXd.addAssign, MatrixXd.add, MatrixXd.zipWith, MatrixXd.sameShape, MatrixXd.Zero,
    MatrixXd.Ones, MatrixXd.Constant, MatrixXd.cwiseProduct]
  rw [Value.backward]
  simp [Value.get_self_ptr, Store.lock, Nat.add_assoc]
  rw [build_topo_of_le _ 5 _ _ _ (by omega) (by simp [Value.build_topo])]
  simp [Value.build_topo]
  simp [Store.modify]
  simp [Value.runClosures, Value.runAll, Value.broadcast_backward,
    MatrixXd.addAssign, MatrixXd.add, MatrixXd.zipWith, MatrixXd.sameShape, MatrixXd.Zero,
    MatrixXd.Ones, MatrixXd.Constant, MatrixXd.cwiseProduct]
  refine ⟨_, _, ⟨rfl, rfl⟩, ?_⟩
  simp
  refine ⟨?_, ?_, ?_, ?_⟩ <;> funext i j <;> ring

end repeated

/-! ## Multiplication chains: backward called twice at every depth -/

section chainTopo
variable {α : Type} [LinearOrderedField α]

omit [LinearOrderedField α] in
theorem chainEntry_mem (x : Nat) (ps : List (Nat × Nat)) : chainEntry x ps ∈ chainOrder x ps := by
  cases ps with
  | nil => simp [chainEntry, chainOrder]
  | cons p ps =>
    obtain ⟨n, o⟩ := p
    simp [chainEntry, chainOrder]

/-- On a leaf `build_topo` only appends the leaf. -/
theorem build_topo_leaf (st : Store α) (r c a : Nat) (hl : IsLeafOf st r c a) (fuel : Nat)
    (vis topo : List Nat) (ha : a ∉ vis) :
    Value.build_topo st (fuel + 1) a (vis, topo) = some (a :: vis, topo ++ [a]) := by
  obtain ⟨v, hv, hp, _⟩ := hl
  simp [Value.build_topo, ha, hv, hp]

/-- The list that `build_topo` produces on a chain: the order of `backward`,
reversed. -/
theorem build_topo_chain (st : Store α) (r c x : Nat) :
    ∀ (ps : List (Nat × Nat)) (vis topo : List Nat), MulChain st r c x ps →
      (∀ a ∈ chainOrder x ps, a ∉ vis) →
      ∃ vis1, Value.build_topo st (ps.length + 1) (chainEntry x ps) (vis, topo)
          = some (vis1, topo ++ (chainOrder x ps).reverse) ∧
        ∀ a, a ∈ vis1 ↔ a ∈ chainOrder x ps ∨ a ∈ vis := by
  intro ps
  induction ps with
  | nil =>
    intro vis topo hch hvis
    have hx : x ∉ vis := hvis x (by simp [chainOrder])
    refine ⟨x :: vis, ?_, ?_⟩
    · exact build_topo_leaf st r c x hch 0 vis topo hx
    · intro a
      simp [chainOrder]
  | cons p ps ih =>
    obtain ⟨n, o⟩ := p
    intro vis topo hch hvis
    obtain ⟨⟨v, hv, hprev, _⟩, hleaf, hno, hn, ho, hrest⟩ := hch
    have hnvis : n ∉ vis := hvis n (by simp [chainOrder])
    have hovis : o ∉ vis := hvis o (by simp [chainOrder])
    have hvis1 : ∀ a ∈ chainOrder x ps, a ∉ n :: vis := by
      intro a ha hmem
      rcases List.mem_cons.mp hmem with e | h
      · exact hn (e ▸ ha)
      · exact hvis a (by simp [chainOrder, ha]) h
    obtain ⟨vis1, hb, hmem1⟩ := ih (n :: vis) topo hrest hvis1
    have hovis1 : o ∉ vis1 := by
      intro h
      rcases (hmem1 o).mp h with h1 | h1
      · exact ho h1
      · rcases List.mem_cons.mp h1 with e | h2
        · exact hno e.symm
        · exact hovis h2
    refine ⟨o :: vis1, ?_, ?_⟩
    · show Value.build_topo st (ps.length + 1 + 1) n (vis, topo) = _
      rw [Value.build_topo]
      simp only [hnvis, if_false, hv, Option.bind_eq_bind, Option.some_bind, hprev,
        List.foldlM_cons, List.foldlM_nil, hb]
      rw [build_topo_leaf st r c o hleaf ps.length vis1 _ hovis1]
      simp [chainOrder, List.append_assoc]
    · intro a
      simp only [List.mem_cons, hmem1, chainOrder]
      tauto

end chainTopo

section chainPass
variable {α : Type} [LinearOrderedField α]

theorem gradAt_of_cell (st : Store α) (a : Nat) (v : Value α) (h : st.cell a = some v)
    (i j : Nat) : gradAt st a i j = v.grad.coeff i j := by
  simp [gradAt, h]

theorem dataAt_of_cell (st : Store α) (a : Nat) (v : Value α) (h : st.cell a = some v)
    (i j : Nat) : dataAt st a i j = v.data.coeff i j := by
  simp [dataAt, h]

theorem gradAt_congr (st s : Store α) (a : Nat) (h : s.cell a = st.cell a) (i j : Nat) :
    gradAt s a i j = gradAt st a i j := by
  simp [gradAt, h]

theorem dataAt_gradOnly {st s : Store α} (h : GradOnly st s) (a i j : Nat) :
    dataAt s a i j = dataAt st a i j := by
  rcases h.2 a with ⟨h1, h2⟩ | ⟨v, g, h1, h2, _, _⟩
  · simp [dataAt, h1, h2]
  · simp [dataAt, h1, h2]

omit [LinearOrderedField α] in
theorem isLeafOf_gradOnly {st s : Store α} (h : GradOnly st s) (r c a : Nat)
    (hl : IsLeafOf st r c a) : IsLeafOf s r c a := by
  obtain ⟨v, hv, h1, h2, h3, h4, h5, h6⟩ := hl
  rcases h.2 a with ⟨e, _⟩ | ⟨v1, g, e1, e2, er, ec⟩
  · rw [e] at hv; exact Option.noConfusion hv
  · have e : v1 = v := Option.some.inj (e1.symm.trans hv)
    subst e
    exact ⟨_, e2, h1, h2, h3, h4, er.trans h5, ec.trans h6⟩

omit [LinearOrderedField α] in
/-- A chain stays a chain while only grads change. -/
theorem mulChain_gradOnly {st s : Store α} (h : GradOnly st s) (r c x : Nat) :
    ∀ ps, MulChain st r c x ps → MulChain s r c x ps := by
  intro ps
  induction ps with
  | nil => exact isLeafOf_gradOnly h r c x
  | cons p ps ih =>
    obtain ⟨n, o⟩ := p
    intro hch
    obtain ⟨⟨v, hv, h1, h2, h3, h4, h5, h6⟩, hleaf, hno, hn, ho, hrest⟩ := hch
    refine ⟨?_, isLeafOf_gradOnly h r c o hleaf, hno, hn, ho, ih hrest⟩
    rcases h.2 n with ⟨e, _⟩ | ⟨v1, g, e1, e2, er, ec⟩
    · rw [e] at hv; exact Option.noConfusion hv
    · have e : v1 = v := Option.some.inj (e1.symm.trans hv)
      subst e
      exact ⟨_, e2, h1, h2, h3, h4, er.trans h5, ec.trans h6⟩

/-- The relation of one pass reads from its first memory only the data and the
grads below the top of the chain. -/
theorem passRel_congr (st s st1 : Store α) (r c x : Nat) :
    ∀ ps, MulChain st r c x ps →
      (∀ a ∈ chainOrder x ps, a ≠ chainEntry x ps → ∀ i j, gradAt s a i j = gradAt st a i j) →
      (∀ a i j, dataAt s a i j = dataAt st a i j) →
      PassRel s st1 x ps → PassRel st st1 x ps := by
  intro ps
  induction ps with
  | nil => intro _ _ _ _; trivial
  | cons p ps ih =>
    obtain ⟨n, o⟩ := p
    intro hch hg hd hp
    obtain ⟨_, _, hno, hn, ho, hrest⟩ := hch
    obtain ⟨h1, h2, h3⟩ := hp
    have hement : chainEntry x ps ∈ chainOrder x ps := chainEntry_mem x ps
    have hne : chainEntry x ps ≠ n := fun e => hn (e ▸ hement)
    refine ⟨?_, ?_, ?_⟩
    · intro i j
      rw [h1 i j, hg (chainEntry x ps) (by simp [chainOrder, hement]) hne i j, hd o i j]
    · intro i j
      rw [h2 i j, hg o (by simp [chainOrder]) (Ne.symm hno) i j, hd (chainEntry x ps) i j]
    · apply ih hrest _ hd h3
      intro a ha hae i j
      have han : a ≠ n := fun e => hn (e ▸ ha)
      exact hg a (by simp [chainOrder, ha]) han i j

/-- The `_backward` of a product node whose operands and result are three
different objects of one shape. -/
theorem run_mul_chain (st : Store α) (r c e o n : Nat) (vn ve vo : Value α)
    (hn : st.cell n = some vn) (he : st.cell e = some ve) (ho : st.cell o = some vo)
    (heo : e ≠ o)
    (h1 : ve.data.rows = r) (h2 : ve.data.cols = c) (h3 : vo.data.rows = r)
    (h4 : vo.data.cols = c) (h5 : vn.grad.rows = r) (h6 : vn.grad.cols = c)
    (h7 : ve.grad.rows = r) (h8 : ve.grad.cols = c) (h9 : vo.grad.rows = r)
    (h10 : vo.grad.cols = c) :
    Closure.run st (.mul e o n) = some ((st.write e { ve with grad :=
        ⟨r, c, fun i j => ve.grad.coeff i j + vo.data.coeff i j * vn.grad.coeff i j⟩ }).write o
      { vo with grad :=
        ⟨r, c, fun i j => vo.grad.coeff i j + ve.data.coeff i j * vn.grad.coeff i j⟩ }) := by
  simp [run_mul, hn, he, ho, MatrixXd.cwiseProduct, MatrixXd.zipWith, MatrixXd.sameShape,
    Value.broadcast_backward, Value.addGrad, MatrixXd.addAssign, MatrixXd.add,
    Store.cell_write, h1, h2, h3, h4, h5, h6, h7, h8, h9, h10, heo, Ne.symm heo]

end chainPass

section chainRun
variable {α : Type} [LinearOrderedField α]

/-- One pass of `backward` over a chain: every `_backward` returns, only grads
change, objects outside the chain are untouched, the grad of the top is as
before, and the other grads are related as `PassRel` says. -/
theorem runAll_chain (r c x : Nat) :
    ∀ (ps : List (Nat × Nat)) (st : Store α), MulChain st r c x ps →
      ∃ st1, Value.runAll st (chainOrder x ps) = some st1 ∧ GradOnly st st1 ∧
        (∀ a, a ∉ chainOrder x ps → st1.cell a = st.cell a) ∧
        (∀ i j, gradAt st1 (chainEntry x ps) i j = gradAt st (chainEntry x ps) i j) ∧
        PassRel st st1 x ps := by
  intro ps
  induction ps with
  | nil =>
    intro st hch
    obtain ⟨v, hv, _, hb, _⟩ := hch
    refine ⟨st, ?_, gradOnly_refl st, fun _ _ => rfl, fun _ _ => rfl, trivial⟩
    simp [chainOrder, Value.runAll, Value.runClosure, hv, hb]
  | cons p ps ih =>
    obtain ⟨n, o⟩ := p
    intro st hch
    obtain ⟨⟨vn, hvn, _, hback, _, _, hn5, hn6⟩, hleaf, hno, hn, ho, hrest⟩ := hch
    have hement : chainEntry x ps ∈ chainOrder x ps := chainEntry_mem x ps
    have hen : chainEntry x ps ≠ n := fun e => hn (e ▸ hement)
    have heo : chainEntry x ps ≠ o := fun e => ho (e ▸ hement)
    obtain ⟨vo, hvo, _, hob, ho3, ho4, ho9, ho10⟩ := hleaf
    obtain ⟨ve, hve, he1, he2, he7, he8⟩ : ∃ ve, st.cell (chainEntry x ps) = some ve ∧
        ve.data.rows = r ∧ ve.data.cols = c ∧ ve.grad.rows = r ∧ ve.grad.cols = c := by
      cases ps with
      | nil =>
        obtain ⟨v, hv, _, _, a1, a2, a3, a4⟩ := hrest
        exact ⟨v, hv, a1, a2, a3, a4⟩
      | cons q qs =>
        obtain ⟨n1, o1⟩ := q
        obtain ⟨⟨v, hv, _, _, a1, a2, a3, a4⟩, _⟩ := hrest
        exact ⟨v, hv, a1, a2, a3, a4⟩
    have hrun := run_mul_chain st r c (chainEntry x ps) o n vn ve vo hvn hve hvo heo
      he1 he2 ho3 ho4 hn5 hn6 he7 he8 ho9 ho10
    have hgo : GradOnly st ((st.write (chainEntry x ps) { ve with grad :=
        ⟨r, c, fun i j => ve.grad.coeff i j + vo.data.coeff i j * vn.grad.coeff i j⟩ }).write o
      { vo with grad :=
        ⟨r, c, fun i j => vo.grad.coeff i j + ve.data.coeff i j * vn.grad.coeff i j⟩ }) :=
      closure_gradOnly _ hrun
    obtain ⟨st1, hra, hgo1, hout, htop, hpass⟩ := ih _ (mulChain_gradOnly hgo r c x ps hrest)
    have hcell_n : st1.cell n = some vn := by
      rw [hout n hn]
      simp [Store.cell_write, hno, Ne.symm hno, hen, Ne.symm hen, hvn]
    have hcell_o : st1.cell o = some { vo with grad :=
        ⟨r, c, fun i j => vo.grad.coeff i j + ve.data.coeff i j * vn.grad.coeff i j⟩ } := by
      rw [hout o ho]
      simp [Store.cell_write, hvo, heo, Ne.symm heo, hve]
    refine ⟨st1, ?_, gradOnly_trans hgo hgo1, ?_, ?_, ?_, ?_, ?_⟩
    · simp only [chainOrder, Value.runAll, Value.runClosure, hvn, hback, hrun,
        Option.bind_eq_bind, Option.some_bind]
      simp only [Store.cell_write, Ne.symm heo, if_false, if_true, hvo, Option.map_some',
        hob, run_noop, Option.some_bind, eq_self_iff_true, hve]
      rw [hob] at hra
      exact hra
    · intro a ha
      have han : a ≠ n := fun e => ha (by simp [chainOrder, e])
      have hao : a ≠ o := fun e => ha (by simp [chainOrder, e])
      have har : a ∉ chainOrder x ps := fun e => ha (by simp [chainOrder, e])
      have hae : a ≠ chainEntry x ps := fun e => har (e ▸ hement)
      rw [hout a har]
      simp [Store.cell_write, hao, hae]
    · intro i j
      show gradAt st1 n i j = gradAt st n i j
      rw [gradAt_of_cell st1 n vn hcell_n, gradAt_of_cell st n vn hvn]
    · intro i j
      rw [htop i j, gradAt_of_cell st1 n vn hcell_n, gradAt_of_cell st _ ve hve,
        dataAt_of_cell st o vo hvo]
      simp [gradAt, Store.cell_write, heo, hve]
    · intro i j
      rw [gradAt_of_cell st1 o _ hcell_o, gradAt_of_cell st1 n vn hcell_n,
        gradAt_of_cell st o vo hvo, dataAt_of_cell st _ ve hve]
    · apply passRel_congr st _ st1 r c x ps hrest _ _ hpass
      · intro a ha hae i j
        have hao : a ≠ o := fun e => ho (e ▸ ha)
        apply gradAt_congr
        simp [Store.cell_write, hao, hae]
      · intro a i j
        exact dataAt_gradOnly hgo a i j

end chainRun

section chainBackward
variable {α : Type} [LinearOrderedField α]

omit [LinearOrderedField α] in
theorem mulChain_entry_cell (st : Store α) (r c x : Nat) (ps : List (Nat × Nat))
    (hch : MulChain st r c x ps) :
    ∃ ve, st.cell (chainEntry x ps) = some ve ∧
      ve.data.rows = r ∧ ve.data.cols = c ∧ ve.grad.rows = r ∧ ve.grad.cols = c := by
  cases ps with
  | nil =>
    obtain ⟨v, hv, _, _, a1, a2, a3, a4⟩ := hch
    exact ⟨v, hv, a1, a2, a3, a4⟩
  | cons q qs =>
    obtain ⟨n1, o1⟩ := q
    obtain ⟨⟨v, hv, _, _, a1, a2, a3, a4⟩, _⟩ := hch
    exact ⟨v, hv, a1, a2, a3, a4⟩

omit [LinearOrderedField α] in
/-- The objects of a chain are live and pairwise different. -/
theorem mulChain_order (st : Store α) (r c x : Nat) :
    ∀ ps, MulChain st r c x ps →
      (chainOrder x ps).Nodup ∧ ∀ a ∈ chainOrder x ps, a < st.next := by
  intro ps
  induction ps with
  | nil =>
    intro hch
    obtain ⟨v, hv, _⟩ := hch
    refine ⟨by simp [chainOrder], ?_⟩
    intro a ha
    simp only [chainOrder, List.mem_singleton] at ha
    subst ha
    exact Store.lt_next_of_cell hv
  | cons p ps ih =>
    obtain ⟨n, o⟩ := p
    intro hch
    obtain ⟨⟨v, hv, _⟩, ⟨w, hw, _⟩, hno, hn, ho, hrest⟩ := hch
    obtain ⟨hnd, hlt⟩ := ih hrest
    refine ⟨?_, ?_⟩
    · simp only [chainOrder, List.nodup_cons, List.mem_cons, not_or]
      exact ⟨⟨hno, hn⟩, ho, hnd⟩
    · intro a ha
      simp only [chainOrder, List.mem_cons] at ha
      rcases ha with e | e | h
      · subst e; exact Store.lt_next_of_cell hv
      · subst e; exact Store.lt_next_of_cell hw
      · exact hlt a h

omit [LinearOrderedField α] in
theorem chainOrder_length (x : Nat) (ps : List (Nat × Nat)) :
    (chainOrder x ps).length = 2 * ps.length + 1 := by
  induction ps with
  | nil => rfl
  | cons p ps ih =>
    obtain ⟨n, o⟩ := p
    simp only [chainOrder, List.length_cons, ih]
    omega

omit [LinearOrderedField α] in
theorem mulChain_length_le (st : Store α) (r c x : Nat) (ps : List (Nat × Nat))
    (hch : MulChain st r c x ps) : ps.length + 1 ≤ st.next + 1 := by
  obtain ⟨hnd, hlt⟩ := mulChain_order st r c x ps hch
  have hsub : (chainOrder x ps).toFinset ⊆ Finset.range st.next := by
    intro a ha
    exact Finset.mem_range.mpr (hlt a (List.mem_toFinset.mp ha))
  have hcard := Finset.card_le_card hsub
  rw [List.toFinset_card_of_nodup hnd, Finset.card_range, chainOrder_length] at hcard
  omega

/-- The method `backward` called on an object whose self-pointer names the top
of a chain: it returns, the top ends with a grad of ones, and below the top the
pass adds to the grads that were there. -/
theorem backward_chain (st : Store α) (r c x : Nat) (ps : List (Nat × Nat)) (t : Nat)
    (vt : Value α) (hch : MulChain st r c x ps) (ht : st.cell t = some vt)
    (hself : vt._self = some (chainEntry x ps)) (hr : vt.data.rows = r)
    (hc : vt.data.cols = c) :
    ∃ st1, Value.backward st t = some st1 ∧ GradOnly st st1 ∧
      (∀ i j, gradAt st1 (chainEntry x ps) i j = 1) ∧ PassRel st st1 x ps ∧
      (∀ a, a ∉ chainOrder x ps → st1.cell a = st.cell a) := by
  obtain ⟨ve, hve, he1, he2, he3, he4⟩ := mulChain_entry_cell st r c x ps hch
  have hget : Value.get_self_ptr st t = some (st, chainEntry x ps) :=
    get_self_ptr_locked st t _ vt ht hself (by rw [hve]; rfl)
  obtain ⟨vis, htopo, _⟩ := build_topo_chain st r c x ps [] [] hch (fun _ _ h => by simp at h)
  have htopo2 : Value.build_topo st (st.next + 1) (chainEntry x ps) ([], [])
      = some (vis, (chainOrder x ps).reverse) := by
    rw [build_topo_of_le st (ps.length + 1) (st.next + 1) _ _
      (mulChain_length_le st r c x ps hch) (by rw [htopo]; rfl), htopo]
    simp
  have hgo : GradOnly st (st.write (chainEntry x ps)
      { ve with grad := MatrixXd.Ones vt.data.rows vt.data.cols }) := by
    refine ⟨rfl, fun q => ?_⟩
    by_cases hq : q = chainEntry x ps
    · subst hq
      right
      refine ⟨ve, MatrixXd.Ones vt.data.rows vt.data.cols, hve, ?_, ?_, ?_⟩
      · simp [Store.cell_write, hve]
      · show vt.data.rows = ve.grad.rows
        rw [hr, he3]
      · show vt.data.cols = ve.grad.cols
        rw [hc, he4]
    · cases hcq : st.cell q with
      | none =>
        left
        exact ⟨rfl, by simp [Store.cell_write, hq, hcq]⟩
      | some u =>
        right
        exact ⟨u, u.grad, rfl, by simp [Store.cell_write, hq, hcq], rfl, rfl⟩
  obtain ⟨st1, hrun, hgo1, hout, htop, hpass⟩ :=
    runAll_chain r c x ps _ (mulChain_gradOnly hgo r c x ps hch)
  have hgo2 := gradOnly_trans hgo hgo1
  obtain ⟨w, hw, _, hws⟩ := gradOnly_cell_forward hgo2 ht
  obtain ⟨we, hwe, _, _⟩ := gradOnly_cell_forward hgo2 hve
  refine ⟨st1, ?_, hgo2, ?_, ?_, ?_⟩
  · unfold Value.backward
    simp only [Option.bind_eq_bind, hget, Option.some_bind, htopo2, ht, Store.modify, hve,
      Option.map_some', Value.runClosures, List.reverse_reverse, hrun, hw, hws, hself,
      Store.lock, hwe, Option.isSome_some, if_true]
  · intro i j
    rw [htop i j]
    simp [gradAt, Store.cell_write, hve, MatrixXd.Ones, MatrixXd.Constant]
  · apply passRel_congr st _ st1 r c x ps hch _ _ hpass
    · intro a _ hae i j
      apply gradAt_congr
      simp [Store.cell_write, hae]
    · intro a i j
      exact dataAt_gradOnly hgo a i j
  · intro a ha
    have hae : a ≠ chainEntry x ps := fun e => ha (e ▸ chainEntry_mem x ps)
    rw [hout a ha]
    simp [Store.cell_write, hae]

end chainBackward

section chainTwice
variable {α : Type} [LinearOrderedField α]

/-- The arithmetic of two passes over a chain that started with zero grads: if
after the second pass the top holds `m` times what it held after the first,
then the leaf `k` edges below holds `m + k` times, and so does the other operand
of the node `k - 1` edges below. -/
theorem two_pass_chain (s0 s1 s2 : Store α) (r c x : Nat) :
    ∀ (ps : List (Nat × Nat)) (m : α), MulChain s0 r c x ps →
      PassRel s0 s1 x ps → PassRel s1 s2 x ps →
      (∀ a ∈ chainOrder x ps, a ≠ chainEntry x ps → ∀ i j, gradAt s0 a i j = 0) →
      (∀ a i j, dataAt s1 a i j = dataAt s0 a i j) →
      (∀ i j, gradAt s2 (chainEntry x ps) i j = m * gradAt s1 (chainEntry x ps) i j) →
      (∀ i j, gradAt s2 x i j = (m + (ps.length : α)) * gradAt s1 x i j) ∧
      (∀ (k n o : Nat), ps[k]? = some (n, o) →
        ∀ i j, gradAt s2 o i j = (m + (k : α) + 1) * gradAt s1 o i j) := by
  intro ps
  induction ps with
  | nil =>
    intro m _ _ _ _ _ htop
    refine ⟨?_, ?_⟩
    · intro i j
      have h := htop i j
      simp only [chainEntry] at h
      rw [h]
      simp
    · intro k n o hk
      simp at hk
  | cons p ps ih =>
    obtain ⟨n, o⟩ := p
    intro m hch hA hB hzero hdata htop
    obtain ⟨_, _, hno, hn, ho, hrest⟩ := hch
    obtain ⟨hA1, hA2, hA3⟩ := hA
    obtain ⟨hB1, hB2, hB3⟩ := hB
    have hement : chainEntry x ps ∈ chainOrder x ps := chainEntry_mem x ps
    have hen : chainEntry x ps ≠ n := fun e => hn (e ▸ hement)
    have htop' : ∀ i j, gradAt s2 n i j = m * gradAt s1 n i j := htop
    have hz_e : ∀ i j, gradAt s0 (chainEntry x ps) i j = 0 :=
      hzero _ (by simp [chainOrder, hement]) hen
    have hz_o : ∀ i j, gradAt s0 o i j = 0 :=
      hzero o (by simp [chainOrder]) (Ne.symm hno)
    have he : ∀ i j, gradAt s2 (chainEntry x ps) i j
        = (m + 1) * gradAt s1 (chainEntry x ps) i j := by
      intro i j
      rw [hB1 i j, htop' i j, hdata o i j, hA1 i j, hz_e i j]
      ring
    have hoo : ∀ i j, gradAt s2 o i j = (m + 1) * gradAt s1 o i j := by
      intro i j
      rw [hB2 i j, htop' i j, hdata _ i j, hA2 i j, hz_o i j]
      ring
    obtain ⟨ih1, ih2⟩ := ih (m + 1) hrest hA3 hB3
      (fun a ha _ => hzero a (by simp [chainOrder, ha])
        (fun e => hn ((show a = n from e) ▸ ha)))
      hdata he
    refine ⟨?_, ?_⟩
    · intro i j
      rw [ih1 i j]
      simp only [List.length_cons, Nat.cast_add, Nat.cast_one]
      ring
    · intro k n1 o1 hk i j
      cases k with
      | zero =>
        simp only [List.getElem?_cons_zero, Option.some.injEq, Prod.mk.injEq] at hk
        obtain ⟨_, e2⟩ := hk
        subst e2
        rw [hoo i j]
        simp
      | succ k =>
        simp only [List.getElem?_cons_succ] at hk
        rw [ih2 k n1 o1 hk i j]
        simp only [Nat.cast_add, Nat.cast_one]
        ring

/-- Two calls of `backward` on the top of a chain of products whose grads are
all zero: both return, and the leaf at the bottom, `k` edges below the terminal,
ends with `k + 1` times the grad it had after the first call; the other operand
of the node `j` edges below the terminal ends with `j + 2` times. -/
theorem backward_twice_chain (st : Store α) (r c x : Nat) (ps : List (Nat × Nat)) (t : Nat)
    (vt : Value α) (hch : MulChain st r c x ps) (ht : st.cell t = some vt)
    (hself : vt._self = some (chainEntry x ps)) (hr : vt.data.rows = r)
    (hc : vt.data.cols = c)
    (hzero : ∀ a ∈ chainOrder x ps, ∀ i j, gradAt st a i j = 0) :
    ∃ s1 s2, Value.backward st t = some s1 ∧ Value.backward s1 t = some s2 ∧
      (∀ i j, gradAt s2 x i j = ((ps.length : α) + 1) * gradAt s1 x i j) ∧
      (∀ (k n o : Nat), ps[k]? = some (n, o) →
        ∀ i j, gradAt s2 o i j = ((k : α) + 2) * gradAt s1 o i j) := by
  obtain ⟨s1, hb1, hgo1, htop1, hpass1, _⟩ := backward_chain st r c x ps t vt hch ht hself hr hc
  obtain ⟨w, hw, hwd, hws⟩ := gradOnly_cell_forward hgo1 ht
  obtain ⟨s2, hb2, _, htop2, hpass2, _⟩ := backward_chain s1 r c x ps t w
    (mulChain_gradOnly hgo1 r c x ps hch) hw (hws.trans hself) (by rw [hwd]; exact hr)
    (by rw [hwd]; exact hc)
  obtain ⟨h1, h2⟩ := two_pass_chain st s1 s2 r c x ps 1 hch hpass1 hpass2
    (fun a ha _ => hzero a ha) (fun a i j => dataAt_gradOnly hgo1 a i j)
    (fun i j => by rw [htop2 i j, htop1 i j]; ring)
  refine ⟨s1, s2, hb1, hb2, ?_, ?_⟩
  · intro i j
    rw [h1 i j]
    ring
  · intro k n o hk i j
    rw [h2 k n o hk i j]
    ring

end chainTwice

section chainProgram
variable {α : Type} [LinearOrderedField α]

theorem isLeafOf_frame {s s1 : Store α} (hf : ∀ q u, s.cell q = some u → s1.cell q = some u)
    (r c a : Nat) (hl : IsLeafOf s r c a) : IsLeafOf s1 r c a := by
  obtain ⟨v, hv, rest⟩ := hl
  exact ⟨v, hf a v hv, rest⟩

/-- A chain stays a chain while its objects stay as they are. -/
theorem mulChain_frame {s s1 : Store α} (hf : ∀ q u, s.cell q = some u → s1.cell q = some u)
    (r c x : Nat) : ∀ ps, MulChain s r c x ps → MulChain s1 r c x ps := by
  intro ps
  induction ps with
  | nil => exact isLeafOf_frame hf r c x
  | cons p ps ih =>
    obtain ⟨n, o⟩ := p
    intro hch
    obtain ⟨⟨v, hv, rest⟩, hleaf, hno, hn, ho, hrest⟩ := hch
    exact ⟨⟨v, hf n v hv, rest⟩, isLeafOf_frame hf r c o hleaf, hno, hn, ho, ih hrest⟩

theorem isLeafOf_of_registered {s : Store α} {r c a : Nat} (h : IsRegisteredLeaf s r c a) :
    IsLeafOf s r c a := by
  obtain ⟨v, hv, h1, h2, _, h4, h5, h6⟩ := h
  exact ⟨v, hv, h1, h2, h4, h5, by rw [h6]; rfl, by rw [h6]; rfl⟩

/-- One `operator*` on top of a chain: the handle `h` names the top `e`, the
other operand `o` is a registered leaf. -/
theorem mul_chain_step (s : Store α) (r c h e o : Nat) (vh ve vo : Value α)
    (hh : s.cell h = some vh) (hself : vh._self = some e) (he : s.cell e = some ve)
    (ho : s.cell o = some vo) (hos : vo._self = some o)
    (h1 : vh.data.rows = r) (h2 : vh.data.cols = c) (h3 : vo.data.rows = r)
    (h4 : vo.data.cols = c) :
    Value.mul s h o = some
      (s.extend
        [Value.mk ⟨r, c, fun i j => vh.data.coeff i j * vo.data.coeff i j⟩ (MatrixXd.Zero r c)
            [e, o] (Closure.mul e o s.next) "*" (some s.next),
          Value.mk ⟨r, c, fun i j => vh.data.coeff i j * vo.data.coeff i j⟩ (MatrixXd.Zero r c)
            [e, o] (Closure.mul e o s.next) "*" (some s.next)],
        s.next + 1) := by
  have hg1 : Value.get_self_ptr s h = some (s, e) :=
    get_self_ptr_locked s h e vh hh hself (by rw [he]; rfl)
  have hg2 : Value.get_self_ptr s o = some (s, o) :=
    get_self_ptr_locked s o o vo ho hos (by rw [ho]; rfl)
  simp [Value.mul, hh, ho, hg1, hg2, MatrixXd.cwiseProduct, MatrixXd.zipWith,
    MatrixXd.sameShape, h1, h2, h3, h4, Value.publish, Value.ofMatrix, Store.alloc_eq,
    Store.alloc_extend]

/-- The nested product over registered leaves builds a chain with zero grads:
the nodes are listed from the last product down, each with its leaf. -/
theorem product_chain_builds (r c x : Nat) :
    ∀ (os : List Nat) (s : Store α) (h : Nat) (ps : List (Nat × Nat)),
      MulChain s r c x ps →
      (∃ vh, s.cell h = some vh ∧ vh._self = some (chainEntry x ps) ∧
        vh.data.rows = r ∧ vh.data.cols = c) →
      (∀ a ∈ chainOrder x ps, ∀ i j, gradAt s a i j = 0) →
      (∀ o ∈ os, IsRegisteredLeaf s r c o ∧ o ∉ chainOrder x ps) → os.Nodup →
      ∃ s1 t qs vt, product_chain s h os = some (s1, t) ∧
        MulChain s1 r c x (qs ++ ps) ∧ qs.map Prod.snd = os.reverse ∧
        s1.cell t = some vt ∧ vt._self = some (chainEntry x (qs ++ ps)) ∧
        vt.data.rows = r ∧ vt.data.cols = c ∧
        (∀ a ∈ chainOrder x (qs ++ ps), ∀ i j, gradAt s1 a i j = 0) := by
  intro os
  induction os with
  | nil =>
    intro s h ps hch hh hz _ _
    obtain ⟨vh, a1, a2, a3, a4⟩ := hh
    exact ⟨s, h, [], vh, rfl, hch, rfl, a1, a2, a3, a4, hz⟩
  | cons o os ih =>
    intro s h ps hch hh hz hleaves hnd
    obtain ⟨vh, hvh, hself, hr, hc⟩ := hh
    obtain ⟨ho_nd, hnd1⟩ := List.nodup_cons.mp hnd
    obtain ⟨hreg, honot⟩ := hleaves o (List.mem_cons_self o os)
    obtain ⟨vo, hvo, hop, hob, hos, ho3, ho4, hog⟩ := hreg
    obtain ⟨ve, hve, _⟩ := mulChain_entry_cell s r c x ps hch
    obtain ⟨_, hlt⟩ := mulChain_order s r c x ps hch
    have hstep := mul_chain_step s r c h (chainEntry x ps) o vh ve vo hvh hself hve hvo hos
      hr hc ho3 ho4
    have hframe : ∀ q u, s.cell q = some u → (s.extend
        [Value.mk ⟨r, c, fun i j => vh.data.coeff i j * vo.data.coeff i j⟩ (MatrixXd.Zero r c)
            [chainEntry x ps, o] (Closure.mul (chainEntry x ps) o s.next) "*" (some s.next),
          Value.mk ⟨r, c, fun i j => vh.data.coeff i j * vo.data.coeff i j⟩ (MatrixXd.Zero r c)
            [chainEntry x ps, o] (Closure.mul (chainEntry x ps) o s.next) "*" (some s.next)]).cell
          q = some u := fun q u hq => cell_extend_of_live s _ q u hq
    have hn_not : s.next ∉ chainOrder x ps := fun hm => Nat.lt_irrefl _ (hlt _ hm)
    have hno : s.next ≠ o := Nat.ne_of_gt (Store.lt_next_of_cell hvo)
    have hch1 : MulChain (s.extend
        [Value.mk ⟨r, c, fun i j => vh.data.coeff i j * vo.data.coeff i j⟩ (MatrixXd.Zero r c)
            [chainEntry x ps, o] (Closure.mul (chainEntry x ps) o s.next) "*" (some s.next),
          Value.mk ⟨r, c, fun i j => vh.data.coeff i j * vo.data.coeff i j⟩ (MatrixXd.Zero r c)
            [chainEntry x ps, o] (Closure.mul (chainEntry x ps) o s.next) "*" (some s.next)])
        r c x ((s.next, o) :: ps) := by
      refine ⟨⟨(Value.mk ⟨r, c, fun i j => vh.data.coeff i j * vo.data.coeff i j⟩ (MatrixXd.Zero r c)
            [chainEntry x ps, o] (Closure.mul (chainEntry x ps) o s.next) "*" (some s.next)), ?_, rfl, rfl, rfl, rfl, rfl, rfl⟩, ?_, hno, hn_not, honot,
        mulChain_frame hframe r c x ps hch⟩
      · simp [Store.cell_extend]
      · exact isLeafOf_frame hframe r c o
          (isLeafOf_of_registered ⟨vo, hvo, hop, hob, hos, ho3, ho4, hog⟩)
    obtain ⟨s1, t, qs, vt, hpc, hch2, hqs, hvt, hvts, hvr, hvc, hz2⟩ :=
      ih _ (s.next + 1) ((s.next, o) :: ps) hch1
        ⟨(Value.mk ⟨r, c, fun i j => vh.data.coeff i j * vo.data.coeff i j⟩ (MatrixXd.Zero r c)
            [chainEntry x ps, o] (Closure.mul (chainEntry x ps) o s.next) "*" (some s.next)), by simp [Store.cell_extend], rfl, rfl, rfl⟩
        (by
          intro a ha i j
          simp only [chainOrder, List.mem_cons] at ha
          rcases ha with e | e | hm
          · subst e
            simp [gradAt, Store.cell_extend, MatrixXd.Zero, MatrixXd.Constant]
          · subst e
            rw [gradAt_congr s _ a (by rw [hframe a vo hvo, hvo]), gradAt_of_cell s a vo hvo, hog]
            rfl
          · rw [gradAt_congr s _ a (by
              rw [Store.cell_extend, if_pos (hlt a hm)])]
            exact hz a hm i j)
        (by
          intro o1 ho1
          obtain ⟨hreg1, hnot1⟩ := hleaves o1 (List.mem_cons_of_mem o ho1)
          obtain ⟨v1, hv1, rest⟩ := hreg1
          refine ⟨⟨v1, hframe o1 v1 hv1, rest⟩, ?_⟩
          simp only [chainOrder, List.mem_cons, not_or]
          refine ⟨Nat.ne_of_lt (Store.lt_next_of_cell hv1), ?_, hnot1⟩
          intro e
          exact ho_nd (e ▸ ho1))
        hnd1
    refine ⟨s1, t, qs ++ [(s.next, o)], vt, ?_, ?_, ?_, hvt, ?_, hvr, hvc, ?_⟩
    · simp only [product_chain, hstep, Option.bind_eq_bind, Option.some_bind]
      exact hpc
    · rw [List.append_assoc]
      exact hch2
    · simp [hqs]
    · rw [List.append_assoc]
      exact hvts
    · rw [List.append_assoc]
      exact hz2

end chainProgram

section chainProduct
variable {α : Type} [LinearOrderedField α]

/-- Two calls of `backward` on the nested product of registered leaves with
zero grads: the first leaf and the leaf `os[k]` end with as many times their
grad after the first call as they have edges to the terminal node, plus one. -/
theorem product_chain_backward_twice (s : Store α) (r c x : Nat) (os : List Nat)
    (hx : IsRegisteredLeaf s r c x) (hos : ∀ o ∈ os, IsRegisteredLeaf s r c o)
    (hnd : (x :: os).Nodup) :
    ∃ s0 t s1 s2, product_chain s x os = some (s0, t) ∧
      Value.backward s0 t = some s1 ∧ Value.backward s1 t = some s2 ∧
      (∀ i j, gradAt s2 x i j = ((os.length : α) + 1) * gradAt s1 x i j) ∧
      (∀ (k o : Nat), os[k]? = some o →
        ∀ i j, gradAt s2 o i j = (((os.length - k : Nat) : α) + 1) * gradAt s1 o i j) := by
  obtain ⟨hxn, hnd1⟩ := List.nodup_cons.mp hnd
  obtain ⟨vx, hvx, hxp, hxb, hxs, hxr, hxc, hxg⟩ := hx
  obtain ⟨s0, t, qs, vt, hpc, hch, hqs, hvt, hvts, hvr, hvc, hz⟩ :=
    product_chain_builds r c x os s x []
      (isLeafOf_of_registered ⟨vx, hvx, hxp, hxb, hxs, hxr, hxc, hxg⟩)
      ⟨vx, hvx, hxs, hxr, hxc⟩
      (by
        intro a ha i j
        simp only [chainOrder, List.mem_singleton] at ha
        subst ha
        rw [gradAt_of_cell s a vx hvx, hxg]
        rfl)
      (by
        intro o ho
        refine ⟨hos o ho, ?_⟩
        simp only [chainOrder, List.mem_singleton]
        intro e
        exact hxn (e ▸ ho))
      hnd1
  rw [List.append_nil] at hch hvts hz
  obtain ⟨s1, s2, hb1, hb2, hgx, hgo⟩ :=
    backward_twice_chain s0 r c x qs t vt hch hvt hvts hvr hvc hz
  have hlen : qs.length = os.length := by
    have := congrArg List.length hqs
    simpa using this
  refine ⟨s0, t, s1, s2, hpc, hb1, hb2, ?_, ?_⟩
  · intro i j
    rw [← hlen]
    exact hgx i j
  · intro k o hk i j
    have hklt : k < os.length := by
      rcases Nat.lt_or_ge k os.length with h | h
      · exact h
      · rw [List.getElem?_eq_none h] at hk
        exact absurd hk (by simp)
    have hrev : os.reverse[os.length - 1 - k]? = some o := by
      rw [List.getElem?_reverse (by omega)]
      have : os.length - 1 - (os.length - 1 - k) = k := by omega
      rw [this]
      exact hk
    rw [← hqs, List.getElem?_map] at hrev
    cases hq : qs[os.length - 1 - k]? with
    | none => rw [hq] at hrev; exact absurd hrev (by simp)
    | some p =>
      obtain ⟨n, o1⟩ := p
      rw [hq] at hrev
      have ho1 : o1 = o := by simpa using hrev
      subst ho1
      have h2 := hgo (os.length - 1 - k) n o1 hq i j
      rw [h2]
      congr 1
      have : ((os.length - 1 - k : Nat) : α) + 2 = (((os.length - 1 - k + 1 : Nat)) : α) + 1 := by
        push_cast
        ring
      rw [this]
      congr 2
      omega

end chainProduct

/-! ## Repeated backward on any graph -/

section scaling
variable {α : Type} [LinearOrderedField α]

theorem scales_zipWith_mul (P : Prop) (m : α) (D A B C : MatrixXd α) (h : Scales P m A B)
    (hC : D.cwiseProduct A = some C) :
    ∃ C1, D.cwiseProduct B = some C1 ∧ Scales P m C C1 := by
  obtain ⟨hr, hc, he⟩ := h
  unfold MatrixXd.cwiseProduct MatrixXd.zipWith at hC ⊢
  by_cases hs : MatrixXd.sameShape D A
  · have hs1 : MatrixXd.sameShape D B := ⟨hs.1.trans hr.symm, hs.2.trans hc.symm⟩
    simp only [hs, if_true, Option.some.injEq] at hC
    subst hC
    refine ⟨⟨D.rows, D.cols, fun i j => D.coeff i j * B.coeff i j⟩,
      by simp only [hs1, if_true], rfl, rfl, ?_⟩
    intro hP i j
    show D.coeff i j * B.coeff i j = m * (D.coeff i j * A.coeff i j)
    rw [he hP i j]
    ring
  · simp only [hs, if_false] at hC
    exact Option.noConfusion hC

theorem scales_broadcast (P : Prop) (m : α) (A B : MatrixXd α) (r c : Nat)
    (h : Scales P m A B) :
    Scales P m (Value.broadcast_backward A r c) (Value.broadcast_backward B r c) := by
  obtain ⟨hr, hc, he⟩ := h
  unfold Value.broadcast_backward
  rw [hr, hc]
  by_cases h1 : A.rows = r ∧ A.cols = c
  · simp only [h1, and_self, if_true]
    exact ⟨hr, hc, he⟩
  · simp only [h1, if_false]
    by_cases h2 : r = 1 ∧ 1 < A.rows
    · by_cases h3 : c = 1 ∧ 1 < A.cols
      · simp only [h2, h3, and_self, if_true, MatrixXd.colwiseSum, MatrixXd.rowwiseSum]
        refine ⟨rfl, rfl, ?_⟩
        intro hP i j
        simp only [hr, hc, he hP, Finset.mul_sum]
      · simp only [h2, and_self, if_true, MatrixXd.colwiseSum]
        have h3a : ¬ (c = 1 ∧ 1 < B.cols) := by rw [hc]; exact h3
        simp only [h3, h3a, if_false]
        refine ⟨rfl, hc, ?_⟩
        intro hP i j
        simp only [hr, he hP, Finset.mul_sum]
    · by_cases h3 : c = 1 ∧ 1 < A.cols
      · simp only [h2, h3, and_self, if_true, if_false, MatrixXd.rowwiseSum]
        refine ⟨hr, rfl, ?_⟩
        intro hP i j
        simp only [hc, he hP, Finset.mul_sum]
      · simp only [h2, h3, if_false]
        exact ⟨hr, hc, he⟩

theorem scales_transpose (P : Prop) (m : α) (A B : MatrixXd α) (h : Scales P m A B) :
    Scales P m A.transpose B.transpose := by
  obtain ⟨hr, hc, he⟩ := h
  exact ⟨hc, hr, fun hP i j => he hP j i⟩

theorem scales_reshaped (P : Prop) (m : α) (A B C : MatrixXd α) (r c : Nat)
    (h : Scales P m A B) (hC : A.reshaped r c = some C) :
    ∃ C1, B.reshaped r c = some C1 ∧ Scales P m C C1 := by
  obtain ⟨hr, hc, he⟩ := h
  unfold MatrixXd.reshaped at hC ⊢
  rw [hr, hc]
  by_cases hs : r * c ≤ A.rows * A.cols
  · simp only [hs, if_true, Option.some.injEq] at hC ⊢
    subst hC
    exact ⟨_, rfl, rfl, rfl, fun hP i j => he hP _ _⟩
  · simp only [hs, if_false] at hC
    exact Option.noConfusion hC

theorem scales_mul_left (P : Prop) (m : α) (A B T C : MatrixXd α) (h : Scales P m A B)
    (hC : A.mul T = some C) : ∃ C1, B.mul T = some C1 ∧ Scales P m C C1 := by
  obtain ⟨hr, hc, he⟩ := h
  unfold MatrixXd.mul at hC ⊢
  rw [hc]
  by_cases hs : A.cols = T.rows
  · simp only [hs, if_true, Option.some.injEq] at hC ⊢
    subst hC
    refine ⟨_, rfl, hr, rfl, ?_⟩
    intro hP i j
    simp only [he hP, Finset.mul_sum, mul_assoc]
  · simp only [hs, if_false] at hC
    exact Option.noConfusion hC

theorem scales_mul_right (P : Prop) (m : α) (A B T C : MatrixXd α) (h : Scales P m A B)
    (hC : T.mul A = some C) : ∃ C1, T.mul B = some C1 ∧ Scales P m C C1 := by
  obtain ⟨hr, hc, he⟩ := h
  unfold MatrixXd.mul at hC ⊢
  rw [hr]
  by_cases hs : T.cols = A.rows
  · simp only [hs, if_true, Option.some.injEq] at hC ⊢
    subst hC
    refine ⟨_, rfl, rfl, hc, ?_⟩
    intro hP i j
    simp only [he hP, Finset.mul_sum]
    refine Finset.sum_congr rfl (fun k _ => ?_)
    ring
  · simp only [hs, if_false] at hC
    exact Option.noConfusion hC

theorem scales_coeff_scale (P : Prop) (m : α) (A B G : MatrixXd α) (h : Scales P m A B) :
    Scales P m (MatrixXd.scale (A.coeff 0 0) G) (MatrixXd.scale (B.coeff 0 0) G) := by
  obtain ⟨_, _, he⟩ := h
  refine ⟨rfl, rfl, ?_⟩
  intro hP i j
  show B.coeff 0 0 * G.coeff i j = m * (A.coeff 0 0 * G.coeff i j)
  rw [he hP 0 0]
  ring

/-- What `GradOnly` says about one object. -/
theorem gradOnly_read {s u : Store α} (h : GradOnly s u) {x : Nat} {v : Value α}
    (hv : s.cell x = some v) :
    ∃ g, u.cell x = some { v with grad := g } ∧ g.rows = v.grad.rows ∧ g.cols = v.grad.cols := by
  rcases h.2 x with ⟨h1, _⟩ | ⟨v1, g, h1, h2, hr, hc⟩
  · rw [h1] at hv; exact Option.noConfusion hv
  · rw [h1] at hv
    have e : v1 = v := Option.some.inj hv
    subst e
    exact ⟨g, h2, hr, hc⟩

theorem gradOnly_symm {s u : Store α} (h : GradOnly s u) : GradOnly u s := by
  refine ⟨h.1.symm, fun p => ?_⟩
  rcases h.2 p with ⟨h1, h2⟩ | ⟨v, g, h1, h2, hr, hc⟩
  · exact Or.inl ⟨h2, h1⟩
  · exact Or.inr ⟨_, v.grad, h2, by rw [h1], hr.symm, hc.symm⟩

/-- The grads of the object at `n` in two memories that differ in grads only:
the second is `m` times the first when `P` holds. -/
theorem scales_of_gradOnly (P : Prop) (m : α) {s u : Store α} (n : Nat)
    (hscale : P → ∀ i j, gradAt u n i j = m * gradAt s n i j) {v : Value α} {g : MatrixXd α}
    (hv : s.cell n = some v) (hu : u.cell n = some { v with grad := g })
    (hr : g.rows = v.grad.rows) (hc : g.cols = v.grad.cols) : Scales P m v.grad g := by
  refine ⟨hr, hc, ?_⟩
  intro hP i j
  have := hscale hP i j
  rw [gradAt_of_cell u n _ hu, gradAt_of_cell s n v hv] at this
  exact this

/-- The statement `p->grad += M` in two memories that differ in grads only,
with matrices of one shape: both succeed or both fail, and when the second
matrix is `m` times the first, the second grad gains `m` times what the first
gains. -/
theorem addGrad_scaled (P : Prop) (m : α) (s u s1 : Store α) (p : Nat) (M N : MatrixXd α)
    (hsu : GradOnly s u) (hMN : Scales P m M N) (h : Value.addGrad s p M = some s1) :
    ∃ u1, Value.addGrad u p N = some u1 ∧ GradOnly s1 u1 ∧
      (P → ∀ b i j, gradAt u1 b i j - gradAt u b i j
        = m * (gradAt s1 b i j - gradAt s b i j)) ∧
      (∀ b, b ≠ p → s1.cell b = s.cell b ∧ u1.cell b = u.cell b) := by
  obtain ⟨hr, hc, he⟩ := hMN
  unfold Value.addGrad at h
  simp only [Option.bind_eq_bind, Option.bind_eq_some, Option.some.injEq] at h
  obtain ⟨v, hv, g, hg, h1⟩ := h
  subst h1
  obtain ⟨gu, hu, hur, huc⟩ := gradOnly_read hsu hv
  unfold MatrixXd.addAssign MatrixXd.add MatrixXd.zipWith at hg
  by_cases hs : MatrixXd.sameShape v.grad M
  · simp only [hs, if_true, Option.some.injEq] at hg
    subst hg
    have hs1 : MatrixXd.sameShape gu N :=
      ⟨hur.trans (hs.1.trans hr.symm), huc.trans (hs.2.trans hc.symm)⟩
    refine ⟨u.write p { v with grad := ⟨gu.rows, gu.cols, fun i j =>
      gu.coeff i j + N.coeff i j⟩ }, ?_, ?_, ?_, ?_⟩
    · simp [Value.addGrad, hu, MatrixXd.addAssign, MatrixXd.add, MatrixXd.zipWith, hs1]
    · refine ⟨hsu.1, fun q => ?_⟩
      by_cases hq : q = p
      · subst hq
        refine Or.inr ⟨{ v with grad := ⟨v.grad.rows, v.grad.cols, fun i j =>
            v.grad.coeff i j + M.coeff i j⟩ },
          ⟨gu.rows, gu.cols, fun i j => gu.coeff i j + N.coeff i j⟩,
          by simp [Store.cell_write, hv], by simp [Store.cell_write, hu], hur, huc⟩
      · rcases hsu.2 q with ⟨k1, k2⟩ | ⟨w, gw, k1, k2, k3, k4⟩
        · exact Or.inl ⟨by simp [Store.cell_write, hq, k1], by simp [Store.cell_write, hq, k2]⟩
        · exact Or.inr ⟨w, gw, by simp [Store.cell_write, hq, k1],
            by simp [Store.cell_write, hq, k2], k3, k4⟩
    · intro hP b i j
      by_cases hb : b = p
      · subst hb
        simp only [gradAt, Store.cell_write, if_true, hv, hu, Option.map_some']
        rw [he hP i j]
        ring
      · simp only [gradAt, Store.cell_write, if_neg hb]
        ring
    · intro b hb
      exact ⟨by simp [Store.cell_write, hb], by simp [Store.cell_write, hb]⟩
  · simp only [hs, if_false] at hg
    exact Option.noConfusion hg

end scaling

section closureScaling
variable {α : Type} [LinearOrderedField α]

theorem delta_compose (P : Prop) (m : α) (s s1 s2 u u1 u2 : Store α)
    (h1 : P → ∀ b i j, gradAt u1 b i j - gradAt u b i j
      = m * (gradAt s1 b i j - gradAt s b i j))
    (h2 : P → ∀ b i j, gradAt u2 b i j - gradAt u1 b i j
      = m * (gradAt s2 b i j - gradAt s1 b i j)) :
    P → ∀ b i j, gradAt u2 b i j - gradAt u b i j
      = m * (gradAt s2 b i j - gradAt s b i j) := by
  intro hP b i j
  linear_combination h1 hP b i j + h2 hP b i j

/-- A lambda with one target: the matrix it adds is computed first. -/
theorem single_scaled (P : Prop) (m : α) (s u s1 : Store α) (a : Nat) (M N : MatrixXd α)
    (hsu : GradOnly s u) (hMN : Scales P m M N) (h : Value.addGrad s a M = some s1) :
    ∃ u1, Value.addGrad u a N = some u1 ∧ GradOnly s1 u1 ∧
      (P → ∀ b i j, gradAt u1 b i j - gradAt u b i j
        = m * (gradAt s1 b i j - gradAt s b i j)) ∧
      (∀ b, b ∉ [a] → s1.cell b = s.cell b ∧ u1.cell b = u.cell b) := by
  obtain ⟨u1, h1, h2, h3, h4⟩ := addGrad_scaled P m s u s1 a M N hsu hMN h
  exact ⟨u1, h1, h2, h3, fun b hb => h4 b (fun e => hb (by simp [e]))⟩

set_option maxHeartbeats 1000000 in
/-- One `_backward` lambda in two memories that differ in grads only: it
succeeds in both or in neither, and when the grad it reads in the second is `m`
times the grad it reads in the first, it adds `m` times as much to every grad. -/
theorem closure_scaled (P : Prop) (m : α) (c : Closure α) (n : Nat) (s u s1 : Store α)
    (hout : ∀ o, c.out = some o → o = n) (hn : n ∉ c.targets)
    (hsu : GradOnly s u) (hscale : P → ∀ i j, gradAt u n i j = m * gradAt s n i j)
    (hrun : Closure.run s c = some s1) :
    ∃ u1, Closure.run u c = some u1 ∧ GradOnly s1 u1 ∧
      (P → ∀ b i j, gradAt u1 b i j - gradAt u b i j
        = m * (gradAt s1 b i j - gradAt s b i j)) ∧
      (∀ b, b ∉ c.targets → s1.cell b = s.cell b ∧ u1.cell b = u.cell b) := by
  cases c with
  | noop =>
    have e : s = s1 := Option.some.inj hrun
    subst e
    exact ⟨u, rfl, hsu, fun _ b i j => by ring, fun _ _ => ⟨rfl, rfl⟩⟩
  | add a b out =>
    have e : out = n := hout out rfl
    subst e
    have hna : out ≠ a := fun e => hn (by simp [Closure.targets, e])
    have hnb : out ≠ b := fun e => hn (by simp [Closure.targets, e])
    simp only [run_add, Option.bind_eq_some] at hrun
    obtain ⟨o, ho, sv, hsv, st1, h1, o1, ho1, t, ht, h2⟩ := hrun
    obtain ⟨go, huo, hor, hoc⟩ := gradOnly_read hsu ho
    obtain ⟨gsv, hus, _, _⟩ := gradOnly_read hsu hsv
    have hsc := scales_of_gradOnly P m out hscale ho huo hor hoc
    obtain ⟨u1, hu1, hsu1, hd1, hf1⟩ := addGrad_scaled P m s u st1 a _ _ hsu
      (scales_broadcast P m _ _ sv.data.rows sv.data.cols hsc) h1
    have e1 : o1 = o := Option.some.inj (ho1.symm.trans (((hf1 out hna).1).trans ho))
    subst e1
    have huo1 : u1.cell out = some { o1 with grad := go } := ((hf1 out hna).2).trans huo
    obtain ⟨gt, hut, _, _⟩ := gradOnly_read hsu1 ht
    obtain ⟨u2, hu2, hsu2, hd2, hf2⟩ := addGrad_scaled P m st1 u1 s1 b _ _ hsu1
      (scales_broadcast P m _ _ t.data.rows t.data.cols hsc) h2
    refine ⟨u2, ?_, hsu2, delta_compose P m s st1 s1 u u1 u2 hd1 hd2, ?_⟩
    · simp only [run_add, huo, hus, Option.some_bind, hu1, huo1, hut]
      exact hu2
    · intro x hx
      have hxa : x ≠ a := fun e => hx (by simp [Closure.targets, e])
      have hxb : x ≠ b := fun e => hx (by simp [Closure.targets, e])
      exact ⟨((hf2 x hxb).1).trans (hf1 x hxa).1, ((hf2 x hxb).2).trans (hf1 x hxa).2⟩
  | mul a b out =>
    have e : out = n := hout out rfl
    subst e
    have hna : out ≠ a := fun e => hn (by simp [Closure.targets, e])
    have hnb : out ≠ b := fun e => hn (by simp [Closure.targets, e])
    simp only [run_mul, Option.bind_eq_some] at hrun
    obtain ⟨o, ho, sv, hsv, t, ht, gs, hgs, gt, hgt, st1, h1, t1, ht1, h2⟩ := hrun
    obtain ⟨go, huo, hor, hoc⟩ := gradOnly_read hsu ho
    obtain ⟨gsv, hus, _, _⟩ := gradOnly_read hsu hsv
    obtain ⟨gtv, hutv, _, _⟩ := gradOnly_read hsu ht
    have hsc := scales_of_gradOnly P m out hscale ho huo hor hoc
    obtain ⟨gs1, hgs1, hsgs⟩ := scales_zipWith_mul P m t.data o.grad go gs hsc hgs
    obtain ⟨gt1, hgt1, hsgt⟩ := scales_zipWith_mul P m sv.data o.grad go gt hsc hgt
    obtain ⟨u1, hu1, hsu1, hd1, hf1⟩ := addGrad_scaled P m s u st1 a _ _ hsu
      (scales_broadcast P m _ _ sv.data.rows sv.data.cols hsgs) h1
    obtain ⟨gt2, hut1, _, _⟩ := gradOnly_read hsu1 ht1
    obtain ⟨u2, hu2, hsu2, hd2, hf2⟩ := addGrad_scaled P m st1 u1 s1 b _ _ hsu1
      (scales_broadcast P m _ _ t1.data.rows t1.data.cols hsgt) h2
    refine ⟨u2, ?_, hsu2, delta_compose P m s st1 s1 u u1 u2 hd1 hd2, ?_⟩
    · simp only [run_mul, huo, hus, hutv, Option.some_bind, hgs1, hgt1, hu1, hut1]
      exact hu2
    · intro x hx
      have hxa : x ≠ a := fun e => hx (by simp [Closure.targets, e])
      have hxb : x ≠ b := fun e => hx (by simp [Closure.targets, e])
      exact ⟨((hf2 x hxb).1).trans (hf1 x hxa).1, ((hf2 x hxb).2).trans (hf1 x hxa).2⟩
  | matmul a b out =>
    have e : out = n := hout out rfl
    subst e
    have hna : out ≠ a := fun e => hn (by simp [Closure.targets, e])
    have hnb : out ≠ b := fun e => hn (by simp [Closure.targets, e])
    simp only [run_matmul, Option.bind_eq_some] at hrun
    obtain ⟨o, ho, t, ht, g, hg, st1, h1, sv1, hsv1, o1, ho1, hm, hhm, h2⟩ := hrun
    obtain ⟨go, huo, hor, hoc⟩ := gradOnly_read hsu ho
    obtain ⟨gtv, hutv, _, _⟩ := gradOnly_read hsu ht
    have hsc := scales_of_gradOnly P m out hscale ho huo hor hoc
    obtain ⟨g1, hg1, hsg⟩ := scales_mul_left P m o.grad go t.data.transpose g hsc hg
    obtain ⟨u1, hu1, hsu1, hd1, hf1⟩ := addGrad_scaled P m s u st1 a _ _ hsu hsg h1
    have e1 : o1 = o := Option.some.inj (ho1.symm.trans (((hf1 out hna).1).trans ho))
    subst e1
    have huo1 : u1.cell out = some { o1 with grad := go } := ((hf1 out hna).2).trans huo
    obtain ⟨gsv1, husv1, _, _⟩ := gradOnly_read hsu1 hsv1
    obtain ⟨hm1, hhm1, hshm⟩ := scales_mul_right P m o1.grad go sv1.data.transpose hm hsc hhm
    obtain ⟨u2, hu2, hsu2, hd2, hf2⟩ := addGrad_scaled P m st1 u1 s1 b _ _ hsu1 hshm h2
    refine ⟨u2, ?_, hsu2, delta_compose P m s st1 s1 u u1 u2 hd1 hd2, ?_⟩
    · simp only [run_matmul, huo, hutv, Option.some_bind, hg1, hu1, husv1, huo1, hhm1]
      exact hu2
    · intro x hx
      have hxa : x ≠ a := fun e => hx (by simp [Closure.targets, e])
      have hxb : x ≠ b := fun e => hx (by simp [Closure.targets, e])
      exact ⟨((hf2 x hxb).1).trans (hf1 x hxa).1, ((hf2 x hxb).2).trans (hf1 x hxa).2⟩
  | pow a out e =>
    have e1 : out = n := hout out rfl
    subst e1
    simp only [run_pow, Option.bind_eq_some] at hrun
    obtain ⟨o, ho, sv, hsv, g, hg, h1⟩ := hrun
    obtain ⟨go, huo, hor, hoc⟩ := gradOnly_read hsu ho
    obtain ⟨gsv, hus, _, _⟩ := gradOnly_read hsu hsv
    have hsc := scales_of_gradOnly P m out hscale ho huo hor hoc
    obtain ⟨g1, hg1, hsg⟩ := scales_zipWith_mul P m _ o.grad go g hsc hg
    obtain ⟨u1, hu1, rest⟩ := single_scaled P m s u s1 a g g1 hsu hsg h1
    refine ⟨u1, ?_, rest⟩
    simp only [run_pow, huo, hus, Option.some_bind, hg1]
    exact hu1
  | relu a out =>
    have e1 : out = n := hout out rfl
    subst e1
    simp only [run_relu, Option.bind_eq_some] at hrun
    obtain ⟨o, ho, g, hg, h1⟩ := hrun
    obtain ⟨go, huo, hor, hoc⟩ := gradOnly_read hsu ho
    have hsc := scales_of_gradOnly P m out hscale ho huo hor hoc
    obtain ⟨g1, hg1, hsg⟩ := scales_zipWith_mul P m _ o.grad go g hsc hg
    obtain ⟨u1, hu1, rest⟩ := single_scaled P m s u s1 a g g1 hsu hsg h1
    refine ⟨u1, ?_, rest⟩
    simp only [run_relu, huo, Option.some_bind, hg1]
    exact hu1
  | sigmoid a out sm =>
    have e1 : out = n := hout out rfl
    subst e1
    simp only [Closure.run, Option.bind_eq_bind, Option.bind_eq_some] at hrun
    obtain ⟨o, ho, d, hd, g, hg, h1⟩ := hrun
    obtain ⟨go, huo, hor, hoc⟩ := gradOnly_read hsu ho
    have hsc := scales_of_gradOnly P m out hscale ho huo hor hoc
    obtain ⟨g1, hg1, hsg⟩ := scales_zipWith_mul P m _ o.grad go g hsc hg
    obtain ⟨u1, hu1, rest⟩ := single_scaled P m s u s1 a g g1 hsu hsg h1
    refine ⟨u1, ?_, rest⟩
    simp only [Closure.run, Option.bind_eq_bind, huo, Option.some_bind, hd, hg1]
    exact hu1
  | transpose a out =>
    have e1 : out = n := hout out rfl
    subst e1
    simp only [Closure.run, Option.bind_eq_bind, Option.bind_eq_some] at hrun
    obtain ⟨o, ho, h1⟩ := hrun
    obtain ⟨go, huo, hor, hoc⟩ := gradOnly_read hsu ho
    have hsc := scales_of_gradOnly P m out hscale ho huo hor hoc
    obtain ⟨u1, hu1, rest⟩ := single_scaled P m s u s1 a _ _ hsu
      (scales_transpose P m _ _ hsc) h1
    refine ⟨u1, ?_, rest⟩
    simp only [Closure.run, Option.bind_eq_bind, huo, Option.some_bind]
    exact hu1
  | flatten a out r c =>
    have e1 : out = n := hout out rfl
    subst e1
    simp only [Closure.run, Option.bind_eq_bind, Option.bind_eq_some] at hrun
    obtain ⟨o, ho, g, hg, h1⟩ := hrun
    obtain ⟨go, huo, hor, hoc⟩ := gradOnly_read hsu ho
    have hsc := scales_of_gradOnly P m out hscale ho huo hor hoc
    obtain ⟨g1, hg1, hsg⟩ := scales_reshaped P m o.grad go g r c hsc hg
    obtain ⟨u1, hu1, rest⟩ := single_scaled P m s u s1 a g g1 hsu hsg h1
    refine ⟨u1, ?_, rest⟩
    simp only [Closure.run, Option.bind_eq_bind, huo, Option.some_bind, hg1]
    exact hu1
  | celoss y out probs oh ns =>
    have e1 : out = n := hout out rfl
    subst e1
    simp only [run_celoss, Option.bind_eq_some] at hrun
    obtain ⟨o, ho, d, hd, h1⟩ := hrun
    obtain ⟨go, huo, hor, hoc⟩ := gradOnly_read hsu ho
    have hsc := scales_of_gradOnly P m out hscale ho huo hor hoc
    obtain ⟨u1, hu1, rest⟩ := single_scaled P m s u s1 y _ _ hsu
      (scales_coeff_scale P m o.grad go (d.divScalar (ns : α)) hsc) h1
    refine ⟨u1, ?_, rest⟩
    simp only [run_celoss, huo, Option.some_bind, hd]
    exact hu1
  | mseloss y t out =>
    have e1 : out = n := hout out rfl
    subst e1
    simp only [run_mseloss, Option.bind_eq_some] at hrun
    obtain ⟨p, hp, tv, htv, o, ho, d, hd, h1⟩ := hrun
    obtain ⟨go, huo, hor, hoc⟩ := gradOnly_read hsu ho
    obtain ⟨gp, hup, _, _⟩ := gradOnly_read hsu hp
    obtain ⟨gtv, hutv, _, _⟩ := gradOnly_read hsu htv
    have hsc := scales_of_gradOnly P m out hscale ho huo hor hoc
    obtain ⟨u1, hu1, rest⟩ := single_scaled P m s u s1 y _ _ hsu
      (scales_coeff_scale P m o.grad go
        ((MatrixXd.scale 2 d).divScalar ((p.data.size : Nat) : α)) hsc) h1
    refine ⟨u1, ?_, rest⟩
    simp only [run_mseloss, hup, hutv, huo, Option.some_bind, hd]
    exact hu1

end closureScaling

section passes
variable {α : Type} [LinearOrderedField α]

theorem addGrad_frame {s s1 : Store α} {p : Nat} {M : MatrixXd α}
    (h : Value.addGrad s p M = some s1) : ∀ b, b ≠ p → s1.cell b = s.cell b := by
  unfold Value.addGrad at h
  simp only [Option.bind_eq_bind, Option.bind_eq_some, Option.some.injEq] at h
  obtain ⟨v, _, g, _, h1⟩ := h
  subst h1
  intro b hb
  simp [Store.cell_write, hb]

/-- A `_backward` lambda leaves every object that is not one of its targets as
it is. -/
theorem closure_frame {s s1 : Store α} (c : Closure α) (h : Closure.run s c = some s1) :
    ∀ b, b ∉ c.targets → s1.cell b = s.cell b := by
  intro b hb
  cases c with
  | noop =>
    have e : s = s1 := Option.some.inj h
    subst e
    rfl
  | add a o out =>
    simp only [Closure.run, Option.bind_eq_bind, Option.bind_eq_some] at h
    obtain ⟨_, _, _, _, st1, h1, _, _, _, _, h2⟩ := h
    rw [addGrad_frame h2 b (fun e => hb (by simp [Closure.targets, e])),
      addGrad_frame h1 b (fun e => hb (by simp [Closure.targets, e]))]
  | mul a o out =>
    simp only [Closure.run, Option.bind_eq_bind, Option.bind_eq_some] at h
    obtain ⟨_, _, _, _, _, _, _, _, _, _, st1, h1, _, _, h2⟩ := h
    rw [addGrad_frame h2 b (fun e => hb (by simp [Closure.targets, e])),
      addGrad_frame h1 b (fun e => hb (by simp [Closure.targets, e]))]
  | matmul a o out =>
    simp only [Closure.run, Option.bind_eq_bind, Option.bind_eq_some] at h
    obtain ⟨_, _, _, _, _, _, st1, h1, _, _, _, _, _, _, h2⟩ := h
    rw [addGrad_frame h2 b (fun e => hb (by simp [Closure.targets, e])),
      addGrad_frame h1 b (fun e => hb (by simp [Closure.targets, e]))]
  | pow a out e =>
    simp only [Closure.run, Option.bind_eq_bind, Option.bind_eq_some] at h
    obtain ⟨_, _, _, _, _, _, h1⟩ := h
    exact addGrad_frame h1 b (fun e => hb (by simp [Closure.targets, e]))
  | relu a out =>
    simp only [Closure.run, Option.bind_eq_bind, Option.bind_eq_some] at h
    obtain ⟨_, _, _, _, h1⟩ := h
    exact addGrad_frame h1 b (fun e => hb (by simp [Closure.targets, e]))
  | sigmoid a out m =>
    simp only [Closure.run, Option.bind_eq_bind, Option.bind_eq_some] at h
    obtain ⟨_, _, _, _, _, _, h1⟩ := h
    exact addGrad_frame h1 b (fun e => hb (by simp [Closure.targets, e]))
  | transpose a out =>
    simp only [Closure.run, Option.bind_eq_bind, Option.bind_eq_some] at h
    obtain ⟨_, _, h1⟩ := h
    exact addGrad_frame h1 b (fun e => hb (by simp [Closure.targets, e]))
  | flatten a out r c =>
    simp only [Closure.run, Option.bind_eq_bind, Option.bind_eq_some] at h
    obtain ⟨_, _, _, _, h1⟩ := h
    exact addGrad_frame h1 b (fun e => hb (by simp [Closure.targets, e]))
  | celoss y out probs oh n =>
    simp only [Closure.run, Option.bind_eq_bind, Option.bind_eq_some] at h
    obtain ⟨_, _, _, _, h1⟩ := h
    exact addGrad_frame h1 b (fun e => hb (by simp [Closure.targets, e]))
  | mseloss y t out =>
    simp only [Closure.run, Option.bind_eq_bind, Option.bind_eq_some] at h
    obtain ⟨_, _, _, _, _, _, _, _, h1⟩ := h
    exact addGrad_frame h1 b (fun e => hb (by simp [Closure.targets, e]))

/-- What `GradOnly` keeps of one object: everything but the grad. -/
theorem gradOnly_fields {st s : Store α} (h : GradOnly st s) {x : Nat} {w : Value α}
    (hw : s.cell x = some w) :
    ∃ v, st.cell x = some v ∧ w._prev = v._prev ∧ w._backward = v._backward := by
  rcases h.2 x with ⟨_, h2⟩ | ⟨v, g, h1, h2, _, _⟩
  · rw [h2] at hw; exact Option.noConfusion hw
  · rw [h2] at hw
    have e := Option.some.inj hw
    subst e
    exact ⟨v, h1, rfl, rfl⟩

/-- Running the lambdas of `l` leaves an object as it is when it is an input
of no node of `l` whose lambda is wired to its inputs. -/
theorem runAll_frame (st : Store α) (b : Nat) :
    ∀ (l : List Nat) (s F : Store α), GradOnly st s → Value.runAll s l = some F →
      (∀ x ∈ l, Wired st x ∧ ¬ IsInput st b x) → F.cell b = s.cell b := by
  intro l
  induction l with
  | nil =>
    intro s F _ h _
    have e : s = F := Option.some.inj h
    subst e
    rfl
  | cons n rest ih =>
    intro s F hst h hl
    simp only [Value.runAll, Value.runClosure, Option.bind_eq_bind, Option.bind_eq_some] at h
    obtain ⟨s1, ⟨node, hnode, hrun⟩, hrest⟩ := h
    obtain ⟨v, hv, hprev, hback⟩ := gradOnly_fields hst hnode
    obtain ⟨hw, hnot⟩ := hl n (List.mem_cons_self n rest)
    have hb : b ∉ node._backward.targets := by
      intro hmem
      rw [hback] at hmem
      exact hnot ⟨v, hv, (hw v hv).2 b hmem⟩
    rw [ih s1 F (gradOnly_trans hst (closure_gradOnly _ hrun)) hrest
      (fun x hx => hl x (List.mem_cons_of_mem n hx))]
    exact closure_frame _ hrun b hb

omit [LinearOrderedField α] in
theorem joinedBy_of_reachable {st : Store α} {t x : Nat} (h : Reachable st t x) :
    ∃ k, JoinedBy st k t x := by
  induction h using Relation.ReflTransGen.head_induction_on with
  | refl => exact ⟨0, rfl⟩
  | head hc _ ih =>
    obtain ⟨k, hk⟩ := ih
    exact ⟨k + 1, _, hc, hk⟩

omit [LinearOrderedField α] in
theorem reachable_of_joinedBy {st : Store α} :
    ∀ (k : Nat) (t x : Nat), JoinedBy st k t x → Reachable st t x := by
  intro k
  induction k with
  | zero =>
    intro t x h
    have e : x = t := h
    rw [e]
    exact Relation.ReflTransGen.refl
  | succ k ih =>
    intro t x h
    obtain ⟨c, hc, hk⟩ := h
    exact Relation.ReflTransGen.head hc (ih c x hk)

omit [LinearOrderedField α] in
/-- A path is extended at its far end by one more edge. -/
theorem joinedBy_tail {st : Store α} {a n : Nat} (ha : IsInput st a n) :
    ∀ (k : Nat) (t : Nat), JoinedBy st k t n → JoinedBy st (k + 1) t a := by
  intro k
  induction k with
  | zero =>
    intro t h
    have e : n = t := h
    subst e
    exact ⟨a, ha, rfl⟩
  | succ k ih =>
    intro t h
    obtain ⟨c, hc, hk⟩ := h
    exact ⟨c, hc, ih c hk⟩

/-- The second pass over the nodes of `l`, compared with the first: `s` is the
memory of the first pass and `u` that of the second before the lambdas of `l`
run, `F` is the memory at the end of the first pass. An object all of whose
paths from `t` have `k` edges holds, in the second pass, its final grad of the
first pass plus `k` times its current grad of the first pass. -/
theorem two_pass (st : Store α) (t : Nat) (F : Store α)
    (hwired : ∀ x, Reachable st t x → Wired st x) :
    ∀ (l : List Nat) (s u : Store α),
      (∀ x ∈ l, Reachable st t x) →
      (∀ l1 n l2, l = l1 ++ n :: l2 → ∀ x ∈ n :: l2, ¬ IsInput st n x) →
      GradOnly st s → GradOnly s u →
      Value.runAll s l = some F →
      (∀ a k, JoinedBy st k t a → (∀ j, JoinedBy st j t a → j = k) →
        ∀ i j, gradAt u a i j = gradAt F a i j + (k : α) * gradAt s a i j) →
      ∃ G, Value.runAll u l = some G ∧ GradOnly F G ∧
        ∀ a k, JoinedBy st k t a → (∀ j, JoinedBy st j t a → j = k) →
          ∀ i j, gradAt G a i j = ((k : α) + 1) * gradAt F a i j := by
  intro l
  induction l with
  | nil =>
    intro s u _ _ _ hsu hrun hinv
    have e : s = F := Option.some.inj hrun
    subst e
    refine ⟨u, rfl, hsu, ?_⟩
    intro a k hk huniq i j
    rw [hinv a k hk huniq i j]
    ring
  | cons n rest ih =>
    intro s u hreach hcf hst hsu hrun hinv
    have hrun0 := hrun
    simp only [Value.runAll, Value.runClosure, Option.bind_eq_bind, Option.bind_eq_some] at hrun
    obtain ⟨s1, ⟨node, hnode, hclo⟩, hrest⟩ := hrun
    obtain ⟨v, hv, hprev, hback⟩ := gradOnly_fields hst hnode
    have hnr : Reachable st t n := hreach n (List.mem_cons_self n rest)
    obtain ⟨hwo, hwt⟩ := hwired n hnr v hv
    have hnn : n ∉ node._backward.targets := by
      intro hmem
      rw [hback] at hmem
      exact hcf [] n rest rfl n (List.mem_cons_self n rest) ⟨v, hv, hwt n hmem⟩
    have hFn : F.cell n = s.cell n :=
      runAll_frame st n (n :: rest) s F hst hrun0 (fun x hx =>
        ⟨hwired x (hreach x hx), hcf [] n rest rfl x hx⟩)
    obtain ⟨gu, hun, _, _⟩ := gradOnly_read hsu hnode
    by_cases hdepth : ∃ k, JoinedBy st k t n ∧ ∀ j, JoinedBy st j t n → j = k
    · obtain ⟨kn, hkn, hknu⟩ := hdepth
      have hscale : True → ∀ i j, gradAt u n i j = ((kn : α) + 1) * gradAt s n i j := by
        intro _ i j
        rw [hinv n kn hkn hknu i j, gradAt_congr s F n hFn i j]
        ring
      obtain ⟨u1, hu1, hsu1, hdelta, hframe⟩ := closure_scaled True ((kn : α) + 1)
        node._backward n s u s1 (by rw [hback]; exact hwo) hnn hsu hscale hclo
      obtain ⟨G, hG, hFG, hres⟩ := ih s1 u1 (fun x hx => hreach x (List.mem_cons_of_mem n hx))
        (fun l1 x l2 hsplit => hcf (n :: l1) x l2 (by rw [hsplit]; rfl))
        (gradOnly_trans hst (closure_gradOnly _ hclo)) hsu1 hrest (by
          intro a k hk huniq i j
          by_cases ha : a ∈ node._backward.targets
          · have hin : IsInput st a n := ⟨v, hv, hwt a (hback ▸ ha)⟩
            have hk1 : kn + 1 = k := huniq (kn + 1) (joinedBy_tail hin kn t hkn)
            have hd := hdelta trivial a i j
            have hi := hinv a k hk huniq i j
            have hcast : (k : α) = (kn : α) + 1 := by
              rw [← hk1]
              push_cast
              ring
            rw [hcast] at hi ⊢
            linear_combination hd + hi
          · obtain ⟨e1, e2⟩ := hframe a ha
            rw [gradAt_congr u u1 a e2 i j, gradAt_congr s s1 a e1 i j]
            exact hinv a k hk huniq i j)
      refine ⟨G, ?_, hFG, hres⟩
      simp only [Value.runAll, Value.runClosure, Option.bind_eq_bind, hun, Option.some_bind, hu1]
      exact hG
    · have hscale : False → ∀ i j, gradAt u n i j = (0 : α) * gradAt s n i j :=
        fun h => False.elim h
      obtain ⟨u1, hu1, hsu1, _, hframe⟩ := closure_scaled False (0 : α)
        node._backward n s u s1 (by rw [hback]; exact hwo) hnn hsu hscale hclo
      obtain ⟨G, hG, hFG, hres⟩ := ih s1 u1 (fun x hx => hreach x (List.mem_cons_of_mem n hx))
        (fun l1 x l2 hsplit => hcf (n :: l1) x l2 (by rw [hsplit]; rfl))
        (gradOnly_trans hst (closure_gradOnly _ hclo)) hsu1 hrest (by
          intro a k hk huniq i j
          by_cases ha : a ∈ node._backward.targets
          · exfalso
            have hin : IsInput st a n := ⟨v, hv, hwt a (hback ▸ ha)⟩
            obtain ⟨j0, hj0⟩ := joinedBy_of_reachable hnr
            have hk1 : j0 + 1 = k := huniq (j0 + 1) (joinedBy_tail hin j0 t hj0)
            apply hdepth
            refine ⟨j0, hj0, ?_⟩
            intro j1 hj1
            have hk2 : j1 + 1 = k := huniq (j1 + 1) (joinedBy_tail hin j1 t hj1)
            omega
          · obtain ⟨e1, e2⟩ := hframe a ha
            rw [gradAt_congr u u1 a e2 i j, gradAt_congr s s1 a e1 i j]
            exact hinv a k hk huniq i j)
      refine ⟨G, ?_, hFG, hres⟩
      simp only [Value.runAll, Value.runClosure, Option.bind_eq_bind, hun, Option.some_bind, hu1]
      exact hG

end passes

section depthBackward
variable {α : Type} [LinearOrderedField α]

omit [LinearOrderedField α] in
/-- The list that `build_topo` builds depends on the `_prev` lists only. -/
theorem build_topo_gradOnly {st s : Store α} (h : GradOnly st s) :
    ∀ (fuel v : Nat) (acc : List Nat × List Nat),
      Value.build_topo s fuel v acc = Value.build_topo st fuel v acc := by
  intro fuel
  induction fuel with
  | zero => intro v acc; rfl
  | succ fuel ih =>
    intro v acc
    obtain ⟨visited, topo⟩ := acc
    rw [Value.build_topo, Value.build_topo]
    by_cases hv : v ∈ visited
    · simp only [hv, if_true]
    · simp only [hv, if_false]
      have hfun : (fun acc child => Value.build_topo s fuel child acc)
          = (fun acc child => Value.build_topo st fuel child acc) := by
        funext acc child
        exact ih child acc
      rcases h.2 v with ⟨h1, h2⟩ | ⟨w, g, h1, h2, _, _⟩
      · rw [h1, h2]
        rfl
      · rw [h1, h2, hfun]
        rfl

omit [LinearOrderedField α] in
/-- Overwriting a grad by a matrix of its shape changes grads only. -/
theorem write_grad_gradOnly (st : Store α) (p : Nat) (v : Value α) (g : MatrixXd α)
    (hv : st.cell p = some v) (hr : g.rows = v.grad.rows) (hc : g.cols = v.grad.cols) :
    GradOnly st (st.write p { v with grad := g }) := by
  refine ⟨rfl, fun q => ?_⟩
  by_cases hq : q = p
  · subst hq
    exact Or.inr ⟨v, g, hv, by simp [Store.cell_write, hv], hr, hc⟩
  · cases hcq : st.cell q with
    | none => exact Or.inl ⟨rfl, by simp [Store.cell_write, hq, hcq]⟩
    | some u => exact Or.inr ⟨u, u.grad, rfl, by simp [Store.cell_write, hq, hcq], rfl, rfl⟩

/-- The method `backward` on an object whose self-pointer is live: it seeds the
node the self-pointer names and runs the lambdas of the list of `build_topo`
in reverse. -/
theorem backward_locked (st : Store α) (t root : Nat) (vt vr : Value α)
    (vis topo : List Nat) (ht : st.cell t = some vt) (hself : vt._self = some root)
    (hroot : st.cell root = some vr)
    (hr : vt.data.rows = vr.grad.rows) (hc : vt.data.cols = vr.grad.cols)
    (htopo : Value.build_topo st (st.next + 1) root ([], []) = some (vis, topo)) :
    Value.backward st t = Value.runAll
      (st.write root { vr with grad := MatrixXd.Ones vt.data.rows vt.data.cols })
      topo.reverse := by
  have hget : Value.get_self_ptr st t = some (st, root) :=
    get_self_ptr_locked st t root vt ht hself (by rw [hroot]; rfl)
  have hgo := write_grad_gradOnly st root vr (MatrixXd.Ones vt.data.rows vt.data.cols)
    hroot hr hc
  unfold Value.backward
  simp only [Option.bind_eq_bind, hget, Option.some_bind, htopo, ht, Store.modify, hroot,
    Option.map_some', Value.runClosures]
  cases hrun : Value.runAll
      (st.write root { vr with grad := MatrixXd.Ones vt.data.rows vt.data.cols })
      topo.reverse with
  | none => rfl
  | some F =>
    have hgo2 := gradOnly_trans hgo (runAll_gradOnly _ hrun)
    obtain ⟨w, hw, _, hws⟩ := gradOnly_cell_forward hgo2 ht
    obtain ⟨wr, hwr, _, _⟩ := gradOnly_cell_forward hgo2 hroot
    simp only [Option.some_bind, hw, hws, hself, Store.lock, hwr, Option.isSome_some, if_true]

/-- Calling `backward` twice on an acyclic graph whose lambdas are wired to
their nodes, starting from zero grads: when the first call returns, so does the
second, and an object all of whose paths from the terminal node have `k` edges
ends with `k + 1` times the grad it has after the first call. -/
theorem backward_twice_depth (st s1 : Store α) (t root : Nat) (vt : Value α)
    (hst : WellShaped st) (hlive : InputsLive st) (hacyclic : Acyclic st)
    (ht : st.cell t = some vt) (hself : vt._self = some root) (hroot : (st.cell root).isSome)
    (hwired : ∀ x, Reachable st root x → Wired st x)
    (hzero : ∀ x, Reachable st root x → ∀ i j, gradAt st x i j = 0)
    (h1 : Value.backward st t = some s1) :
    ∃ s2, Value.backward s1 t = some s2 ∧
      ∀ a k, JoinedBy st k root a → (∀ j, JoinedBy st j root a → j = k) →
        ∀ i j, gradAt s2 a i j = ((k : α) + 1) * gradAt s1 a i j := by
  obtain ⟨vr, hvr⟩ := Option.isSome_iff_exists.mp hroot
  obtain ⟨rank, hrank⟩ := hacyclic
  obtain ⟨rank1, hle, hrank1⟩ := rank_compress st hlive rank hrank
  obtain ⟨vis, topo, htopo, hnd, _, hif, hmem, _⟩ :=
    build_topo_spec st rank1 hlive hrank1 (st.next + 1) root [] []
      (Nat.lt_succ_of_le (hle root)) hroot
      List.nodup_nil (fun x hx => hx) (by intro l1 x l2 h; simp at h)
      (by intro g _ hg; exact absurd hg (List.not_mem_nil g))
  have hcons := consumersFirst_reverse rank1 hrank1 hnd hif
  have hmem1 : ∀ x, x ∈ topo.reverse → Reachable st root x := by
    intro x hx
    have := (hmem x).mp (List.mem_reverse.mp hx)
    simpa using this
  -- shapes of the seed
  obtain ⟨hsh1, hsh2⟩ := hst.2 t vt root ht hself
  obtain ⟨hd1, hd2⟩ := hsh2 vr hvr
  obtain ⟨hg1, hg2⟩ := hst.1 root vr hvr
  have hr : vt.data.rows = vr.grad.rows := by rw [hg1, hd1]
  have hc : vt.data.cols = vr.grad.cols := by rw [hg2, hd2]
  have hgo0 := write_grad_gradOnly st root vr (MatrixXd.Ones vt.data.rows vt.data.cols)
    hvr hr hc
  -- the first call
  rw [backward_locked st t root vt vr vis topo ht hself hvr hr hc htopo] at h1
  have hgoF := gradOnly_trans hgo0 (runAll_gradOnly _ h1)
  -- the second call
  obtain ⟨gt, hFt, _, _⟩ := gradOnly_read hgoF ht
  obtain ⟨gr, hFr, hgr1, hgr2⟩ := gradOnly_read hgoF hvr
  have htopoF : Value.build_topo s1 (s1.next + 1) root ([], []) = some (vis, topo) := by
    rw [build_topo_gradOnly hgoF, hgoF.1]
    exact htopo
  have hgo1 := write_grad_gradOnly s1 root { vr with grad := gr }
    (MatrixXd.Ones vt.data.rows vt.data.cols) hFr (hr.trans hgr1.symm) (hc.trans hgr2.symm)
  rw [backward_locked s1 t root { vt with grad := gt } { vr with grad := gr } vis topo hFt hself
    hFr (hr.trans hgr1.symm) (hc.trans hgr2.symm) htopoF]
  -- no node of the order is an input of itself or of a later node
  have hcf : ∀ l1 n l2, topo.reverse = l1 ++ n :: l2 → ∀ x ∈ n :: l2, ¬ IsInput st n x := by
    intro l1 n l2 hsplit x hx hin
    have hxmem : x ∈ topo.reverse := by
      rw [hsplit]
      exact List.mem_append_right _ hx
    have hx1 : x ∈ l1 := hcons l1 n l2 hsplit x hxmem hin
    have hnd2 : (l1 ++ n :: l2).Nodup := by
      rw [← hsplit]
      exact List.nodup_reverse.mpr hnd
    exact (List.nodup_append.mp hnd2).2.2 hx1 hx
  have hroot_not : ∀ x, Reachable st root x → ¬ IsInput st root x := by
    intro x hx hin
    obtain ⟨w, hw, hm⟩ := hin
    have h2 := rank_le_of_reachable rank1 hrank1 hx
    have h3 := hrank1 x w hw root hm
    omega
  have hFroot : s1.cell root
      = (st.write root { vr with grad := MatrixXd.Ones vt.data.rows vt.data.cols }).cell root :=
    runAll_frame st root topo.reverse _ s1 hgo0 h1 (fun x hx =>
      ⟨hwired x (hmem1 x hx), hroot_not x (hmem1 x hx)⟩)
  obtain ⟨G, hG, _, hres⟩ := two_pass st root s1 hwired topo.reverse
    (st.write root { vr with grad := MatrixXd.Ones vt.data.rows vt.data.cols })
    (s1.write root { ({ vr with grad := gr } : Value α) with
      grad := MatrixXd.Ones vt.data.rows vt.data.cols })
    hmem1 hcf hgo0 (gradOnly_trans (runAll_gradOnly _ h1) hgo1) h1 (by
      intro a k hk huniq i j
      by_cases ha : a = root
      · subst ha
        have hk0 : 0 = k := huniq 0 rfl
        subst hk0
        rw [gradAt_congr _ s1 a hFroot i j]
        simp [gradAt, Store.cell_write, hvr, hFr]
      · have hz := hzero a (reachable_of_joinedBy k root a hk) i j
        have e1 : gradAt (st.write root
            { vr with grad := MatrixXd.Ones vt.data.rows vt.data.cols }) a i j = 0 := by
          rw [gradAt_congr st _ a (by simp [Store.cell_write, ha]) i j]
          exact hz
        rw [e1, gradAt_congr s1 _ a (by simp [Store.cell_write, ha]) i j]
        ring)
  exact ⟨G, hG, hres⟩

end depthBackward

section plainLeaf
variable {α : Type} [LinearOrderedField α]

set_option maxHeartbeats 1000000 in
/-- The method `backward` on a plain leaf (no self-pointer, no inputs): it
works on a copy that `get_self_ptr` makes, and copies it back. -/
theorem backward_plain_leaf (st : Store α) (t : Nat) (vt : Value α)
    (ht : st.cell t = some vt) (hself : vt._self = none) (hprev : vt._prev = [])
    (hback : vt._backward = Closure.noop) :
    Value.backward st t = some (((st.alloc vt).1.write st.next
      { vt with grad := MatrixXd.Ones vt.data.rows vt.data.cols }).write t
      { vt with grad := MatrixXd.Ones vt.data.rows vt.data.cols }) := by
  have hlt : t < st.next := Store.lt_next_of_cell ht
  have hne : t ≠ st.next := Nat.ne_of_lt hlt
  rw [Value.backward]
  simp [Value.get_self_ptr, ht, hself, Store.lock, Value.build_topo, Store.cell_alloc, hne,
    hprev, Store.modify, Store.cell_write, Value.runClosures, Value.runAll, Value.runClosure,
    hback, Store.snd_alloc, Store.next_alloc]

/-- Calling `backward` twice on a plain leaf: the leaf holds a grad of ones
after the first and after the second call. -/
theorem backward_twice_plain_leaf (st : Store α) (t : Nat) (vt : Value α)
    (ht : st.cell t = some vt) (hself : vt._self = none) (hprev : vt._prev = [])
    (hback : vt._backward = Closure.noop) :
    ∃ s1 s2, Value.backward st t = some s1 ∧ Value.backward s1 t = some s2 ∧
      ∀ i j, gradAt s1 t i j = 1 ∧ gradAt s2 t i j = gradAt s1 t i j := by
  have hlt : t < st.next := Store.lt_next_of_cell ht
  have hne : t ≠ st.next := Nat.ne_of_lt hlt
  have hb1 := backward_plain_leaf st t vt ht hself hprev hback
  have hcell : (((st.alloc vt).1.write st.next
      { vt with grad := MatrixXd.Ones vt.data.rows vt.data.cols }).write t
      { vt with grad := MatrixXd.Ones vt.data.rows vt.data.cols }).cell t
      = some { vt with grad := MatrixXd.Ones vt.data.rows vt.data.cols } := by
    simp [Store.cell_write, Store.cell_alloc, hne, ht]
  have hb2 := backward_plain_leaf _ t _ hcell hself hprev hback
  refine ⟨_, _, hb1, hb2, ?_⟩
  intro i j
  have hne2 : t ≠ st.next + 1 := by omega
  simp [gradAt, Store.cell_write, Store.cell_alloc, Store.next_write, Store.next_alloc, hne,
    hne2, ht, MatrixXd.Ones, MatrixXd.Constant]

end plainLeaf

/-! ## The graphs that the operators build -/

section built
variable {α : Type} [LinearOrderedField α]

omit [LinearOrderedField α] in
theorem built_empty : Built (Store.empty : Store α) :=
  ⟨fun _ _ h => Option.noConfusion h, fun _ _ h => Option.noConfusion h,
    fun _ _ _ h => Option.noConfusion h⟩

omit [LinearOrderedField α] in
/-- A new object keeps the invariant when its inputs are live objects that can
stand in a graph, its lambda is wired to its self-pointer and its inputs, and
its self-pointer names itself or a live object. -/
theorem built_alloc (st : Store α) (v : Value α) (hb : Built st)
    (h1 : ∀ c ∈ v._prev, ∃ vc, st.cell c = some vc ∧ NodeLike c vc)
    (h2 : (∀ o, v._backward.out = some o → v._self = some o) ∧
      ∀ q ∈ v._backward.targets, q ∈ v._prev)
    (h3 : ∀ h, v._self = some h → h = st.next ∨ ∃ vh, st.cell h = some vh ∧ NodeLike h vh) :
    Built (st.alloc v).1 := by
  obtain ⟨b1, b2, b3⟩ := hb
  have hold : ∀ c vc, st.cell c = some vc → (st.alloc v).1.cell c = some vc := by
    intro c vc hc
    have hne : c ≠ st.next := Nat.ne_of_lt (Store.lt_next_of_cell hc)
    simp [Store.cell_alloc, hne, hc]
  have hnew : (st.alloc v).1.cell st.next = some v := by simp [Store.cell_alloc]
  refine ⟨?_, ?_, ?_⟩
  · intro p u hu c hc
    rw [Store.cell_alloc] at hu
    by_cases hp : p = st.next
    · simp only [hp, if_true, Option.some.injEq] at hu
      subst hu
      obtain ⟨vc, hvc, hn⟩ := h1 c hc
      exact ⟨hp ▸ Store.lt_next_of_cell hvc, vc, hold c vc hvc, hn⟩
    · simp only [hp, if_false] at hu
      obtain ⟨hlt, vc, hvc, hn⟩ := b1 p u hu c hc
      exact ⟨hlt, vc, hold c vc hvc, hn⟩
  · intro p u hu
    rw [Store.cell_alloc] at hu
    by_cases hp : p = st.next
    · simp only [hp, if_true, Option.some.injEq] at hu
      subst hu
      exact h2
    · simp only [hp, if_false] at hu
      exact b2 p u hu
  · intro p u h hu hself
    rw [Store.cell_alloc] at hu
    by_cases hp : p = st.next
    · simp only [hp, if_true, Option.some.injEq] at hu
      subst hu
      rcases h3 h hself with e | ⟨vh, hvh, hn⟩
      · subst e
        exact ⟨v, hnew, Or.inr hself⟩
      · exact ⟨vh, hold h vh hvh, hn⟩
    · simp only [hp, if_false] at hu
      obtain ⟨vh, hvh, hn⟩ := b3 p u h hu hself
      exact ⟨vh, hold h vh hvh, hn⟩

/-- The method `get_self_ptr` keeps the invariant, keeps every object, and
returns a live object that can stand in a graph. -/
theorem built_get_self_ptr (st st1 : Store α) (this q : Nat)
    (h : Value.get_self_ptr st this = some (st1, q)) (hb : Built st) :
    Built st1 ∧ (∃ vq, st1.cell q = some vq ∧ NodeLike q vq) ∧
      ∀ c vc, st.cell c = some vc → st1.cell c = some vc := by
  unfold Value.get_self_ptr at h
  obtain ⟨v, hv⟩ : ∃ v, st.cell this = some v := by
    cases hc : st.cell this with
    | none => simp [hc] at h
    | some v => exact ⟨v, rfl⟩
  simp only [hv, Option.bind_eq_bind, Option.some_bind] at h
  rcases hl : st.lock v._self with _ | p
  · rw [hl] at h
    simp only [Option.some.injEq] at h
    have e1 : st1 = (st.alloc v).1 := by rw [h]
    have e2 : q = st.next := (congrArg Prod.snd h).symm
    subst e1 e2
    have hnone : v._self = none := by
      cases hs : v._self with
      | none => rfl
      | some k =>
        exfalso
        obtain ⟨vk, hvk, _⟩ := hb.2.2 this v k hv hs
        rw [hs] at hl
        simp [Store.lock, hvk] at hl
    have hout : v._backward.out = none := by
      cases ho : v._backward.out with
      | none => rfl
      | some o =>
        have := (hb.2.1 this v hv).1 o ho
        rw [hnone] at this
        exact Option.noConfusion this
    refine ⟨built_alloc st v hb ?_ (hb.2.1 this v hv) ?_, ⟨v, by simp [Store.cell_alloc],
      Or.inl hout⟩, ?_⟩
    · intro c hc
      exact (hb.1 this v hv c hc).2
    · intro k hk
      rw [hnone] at hk
      exact Option.noConfusion hk
    · intro c vc hc
      have hne : c ≠ st.next := Nat.ne_of_lt (Store.lt_next_of_cell hc)
      simp [Store.cell_alloc, hne, hc]
  · rw [hl] at h
    simp only [Option.some.injEq, Prod.mk.injEq] at h
    obtain ⟨e1, e2⟩ := h
    subst e1 e2
    obtain ⟨hself, _⟩ := (lock_eq_some_iff st v._self p).mp hl
    exact ⟨hb, hb.2.2 this v p hv hself, fun _ _ hc => hc⟩

/-- The lines every operator ends with keep the invariant when the inputs are
live objects that can stand in a graph and the lambda is wired to the new node
and to the inputs. -/
theorem built_publish (st : Store α) (out : Value α) (prev : List Nat)
    (closure : Nat → Closure α) (hb : Built st)
    (hprev : ∀ c ∈ prev, ∃ vc, st.cell c = some vc ∧ NodeLike c vc)
    (hout : (closure st.next).out = some st.next)
    (htargets : ∀ q ∈ (closure st.next).targets, q ∈ prev) :
    Built (Value.publish st out prev closure).1 := by
  have e : Value.publish st out prev closure =
      (st.alloc (Value.mk out.data out.grad prev (closure st.next) out._op
        (some st.next))).1.alloc (Value.mk out.data out.grad prev (closure st.next) out._op
        (some st.next)) := rfl
  rw [e]
  have hb1 : Built (st.alloc (Value.mk out.data out.grad prev (closure st.next) out._op
      (some st.next))).1 := by
    apply built_alloc st _ hb hprev
    · refine ⟨?_, htargets⟩
      intro o ho
      have e1 : some st.next = some o := hout.symm.trans ho
      exact e1
    · intro h hh
      exact Or.inl (Option.some.inj hh).symm
  apply built_alloc _ _ hb1
  · intro c hc
    obtain ⟨vc, hvc, hn⟩ := hprev c hc
    have hne : c ≠ st.next := Nat.ne_of_lt (Store.lt_next_of_cell hvc)
    exact ⟨vc, by simp [Store.cell_alloc, hne, hvc], hn⟩
  · refine ⟨?_, htargets⟩
    intro o ho
    have e1 : some st.next = some o := hout.symm.trans ho
    exact e1
  · intro h hh
    right
    have e1 : h = st.next := (Option.some.inj hh).symm
    subst e1
    exact ⟨Value.mk out.data out.grad prev (closure st.next) out._op (some st.next),
      by simp [Store.cell_alloc], Or.inr rfl⟩

/-- An operator with two operands keeps the invariant. -/
theorem built_binary (st st1 : Store α) (this other r : Nat) (out : Value α)
    (closure : Nat → Nat → Nat → Closure α)
    (hout : ∀ a b n, (closure a b n).out = some n)
    (htargets : ∀ a b n, ∀ q ∈ (closure a b n).targets, q ∈ [a, b])
    (h : (Value.get_self_ptr st this).bind (fun p1 =>
      (Value.get_self_ptr p1.1 other).bind fun p2 =>
        some (Value.publish p2.1 out [p1.2, p2.2] (closure p1.2 p2.2))) = some (st1, r))
    (hb : Built st) : Built st1 := by
  simp only [Option.bind_eq_some] at h
  obtain ⟨p1, h1, p2, h2, h3⟩ := h
  obtain ⟨b1, ⟨v1, hv1, hn1⟩, _⟩ := built_get_self_ptr st p1.1 this p1.2 h1 hb
  obtain ⟨b2, ⟨v2, hv2, hn2⟩, hkeep⟩ := built_get_self_ptr p1.1 p2.1 other p2.2 h2 b1
  have e := congrArg Prod.fst (Option.some.inj h3)
  simp only at e
  rw [← e]
  apply built_publish p2.1 out _ _ b2
  · intro c hc
    simp only [List.mem_cons, List.mem_singleton, List.not_mem_nil, or_false] at hc
    rcases hc with hc | hc
    · subst hc
      exact ⟨v1, hkeep _ v1 hv1, hn1⟩
    · subst hc
      exact ⟨v2, hv2, hn2⟩
  · exact hout _ _ _
  · exact htargets _ _ _

/-- An operator with one operand keeps the invariant. -/
theorem built_unary (st st1 : Store α) (this r : Nat) (out : Value α)
    (closure : Nat → Nat → Closure α)
    (hout : ∀ a n, (closure a n).out = some n)
    (htargets : ∀ a n, ∀ q ∈ (closure a n).targets, q ∈ [a])
    (h : (Value.get_self_ptr st this).bind (fun p1 =>
      some (Value.publish p1.1 out [p1.2] (closure p1.2))) = some (st1, r))
    (hb : Built st) : Built st1 := by
  simp only [Option.bind_eq_some] at h
  obtain ⟨p1, h1, h3⟩ := h
  obtain ⟨b1, ⟨v1, hv1, hn1⟩, _⟩ := built_get_self_ptr st p1.1 this p1.2 h1 hb
  have e := congrArg Prod.fst (Option.some.inj h3)
  simp only at e
  rw [← e]
  apply built_publish p1.1 out _ _ b1
  · intro c hc
    simp only [List.mem_singleton] at hc
    subst hc
    exact ⟨v1, hv1, hn1⟩
  · exact hout _ _
  · exact htargets _ _

theorem add_built (st st1 : Store α) (this other r : Nat)
    (h : Value.add st this other = some (st1, r)) (hb : Built st) : Built st1 := by
  unfold Value.add at h
  simp only [Option.bind_eq_bind, Option.bind_eq_some] at h
  obtain ⟨a, _, b, _, result, _, h1⟩ := h
  exact built_binary st st1 this other r _ Closure.add (fun _ _ _ => rfl)
    (fun _ _ _ q hq => hq) (by simpa [Option.bind_eq_some] using h1) hb

theorem mul_built (st st1 : Store α) (this other r : Nat)
    (h : Value.mul st this other = some (st1, r)) (hb : Built st) : Built st1 := by
  unfold Value.mul at h
  simp only [Option.bind_eq_bind, Option.bind_eq_some] at h
  obtain ⟨a, _, b, _, result, _, h1⟩ := h
  exact built_binary st st1 this other r _ Closure.mul (fun _ _ _ => rfl)
    (fun _ _ _ q hq => hq) (by simpa [Option.bind_eq_some] using h1) hb

theorem matmul_built (st st1 : Store α) (this other r : Nat)
    (h : Value.matmul st this other = some (st1, r)) (hb : Built st) : Built st1 := by
  unfold Value.matmul at h
  simp only [Option.bind_eq_bind, Option.bind_eq_some] at h
  obtain ⟨a, _, b, _, result, _, h1⟩ := h
  exact built_binary st st1 this other r _ Closure.matmul (fun _ _ _ => rfl)
    (fun _ _ _ q hq => hq) (by simpa [Option.bind_eq_some] using h1) hb

theorem pow_built (st st1 : Store α) (this r : Nat) (exponent : ℤ)
    (h : Value.pow st this exponent = some (st1, r)) (hb : Built st) : Built st1 := by
  unfold Value.pow at h
  simp only [Option.bind_eq_bind, Option.bind_eq_some] at h
  obtain ⟨a, _, h1⟩ := h
  exact built_unary st st1 this r _ (fun s n => Closure.pow s n exponent) (fun _ _ => rfl)
    (fun _ _ q hq => hq) (by simpa [Option.bind_eq_some] using h1) hb

theorem relu_built (st st1 : Store α) (this r : Nat)
    (h : Value.relu st this = some (st1, r)) (hb : Built st) : Built st1 := by
  unfold Value.relu at h
  simp only [Option.bind_eq_bind, Option.bind_eq_some] at h
  obtain ⟨a, _, h1⟩ := h
  exact built_unary st st1 this r _ Closure.relu (fun _ _ => rfl)
    (fun _ _ q hq => hq) (by simpa [Option.bind_eq_some] using h1) hb

theorem sigmoid_built (exp : α → α) (st st1 : Store α) (this r : Nat)
    (h : Value.sigmoid exp st this = some (st1, r)) (hb : Built st) : Built st1 := by
  unfold Value.sigmoid at h
  simp only [Option.bind_eq_bind, Option.bind_eq_some] at h
  obtain ⟨a, _, h1⟩ := h
  exact built_unary st st1 this r _
    (fun s n => Closure.sigmoid s n (a.data.map (fun x => 1 / (1 + exp (-x)))))
    (fun _ _ => rfl) (fun _ _ q hq => hq) (by simpa [Option.bind_eq_some] using h1) hb

theorem transpose_built (st st1 : Store α) (this r : Nat)
    (h : Value.transpose st this = some (st1, r)) (hb : Built st) : Built st1 := by
  unfold Value.transpose at h
  simp only [Option.bind_eq_bind, Option.bind_eq_some] at h
  obtain ⟨a, _, h1⟩ := h
  exact built_unary st st1 this r _ Closure.transpose (fun _ _ => rfl)
    (fun _ _ q hq => hq) (by simpa [Option.bind_eq_some] using h1) hb

theorem flatten_built (st st1 : Store α) (this r : Nat)
    (h : Value.flatten st this = some (st1, r)) (hb : Built st) : Built st1 := by
  unfold Value.flatten at h
  simp only [Option.bind_eq_bind, Option.bind_eq_some] at h
  obtain ⟨a, ha, h1⟩ := h
  by_cases hc : a.data.cols ≤ 1
  · simp only [hc, if_true, Option.some.injEq] at h1
    have e1 : st1 = (st.alloc a).1 := by rw [h1]
    subst e1
    refine built_alloc st a hb (fun c hcm => (hb.1 this a ha c hcm).2) (hb.2.1 this a ha) ?_
    intro k hk
    exact Or.inr (hb.2.2 this a k ha hk)
  · simp only [hc, if_false, Option.bind_eq_bind, Option.bind_eq_some] at h1
    obtain ⟨flattened, _, h2⟩ := h1
    exact built_unary st st1 this r _
      (fun s n => Closure.flatten s n a.data.rows a.data.cols) (fun _ _ => rfl)
      (fun _ _ q hq => hq) (by simpa [Option.bind_eq_some] using h2) hb

theorem celoss_built (exp log : α → α) (st st1 : Store α) (y_pred r : Nat) (y_true : List ℤ)
    (h : CrossEntropyLoss.forward exp log st y_pred y_true = some (st1, r)) (hb : Built st) :
    Built st1 := by
  unfold CrossEntropyLoss.forward at h
  simp only [Option.bind_eq_bind, Option.bind_eq_some] at h
  obtain ⟨a, _, probs, _, oh, _, weighted, _, h1⟩ := h
  exact built_unary st st1 y_pred r _
    (fun s n => Closure.celoss s n ((probs.cwiseMax EPS).cwiseMin (1 - EPS)) oh a.data.rows)
    (fun _ _ => rfl) (fun _ _ q hq => hq) (by simpa [Option.bind_eq_some] using h1) hb

theorem mseloss_built (st st1 : Store α) (y_pred y_true r : Nat)
    (h : MSELoss.forward st y_pred y_true = some (st1, r)) (hb : Built st) : Built st1 := by
  unfold MSELoss.forward at h
  simp only [Option.bind_eq_bind, Option.bind_eq_some] at h
  obtain ⟨a, _, b, _, d, _, m, _, p1, h1, p2, h2, h3⟩ := h
  obtain ⟨b1, ⟨v1, hv1, hn1⟩, _⟩ := built_get_self_ptr st p1.1 y_pred p1.2 h1 hb
  obtain ⟨b2, _, hkeep⟩ := built_get_self_ptr p1.1 p2.1 y_true p2.2 h2 b1
  have e := congrArg Prod.fst (Option.some.inj h3)
  simp only at e
  rw [← e]
  apply built_publish p2.1 _ _ _ b2
  · intro c hc
    simp only [List.mem_singleton] at hc
    subst hc
    exact ⟨v1, hkeep _ v1 hv1, hn1⟩
  · rfl
  · intro q hq
    exact hq

/-- A plain leaf, as the constructors of `Value` make it, keeps the
invariant. -/
theorem built_alloc_leaf (st : Store α) (data : MatrixXd α) (hb : Built st) :
    Built (st.alloc (Value.ofMatrix data)).1 :=
  built_alloc st _ hb (fun c hc => absurd hc (List.not_mem_nil c))
    ⟨fun _ ho => Option.noConfusion ho, fun q hq => absurd hq (List.not_mem_nil q)⟩
    (fun _ hh => Option.noConfusion hh)

theorem built_alloc_scalar (st : Store α) (scalar : α) (hb : Built st) :
    Built (st.alloc (Value.ofScalar scalar)).1 :=
  built_alloc st _ hb (fun c hc => absurd hc (List.not_mem_nil c))
    ⟨fun _ ho => Option.noConfusion ho, fun q hq => absurd hq (List.not_mem_nil q)⟩
    (fun _ hh => Option.noConfusion hh)

theorem addScalar_built (st st1 : Store α) (this r : Nat) (scalar : α)
    (h : Value.addScalar st this scalar = some (st1, r)) (hb : Built st) : Built st1 :=
  add_built _ st1 this _ r h (built_alloc_scalar st scalar hb)

theorem mulScalar_built (st st1 : Store α) (this r : Nat) (scalar : α)
    (h : Value.mulScalar st this scalar = some (st1, r)) (hb : Built st) : Built st1 :=
  mul_built _ st1 this _ r h (built_alloc_scalar st scalar hb)

theorem sub_built (st st1 : Store α) (this other r : Nat)
    (h : Value.sub st this other = some (st1, r)) (hb : Built st) : Built st1 := by
  unfold Value.sub at h
  simp only [Option.bind_eq_bind, Option.bind_eq_some] at h
  obtain ⟨p, h1, h2⟩ := h
  exact add_built _ st1 this _ r h2 (mulScalar_built st p.1 other p.2 (-1) h1 hb)

theorem div_built (st st1 : Store α) (this other r : Nat)
    (h : Value.div st this other = some (st1, r)) (hb : Built st) : Built st1 := by
  unfold Value.div at h
  simp only [Option.bind_eq_bind, Option.bind_eq_some] at h
  obtain ⟨p, h1, h2⟩ := h
  exact mul_built _ st1 this _ r h2 (pow_built st p.1 other p.2 (-1) h1 hb)

/-- A registered leaf, as `Layer::Layer` makes it, keeps the invariant. -/
theorem registered_built (st st1 : Store α) (data : MatrixXd α) (p : Nat)
    (h : Value.registered st data = some (st1, p)) (hb : Built st) : Built st1 := by
  rw [registered_eq] at h
  have e := congrArg Prod.fst (Option.some.inj h)
  simp only at e
  rw [← e]
  have e2 : st.extend [{ Value.ofMatrix data with _self := some st.next }]
      = (st.alloc { Value.ofMatrix data with _self := some st.next }).1 := rfl
  rw [e2]
  exact built_alloc st _ hb (fun c hc => absurd hc (List.not_mem_nil c))
    ⟨fun _ ho => Option.noConfusion ho, fun q hq => absurd hq (List.not_mem_nil q)⟩
    (fun _ hh => Or.inl (Option.some.inj hh).symm)

omit [LinearOrderedField α] in
/-- Changes of grads keep the invariant. -/
theorem built_of_gradOnly {st s : Store α} (h : GradOnly st s) (hb : Built st) : Built s := by
  have hback : ∀ p w, s.cell p = some w → ∃ v, st.cell p = some v ∧ w._prev = v._prev ∧
      w._backward = v._backward ∧ w._self = v._self := by
    intro p w hw
    rcases h.2 p with ⟨_, h2⟩ | ⟨v, g, h1, h2, _, _⟩
    · rw [h2] at hw; exact Option.noConfusion hw
    · rw [h2] at hw
      have e := Option.some.inj hw
      subst e
      exact ⟨v, h1, rfl, rfl, rfl⟩
  have hfwd : ∀ p v, st.cell p = some v → NodeLike p v →
      ∃ w, s.cell p = some w ∧ NodeLike p w := by
    intro p v hv hn
    rcases h.2 p with ⟨h1, _⟩ | ⟨v1, g, h1, h2, _, _⟩
    · rw [h1] at hv; exact Option.noConfusion hv
    · rw [h1] at hv
      have e := Option.some.inj hv
      subst e
      exact ⟨_, h2, hn⟩
  refine ⟨?_, ?_, ?_⟩
  · intro p w hw c hc
    obtain ⟨v, hv, e1, _, _⟩ := hback p w hw
    obtain ⟨hlt, vc, hvc, hn⟩ := hb.1 p v hv c (e1 ▸ hc)
    exact ⟨hlt, hfwd c vc hvc hn⟩
  · intro p w hw
    obtain ⟨v, hv, e1, e2, e3⟩ := hback p w hw
    rw [e1, e2, e3]
    exact hb.2.1 p v hv
  · intro p w k hw hk
    obtain ⟨v, hv, _, _, e3⟩ := hback p w hw
    obtain ⟨vh, hvh, hn⟩ := hb.2.2 p v k hv (e3 ▸ hk)
    exact hfwd k vh hvh hn

omit [LinearOrderedField α] in
/-- In a memory that the operators built, the graph below the node that a
self-pointer names is live, acyclic and wired: the hypotheses on the graph
that the theorems on `backward` take. -/
theorem built_graph (st : Store α) (hb : Built st) :
    InputsLive st ∧ Acyclic st ∧
      ∀ t vt root, st.cell t = some vt → vt._self = some root →
        (st.cell root).isSome ∧ ∀ x, Reachable st root x → Wired st x := by
  refine ⟨?_, ⟨fun p => p, fun p v hv c hc => (hb.1 p v hv c hc).1⟩, ?_⟩
  · intro p v hv c hc
    obtain ⟨_, vc, hvc, _⟩ := hb.1 p v hv c hc
    rw [hvc]
    rfl
  · intro t vt root ht hself
    obtain ⟨vr, hvr, hnr⟩ := hb.2.2 t vt root ht hself
    refine ⟨by rw [hvr]; rfl, ?_⟩
    intro x hx
    have hnode : ∃ vx, st.cell x = some vx ∧ NodeLike x vx := by
      rcases Relation.ReflTransGen.cases_tail hx with e | ⟨y, _, hin⟩
      · rw [e]
        exact ⟨vr, hvr, hnr⟩
      · obtain ⟨vy, hvy, hmem⟩ := hin
        exact (hb.1 y vy hvy x hmem).2
    obtain ⟨vx, hvx, hnx⟩ := hnode
    intro v hv
    have e : vx = v := Option.some.inj (hvx.symm.trans hv)
    subst e
    obtain ⟨h1, h2⟩ := hb.2.1 x vx hvx
    refine ⟨?_, h2⟩
    intro o ho
    rcases hnx with hn | hn
    · rw [hn] at ho
      exact Option.noConfusion ho
    · have := h1 o ho
      rw [hn] at this
      exact (Option.some.inj this).symm

end built

/-! ## A graph of relu and + -/

section depthWitness

/-- The program `relu_plus` from the empty memory on the 1 x 1 matrices `2`
and `5` builds `relu_plus_memory`. -/
theorem relu_plus_run :
    relu_plus (Store.empty : Store ℚ) (MatrixXd.Constant 1 1 2) (MatrixXd.Constant 1 1 5)
      = some (relu_plus_memory, 0, 1, 5) := by
  unfold relu_plus relu_plus_memory
  rw [registered_eq]
  simp only [Option.bind_eq_bind, Option.some_bind, registered_extend]
  simp [Value.relu, Value.add, Value.addResult, Value.get_self_ptr, Value.publish, Value.ofMatrix,
    Store.lock, MatrixXd.cwiseMax, MatrixXd.map, MatrixXd.add, MatrixXd.zipWith,
    MatrixXd.sameShape, MatrixXd.Constant, Store.alloc_eq, Store.empty, Store.cell_extend,
    MatrixXd.Zero]
  norm_num

theorem relu_plus_cell (p : Nat) :
    relu_plus_memory.cell p =
      [Value.mk ⟨1, 1, fun _ _ => (2 : ℚ)⟩ (MatrixXd.Zero 1 1) [] Closure.noop "" (some 0),
        Value.mk ⟨1, 1, fun _ _ => 5⟩ (MatrixXd.Zero 1 1) [] Closure.noop "" (some 1),
        Value.mk ⟨1, 1, fun _ _ => 2⟩ (MatrixXd.Zero 1 1) [0] (Closure.relu 0 2) "relu" (some 2),
        Value.mk ⟨1, 1, fun _ _ => 2⟩ (MatrixXd.Zero 1 1) [0] (Closure.relu 0 2) "relu" (some 2),
        Value.mk ⟨1, 1, fun _ _ => 7⟩ (MatrixXd.Zero 1 1) [2, 1] (Closure.add 2 1 4) "+" (some 4),
        Value.mk ⟨1, 1, fun _ _ => 7⟩ (MatrixXd.Zero 1 1) [2, 1] (Closure.add 2 1 4) "+"
          (some 4)][p]? := by
  simp [relu_plus_memory, Store.cell_extend, Store.empty]

/-- Every object of `relu_plus_memory` has a 1 x 1 zero grad and 1 x 1 data;
its inputs have smaller addresses and are live; its self-pointer names a live
node; and its lambda is wired to the node its self-pointer names. -/
theorem relu_plus_objects (p : Nat) (v : Value ℚ) (h : relu_plus_memory.cell p = some v) :
    v.grad = MatrixXd.Zero 1 1 ∧ v.data.rows = 1 ∧ v.data.cols = 1 ∧
    (∀ c ∈ v._prev, c < p ∧ (relu_plus_memory.cell c).isSome) ∧
    (∀ q, v._self = some q → q < 6 ∧ (p = 0 ∨ p = 1 ∨ p = 2 ∨ p = 4 → q = p)) ∧
    (p = 0 ∨ p = 1 ∨ p = 2 ∨ p = 4 →
      (∀ o, v._backward.out = some o → o = p) ∧ ∀ q ∈ v._backward.targets, q ∈ v._prev) := by
  rw [relu_plus_cell] at h
  rcases p with _ | _ | _ | _ | _ | _ | p
  · simp at h; subst h; simp [Closure.out, Closure.targets]
  · simp at h; subst h; simp [Closure.out, Closure.targets]
  · simp at h; subst h; simp [Closure.out, Closure.targets, relu_plus_cell]
  · simp at h; subst h; simp [Closure.out, Closure.targets, relu_plus_cell]
  · simp at h; subst h; simp [Closure.out, Closure.targets, relu_plus_cell]
  · simp at h; subst h; simp [Closure.out, Closure.targets, relu_plus_cell]
  · simp at h

end depthWitness

section depthWitness2

set_option maxHeartbeats 2000000 in
/-- The first `y.backward()` on the graph of `relu_plus`, built at the end of
any memory: it returns, and the leaves hold the grad 1. -/
theorem relu_plus_first_backward_at (st : Store ℚ) :
    ∃ s1, Value.backward (st.extend
        [Value.mk ⟨1, 1, fun _ _ => 2⟩ (MatrixXd.Zero 1 1) [] Closure.noop "" (some st.next),
          Value.mk ⟨1, 1, fun _ _ => 5⟩ (MatrixXd.Zero 1 1) [] Closure.noop "" (some (st.next + 1)),
          Value.mk ⟨1, 1, fun _ _ => 2⟩ (MatrixXd.Zero 1 1) [st.next]
            (Closure.relu st.next (st.next + 2)) "relu" (some (st.next + 2)),
          Value.mk ⟨1, 1, fun _ _ => 2⟩ (MatrixXd.Zero 1 1) [st.next]
            (Closure.relu st.next (st.next + 2)) "relu" (some (st.next + 2)),
          Value.mk ⟨1, 1, fun _ _ => 7⟩ (MatrixXd.Zero 1 1) [st.next + 2, st.next + 1]
            (Closure.add (st.next + 2) (st.next + 1) (st.next + 4)) "+" (some (st.next + 4)),
          Value.mk ⟨1, 1, fun _ _ => 7⟩ (MatrixXd.Zero 1 1) [st.next + 2, st.next + 1]
            (Closure.add (st.next + 2) (st.next + 1) (st.next + 4)) "+" (some (st.next + 4))])
        (st.next + 5) = some s1 ∧
      gradAt s1 st.next 0 0 = 1 ∧ gradAt s1 (st.next + 1) 0 0 = 1 := by
  rw [Value.backward]
  simp [Value.get_self_ptr, Store.lock, Nat.add_assoc]
  rw [build_topo_of_le _ 4 _ _ _ (by omega) (by simp [Value.build_topo])]
  simp [Value.build_topo]
  simp [Store.modify]
  simp [Value.runClosures, Value.runAll, Value.broadcast_backward,
    MatrixXd.addAssign, MatrixXd.add, MatrixXd.zipWith, MatrixXd.sameShape, MatrixXd.Zero,
    MatrixXd.Ones, MatrixXd.Constant, MatrixXd.cwiseProduct, MatrixXd.positiveMask,
    MatrixXd.map]
  simp [gradAt]

/-- The first `y.backward()` on `relu_plus_memory` returns, and the leaves hold
the grad 1. -/
theorem relu_plus_first_backward :
    ∃ s1, Value.backward relu_plus_memory 5 = some s1 ∧
      gradAt s1 0 0 0 = 1 ∧ gradAt s1 1 0 0 = 1 := by
  have h := relu_plus_first_backward_at (Store.empty : Store ℚ)
  simpa [relu_plus_memory, Store.empty] using h

theorem relu_plus_next : relu_plus_memory.next = 6 := by
  simp [relu_plus_memory, Store.empty]

theorem relu_plus_wellShaped : WellShaped relu_plus_memory := by
  constructor
  · intro p v hv
    obtain ⟨hg, hr, hc, _⟩ := relu_plus_objects p v hv
    rw [hg, hr, hc]
    exact ⟨rfl, rfl⟩
  · intro p v h hv hself
    obtain ⟨_, hr, hc, _, hs, _⟩ := relu_plus_objects p v hv
    rw [relu_plus_next]
    refine ⟨(hs h hself).1, ?_⟩
    intro w hw
    obtain ⟨_, hr1, hc1, _⟩ := relu_plus_objects h w hw
    rw [hr, hc, hr1, hc1]
    exact ⟨rfl, rfl⟩

theorem relu_plus_inputsLive : InputsLive relu_plus_memory :=
  fun p v hv c hc => ((relu_plus_objects p v hv).2.2.2.1 c hc).2

theorem relu_plus_acyclic : Acyclic relu_plus_memory :=
  ⟨fun p => p, fun p v hv c hc => ((relu_plus_objects p v hv).2.2.2.1 c hc).1⟩

theorem relu_plus_inputs (c p : Nat) (h : IsInput relu_plus_memory c p) :
    (p = 4 ∧ (c = 2 ∨ c = 1)) ∨ (p = 5 ∧ (c = 2 ∨ c = 1)) ∨ (p = 2 ∧ c = 0)
      ∨ (p = 3 ∧ c = 0) := by
  obtain ⟨v, hv, hc⟩ := h
  rw [relu_plus_cell] at hv
  rcases p with _ | _ | _ | _ | _ | _ | p
  · simp at hv; subst hv; simp at hc
  · simp at hv; subst hv; simp at hc
  · simp at hv; subst hv; simp at hc; simp [hc]
  · simp at hv; subst hv; simp at hc; simp [hc]
  · simp at hv; subst hv; simp at hc; simp [hc]
  · simp at hv; subst hv; simp at hc; simp [hc]
  · simp at hv

theorem relu_plus_reachable (x : Nat) (h : Reachable relu_plus_memory 4 x) :
    x = 0 ∨ x = 1 ∨ x = 2 ∨ x = 4 := by
  induction h with
  | refl => simp
  | tail _ hbc _ =>
    rcases relu_plus_inputs _ _ hbc with ⟨_, h | h⟩ | ⟨_, h | h⟩ | ⟨_, h⟩ | ⟨_, h⟩ <;> simp [h]

theorem relu_plus_wired (x : Nat) (h : Reachable relu_plus_memory 4 x) :
    Wired relu_plus_memory x := by
  intro v hv
  exact (relu_plus_objects x v hv).2.2.2.2.2 (relu_plus_reachable x h)

theorem relu_plus_zero (x : Nat) (i j : Nat) : gradAt relu_plus_memory x i j = 0 := by
  cases hv : relu_plus_memory.cell x with
  | none => simp [gradAt, hv]
  | some v =>
    rw [gradAt_of_cell _ x v hv, (relu_plus_objects x v hv).1]
    rfl

/-- The paths of `relu_plus_memory` from the node of `+`. -/
theorem relu_plus_paths (k x : Nat) (h : JoinedBy relu_plus_memory k 4 x) :
    (k = 0 ∧ x = 4) ∨ (k = 1 ∧ (x = 2 ∨ x = 1)) ∨ (k = 2 ∧ x = 0) := by
  rcases k with _ | _ | _ | k
  · exact Or.inl ⟨rfl, h⟩
  · obtain ⟨c, hc, hx⟩ := h
    have e : x = c := hx
    rcases relu_plus_inputs _ _ hc with ⟨_, h1⟩ | ⟨h1, _⟩ | ⟨h1, _⟩ | ⟨h1, _⟩
    · exact Or.inr (Or.inl ⟨rfl, e ▸ h1⟩)
    · omega
    · omega
    · omega
  · obtain ⟨c, hc, c1, hc1, hx⟩ := h
    have e : x = c1 := hx
    rcases relu_plus_inputs _ _ hc1 with ⟨h1, _⟩ | ⟨h1, _⟩ | ⟨_, h1⟩ | ⟨_, h1⟩
    · rcases relu_plus_inputs _ _ hc with ⟨_, h2⟩ | ⟨h2, _⟩ | ⟨h2, _⟩ | ⟨h2, _⟩ <;> omega
    · rcases relu_plus_inputs _ _ hc with ⟨_, h2⟩ | ⟨h2, _⟩ | ⟨h2, _⟩ | ⟨h2, _⟩ <;> omega
    · exact Or.inr (Or.inr ⟨rfl, e.trans h1⟩)
    · exact Or.inr (Or.inr ⟨rfl, e.trans h1⟩)
  · exfalso
    obtain ⟨c, hc, c1, hc1, c2, hc2, _⟩ := h
    rcases relu_plus_inputs _ _ hc with ⟨_, h2⟩ | ⟨h2, _⟩ | ⟨h2, _⟩ | ⟨h2, _⟩
    · rcases relu_plus_inputs _ _ hc1 with ⟨h1, _⟩ | ⟨h1, _⟩ | ⟨h1, h3⟩ | ⟨h1, _⟩
      · omega
      · omega
      · rcases relu_plus_inputs _ _ hc2 with ⟨h4, _⟩ | ⟨h4, _⟩ | ⟨h4, _⟩ | ⟨h4, _⟩ <;> omega
      · omega
    · omega
    · omega
    · omega

end depthWitness2

/-! ## C28: repeated backward is depth-dependent -/

section repeatedClaim
variable {α : Type} [LinearOrderedField α]

/-- C28: (1) for registered leaves `a`, `b`, `d` of one shape with zero grads
and `c = (a * b) * d`, the first `c.backward()` leaves the grads `b * d`,
`a * d` and `a * b` entry by entry; the second call, with no `zero_grad` in
between, seeds the terminal node with ones again, adds to the grad `d` that the
node of `a * b` kept from the first call (it becomes `2 * d`), and leaves
`d.grad = 2 * (a * b)` but `a.grad = 3 * (b * d)` and `b.grad = 3 * (a * d)`.
(2) In general, for a graph of any operators: in a memory with grads of the
shape of the data, whose graph is live, acyclic and wired as the operators wire
it (`built_graph`: every memory that the operators build), with zero grads
below the terminal node, on a terminal object whose self-pointer is live: when
the first `backward` returns, the second returns too, and every object all of
whose paths from the terminal node have `k` edges (a leaf joined to it by a
single path of `k` edges is one) ends with `k + 1` times its grad after the
first call. (3) For the nested product `(...((x * o_1) * o_2) ...) * o_k` of
distinct registered leaves of one shape with zero grads both calls return, and
`x` ends with `k + 1` times, `o_{j+1}` with `k - j + 1` times its grad after the
first call. (4) A plain leaf, which has no self-pointer, holds a grad of ones
after the first and after the second call. -/
theorem repeated_backward_depth (st : Store α) (r c : Nat) (fa fb fd : Nat → Nat → α) :
    (∃ s5 s6 a b d y va1 vb1 vd1 va2 vb2 vd2 t n vt1 vt2 vn1 vn2,
      double_backward st ⟨r, c, fa⟩ ⟨r, c, fb⟩ ⟨r, c, fd⟩ = some (s5, s6, a, b, d, y) ∧
      s5.cell a = some va1 ∧ s5.cell b = some vb1 ∧ s5.cell d = some vd1 ∧
      s6.cell a = some va2 ∧ s6.cell b = some vb2 ∧ s6.cell d = some vd2 ∧
      s5.cell t = some vt1 ∧ s6.cell t = some vt2 ∧
      s5.cell n = some vn1 ∧ s6.cell n = some vn2 ∧
      vn1._prev = [t, d] ∧ vt1._prev = [a, b] ∧
      vn1.grad = MatrixXd.Ones r c ∧ vn2.grad = MatrixXd.Ones r c ∧
      vt1.grad = ⟨r, c, fd⟩ ∧ vt2.grad = ⟨r, c, fun i j => 2 * fd i j⟩ ∧
      va1.grad = ⟨r, c, fun i j => fb i j * fd i j⟩ ∧
      vb1.grad = ⟨r, c, fun i j => fa i j * fd i j⟩ ∧
      vd1.grad = ⟨r, c, fun i j => fa i j * fb i j⟩ ∧
      va2.grad = ⟨r, c, fun i j => 3 * (fb i j * fd i j)⟩ ∧
      vb2.grad = ⟨r, c, fun i j => 3 * (fa i j * fd i j)⟩ ∧
      vd2.grad = ⟨r, c, fun i j => 2 * (fa i j * fb i j)⟩) ∧
    (∀ (s s1 : Store α) (t root : Nat) (vt : Value α),
      WellShaped s → InputsLive s → Acyclic s →
      s.cell t = some vt → vt._self = some root → (s.cell root).isSome →
      (∀ x, Reachable s root x → Wired s x) →
      (∀ x, Reachable s root x → ∀ i j, gradAt s x i j = 0) →
      Value.backward s t = some s1 →
      ∃ s2, Value.backward s1 t = some s2 ∧
        ∀ a k, JoinedBy s k root a → (∀ j, JoinedBy s j root a → j = k) →
          ∀ i j, gradAt s2 a i j = ((k : α) + 1) * gradAt s1 a i j) ∧
    (∀ (s : Store α) (x : Nat) (os : List Nat),
      IsRegisteredLeaf s r c x → (∀ o ∈ os, IsRegisteredLeaf s r c o) → (x :: os).Nodup →
      ∃ s0 y s1 s2, product_chain s x os = some (s0, y) ∧
        Value.backward s0 y = some s1 ∧ Value.backward s1 y = some s2 ∧
        (∀ i j, gradAt s2 x i j = ((os.length : α) + 1) * gradAt s1 x i j) ∧
        (∀ (k o : Nat), os[k]? = some o →
          ∀ i j, gradAt s2 o i j = (((os.length - k : Nat) : α) + 1) * gradAt s1 o i j)) ∧
    (∀ (s : Store α) (t : Nat) (vt : Value α),
      s.cell t = some vt → vt._self = none → vt._prev = [] → vt._backward = Closure.noop →
      ∃ s1 s2, Value.backward s t = some s1 ∧ Value.backward s1 t = some s2 ∧
        ∀ i j, gradAt s1 t i j = 1 ∧ gradAt s2 t i j = gradAt s1 t i j) := by
  refine ⟨?_,
    fun s s1 t root vt hst hlive hacyc ht hself hroot hwired hzero h1 =>
      backward_twice_depth s s1 t root vt hst hlive hacyc ht hself hroot hwired hzero h1,
    fun s x os hx hos hnd => product_chain_backward_twice s r c x os hx hos hnd,
    fun s t vt ht hself hprev hback => backward_twice_plain_leaf s t vt ht hself hprev hback⟩
  obtain ⟨s5, s6, va1, vb1, vd1, va2, vb2, vd2, vt1, vt2, vc1, vc2, h, ht1, ht2, hc1, hc2, hp1, hp2,
    hg1, hg2, hg3, hg4, ha1, hb1, hd1, ha2, hb2, hd2, rest⟩ := double_backward_run st r c fa fb fd
  exact ⟨s5, s6, _, _, _, _, va1, vb1, vd1, va2, vb2, vd2, _, _, vt1, vt2, vc1, vc2, h,
    ha1, hb1, hd1, ha2, hb2, hd2, ht1, ht2, hc1, hc2, hp1, hp2, hg1, hg2, hg3, hg4, rest⟩

end repeatedClaim

/-- C28 on concrete memories. (2) On the graph of `y = a->relu() + *d` with
the 1 x 1 leaves `a = 2` at 0 and `d = 5` at 1 (`relu_plus_memory`, the memory
that `relu_plus` builds): both calls of `y.backward()` return; `a`, two edges
below the node of `+`, ends with three times and `d`, one edge below it, with
twice its grad after the first call, which is 1 for both. (3) On three
registered 1 x 1 leaves `2`, `3`, `5` at 0, 1, 2: after two calls of `backward`
on `(x0 * x1) * x2` the leaves 0 and 1 hold three times and the leaf 2 twice
the grad they held after the first call. (4) On the plain 1 x 1 leaf `5`: the
grad is 1 after each call. -/
theorem repeated_backward_depth_witness :
    (relu_plus (Store.empty : Store ℚ) (MatrixXd.Constant 1 1 2) (MatrixXd.Constant 1 1 5)
        = some (relu_plus_memory, 0, 1, 5) ∧
      ∃ s1 s2, Value.backward relu_plus_memory 5 = some s1 ∧ Value.backward s1 5 = some s2 ∧
        (∀ i j, gradAt s2 0 i j = 3 * gradAt s1 0 i j) ∧
        (∀ i j, gradAt s2 1 i j = 2 * gradAt s1 1 i j) ∧
        gradAt s1 0 0 0 = 1 ∧ gradAt s1 1 0 0 = 1) ∧
    (∃ s0 y s1 s2,
      product_chain ((Store.empty : Store ℚ).extend
        [Value.mk ⟨1, 1, fun _ _ => 2⟩ (MatrixXd.Zero 1 1) [] Closure.noop "" (some 0),
          Value.mk ⟨1, 1, fun _ _ => 3⟩ (MatrixXd.Zero 1 1) [] Closure.noop "" (some 1),
          Value.mk ⟨1, 1, fun _ _ => 5⟩ (MatrixXd.Zero 1 1) [] Closure.noop "" (some 2)])
        0 [1, 2] = some (s0, y) ∧
      Value.backward s0 y = some s1 ∧ Value.backward s1 y = some s2 ∧
      (∀ i j, gradAt s2 0 i j = 3 * gradAt s1 0 i j) ∧
      (∀ i j, gradAt s2 1 i j = 3 * gradAt s1 1 i j) ∧
      (∀ i j, gradAt s2 2 i j = 2 * gradAt s1 2 i j)) ∧
    (∃ s1 s2,
      Value.backward ((Store.empty : Store ℚ).extend [Value.ofMatrix (MatrixXd.Constant 1 1 5)])
        0 = some s1 ∧
      Value.backward s1 0 = some s2 ∧ gradAt s1 0 0 0 = 1 ∧ gradAt s2 0 0 0 = 1) := by
  have hthm := repeated_backward_depth (Store.empty : Store ℚ) 1 1 (fun _ _ => 0)
    (fun _ _ => 0) (fun _ _ => 0)
  refine ⟨⟨relu_plus_run, ?_⟩, ?_, ?_⟩
  · obtain ⟨s1, h1, g0, g1⟩ := relu_plus_first_backward
    obtain ⟨s2, h2, hres⟩ := hthm.2.1 relu_plus_memory s1 5 4
      (Value.mk ⟨1, 1, fun _ _ => 7⟩ (MatrixXd.Zero 1 1) [2, 1] (Closure.add 2 1 4) "+" (some 4))
      relu_plus_wellShaped relu_plus_inputsLive relu_plus_acyclic
      (by rw [relu_plus_cell]; rfl) rfl (by rw [relu_plus_cell]; rfl)
      relu_plus_wired (fun x _ i j => relu_plus_zero x i j) h1
    have hin42 : IsInput relu_plus_memory 2 4 :=
      ⟨_, by rw [relu_plus_cell]; rfl, by simp⟩
    have hin41 : IsInput relu_plus_memory 1 4 :=
      ⟨_, by rw [relu_plus_cell]; rfl, by simp⟩
    have hin20 : IsInput relu_plus_memory 0 2 :=
      ⟨_, by rw [relu_plus_cell]; rfl, by simp⟩
    refine ⟨s1, s2, h1, h2, ?_, ?_, g0, g1⟩
    · intro i j
      have h := hres 0 2 ⟨2, hin42, 0, hin20, rfl⟩ (by
        intro k hk
        rcases relu_plus_paths k 0 hk with ⟨_, h⟩ | ⟨_, h | h⟩ | ⟨h, _⟩ <;> omega) i j
      rw [h]
      norm_num
    · intro i j
      have h := hres 1 1 ⟨1, hin41, rfl⟩ (by
        intro k hk
        rcases relu_plus_paths k 1 hk with ⟨_, h⟩ | ⟨h, _⟩ | ⟨_, h⟩ <;> omega) i j
      rw [h]
      norm_num
  · obtain ⟨s0, y, s1, s2, h1, h2, h3, h4, h5⟩ := hthm.2.2.1
      ((Store.empty : Store ℚ).extend
        [Value.mk ⟨1, 1, fun _ _ => 2⟩ (MatrixXd.Zero 1 1) [] Closure.noop "" (some 0),
          Value.mk ⟨1, 1, fun _ _ => 3⟩ (MatrixXd.Zero 1 1) [] Closure.noop "" (some 1),
          Value.mk ⟨1, 1, fun _ _ => 5⟩ (MatrixXd.Zero 1 1) [] Closure.noop "" (some 2)])
      0 [1, 2]
      ⟨Value.mk ⟨1, 1, fun _ _ => 2⟩ (MatrixXd.Zero 1 1) [] Closure.noop "" (some 0),
        by simp [Store.cell_extend, Store.empty], rfl, rfl, rfl, rfl, rfl, rfl⟩
      (by
        intro o ho
        simp only [List.mem_cons, List.mem_singleton, List.not_mem_nil, or_false] at ho
        rcases ho with e | e
        · subst e
          exact ⟨Value.mk ⟨1, 1, fun _ _ => 3⟩ (MatrixXd.Zero 1 1) [] Closure.noop "" (some 1),
            by simp [Store.cell_extend, Store.empty], rfl, rfl, rfl, rfl, rfl, rfl⟩
        · subst e
          exact ⟨Value.mk ⟨1, 1, fun _ _ => 5⟩ (MatrixXd.Zero 1 1) [] Closure.noop "" (some 2),
            by simp [Store.cell_extend, Store.empty], rfl, rfl, rfl, rfl, rfl, rfl⟩)
      (by decide)
    refine ⟨s0, y, s1, s2, h1, h2, h3, ?_, ?_, ?_⟩
    · intro i j
      have := h4 i j
      norm_num at this
      linarith
    · intro i j
      have := h5 0 1 rfl i j
      norm_num at this
      linarith
    · intro i j
      have := h5 1 2 rfl i j
      norm_num at this
      linarith
  · obtain ⟨s1, s2, h1, h2, h3⟩ := hthm.2.2.2
      ((Store.empty : Store ℚ).extend [Value.ofMatrix (MatrixXd.Constant 1 1 5)]) 0
      (Value.ofMatrix (MatrixXd.Constant 1 1 5))
      (by simp [Store.cell_extend, Store.empty]) rfl rfl rfl
    exact ⟨s1, s2, h1, h2, (h3 0 0).1, (h3 0 0).2.trans (h3 0 0).1⟩

end micrograd
